import Mathlib

set_option linter.unusedTactic false
set_option linter.unreachableTactic false

/-!
# MimiC RISC-V 32 backend: instruction selection and branch elimination

A shallow embedding of `src/back/asm/arch/riscv32/instgen.cpp` and
`src/back/asm/arch/riscv32/passes/brelim.h`, followed by theorems about them.
-/

namespace MimiC

/-! ## Machine IR: operands and instructions -/

/-- Opcodes of `RISCV32Inst::OpCode` that the generator and the pass use. -/
inductive OpCode where
  | LABEL | LEA | BR | J | CALL | RET | ZERO | BYTE | LONG | ASCIZ
  | ADD | SUB | MUL | DIV | DIVU | REM | REMU
  | SETEQ | SETNE | SETULT | SETSLT | SETULE | SETSLE
  | SETUGT | SETSGT | SETUGE | SETSGE
  | AND | OR | XOR | SLL | SRL | SRA
  | NEG | SEQZ | NOT | MV | LB | LBU | LW | SB | SW | BEQZ
  deriving DecidableEq, Repr

/-- Names handed out by the label factory: `GetLabel(name)` gives `named`,
`GetLabel()` a fresh `anon`. -/
inductive LabelName where
  | named (name : String)
  | anon (id : Nat)
  deriving DecidableEq, Repr

/-- Operands. `reg` is a physical register (`RISCV32Reg`), `vreg` a virtual
register, `imm` an immediate made by `GetImm`, `int` a data literal
(`RISCV32Int`), `str` a string literal (`RISCV32Str`), `label` a label of the
label factory, `slot` an argument slot made by `GetSlot`, `frame` a slot of a
function frame made by `AllocNextSlot`. Two operands are the same C++ object
exactly when they are equal here. -/
inductive Opr where
  | reg (name : Nat)
  | vreg (id : Nat)
  | imm (val : Int)
  | int (val : Int)
  | str (s : String)
  | label (name : LabelName)
  | slot (basedOnSp : Bool) (offset : Int)
  | frame (func : LabelName) (offset : Nat)
  deriving DecidableEq, Repr

/-- An instruction: an opcode and its ordered operand list. -/
structure Inst where
  opcode : OpCode
  oprs : List Opr
  deriving DecidableEq, Repr

/-- The value of `oprs()[0]`; `none` when the instruction has no operand
(every `J` and `LABEL` the generator pushes has exactly one). -/
def Inst.opr0 (i : Inst) : Option Opr := i.oprs.head?

/-- Modelled from the spec: the use count of an operand (`use_count()`, declared
in the absent `back/asm/mir/mir.h`) tracks how many instructions reference it.
This is that number for the instructions of one list. -/
def refCount (o : Opr) (insts : List Inst) : Nat :=
  insts.countP (fun i => decide (o ∈ i.oprs))

/-- Modelled from the spec: destroying an instruction drops one reference from
every operand it holds. -/
def release (uses : Opr → Nat) (i : Inst) : Opr → Nat :=
  fun o => if o ∈ i.oprs then uses o - 1 else uses o

namespace BranchEliminationPass

/-- The first loop of `RunOn`. `before` holds the list elements in front of the
iterator `it`, nearest first; the last argument is the list from `it` on.
`insts.erase(--it)` drops the head of `before`; the erased instruction is
destroyed when `last` is overwritten just after. -/
def removeRedundantBranches (last : Option Inst) (before : List Inst)
    (uses : Opr → Nat) : List Inst → List Inst × (Opr → Nat)
  | [] => (before.reverse, uses)
  | cur :: rest =>
    match last with
    | some l =>
      if l.opcode = OpCode.J ∧ cur.opcode = OpCode.LABEL ∧ l.opr0 = cur.opr0 then
        removeRedundantBranches (some cur) (cur :: before.tail) (release uses l) rest
      else
        removeRedundantBranches (some cur) (cur :: before) uses rest
    | none => removeRedundantBranches (some cur) (cur :: before) uses rest

/-- The second loop of `RunOn`, from the iterator `it` on; the elements in
front of `it` are final. -/
def removeUnusedLabels (uses : Opr → Nat) : List Inst → List Inst
  | [] => []
  | cur :: rest =>
    if cur.opcode = OpCode.LABEL ∧ cur.opr0.map uses = some 1 then
      removeUnusedLabels (release uses cur) rest
    else
      cur :: removeUnusedLabels uses rest

/-- The use counts that the second loop has reached after it walked over `pre`. -/
def usesAfterLabels (uses : Opr → Nat) : List Inst → (Opr → Nat)
  | [] => uses
  | cur :: rest =>
    if cur.opcode = OpCode.LABEL ∧ cur.opr0.map uses = some 1 then
      usesAfterLabels (release uses cur) rest
    else
      usesAfterLabels uses rest

/-- The redundant-jump rewrite alone: the instruction list after the first loop. -/
def redundantBranchPass (uses : Opr → Nat) (insts : List Inst) : List Inst :=
  (removeRedundantBranches none [] uses insts).1

/-- `BranchEliminationPass::RunOn`: both loops; `uses` is the use-count table
on entry. -/
def RunOn (uses : Opr → Nat) (insts : List Inst) : List Inst :=
  let r := removeRedundantBranches none [] uses insts
  removeUnusedLabels r.2 r.1

/-- The claim's wording of a removable jump: a `J` whose successor is a `LABEL`
with the identical target operand. -/
def isRedundantJump (i : Inst) (next : Option Inst) : Bool :=
  match next with
  | some j => decide (i.opcode = OpCode.J ∧ j.opcode = OpCode.LABEL ∧ i.opr0 = j.opr0)
  | none => false

/-- Each position's immediate successor in the list, `none` for the last. -/
def successors (insts : List Inst) : List (Option Inst) :=
  insts.tail.map some ++ [none]

/-- The claim's wording of the rewrite: keep, in order, every instruction of
the input that is not a `J` followed in the input by the `LABEL` of its target. -/
def withoutRedundantJumps (insts : List Inst) : List Inst :=
  ((insts.zip (successors insts)).filter (fun p => !isRedundantJump p.1 p.2)).map Prod.fst

/-- Two adjacent `J` with one target, immediately followed by the `LABEL` of
that target, somewhere in the list. -/
def hasJumpChain : List Inst → Bool
  | a :: b :: c :: rest =>
    (decide (a.opcode = OpCode.J ∧ a.opr0 = c.opr0) && isRedundantJump b (some c))
      || hasJumpChain (b :: c :: rest)
  | _ => false

/-- Some `J` of the list is immediately followed by the `LABEL` of its target. -/
def hasRedundantJump : List Inst → Bool
  | a :: b :: rest => isRedundantJump a (some b) || hasRedundantJump (b :: rest)
  | _ => false

/-- A `LABEL` instruction of the list `l` whose label no other instruction of
`l` holds: the use count of its operand in `l` is 1. -/
def isUnusedLabel (l : List Inst) (x : Inst) : Bool :=
  decide (x.opcode = OpCode.LABEL ∧ x.opr0.map (fun o => refCount o l) = some 1)

/-- Some `J` of the part `s` of the list `l` is separated from the `LABEL` of
its target by unused labels of `l` only, or by nothing. -/
def jumpsOverUnusedLabels (l : List Inst) : List Inst → Bool
  | [] => false
  | a :: rest =>
    isRedundantJump a (rest.dropWhile (isUnusedLabel l)).head? ||
      jumpsOverUnusedLabels l rest

end BranchEliminationPass

/-! ## IR: types and SSA values

The IR classes live in `define/type.h` and `mid/ssa.h`, which are not part of
the excerpt; the generator only observes them through the accessors below. -/

/-- Modelled from the spec: the types of `define/type.h` as far as the generator
observes them. An integer carries its byte size and signedness, a pointer is 4
bytes on this target, an array is `len` elements of `base`, a struct carries
its fields with its total size and alignment. -/
inductive Ty where
  | void
  | int (size : Nat) (unsigned : Bool)
  | pointer (base : Ty)
  | array (base : Ty) (len : Nat)
  | struct (elems : List Ty) (size : Nat) (align : Nat)
  deriving Repr

namespace Ty

def IsVoid : Ty → Bool
  | void => true
  | _ => false

def IsInteger : Ty → Bool
  | int _ _ => true
  | _ => false

def IsPointer : Ty → Bool
  | pointer _ => true
  | _ => false

def IsArray : Ty → Bool
  | array _ _ => true
  | _ => false

def IsStruct : Ty → Bool
  | struct _ _ _ => true
  | _ => false

def IsUnsigned : Ty → Bool
  | int _ u => u
  | _ => false

def GetSize : Ty → Nat
  | void => 0
  | int size _ => size
  | pointer _ => 4
  | array base len => base.GetSize * len
  | struct _ size _ => size

/-- The alignment; the generator asks it of struct types only. -/
def GetAlignSize : Ty → Nat
  | struct _ _ align => align
  | t => t.GetSize

/-- The pointee of a pointer, the element type of an array; a null `TypePtr`
otherwise. -/
def GetDerefedType : Ty → Option Ty
  | pointer base => some base
  | array base _ => some base
  | _ => none

/-- The `i`-th field of a struct (any element of an array); a null `TypePtr`
when there is none. -/
def GetElem : Ty → Nat → Option Ty
  | struct elems _ _, i => elems.get? i
  | array base _, _ => some base
  | _, _ => none

end Ty

/-- `mid::LinkageTypes`; everything `GetLinkType` sends to its `default` case
is `External`. -/
inductive MidLink where
  | Internal | Inline | External | GlobalCtor | GlobalDtor
  deriving DecidableEq, Repr

/-- `InstGenBase::LinkageTypes`. -/
inductive LinkageTypes where
  | Internal | External | Ctor | Dtor
  deriving DecidableEq, Repr

/-- `AccessSSA::AccessType`. -/
inductive AccessType where
  | Pointer | Element
  deriving DecidableEq, Repr

/-- `BinarySSA::Operator`. -/
inductive BinaryOp where
  | Add | Sub | Mul | UDiv | SDiv | URem | SRem | Equal | NotEq
  | ULess | SLess | ULessEq | SLessEq | UGreat | SGreat | UGreatEq | SGreatEq
  | And | Or | Xor | Shl | LShr | AShr
  deriving DecidableEq, Repr, Fintype

/-- `UnarySSA::Operator`. -/
inductive UnaryOp where
  | Neg | LogicNot | Not
  deriving DecidableEq, Repr

/-- SSA values. Every node carries the `id` that stands for its C++ identity
(its metadata is keyed by it) and its `type()`. A use of a value is a copy of
the node with the same `id`; once the node has metadata the copy is only
looked up, so a reference to a block or to an enclosing function is a stub of
the right kind with that `id`. A block lists the ids of its successors, a
function its parameter count, its blocks and the id of its entry block. -/
inductive SSA where
  | load (id : Nat) (type : Ty) (ptr : SSA)
  | store (id : Nat) (type : Ty) (value ptr : SSA)
  | access (id : Nat) (type : Ty) (acc_type : AccessType) (ptr index : SSA)
  | binary (id : Nat) (type : Ty) (op : BinaryOp) (lhs rhs : SSA)
  | unary (id : Nat) (type : Ty) (op : UnaryOp) (opr : SSA)
  | cast (id : Nat) (type : Ty) (opr : SSA)
  | call (id : Nat) (type : Ty) (callee : SSA) (args : List SSA)
  | branch (id : Nat) (type : Ty) (cond true_block false_block : SSA)
  | jump (id : Nat) (type : Ty) (target : SSA)
  | ret (id : Nat) (type : Ty) (value : Option SSA)
  | function (id : Nat) (type : Ty) (link : MidLink) (name : String) (is_decl : Bool)
      (args : Nat) (blocks : List SSA) (entry : Nat)
  | globalVar (id : Nat) (type : Ty) (link : MidLink) (name : String) (init : Option SSA)
  | alloca (id : Nat) (type : Ty)
  | block (id : Nat) (type : Ty) (insts : List SSA) (succs : List Nat)
  | argRef (id : Nat) (type : Ty) (index : Nat)
  | constInt (id : Nat) (type : Ty) (value : Nat)
  | constStr (id : Nat) (type : Ty) (str : String)
  | constStruct (id : Nat) (type : Ty) (elems : List SSA)
  | constArray (id : Nat) (type : Ty) (elems : List SSA)
  | constZero (id : Nat) (type : Ty)
  | select (id : Nat) (type : Ty) (cond true_val false_val : SSA)
  | undef (id : Nat) (type : Ty)

namespace SSA

def id : SSA → Nat
  | load id .. | store id .. | access id .. | binary id .. | unary id .. | cast id ..
  | call id .. | branch id .. | jump id .. | ret id .. | function id .. | globalVar id ..
  | alloca id .. | block id .. | argRef id .. | constInt id .. | constStr id ..
  | constStruct id .. | constArray id .. | constZero id .. | select id .. | undef id .. => id

def type : SSA → Ty
  | load _ t .. | store _ t .. | access _ t .. | binary _ t .. | unary _ t .. | cast _ t ..
  | call _ t .. | branch _ t .. | jump _ t .. | ret _ t .. | function _ t .. | globalVar _ t ..
  | alloca _ t .. | block _ t .. | argRef _ t .. | constInt _ t .. | constStr _ t ..
  | constStruct _ t .. | constArray _ t .. | constZero _ t .. | select _ t .. | undef _ t .. => t

/-- The check `IsSSA<AllocaSSA>`. -/
def IsAlloca : SSA → Bool
  | alloca .. => true
  | _ => false

/-- The check `IsSSA<ConstZeroSSA>`. -/
def IsConstZero : SSA → Bool
  | constZero .. => true
  | _ => false

/-- Modelled from the spec: `Value::IsConst()`, true of the constant nodes. -/
def IsConst : SSA → Bool
  | constInt .. | constStr .. | constStruct .. | constArray .. | constZero .. => true
  | _ => false

/-- The value of `SSACast<ConstIntSSA>(v)->value()`; the cast fails on any other node. -/
def constIntValue : SSA → Option Nat
  | constInt _ _ value => some value
  | _ => none

end SSA

/-! ## Generator state

`InstGenBase` (`back/asm/mir/instgen.h`) is not part of the excerpt. Its
members used by `instgen.cpp` are modelled here from the spec. -/

/-- An `OprPtr`: `none` is `nullptr`. -/
abbrev OprPtr := Option Opr

namespace Opr

def IsReg : Opr → Bool
  | reg _ | vreg _ => true
  | _ => false

def IsVirtual : Opr → Bool
  | vreg _ => true
  | _ => false

def IsImm : Opr → Bool
  | imm _ => true
  | _ => false

def IsLabel : Opr → Bool
  | label _ => true
  | _ => false

def IsSlot : Opr → Bool
  | slot _ _ | frame _ _ => true
  | _ => false

/-- The value read by `static_cast<RISCV32Imm *>(val.get())->val()`. -/
def val : Opr → Int
  | imm v => v
  | int v => v
  | _ => 0

end Opr

/-- The register number of `RegName::A0` (`a0` is `x10`); `A0 + i` is the
argument register `A(i)`. -/
def RegName.A0 : Nat := 10

/-- One entry of an `InstSeqMap`: linkage and instruction list. -/
structure InstSeqInfo where
  link : LinkageTypes
  insts : List Inst
  deriving DecidableEq, Repr

/-- Modelled from the spec: a map from label to sequence, as the list of its
entries in insertion order. -/
abbrev InstSeqMap := List (LabelName × InstSeqInfo)

/-- The generator state: the members of `RISCV32InstGen` and `InstGenBase`
together with the metadata slots of the SSA nodes (keyed by node id). `cur`
names the sequence that `PushInst` appends to: the flag tells whether it is a
memory-data sequence, the label is its key. -/
structure GenState where
  vreg_fact_ : Nat
  label_fact_ : Nat
  funcs : InstSeqMap
  mems : InstSeqMap
  cur : Option (Bool × LabelName)
  alloc_slots_ : LabelName → Nat
  args_ : List OprPtr
  in_global_ : Nat
  arr_depth_ : Nat
  metadata : Nat → Option OprPtr

/-- A generator action; `none` is a fatal contract violation (a failed
`assert`, a null or out-of-range access), which aborts the run. -/
abbrev Gen (α : Type) := GenState → Option (α × GenState)

namespace Gen

def pure (a : α) : Gen α := fun st => some (a, st)

def bind (m : Gen α) (f : α → Gen β) : Gen β := fun st =>
  match m st with
  | none => none
  | some (a, st') => f a st'

/-- A contract violation. -/
def fail : Gen α := fun _ => none

/-- An `assert`. -/
def assert (c : Bool) : Gen Unit := fun st => if c then some ((), st) else none

/-- Read through a pointer: fails on `nullptr`. -/
def deref : Option α → Gen α
  | some a => pure a
  | none => fail

def get : Gen GenState := fun st => some (st, st)

end Gen

instance : Monad Gen where
  pure := Gen.pure
  bind := Gen.bind

namespace InstSeqMap

def find? (m : InstSeqMap) (label : LabelName) : Option InstSeqInfo :=
  (List.find? (fun e => e.1 == label) m).map Prod.snd

/-- Insert an empty sequence unless the key is present. -/
def enter (m : InstSeqMap) (label : LabelName) (link : LinkageTypes) : InstSeqMap :=
  if (InstSeqMap.find? m label).isSome then m else m ++ [(label, ⟨link, []⟩)]

/-- Append an instruction to the sequence of `label`. -/
def push (m : InstSeqMap) (label : LabelName) (i : Inst) : InstSeqMap :=
  List.map (fun e => if e.1 == label then (e.1, { e.2 with insts := e.2.insts ++ [i] }) else e) m

end InstSeqMap

namespace GenState

/-- The map that holds the sequences of the given kind. -/
def seqs (st : GenState) (isMem : Bool) : InstSeqMap :=
  if isMem then st.mems else st.funcs

/-- The state with `i` appended to the sequence of `label`. -/
def emit (st : GenState) (isMem : Bool) (label : LabelName) (i : Inst) : GenState :=
  if isMem then { st with mems := st.mems.push label i }
  else { st with funcs := st.funcs.push label i }

/-- There is a current sequence, and it is in its map. -/
def hasCur (st : GenState) : Bool :=
  match st.cur with
  | some (isMem, label) => ((st.seqs isMem).find? label).isSome
  | none => false

/-- The state with `i` appended to the current sequence. -/
def push (st : GenState) (i : Inst) : GenState :=
  match st.cur with
  | some (isMem, label) => st.emit isMem label i
  | none => st

/-- The state with the instructions of `l` appended, in order, to the current
sequence. -/
def pushAll (st : GenState) (l : List Inst) : GenState :=
  l.foldl push st

/-- The instruction list of the current sequence. -/
def curInsts (st : GenState) : List Inst :=
  match st.cur with
  | some (isMem, label) =>
    match (st.seqs isMem).find? label with
    | some info => info.insts
    | none => []
  | none => []

/-- The instruction list of the function sequence of `label`. -/
def funcInsts (st : GenState) (label : LabelName) : List Inst :=
  match st.funcs.find? label with
  | some info => info.insts
  | none => []

end GenState

/-! ## Generator primitives -/

/-- Linkage type conversion. -/
def GetLinkType : MidLink → LinkageTypes
  | MidLink.Internal | MidLink.Inline => LinkageTypes.Internal
  | MidLink.GlobalCtor => LinkageTypes.Ctor
  | MidLink.GlobalDtor => LinkageTypes.Dtor
  | _ => LinkageTypes.External

/-- The conversion of an integer value to `std::int32_t`: the value modulo
`2 ^ 32`, taken between `-2 ^ 31` and `2 ^ 31 - 1`. -/
def toInt32 (v : Int) : Int := (v + 2147483648) % 4294967296 - 2147483648

/-- Modelled from the spec: `GetImm(v)` is the interned immediate operand
`Imm(int32)` of the value `v`; the value that the caller computes is converted
to 32 bits. -/
def GetImm (v : Int) : OprPtr := some (Opr.imm (toInt32 v))

/-- Modelled from the spec: `GetReg(name)` is the interned physical register. -/
def GetReg (name : Nat) : OprPtr := some (Opr.reg name)

/-- A data literal, `std::make_shared<RISCV32Int>(v)`. -/
def RISCV32Int (v : Int) : OprPtr := some (Opr.int v)

/-- A string literal, `std::make_shared<RISCV32Str>(s)`. -/
def RISCV32Str (s : String) : OprPtr := some (Opr.str s)

/-- Modelled from the spec: `GetSlot(flag, offset)` is the argument slot at the
byte offset; the one-argument `GetSlot(offset)` of the function prologue is
`GetSlot false offset`. -/
def GetSlot (flag : Bool) (offset : Int) : OprPtr := some (Opr.slot flag offset)

/-- Modelled from the spec: `GetVReg()` (also `vreg_fact_.GetReg()`) returns a
fresh, never reused virtual register. -/
def GetVReg : Gen OprPtr := fun st =>
  some (some (Opr.vreg st.vreg_fact_), { st with vreg_fact_ := st.vreg_fact_ + 1 })

/-- Modelled from the spec: `label_fact_.GetLabel()` returns a fresh anonymous label. -/
def GetLabel : Gen LabelName := fun st =>
  some (LabelName.anon st.label_fact_, { st with label_fact_ := st.label_fact_ + 1 })

/-- Modelled from the spec: `label_fact_.GetLabel(name)` looks the named label
up; the same name gives the same label. -/
def GetNamedLabel (name : String) : LabelName := LabelName.named name

/-- Modelled from the spec: `cur_label()`, the label of the current sequence. -/
def cur_label : Gen LabelName := fun st =>
  match st.cur with
  | some (_, label) => some (label, st)
  | none => none

/-- Round a size up to 4-byte alignment. -/
def roundUp4 (size : Nat) : Nat := (size + 3) / 4 * 4

/-- Modelled from the spec: `AllocNextSlot(label, size)` returns a slot at the
function's current frame offset and advances the offset by the size rounded up
to 4 bytes. -/
def AllocNextSlot (label : LabelName) (size : Nat) : Gen OprPtr := fun st =>
  let offset := st.alloc_slots_ label
  some (some (Opr.frame label offset),
    { st with alloc_slots_ := Function.update st.alloc_slots_ label (offset + roundUp4 size) })

/-- The operands behind a list of pointers, when none of them is null. -/
def derefAll : List OprPtr → Option (List Opr)
  | [] => some []
  | none :: _ => none
  | some o :: rest => (derefAll rest).map (fun os => o :: os)

/-- Modelled from the spec: `PushInst(opcode, oprs...)` appends an instruction
to the current sequence. A null operand or a missing current sequence is a
contract violation. -/
def PushInst (opcode : OpCode) (oprs : List OprPtr) : Gen Unit := fun st =>
  match st.cur, derefAll oprs with
  | some (isMem, label), some os =>
    if ((st.seqs isMem).find? label).isSome then
      some ((), st.emit isMem label ⟨opcode, os⟩)
    else none
  | _, _ => none

/-- Modelled from the spec: entering a sequence (`EnterFunction`
when `isMem` is false, `EnterMemData` when it is true) creates it in its map
when first entered and makes it current; the guard it returns remembers the
sequence that was current before. -/
def EnterInstSeq (isMem : Bool) (label : LabelName) (link : LinkageTypes) :
    Gen (Option (Bool × LabelName)) := fun st =>
  if isMem then
    some (st.cur, { st with mems := st.mems.enter label link, cur := some (true, label) })
  else
    some (st.cur, { st with funcs := st.funcs.enter label link, cur := some (false, label) })

/-- The destructor of the guard of `EnterFunction`/`EnterMemData`: the sequence
that was current before is current again. -/
def leaveInstSeq (saved : Option (Bool × LabelName)) : Gen Unit := fun st =>
  some ((), { st with cur := saved })

/-- The scope of a guard `auto g = EnterFunction(label, link)` (or
`EnterMemData`) around `body`: the guard is released when `body` is done. -/
def withInstSeq (isMem : Bool) (label : LabelName) (link : LinkageTypes) (body : Gen α) :
    Gen α := do
  let saved ← EnterInstSeq isMem label link
  let r ← body
  leaveInstSeq saved
  pure r

/-- The scope `auto mem = cond ? EnterMemData(label, link) : xstl::Guard(nullptr)`
around `body`; `label` is `none` when `cond` is false. -/
def withMemData (label : Option LabelName) (link : LinkageTypes) (body : Gen α) : Gen α :=
  match label with
  | some l => withInstSeq true l link body
  | none => body

/-- The call `set_metadata(opr)` on the node `id`. -/
def set_metadata (id : Nat) (opr : OprPtr) : Gen Unit := fun st =>
  some ((), { st with metadata := Function.update st.metadata id (some opr) })

/-- Modelled from the spec: `GetOpr(value)` (and `GenerateCode(value)`)
returns the operand stored in the node's metadata when the node has been
lowered, and otherwise lowers it by `gen` and stores the result. -/
def GetOprWith (id : Nat) (gen : Gen OprPtr) : Gen OprPtr := fun st =>
  match st.metadata id with
  | some opr => some (opr, st)
  | none => (do let opr ← gen; set_metadata id opr; pure opr) st

def GenerateMemCpy (dest src : OprPtr) (size : Nat) : Gen Unit := do
  PushInst OpCode.LEA [GetReg RegName.A0, dest, GetImm 0]
  PushInst OpCode.LEA [GetReg (RegName.A0 + 1), src, GetImm 0]
  PushInst OpCode.MV [GetReg (RegName.A0 + 2), GetImm size]
  PushInst OpCode.CALL [some (Opr.label (GetNamedLabel "memcpy"))]

def GenerateMemSet (dest : OprPtr) (data : Nat) (size : Nat) : Gen Unit := do
  PushInst OpCode.LEA [GetReg RegName.A0, dest, GetImm 0]
  PushInst OpCode.MV [GetReg (RegName.A0 + 1), GetImm data]
  PushInst OpCode.MV [GetReg (RegName.A0 + 2), GetImm size]
  PushInst OpCode.CALL [some (Opr.label (GetNamedLabel "memset"))]

def GenerateZeros (type : Ty) : Gen OprPtr := do
  let st ← Gen.get
  if st.arr_depth_ ≠ 0 then
    pure (GetImm 0)
  else if st.in_global_ = 0 && (type.IsInteger || type.IsPointer) then
    pure (GetImm 0)
  else do
    let label ← if st.in_global_ = 0 then (do let l ← GetLabel; pure (some l)) else pure none
    withMemData label LinkageTypes.Internal (PushInst OpCode.ZERO [RISCV32Int type.GetSize])
    pure (label.map Opr.label)

/-! ## Lowering rules (`instgen.cpp`) -/

/-- The statement `++in_global_`. -/
def incInGlobal : Gen Unit := fun st => some ((), { st with in_global_ := st.in_global_ + 1 })

/-- The statement `--in_global_`. -/
def decInGlobal : Gen Unit := fun st => some ((), { st with in_global_ := st.in_global_ - 1 })

/-- The statement `++arr_depth_`. -/
def incArrDepth : Gen Unit := fun st => some ((), { st with arr_depth_ := st.arr_depth_ + 1 })

/-- The guard `xstl::Guard([this] { --arr_depth_; })` when it is released. -/
def decArrDepth : Gen Unit := fun st => some ((), { st with arr_depth_ := st.arr_depth_ - 1 })

/-- The statements `++in_global_; body; --in_global_;`. -/
def withInGlobal (body : Gen α) : Gen α := do
  incInGlobal
  let r ← body
  decInGlobal
  pure r

/-- The scope of `++arr_depth_; auto guard = xstl::Guard([this] { --arr_depth_; });`
around `body`. -/
def withArrDepth (body : Gen α) : Gen α := do
  incArrDepth
  let r ← body
  decArrDepth
  pure r

/-- The statement `args_.clear()`. -/
def clearArgs : Gen Unit := fun st => some ((), { st with args_ := [] })

/-- The statement `args_.push_back(arg)`. -/
def pushArg (arg : OprPtr) : Gen Unit := fun st => some ((), { st with args_ := st.args_ ++ [arg] })

/-- The offset loop of a struct access, run for `idx` iterations: the offset
after iteration `i` adds `align * ((size_i + align - 1) / align)`. Reading a
field that does not exist, or dividing by a zero alignment, is a violation. -/
def structOffset (base_ty : Ty) (align : Nat) : Nat → Option Nat
  | 0 => some 0
  | i + 1 =>
    match structOffset base_ty align i, base_ty.GetElem i with
    | some offset, some elem =>
      if align = 0 then none
      else some (offset + align * ((elem.GetSize + align - 1) / align))
    | _, _ => none

/-- The opcode switch of `GenerateOn(BinarySSA)`. -/
def binaryOpCode : BinaryOp → OpCode
  | BinaryOp.Add => OpCode.ADD
  | BinaryOp.Sub => OpCode.SUB
  | BinaryOp.Mul => OpCode.MUL
  | BinaryOp.UDiv => OpCode.DIVU
  | BinaryOp.SDiv => OpCode.DIV
  | BinaryOp.URem => OpCode.REMU
  | BinaryOp.SRem => OpCode.REM
  | BinaryOp.Equal => OpCode.SETEQ
  | BinaryOp.NotEq => OpCode.SETNE
  | BinaryOp.ULess => OpCode.SETULT
  | BinaryOp.SLess => OpCode.SETSLT
  | BinaryOp.ULessEq => OpCode.SETULE
  | BinaryOp.SLessEq => OpCode.SETSLE
  | BinaryOp.UGreat => OpCode.SETUGT
  | BinaryOp.SGreat => OpCode.SETSGT
  | BinaryOp.UGreatEq => OpCode.SETUGE
  | BinaryOp.SGreatEq => OpCode.SETSGE
  | BinaryOp.And => OpCode.AND
  | BinaryOp.Or => OpCode.OR
  | BinaryOp.Xor => OpCode.XOR
  | BinaryOp.Shl => OpCode.SLL
  | BinaryOp.LShr => OpCode.SRL
  | BinaryOp.AShr => OpCode.SRA

/-- The opcode switch of `GenerateOn(UnarySSA)`. -/
def unaryOpCode : UnaryOp → OpCode
  | UnaryOp.Neg => OpCode.NEG
  | UnaryOp.LogicNot => OpCode.SEQZ
  | UnaryOp.Not => OpCode.NOT

/-- The argument loop of `GenerateOn(FunctionSSA)`, from parameter `i` on, with
`remaining` parameters to go. -/
def GenerateArgs : Nat → Nat → Gen Unit
  | 0, _ => pure ()
  | remaining + 1, i => do
    let arg ← GetVReg
    let src := if i < 8 then GetReg (RegName.A0 + i) else GetSlot false (((i - 8) * 4 : Nat) : Int)
    PushInst (if i < 8 then OpCode.MV else OpCode.LW) [arg, src]
    pushArg arg
    GenerateArgs remaining (i + 1)

/-- The loop `for (const auto &i : ssa) i.value()->set_metadata(label_fact_.GetLabel())`
over the ids of the function's blocks. -/
def labelBlocks : List Nat → Gen Unit
  | [] => pure ()
  | id :: ids => do
    let label ← GetLabel
    set_metadata id (some (Opr.label label))
    labelBlocks ids

/-- The successors of the block `b` among the blocks of a function. -/
def blockSuccs (blocks : List SSA) (b : Nat) : List Nat :=
  match blocks.find? (fun x => x.id == b) with
  | some (SSA.block _ _ _ succs) => succs
  | _ => []

/-- Depth-first preorder from the blocks on `stack`, skipping visited blocks.
The first argument bounds the number of steps. -/
def DFSTraverse.go (succs : Nat → List Nat) : Nat → List Nat → List Nat → List Nat
  | 0, _, _ => []
  | _ + 1, [], _ => []
  | fuel + 1, b :: stack, visited =>
    if b ∈ visited then DFSTraverse.go succs fuel stack visited
    else b :: DFSTraverse.go succs fuel (succs b ++ stack) (b :: visited)

/-- Modelled from the spec: `DFSTraverse(entry)` of `opt/helper/blkiter.h`, the
blocks (by id) in depth-first order from the entry block. Every step pops one
stack entry, and no more than one entry per successor edge, plus the entry
block, is ever pushed. -/
def DFSTraverse (blocks : List SSA) (entry : Nat) : List Nat :=
  DFSTraverse.go (blockSuccs blocks)
    (1 + (blocks.map (fun b => (blockSuccs blocks b.id).length)).sum) [entry] []

/-- The loop `for (const auto &i : DFSTraverse(entry)) GenerateCode(*i)`; `gens`
gives, for each block of the function, the lowering of that block. A block
that is not one of the function's blocks has no label: a violation. -/
def runBlocks (gens : List (Nat × Gen OprPtr)) : List Nat → Gen Unit
  | [] => pure ()
  | b :: bs => do
    match gens.lookup b with
    | some gen => do
      let _ ← gen
      runBlocks gens bs
    | none => Gen.fail

/-! Each rule takes the calls `GetOpr(child)` on its children as actions, so
that the recursion over the IR is spelled out once, in `GenerateOn` below. -/

/-- The rule `GenerateOn(LoadSSA &)`; `getPtr` is `GetOpr(ssa.ptr())`. -/
def GenerateOnLoad (type : Ty) (ptr : SSA) (getPtr : Gen OprPtr) : Gen OprPtr := do
  let src ← getPtr
  if type.IsArray || type.IsStruct then
    let s ← Gen.deref src
    Gen.assert (s.IsLabel || s.IsSlot)
    let size := type.GetSize
    let label ← cur_label
    let dest ← AllocNextSlot label size
    GenerateMemCpy dest src size
    pure dest
  else if ptr.IsAlloca then
    let s ← Gen.deref src
    Gen.assert s.IsReg
    let dest ← GetVReg
    PushInst OpCode.MV [dest, src]
    pure dest
  else
    let s ← Gen.deref src
    Gen.assert (s.IsReg || s.IsLabel)
    let dest ← GetVReg
    let src ← if s.IsLabel then (do PushInst OpCode.LEA [dest, src, GetImm 0]; pure dest)
      else pure src
    let opcode := if type.GetSize = 1 then (if type.IsUnsigned then OpCode.LBU else OpCode.LB)
      else OpCode.LW
    PushInst opcode [dest, src]
    pure dest

/-- The rule `GenerateOn(StoreSSA &)`; `getPtr` is `GetOpr(ssa.ptr())`,
`getValue` is `GetOpr(ssa.value())`. -/
def GenerateOnStore (value ptr : SSA) (getValue getPtr : Gen OprPtr) : Gen OprPtr := do
  let p ← getPtr
  let type := value.type
  if type.IsArray || type.IsStruct then
    let pp ← Gen.deref p
    Gen.assert (pp.IsLabel || pp.IsSlot || pp.IsVirtual)
    let size := type.GetSize
    if value.IsConstZero then
      GenerateMemSet p 0 size
    else
      let val ← getValue
      let v ← Gen.deref val
      Gen.assert (v.IsLabel || v.IsSlot || pp.IsVirtual)
      GenerateMemCpy p val size
    pure none
  else
    let val ← getValue
    if ptr.IsAlloca then
      let pp ← Gen.deref p
      Gen.assert pp.IsReg
      PushInst OpCode.MV [p, val]
    else
      let pp ← Gen.deref p
      let v ← Gen.deref val
      Gen.assert ((pp.IsReg || pp.IsLabel) && (v.IsReg || v.IsImm))
      let ptr_reg ← if pp.IsLabel then
          (do let r ← GetVReg; PushInst OpCode.LEA [r, p, GetImm 0]; pure r)
        else pure p
      PushInst (if type.GetSize = 1 then OpCode.SB else OpCode.SW) [val, ptr_reg]
    pure none

/-- The rule `GenerateOn(AccessSSA &)`; `getPtr` is `GetOpr(ssa.ptr())`,
`getIndex` is `GetOpr(ssa.index())`. -/
def GenerateOnAccess (acc_type : AccessType) (ptr index : SSA) (getPtr getIndex : Gen OprPtr) :
    Gen OprPtr := do
  let p ← getPtr
  let idx ← getIndex
  let dest ← GetVReg
  let base_ty ← Gen.deref ptr.type.GetDerefedType
  let idx ← if base_ty.IsStruct then do
      Gen.assert (acc_type == AccessType.Element)
      let i ← Gen.deref index.constIntValue
      let offset ← Gen.deref (structOffset base_ty base_ty.GetAlignSize i)
      pure (GetImm offset)
    else do
      let base_ty ← if acc_type == AccessType.Element then do
          Gen.assert base_ty.IsArray
          Gen.deref base_ty.GetDerefedType
        else pure base_ty
      let size := base_ty.GetSize
      if index.IsConst then do
        let c ← Gen.deref index.constIntValue
        pure (GetImm ((c * size : Nat) : Int))
      else do
        let i ← Gen.deref idx
        Gen.assert (i.IsReg && size != 0)
        let temp ← GetVReg
        if size &&& (size - 1) = 0 then
          PushInst OpCode.SLL [temp, idx, GetImm (Nat.log2 size)]
        else
          PushInst OpCode.MUL [temp, idx, GetImm size]
        pure temp
  PushInst OpCode.LEA [dest, p, idx]
  pure dest

/-- The rule `GenerateOn(BinarySSA &)`. -/
def GenerateOnBinary (op : BinaryOp) (getLhs getRhs : Gen OprPtr) : Gen OprPtr := do
  let l ← getLhs
  let r ← getRhs
  let dest ← GetVReg
  PushInst (binaryOpCode op) [dest, l, r]
  pure dest

/-- The rule `GenerateOn(UnarySSA &)`. -/
def GenerateOnUnary (op : UnaryOp) (getOpr : Gen OprPtr) : Gen OprPtr := do
  let o ← getOpr
  let dest ← GetVReg
  PushInst (unaryOpCode op) [dest, o]
  pure dest

/-- The rule `GenerateOn(CastSSA &)`; `getOpr` is `GetOpr(ssa.opr())`. -/
def GenerateOnCast (type : Ty) (opr : SSA) (getOpr : Gen OprPtr) : Gen OprPtr := do
  let dest ← GetVReg
  let o ← getOpr
  let src_ty := opr.type
  let dst_ty := type
  if src_ty.GetSize < dst_ty.GetSize then
    Gen.assert (src_ty.GetSize == 1 && dst_ty.GetSize == 4)
    PushInst OpCode.MV [dest, o]
  else if src_ty.GetSize > dst_ty.GetSize then
    Gen.assert (src_ty.GetSize == 4 && dst_ty.GetSize == 1)
    PushInst OpCode.AND [dest, o, GetImm 255]
  else
    let oo ← Gen.deref o
    if oo.IsLabel || oo.IsSlot then
      Gen.assert (src_ty.IsPointer && dst_ty.IsPointer)
      PushInst OpCode.LEA [dest, o, GetImm 0]
    else
      Gen.assert (oo.IsReg || oo.IsImm)
      PushInst OpCode.MV [dest, o]
  pure dest

/-- One round of the argument loop of `GenerateOn(CallSSA &)`, for operand `i`
(operand 0 is the callee); `getVal` is `GetOpr(ssa[i].value())`. -/
def GenerateCallArg (i : Nat) (getVal : Gen OprPtr) : Gen Unit := do
  let dest := if i ≤ 8 then GetReg (RegName.A0 + i - 1)
    else GetSlot true (((i - 9) * 4 : Nat) : Int)
  let val ← getVal
  if i ≤ 8 then PushInst OpCode.MV [dest, val] else PushInst OpCode.SW [val, dest]

/-- The rule `GenerateOn(CallSSA &)`; `genArgs` is its argument loop,
`getCallee` is `GetOpr(ssa.callee())`. -/
def GenerateOnCall (type : Ty) (genArgs : Gen Unit) (getCallee : Gen OprPtr) : Gen OprPtr := do
  genArgs
  let c ← getCallee
  PushInst OpCode.CALL [c]
  if !type.IsVoid then
    let dest ← GetVReg
    PushInst OpCode.MV [dest, GetReg RegName.A0]
    pure dest
  else
    pure none

/-- The rule `GenerateOn(BranchSSA &)`. -/
def GenerateOnBranch (getCond getTrue getFalse : Gen OprPtr) : Gen OprPtr := do
  let c ← getCond
  let t ← getTrue
  let f ← getFalse
  PushInst OpCode.BR [c, t, f]
  pure none

/-- The rule `GenerateOn(JumpSSA &)`. -/
def GenerateOnJump (getTarget : Gen OprPtr) : Gen OprPtr := do
  let t ← getTarget
  PushInst OpCode.J [t]
  pure none

/-- The rule `GenerateOn(ReturnSSA &)`; `getValue` is `GetOpr(ssa.value())`
when the return has a value. -/
def GenerateOnReturn (getValue : Option (Gen OprPtr)) : Gen OprPtr := do
  match getValue with
  | some get => do
    let o ← get
    PushInst OpCode.MV [GetReg RegName.A0, o]
  | none => pure ()
  PushInst OpCode.RET []
  pure none

/-- The rule `GenerateOn(FunctionSSA &)`; `genBlocks` gives the lowering of each
of the function's blocks. -/
def GenerateOnFunction (id : Nat) (link : MidLink) (name : String) (is_decl : Bool)
    (args : Nat) (blocks : List SSA) (entry : Nat) (genBlocks : List (Nat × Gen OprPtr)) :
    Gen OprPtr := do
  let label := GetNamedLabel name
  if is_decl then
    pure (some (Opr.label label))
  else
    withInstSeq false label (GetLinkType link) (do
      set_metadata id (some (Opr.label label))
      clearArgs
      GenerateArgs args 0
      labelBlocks (blocks.map SSA.id)
      runBlocks genBlocks (DFSTraverse blocks entry)
      pure (some (Opr.label label)))

/-- The rule `GenerateOn(GlobalVarSSA &)`; `getInit` is `GetOpr(ssa.init())`
when there is an initializer. -/
def GenerateOnGlobalVar (type : Ty) (link : MidLink) (name : String)
    (getInit : Option (Gen OprPtr)) : Gen OprPtr := do
  let label := GetNamedLabel name
  withInstSeq true label (GetLinkType link) (do
    match getInit with
    | some get => do
      let _ ← withInGlobal get
    | none => do
      let t ← Gen.deref type.GetDerefedType
      PushInst OpCode.ZERO [RISCV32Int t.GetSize]
    pure (some (Opr.label label)))

/-- The rule `GenerateOn(AllocaSSA &)`. -/
def GenerateOnAlloca (type : Ty) : Gen OprPtr := do
  let t ← Gen.deref type.GetDerefedType
  if t.IsArray || t.IsStruct then
    if t.GetSize < 512 then do
      let label ← cur_label
      AllocNextSlot label t.GetSize
    else
      GenerateZeros t
  else
    GetVReg

/-- The rule `GenerateOn(BlockSSA &)`; `genInsts` lowers its instructions. -/
def GenerateOnBlock (id : Nat) (genInsts : Gen Unit) : Gen OprPtr := do
  let st ← Gen.get
  let label ← Gen.deref (st.metadata id)
  PushInst OpCode.LABEL [label]
  genInsts
  pure none

/-- The rule `GenerateOn(ArgRefSSA &)`. -/
def GenerateOnArgRef (index : Nat) : Gen OprPtr := do
  let st ← Gen.get
  Gen.deref (st.args_.get? index)

/-- The rule `GenerateOn(ConstIntSSA &)`. -/
def GenerateOnConstInt (type : Ty) (value : Nat) : Gen OprPtr := do
  let st ← Gen.get
  if st.in_global_ ≠ 0 then
    PushInst (if type.GetSize = 1 then OpCode.BYTE else OpCode.LONG) [RISCV32Int value]
    pure none
  else
    pure (GetImm value)

/-- The rule `GenerateOn(ConstStrSSA &)`. -/
def GenerateOnConstStr (str : String) : Gen OprPtr := do
  let st ← Gen.get
  let label ← if st.in_global_ = 0 then (do let l ← GetLabel; pure (some l)) else pure none
  withMemData label LinkageTypes.Internal (PushInst OpCode.ASCIZ [RISCV32Str str])
  pure (label.map Opr.label)

/-- One round of the element loop of `GenerateOn(ConstArraySSA &)`: `i` is the
element, `getVal` is `GetOpr(i.value())`, `zeros` the accumulated run of zero
bytes; the result is the run after the round. -/
def GenerateElem (i : SSA) (getVal : Gen OprPtr) (zeros : Nat) : Gen Nat := do
  let val ← getVal
  match val with
  | none => pure zeros
  | some v =>
    if v.IsImm then
      let size := i.type.GetSize
      let int_val := v.val
      if int_val = 0 then
        pure (zeros + size)
      else do
        let zeros ← if zeros ≠ 0 then (do PushInst OpCode.ZERO [RISCV32Int zeros]; pure 0)
          else pure zeros
        PushInst (if size = 1 then OpCode.BYTE else OpCode.LONG) [RISCV32Int int_val]
        pure zeros
    else do
      PushInst OpCode.LONG [val]
      pure zeros

/-- The rule `GenerateOn(ConstArraySSA &)`; `genElems` is its element loop
started with a run of 0 zero bytes. -/
def GenerateOnConstArray (genElems : Gen Nat) : Gen OprPtr :=
  withArrDepth (do
    let st ← Gen.get
    let new_data := st.in_global_ = 0 && st.arr_depth_ ≤ 1
    let label ← if new_data then (do let l ← GetLabel; pure (some l)) else pure none
    withMemData label LinkageTypes.Internal (do
      let zeros ← genElems
      if zeros ≠ 0 then PushInst OpCode.ZERO [RISCV32Int zeros])
    pure (label.map Opr.label))

/-- The rule `GenerateOn(SelectSSA &)`. -/
def GenerateOnSelect (getCond getTrue getFalse : Gen OprPtr) : Gen OprPtr := do
  let dest ← GetVReg
  let c ← getCond
  let tv ← getTrue
  let fv ← getFalse
  let temp ← GetVReg
  let label ← GetLabel
  PushInst OpCode.MV [temp, fv]
  PushInst OpCode.BEQZ [c, some (Opr.label label)]
  PushInst OpCode.MV [temp, tv]
  PushInst OpCode.LABEL [some (Opr.label label)]
  PushInst OpCode.MV [dest, temp]
  pure dest

mutual

/-- The overloads `RISCV32InstGen::GenerateOn(... &ssa)`, one case per node
kind. `GetOprWith v.id (GenerateOn v)` is the call `GetOpr(v)`. -/
def GenerateOn : SSA → Gen OprPtr
  | SSA.load _ type ptr => GenerateOnLoad type ptr (GetOprWith ptr.id (GenerateOn ptr))
  | SSA.store _ _ value ptr =>
    GenerateOnStore value ptr (GetOprWith value.id (GenerateOn value))
      (GetOprWith ptr.id (GenerateOn ptr))
  | SSA.access _ _ acc_type ptr index =>
    GenerateOnAccess acc_type ptr index (GetOprWith ptr.id (GenerateOn ptr))
      (GetOprWith index.id (GenerateOn index))
  | SSA.binary _ _ op lhs rhs =>
    GenerateOnBinary op (GetOprWith lhs.id (GenerateOn lhs)) (GetOprWith rhs.id (GenerateOn rhs))
  | SSA.unary _ _ op opr => GenerateOnUnary op (GetOprWith opr.id (GenerateOn opr))
  | SSA.cast _ type opr => GenerateOnCast type opr (GetOprWith opr.id (GenerateOn opr))
  | SSA.call _ type callee args =>
    GenerateOnCall type (GenerateCallArgs args 1) (GetOprWith callee.id (GenerateOn callee))
  | SSA.branch _ _ cond true_block false_block =>
    GenerateOnBranch (GetOprWith cond.id (GenerateOn cond))
      (GetOprWith true_block.id (GenerateOn true_block))
      (GetOprWith false_block.id (GenerateOn false_block))
  | SSA.jump _ _ target => GenerateOnJump (GetOprWith target.id (GenerateOn target))
  | SSA.ret _ _ (some v) => GenerateOnReturn (some (GetOprWith v.id (GenerateOn v)))
  | SSA.ret _ _ none => GenerateOnReturn none
  | SSA.function id _ link name is_decl args blocks entry =>
    GenerateOnFunction id link name is_decl args blocks entry (GenerateBlocks blocks)
  | SSA.globalVar _ type link name (some v) =>
    GenerateOnGlobalVar type link name (some (GetOprWith v.id (GenerateOn v)))
  | SSA.globalVar _ type link name none => GenerateOnGlobalVar type link name none
  | SSA.alloca _ type => GenerateOnAlloca type
  | SSA.block id _ insts _ => GenerateOnBlock id (GenerateInsts insts)
  | SSA.argRef _ _ index => GenerateOnArgRef index
  | SSA.constInt _ type value => GenerateOnConstInt type value
  | SSA.constStr _ _ str => GenerateOnConstStr str
  | SSA.constStruct _ _ _ => Gen.fail
  | SSA.constArray _ _ elems => GenerateOnConstArray (GenerateElems elems 0)
  | SSA.constZero _ type => GenerateZeros type
  | SSA.select _ _ cond true_val false_val =>
    GenerateOnSelect (GetOprWith cond.id (GenerateOn cond))
      (GetOprWith true_val.id (GenerateOn true_val))
      (GetOprWith false_val.id (GenerateOn false_val))
  | SSA.undef _ type => GenerateZeros type

/-- The argument loop of `GenerateOn(CallSSA &)`, from operand `i` on. -/
def GenerateCallArgs : List SSA → Nat → Gen Unit
  | [], _ => pure ()
  | a :: rest, i => do
    GenerateCallArg i (GetOprWith a.id (GenerateOn a))
    GenerateCallArgs rest (i + 1)

/-- The loop `for (const auto &i : ssa.insts()) GenerateCode(i)` of a block. -/
def GenerateInsts : List SSA → Gen Unit
  | [] => pure ()
  | i :: rest => do
    let _ ← GetOprWith i.id (GenerateOn i)
    GenerateInsts rest

/-- The element loop `for (const auto &i : ssa)` of `GenerateOn(ConstArraySSA &)`;
`zeros` is the accumulated run of zero bytes, returned when the loop ends. -/
def GenerateElems : List SSA → Nat → Gen Nat
  | [], zeros => pure zeros
  | i :: rest, zeros => do
    let zeros ← GenerateElem i (GetOprWith i.id (GenerateOn i)) zeros
    GenerateElems rest zeros

/-- The lowering `GenerateCode(*i)` of each block of a function, by block id. A
block is lowered whenever the traversal reaches it; its metadata, the label
assigned before the traversal, stays. An operand of the function that is not a
block fails the cast to `BlockSSA`. -/
def GenerateBlocks : List SSA → List (Nat × Gen OprPtr)
  | [] => []
  | SSA.block id _ insts _ :: rest =>
    (id, GenerateOnBlock id (GenerateInsts insts)) :: GenerateBlocks rest
  | b :: rest => (b.id, Gen.fail) :: GenerateBlocks rest

end

/-- The call `GetOpr(value)`. -/
def GetOpr (value : SSA) : Gen OprPtr := GetOprWith value.id (GenerateOn value)

/-! ## Invariants of lowering -/

/-- Every successful run of `m` relates the state before to the state after by `Q`. -/
structure Gen.Keeps {α : Type} (Q : GenState → GenState → Prop) (m : Gen α) : Prop where
  run : ∀ st a st', m st = some (a, st') → Q st st'

/-- Every sequence of `st` is still there in `st'`, with the same linkage and
with instructions appended only. -/
def GenState.Grows (st st' : GenState) : Prop :=
  ∀ isMem label info, (st.seqs isMem).find? label = some info →
    ∃ suffix, (st'.seqs isMem).find? label = some ⟨info.link, info.insts ++ suffix⟩

/-- From `st` to `st'` the current sequence and both nesting counters are the
same, and the sequences have only grown. -/
def GenState.Extends (st st' : GenState) : Prop :=
  st'.cur = st.cur ∧ st'.in_global_ = st.in_global_ ∧ st'.arr_depth_ = st.arr_depth_ ∧
    st.Grows st'

/-- What a relation between the state before and the state after has to satisfy
so that the rules that emit no `LABEL` keep it: it is reflexive and transitive,
the plain state changes keep it, and the three scopes keep it around a body
that does. -/
structure GenInvCore (Q : GenState → GenState → Prop) : Prop where
  refl : ∀ st, Q st st
  trans : ∀ a b c, Q a b → Q b c → Q a c
  vreg : Gen.Keeps Q GetVReg
  label : Gen.Keeps Q GetLabel
  slot : ∀ l n, Gen.Keeps Q (AllocNextSlot l n)
  meta : ∀ id o, Gen.Keeps Q (set_metadata id o)
  clear : Gen.Keeps Q clearArgs
  arg : ∀ a, Gen.Keeps Q (pushArg a)
  push : ∀ op oprs, op ≠ OpCode.LABEL → op ≠ OpCode.BEQZ → Gen.Keeps Q (PushInst op oprs)
  seq : ∀ (isMem : Bool) (l : LabelName) (link : LinkageTypes) (body : Gen OprPtr),
    Gen.Keeps Q body → Gen.Keeps Q (withInstSeq isMem l link body)
  seqUnit : ∀ (isMem : Bool) (l : LabelName) (link : LinkageTypes) (body : Gen Unit),
    Gen.Keeps Q body → Gen.Keeps Q (withInstSeq isMem l link body)
  glob : ∀ (body : Gen OprPtr), Gen.Keeps Q body → Gen.Keeps Q (withInGlobal body)
  arr : ∀ (body : Gen OprPtr), Gen.Keeps Q body → Gen.Keeps Q (withArrDepth body)

/-- A relation that every lowering rule keeps: on top of `GenInvCore`, the two
rules that emit a `LABEL` keep it, a select as a whole and a block reached
through `GetOpr`. With `defs = true` the direct lowering of a block keeps it
too, which the lowering of a function definition needs; with `defs = false`
function definitions are left out. -/
structure GenInv (Q : GenState → GenState → Prop) (defs : Bool) extends GenInvCore Q : Prop where
  select : ∀ c t f, Gen.Keeps Q c → Gen.Keeps Q t → Gen.Keeps Q f →
    Gen.Keeps Q (GenerateOnSelect c t f)
  block : ∀ id g, Gen.Keeps Q g → Gen.Keeps Q (GetOprWith id (GenerateOnBlock id g))
  blockDirect : defs = true → ∀ id g, Gen.Keeps Q g → Gen.Keeps Q (GenerateOnBlock id g)

mutual

/-- No function definition occurs in the value: every function node in it is a
declaration. -/
def SSA.noDefs : SSA → Bool
  | SSA.load _ _ ptr => ptr.noDefs
  | SSA.store _ _ value ptr => value.noDefs && ptr.noDefs
  | SSA.access _ _ _ ptr index => ptr.noDefs && index.noDefs
  | SSA.binary _ _ _ lhs rhs => lhs.noDefs && rhs.noDefs
  | SSA.unary _ _ _ opr => opr.noDefs
  | SSA.cast _ _ opr => opr.noDefs
  | SSA.call _ _ callee args => callee.noDefs && SSA.noDefsList args
  | SSA.branch _ _ cond true_block false_block =>
    cond.noDefs && true_block.noDefs && false_block.noDefs
  | SSA.jump _ _ target => target.noDefs
  | SSA.ret _ _ (some v) => v.noDefs
  | SSA.ret _ _ none => true
  | SSA.function _ _ _ _ is_decl _ _ _ => is_decl
  | SSA.globalVar _ _ _ _ (some v) => v.noDefs
  | SSA.globalVar _ _ _ _ none => true
  | SSA.alloca _ _ => true
  | SSA.block _ _ insts _ => SSA.noDefsList insts
  | SSA.argRef _ _ _ => true
  | SSA.constInt _ _ _ => true
  | SSA.constStr _ _ _ => true
  | SSA.constStruct _ _ _ => true
  | SSA.constArray _ _ elems => SSA.noDefsList elems
  | SSA.constZero _ _ => true
  | SSA.select _ _ cond true_val false_val => cond.noDefs && true_val.noDefs && false_val.noDefs
  | SSA.undef _ _ => true

/-- No function definition occurs in any value of the list. -/
def SSA.noDefsList : List SSA → Bool
  | [] => true
  | v :: rest => v.noDefs && SSA.noDefsList rest

end

/-- The claim's wording of argument passing at a call: the argument at 0-based
position `j` with operand `v` is moved into the argument register `A(j)` when
`j < 8` and stored into the stack slot at byte offset `(j - 8) * 4` otherwise. -/
def callArgInst (j : Nat) (v : Opr) : Inst :=
  if j < 8 then ⟨OpCode.MV, [Opr.reg (RegName.A0 + j), v]⟩
  else ⟨OpCode.SW, [v, Opr.slot true (((j - 8) * 4 : Nat) : Int)]⟩

/-- The claim's wording of parameter marshaling in a function: the parameter at
0-based position `i` is defined in the virtual register `v` by a `MV` from the
argument register `A(i)` when `i < 8` and by a `LW` from the stack slot at byte
offset `(i - 8) * 4` otherwise. -/
def paramInst (i : Nat) (v : Opr) : Inst :=
  if i < 8 then ⟨OpCode.MV, [v, Opr.reg (RegName.A0 + i)]⟩
  else ⟨OpCode.LW, [v, Opr.slot false (((i - 8) * 4 : Nat) : Int)]⟩

/-- The state after `EnterInstSeq isMem label link`. -/
def GenState.enter (st : GenState) (isMem : Bool) (label : LabelName) (link : LinkageTypes) :
    GenState :=
  if isMem then { st with mems := st.mems.enter label link, cur := some (true, label) }
  else { st with funcs := st.funcs.enter label link, cur := some (false, label) }

/-- A generator inside the sequence of `label`, whose lowered values are those
that `metadata` records. -/
def GenState.inside (label : LabelName) (metadata : Nat → Option OprPtr) : GenState :=
  { vreg_fact_ := 0, label_fact_ := 0, funcs := [(label, ⟨LinkageTypes.External, []⟩)],
    mems := [], cur := some (false, label), alloc_slots_ := fun _ => 0, args_ := [],
    in_global_ := 0, arr_depth_ := 0, metadata := metadata }

/-- The state after one round of the parameter loop for parameter `i`. -/
def GenState.param (st : GenState) (i : Nat) : GenState :=
  { GenState.push { st with vreg_fact_ := st.vreg_fact_ + 1 }
      (paramInst i (Opr.vreg st.vreg_fact_)) with
    args_ := st.args_ ++ [some (Opr.vreg st.vreg_fact_)] }

/-- A generator with nothing lowered yet: empty maps, fresh factories, no
current sequence, both nesting counters at 0. -/
def GenState.empty : GenState :=
  { vreg_fact_ := 0, label_fact_ := 0, funcs := [], mems := [], cur := none,
    alloc_slots_ := fun _ => 0, args_ := [], in_global_ := 0, arr_depth_ := 0,
    metadata := fun _ => none }

/-- The number of instructions of `insts` whose opcode is `op`. -/
def countOp (op : OpCode) (insts : List Inst) : Nat :=
  insts.countP (fun i => i.opcode = op)

/-- What one instruction adds to the number of `LABEL` instructions minus the
number of `BEQZ` instructions. -/
def opExcess : OpCode → Int
  | OpCode.LABEL => 1
  | OpCode.BEQZ => -1
  | _ => 0

/-- The number of `LABEL` instructions minus the number of `BEQZ` instructions
of a list. -/
def excessOf (insts : List Inst) : Int :=
  (insts.map (fun i => opExcess i.opcode)).sum

/-- `excessOf` of the function sequence of `label`. -/
def GenState.excess (st : GenState) (label : LabelName) : Int :=
  excessOf (st.funcInsts label)

/-- From `st` to `st'` no function sequence has changed its `excess`. -/
def GenState.SameExcess (st st' : GenState) : Prop :=
  ∀ label, st'.excess label = st.excess label

/-- From `st` to `st'` the current sequence is the same, its `excess` has
changed by `d` when it is a function sequence, and no other function sequence
has changed its `excess`. -/
def GenState.Shift (d : Int) (st st' : GenState) : Prop :=
  st'.cur = st.cur ∧
    ∀ label, st'.excess label = st.excess label + if st.cur = some (false, label) then d else 0

mutual

/-- Lowering the value through `GetOpr` lowers no function definition of the
label `l` for the first time: every function node that is reached is a
declaration, or has been lowered before (`done` holds of its id), or has a label
other than `l` and the same holds of the instructions of its blocks. A block
that is referred to is not lowered again and a constant struct is not lowered
at all, so nothing inside them is reached. -/
def SSA.defsApart (l : LabelName) (done : Nat → Bool) : SSA → Bool
  | SSA.load _ _ ptr => ptr.defsApart l done
  | SSA.store _ _ value ptr => value.defsApart l done && ptr.defsApart l done
  | SSA.access _ _ _ ptr index => ptr.defsApart l done && index.defsApart l done
  | SSA.binary _ _ _ lhs rhs => lhs.defsApart l done && rhs.defsApart l done
  | SSA.unary _ _ _ opr => opr.defsApart l done
  | SSA.cast _ _ opr => opr.defsApart l done
  | SSA.call _ _ callee args => callee.defsApart l done && SSA.defsApartList l done args
  | SSA.branch _ _ cond true_block false_block =>
    cond.defsApart l done && true_block.defsApart l done && false_block.defsApart l done
  | SSA.jump _ _ target => target.defsApart l done
  | SSA.ret _ _ (some v) => v.defsApart l done
  | SSA.ret _ _ none => true
  | SSA.function id _ _ name is_decl _ blocks _ =>
    is_decl || done id ||
      (decide (GetNamedLabel name ≠ l) && SSA.defsApartBlocks l done blocks)
  | SSA.globalVar _ _ _ _ (some v) => v.defsApart l done
  | SSA.globalVar _ _ _ _ none => true
  | SSA.alloca _ _ => true
  | SSA.block _ _ _ _ => true
  | SSA.argRef _ _ _ => true
  | SSA.constInt _ _ _ => true
  | SSA.constStr _ _ _ => true
  | SSA.constStruct _ _ _ => true
  | SSA.constArray _ _ elems => SSA.defsApartList l done elems
  | SSA.constZero _ _ => true
  | SSA.select _ _ cond true_val false_val =>
    cond.defsApart l done && true_val.defsApart l done && false_val.defsApart l done
  | SSA.undef _ _ => true

/-- The same of every value of a list. -/
def SSA.defsApartList (l : LabelName) (done : Nat → Bool) : List SSA → Bool
  | [] => true
  | v :: rest => v.defsApart l done && SSA.defsApartList l done rest

/-- The same of the blocks of a function, which are lowered directly: of the
instructions of each block. -/
def SSA.defsApartBlocks (l : LabelName) (done : Nat → Bool) : List SSA → Bool
  | [] => true
  | SSA.block _ _ insts _ :: rest =>
    SSA.defsApartList l done insts && SSA.defsApartBlocks l done rest
  | _ :: rest => SSA.defsApartBlocks l done rest

end

/-- Every value that `done` holds of has its operand recorded in `st`. -/
def GenState.Lowered (done : Nat → Bool) (st : GenState) : Prop :=
  ∀ i, done i = true → (st.metadata i).isSome = true

/-- From a state `st` in which the values of `done` are lowered to `st'`: the
current sequence is the same, the values of `done` are still lowered, and the
`excess` of the function sequence of `l` has changed by `d` when that sequence
is the current one and not at all otherwise. -/
def GenState.ShiftAt (l : LabelName) (done : Nat → Bool) (d : Int) (st st' : GenState) : Prop :=
  st.Lowered done →
    st'.cur = st.cur ∧ st'.Lowered done ∧
      st'.excess l = st.excess l + if st.cur = some (false, l) then d else 0

/-- The block `b` is reachable from the block `entry` along successor edges of
the blocks of a function (blocks are named by their ids). -/
def Reachable (blocks : List SSA) (entry b : Nat) : Prop :=
  Relation.ReflTransGen (fun a c => c ∈ blockSuccs blocks a) entry b

/-! ## Emission (`DumpSeqs`, `Dump`) and `Reset` -/

/-- One piece of the text that `Dump` writes to the stream, in the order written:
`sect name` is the line `\t<name>` (a section header), `globl label` the line
`\t.globl\t<label>`, `labelDef label` the line `<label>:`, `inst i` the text of
`i->Dump(os)`, `endl` an empty line. -/
inductive DumpItem where
  | sect (name : String)
  | globl (label : LabelName)
  | labelDef (label : LabelName)
  | inst (i : Inst)
  | endl
  deriving DecidableEq, Repr

/-- The characters of one piece. `label->Dump(os)` and `i->Dump(os)` are declared
outside the excerpt and taken as the parameters `dumpLabel` and `dumpInst`. -/
def DumpItem.render (dumpLabel : LabelName → String) (dumpInst : Inst → String) :
    DumpItem → String
  | DumpItem.sect name => "\t" ++ name ++ "\n"
  | DumpItem.globl label => "\t.globl\t" ++ dumpLabel label ++ "\n"
  | DumpItem.labelDef label => dumpLabel label ++ ":\n"
  | DumpItem.inst i => dumpInst i
  | DumpItem.endl => "\n"

/-- The text of a list of pieces: their characters one after the other. -/
def renderAll (dumpLabel : LabelName → String) (dumpInst : Inst → String) :
    List DumpItem → String
  | [] => ""
  | i :: rest => i.render dumpLabel dumpInst ++ renderAll dumpLabel dumpInst rest

/-- `RISCV32InstGen::DumpSeqs`: for each sequence of the map, in iteration order,
the `.globl` line unless the linkage is `Internal`, the label line, the
instructions, and an empty line. -/
def DumpSeqs : InstSeqMap → List DumpItem
  | [] => []
  | (label, info) :: rest =>
    (if info.link ≠ LinkageTypes.Internal then [DumpItem.globl label] else []) ++
      [DumpItem.labelDef label] ++ info.insts.map DumpItem.inst ++ [DumpItem.endl] ++
      DumpSeqs rest

/-- `RISCV32InstGen::Dump`: the `.text` header and all function sequences, then,
unless there is no memory data, the `.data` header and all memory-data
sequences. -/
def Dump (st : GenState) : List DumpItem :=
  [DumpItem.sect ".text"] ++ DumpSeqs st.funcs ++
    (if !st.mems.isEmpty then [DumpItem.sect ".data"] ++ DumpSeqs st.mems else [])

/-- `RISCV32InstGen::Reset`: clears the frame offsets and `args_` and sets both
nesting counters to 0. The interning tables `regs_`, `imms_` and `slots_` that it
also rebuilds are not part of the state: operands are compared by value. -/
def Reset (st : GenState) : GenState :=
  { st with alloc_slots_ := fun _ => 0, args_ := [], in_global_ := 0, arr_depth_ := 0 }

/-- From `st` to `st'` each of the two maps keeps having one sequence per label. -/
def GenState.KeysKept (st st' : GenState) : Prop :=
  ((st.funcs.map Prod.fst).Nodup → (st'.funcs.map Prod.fst).Nodup) ∧
    ((st.mems.map Prod.fst).Nodup → (st'.mems.map Prod.fst).Nodup)

/-! ## Data size of constant arrays -/

/-- The number of bytes that a data directive stands for: `ZERO n` counts `n`,
`BYTE` counts 1, `LONG` counts 4; any other instruction counts 0. -/
def directiveSize (i : Inst) : Nat :=
  match i.opcode, i.oprs with
  | OpCode.ZERO, [Opr.int n] => n.toNat
  | OpCode.BYTE, _ => 1
  | OpCode.LONG, _ => 4
  | _, _ => 0

/-- The byte sizes of the directives of a data block, summed. -/
def dataSize (insts : List Inst) : Nat :=
  (insts.map directiveSize).sum

/-- The check `IsSSA<ConstArraySSA>`. -/
def SSA.IsConstArray : SSA → Bool
  | SSA.constArray .. => true
  | _ => false

/-- The value that a leaf of a constant array hands to `GetImm` outside a
global initializer: the value of an integer constant, 0 for a constant zero. -/
def SSA.leafImm : SSA → Int
  | SSA.constInt _ _ value => value
  | _ => 0

mutual

/-- A well-typed constant whose leaves are integer constants or constant zeros
of size 1 or 4: such a leaf, or an array of type `[len x base]` with `len`
elements of type `base` that are such constants. -/
def SSA.sizedConst : SSA → Prop
  | SSA.constInt _ type _ => type.GetSize = 1 ∨ type.GetSize = 4
  | SSA.constZero _ type => type.GetSize = 1 ∨ type.GetSize = 4
  | SSA.constArray _ type elems =>
    match type with
    | Ty.array base len => len = elems.length ∧ SSA.sizedConstList base elems
    | _ => False
  | _ => False

/-- Every element of the list has the type `base` and is a `sizedConst`. -/
def SSA.sizedConstList (base : Ty) : List SSA → Prop
  | [] => True
  | e :: rest => e.type = base ∧ e.sizedConst ∧ SSA.sizedConstList base rest

end

mutual

/-- The nodes below a constant array, in the order in which its lowering meets
them: each element, followed by the nodes below it. -/
def SSA.subNodes : SSA → List SSA
  | SSA.constArray _ _ elems => SSA.subNodesList elems
  | _ => []

/-- The elements of the list, each followed by the nodes below it. -/
def SSA.subNodesList : List SSA → List SSA
  | [] => []
  | e :: rest => e :: (e.subNodes ++ SSA.subNodesList rest)

end

/-- Two occurrences of one node id in a list of nodes are occurrences of a leaf,
with one value: no array of the list occurs twice in it. A leaf may. -/
def SSA.sharesLeavesOnly (nodes : List SSA) : Prop :=
  nodes.Pairwise (fun a b => a.id = b.id →
    a.IsConstArray = false ∧ b.IsConstArray = false ∧ a.leafImm = b.leafImm)

/-- A node that has not been lowered, or a leaf that has been lowered to its
immediate. -/
def GenState.unlowered (st : GenState) (n : SSA) : Prop :=
  st.metadata n.id = none ∨
    (n.IsConstArray = false ∧ st.metadata n.id = some (GetImm n.leafImm))

/-- Between `st` and `st2` the current sequence, both nesting counters and the
presence of a current sequence are the same, and the directives of the current
sequence have grown by `n` bytes. -/
def GenState.DataStep (st st2 : GenState) (n : Nat) : Prop :=
  st2.cur = st.cur ∧ st2.in_global_ = st.in_global_ ∧ st2.arr_depth_ = st.arr_depth_ ∧
    st2.hasCur = st.hasCur ∧ dataSize st2.curInsts = dataSize st.curInsts + n

/-! ## Theorems -/

namespace BranchEliminationPass

theorem withoutRedundantJumps_cons (i : Inst) (r : List Inst) :
    withoutRedundantJumps (i :: r) =
      if isRedundantJump i r.head? then withoutRedundantJumps r
      else i :: withoutRedundantJumps r := by
  cases r with
  | nil => simp [withoutRedundantJumps, successors, isRedundantJump]
  | cons j r =>
    simp only [withoutRedundantJumps, successors, List.tail_cons, List.map_cons,
      List.cons_append, List.zip_cons_cons, List.head?_cons, List.filter_cons]
    by_cases h : isRedundantJump i (some j) = true <;> simp [h]

theorem removeRedundantBranches_fst (rest : List Inst) :
    ∀ (l : Inst) (b : List Inst) (uses : Opr → Nat),
      (removeRedundantBranches (some l) (l :: b) uses rest).1 =
        b.reverse ++ withoutRedundantJumps (l :: rest) := by
  induction rest with
  | nil =>
    intro l b uses
    have h : withoutRedundantJumps ([] : List Inst) = [] := rfl
    simp [removeRedundantBranches, withoutRedundantJumps_cons, isRedundantJump, h]
  | cons cur rest ih =>
    intro l b uses
    rw [withoutRedundantJumps_cons l (cur :: rest)]
    by_cases h : l.opcode = OpCode.J ∧ cur.opcode = OpCode.LABEL ∧ l.opr0 = cur.opr0
    · simp only [removeRedundantBranches, h, and_self, if_true, List.tail_cons, ih,
        List.head?_cons, isRedundantJump, decide_True]
    · simp only [removeRedundantBranches, h, if_false, ih, List.head?_cons, isRedundantJump,
        decide_False, List.reverse_cons, List.append_assoc, List.singleton_append]
      simp

theorem redundantBranchPass_eq (uses : Opr → Nat) (insts : List Inst) :
    redundantBranchPass uses insts = withoutRedundantJumps insts := by
  cases insts with
  | nil => simp [redundantBranchPass, removeRedundantBranches, withoutRedundantJumps]
  | cons i r =>
    have h := removeRedundantBranches_fst r i [] uses
    simpa [redundantBranchPass, removeRedundantBranches] using h

/-- C1: for every instruction list (and whatever the use counts), the first loop
of `RunOn` keeps, in their input order, exactly the instructions that are not a
`J` immediately followed in the input by a `LABEL` with the identical target
operand, and removes exactly those jumps. -/
theorem C1_redundant_jump_removed_iff (uses : Opr → Nat) (insts : List Inst) :
    redundantBranchPass uses insts =
      ((insts.zip (successors insts)).filter
        (fun p => !isRedundantJump p.1 p.2)).map Prod.fst :=
  redundantBranchPass_eq uses insts

theorem withoutRedundantJumps_nil : withoutRedundantJumps [] = [] := rfl

theorem hasJumpChain_tail (i : Inst) (r : List Inst) (h : hasJumpChain (i :: r) = false) :
    hasJumpChain r = false := by
  match r, h with
  | [], _ => rfl
  | [_], _ => rfl
  | j :: k :: r, h =>
    simp only [hasJumpChain, Bool.or_eq_false_iff] at h
    exact h.2

/-- The head of the rewritten list: the old head, or, when that was a redundant
jump, the label that followed it. -/
theorem withoutRedundantJumps_head (j : Inst) (r : List Inst) :
    (isRedundantJump j r.head? = false ∧
        withoutRedundantJumps (j :: r) = j :: withoutRedundantJumps r) ∨
      (∃ k r', r = k :: r' ∧ isRedundantJump j (some k) = true ∧
        withoutRedundantJumps (j :: r) = k :: withoutRedundantJumps r') := by
  by_cases h : isRedundantJump j r.head? = true
  · right
    cases r with
    | nil => simp [isRedundantJump] at h
    | cons k r' =>
      refine ⟨k, r', rfl, by simpa using h, ?_⟩
      rw [withoutRedundantJumps_cons, if_pos h, withoutRedundantJumps_cons]
      have hk : isRedundantJump k r'.head? = false := by
        simp only [List.head?_cons, isRedundantJump, decide_eq_true_eq] at h
        cases hr : r'.head? with
        | none => rfl
        | some m => simp [isRedundantJump, h.2.1]
      simp [hk]
  · left
    simp only [Bool.not_eq_true] at h
    exact ⟨h, by rw [withoutRedundantJumps_cons]; simp [h]⟩

theorem withoutRedundantJumps_idem (insts : List Inst) :
    hasJumpChain insts = false →
      withoutRedundantJumps (withoutRedundantJumps insts) = withoutRedundantJumps insts := by
  induction insts with
  | nil => intro _; rfl
  | cons i r ih =>
    intro hc
    have ihr := ih (hasJumpChain_tail i r hc)
    by_cases hi : isRedundantJump i r.head? = true
    · rw [withoutRedundantJumps_cons, if_pos hi]; exact ihr
    · rw [withoutRedundantJumps_cons, if_neg hi]
      cases r with
      | nil => simp [withoutRedundantJumps_nil, withoutRedundantJumps_cons, isRedundantJump]
      | cons j r =>
        rcases withoutRedundantJumps_head j r with ⟨_, hj⟩ | ⟨k, r', hr, hjk, hj⟩
        · rw [hj] at ihr ⊢
          rw [withoutRedundantJumps_cons i, List.head?_cons]
          rw [if_neg (by simpa using hi), ihr]
        · subst hr
          rw [hj] at ihr ⊢
          have hik : isRedundantJump i (some k) = false := by
            simp only [hasJumpChain, Bool.or_eq_false_iff, Bool.and_eq_false_iff] at hc
            rcases hc.1 with h1 | h1
            · simp only [decide_eq_false_iff_not] at h1
              simp only [isRedundantJump, decide_eq_false_iff_not]
              intro h2
              exact h1 ⟨h2.1, h2.2.2⟩
            · rw [hjk] at h1; exact absurd h1 (by simp)
          rw [withoutRedundantJumps_cons i, List.head?_cons, hik, ihr]
          simp

/-- C3 (as stated) fails: on `J L; J L; L:` one application leaves `J L; L:`
and a second application removes the remaining jump. -/
theorem C3_not_idempotent :
    redundantBranchPass (fun _ => 3)
        [⟨OpCode.J, [Opr.label (LabelName.anon 0)]⟩, ⟨OpCode.J, [Opr.label (LabelName.anon 0)]⟩,
          ⟨OpCode.LABEL, [Opr.label (LabelName.anon 0)]⟩] =
      [⟨OpCode.J, [Opr.label (LabelName.anon 0)]⟩, ⟨OpCode.LABEL, [Opr.label (LabelName.anon 0)]⟩] ∧
    redundantBranchPass (fun _ => 3)
        (redundantBranchPass (fun _ => 3)
          [⟨OpCode.J, [Opr.label (LabelName.anon 0)]⟩, ⟨OpCode.J, [Opr.label (LabelName.anon 0)]⟩,
            ⟨OpCode.LABEL, [Opr.label (LabelName.anon 0)]⟩]) =
      [⟨OpCode.LABEL, [Opr.label (LabelName.anon 0)]⟩] := by
  decide

theorem withoutRedundantJumps_length_le (l : List Inst) :
    (withoutRedundantJumps l).length ≤ l.length := by
  induction l with
  | nil => simp [withoutRedundantJumps_nil]
  | cons a r ih =>
    rw [withoutRedundantJumps_cons]
    split
    · simp only [List.length_cons]; omega
    · simp only [List.length_cons]; omega

theorem withoutRedundantJumps_length_lt (l : List Inst) (h : hasRedundantJump l = true) :
    (withoutRedundantJumps l).length < l.length := by
  induction l with
  | nil => simp [hasRedundantJump] at h
  | cons a r ih =>
    rw [withoutRedundantJumps_cons]
    have hle := withoutRedundantJumps_length_le r
    by_cases ha : isRedundantJump a r.head? = true
    · rw [if_pos ha]
      simp only [List.length_cons]; omega
    · rw [if_neg ha]
      cases r with
      | nil => simp [hasRedundantJump] at h
      | cons b rest =>
        simp only [hasRedundantJump, Bool.or_eq_true] at h
        simp only [List.head?_cons] at ha
        rcases h with h | h
        · exact absurd h ha
        · have := ih h
          simp only [List.length_cons] at this ⊢
          omega

theorem hasRedundantJump_cons (x : Inst) (l : List Inst) (h : hasRedundantJump l = true) :
    hasRedundantJump (x :: l) = true := by
  cases l with
  | nil => simp [hasRedundantJump] at h
  | cons b rest => simp only [hasRedundantJump, Bool.or_eq_true]; exact Or.inr h

theorem hasRedundantJump_of_chain (l : List Inst) (h : hasJumpChain l = true) :
    hasRedundantJump (withoutRedundantJumps l) = true := by
  induction l with
  | nil => simp [hasJumpChain] at h
  | cons a r ih =>
    match r, h, ih with
    | [], h, _ => simp [hasJumpChain] at h
    | [_], h, _ => simp [hasJumpChain] at h
    | b :: c :: rest, h, ih =>
      simp only [hasJumpChain, Bool.or_eq_true, Bool.and_eq_true, decide_eq_true_eq] at h
      rcases h with ⟨⟨haJ, hac⟩, hbc⟩ | h
      · -- the chain is at the head
        have hb := hbc
        simp only [isRedundantJump, decide_eq_true_eq] at hb
        have hab : isRedundantJump a (some b) = false := by
          simp only [isRedundantJump, decide_eq_false_iff_not]
          intro h2
          rw [hb.1] at h2
          exact absurd h2.2.1 (by decide)
        have hc : isRedundantJump c rest.head? = false := by
          cases hr : rest.head? with
          | none => rfl
          | some m =>
            simp only [isRedundantJump, decide_eq_false_iff_not]
            intro h2
            rw [hb.2.1] at h2
            exact absurd h2.1 (by decide)
        rw [withoutRedundantJumps_cons, List.head?_cons, hab]
        rw [withoutRedundantJumps_cons b, List.head?_cons, hbc]
        rw [withoutRedundantJumps_cons c, hc]
        simp only [Bool.false_eq_true, if_false, if_true, hasRedundantJump, Bool.or_eq_true]
        left
        simp only [isRedundantJump, decide_eq_true_eq]
        exact ⟨haJ, hb.2.1, hac⟩
      · have h2 := ih h
        rw [withoutRedundantJumps_cons]
        split
        · exact h2
        · exact hasRedundantJump_cons _ _ h2

theorem withoutRedundantJumps_not_idem (insts : List Inst) (h : hasJumpChain insts = true) :
    withoutRedundantJumps (withoutRedundantJumps insts) ≠ withoutRedundantJumps insts := by
  intro heq
  have hlt := withoutRedundantJumps_length_lt _ (hasRedundantJump_of_chain insts h)
  rw [heq] at hlt
  exact Nat.lt_irrefl _ hlt

/-- C3 (amended): the redundant-jump rewrite is idempotent exactly on the
instruction lists that have no two adjacent `J` with one target immediately
followed by the `LABEL` of that target: on such a list applying the rewrite
twice yields the same list as applying it once, and on every other list the
second application removes one more jump. -/
theorem C3_idempotent_iff_no_jump_chain (uses : Opr → Nat) (insts : List Inst) :
    redundantBranchPass uses (redundantBranchPass uses insts) =
      redundantBranchPass uses insts ↔ hasJumpChain insts = false := by
  rw [redundantBranchPass_eq, redundantBranchPass_eq]
  constructor
  · intro heq
    by_contra hc
    exact withoutRedundantJumps_not_idem insts (by simpa using hc) heq
  · exact withoutRedundantJumps_idem insts

theorem C3_idempotent_iff_no_jump_chain_witness :
    redundantBranchPass (fun _ => 2)
        (redundantBranchPass (fun _ => 2)
          [⟨OpCode.MV, [Opr.vreg 0, Opr.reg 10]⟩, ⟨OpCode.J, [Opr.label (LabelName.anon 1)]⟩,
            ⟨OpCode.LABEL, [Opr.label (LabelName.anon 1)]⟩, ⟨OpCode.RET, []⟩]) =
      redundantBranchPass (fun _ => 2)
        [⟨OpCode.MV, [Opr.vreg 0, Opr.reg 10]⟩, ⟨OpCode.J, [Opr.label (LabelName.anon 1)]⟩,
          ⟨OpCode.LABEL, [Opr.label (LabelName.anon 1)]⟩, ⟨OpCode.RET, []⟩] :=
  (C3_idempotent_iff_no_jump_chain (fun _ => 2) _).mpr (by decide)

theorem refCount_append (o : Opr) (a b : List Inst) :
    refCount o (a ++ b) = refCount o a + refCount o b := by
  simp [refCount, List.countP_append]

theorem refCount_cons (o : Opr) (i : Inst) (l : List Inst) :
    refCount o (i :: l) = refCount o l + (if o ∈ i.oprs then 1 else 0) := by
  simp [refCount, List.countP_cons]

theorem release_refCount_at (uses : Opr → Nat) (a b : List Inst) (i : Inst) (o : Opr)
    (ho : uses o = refCount o (a ++ i :: b)) :
    release uses i o = refCount o (a ++ b) := by
  rw [refCount_append, refCount_cons] at ho
  rw [refCount_append]
  unfold release
  split <;> rename_i hm <;> simp [hm] at ho <;> omega

theorem release_refCount (uses : Opr → Nat) (a b : List Inst) (i : Inst)
    (h : ∀ o, uses o = refCount o (a ++ i :: b)) :
    ∀ o, release uses i o = refCount o (a ++ b) :=
  fun o => release_refCount_at uses a b i o (h o)

/-- The first loop keeps the use count of an operand equal to its reference count
in the list, whatever the counts of the other operands are. -/
theorem removeRedundantBranches_uses_at (o : Opr) (rest : List Inst) :
    ∀ (l : Inst) (b : List Inst) (uses : Opr → Nat),
      uses o = refCount o (b.reverse ++ l :: rest) →
      (removeRedundantBranches (some l) (l :: b) uses rest).2 o =
        refCount o (removeRedundantBranches (some l) (l :: b) uses rest).1 := by
  induction rest with
  | nil => intro l b uses h; simpa [removeRedundantBranches] using h
  | cons cur rest ih =>
    intro l b uses h
    by_cases hc : l.opcode = OpCode.J ∧ cur.opcode = OpCode.LABEL ∧ l.opr0 = cur.opr0
    · simp only [removeRedundantBranches, hc, and_self, if_true, List.tail_cons]
      exact ih cur b (release uses l) (release_refCount_at uses b.reverse (cur :: rest) l o h)
    · simp only [removeRedundantBranches, hc, if_false]
      apply ih cur (l :: b) uses
      simpa using h

/-- The first loop keeps the use counts equal to the reference counts of the list. -/
theorem removeRedundantBranches_uses (rest : List Inst) :
    ∀ (l : Inst) (b : List Inst) (uses : Opr → Nat),
      (∀ o, uses o = refCount o (b.reverse ++ l :: rest)) →
      ∀ o, (removeRedundantBranches (some l) (l :: b) uses rest).2 o =
        refCount o (removeRedundantBranches (some l) (l :: b) uses rest).1 :=
  fun l b uses h o => removeRedundantBranches_uses_at o rest l b uses (h o)

theorem redundantBranchPass_uses_at (uses : Opr → Nat) (insts : List Inst) (o : Opr)
    (h : uses o = refCount o insts) :
    (removeRedundantBranches none [] uses insts).2 o =
      refCount o (redundantBranchPass uses insts) := by
  cases insts with
  | nil => simpa [redundantBranchPass, removeRedundantBranches] using h
  | cons i r =>
    have h2 := removeRedundantBranches_uses_at o r i [] uses (by simpa using h)
    simpa [redundantBranchPass, removeRedundantBranches] using h2

theorem redundantBranchPass_uses (uses : Opr → Nat) (insts : List Inst)
    (h : ∀ o, uses o = refCount o insts) :
    ∀ o, (removeRedundantBranches none [] uses insts).2 o =
      refCount o (redundantBranchPass uses insts) :=
  fun o => redundantBranchPass_uses_at uses insts o (h o)

theorem removeUnusedLabels_append (pre : List Inst) :
    ∀ (uses : Opr → Nat) (s : List Inst),
      removeUnusedLabels uses (pre ++ s) =
        removeUnusedLabels uses pre ++ removeUnusedLabels (usesAfterLabels uses pre) s := by
  induction pre with
  | nil => intro uses s; rfl
  | cons cur pre ih =>
    intro uses s
    by_cases hc : cur.opcode = OpCode.LABEL ∧ cur.opr0.map uses = some 1
    · rw [List.cons_append]
      simp only [removeUnusedLabels, usesAfterLabels, hc, and_self, if_true]
      exact ih _ _
    · rw [List.cons_append]
      simp only [removeUnusedLabels, usesAfterLabels, hc, if_false, List.cons_append]
      rw [ih]

theorem removeUnusedLabels_subset (l : List Inst) :
    ∀ (uses : Opr → Nat) (j : Inst), j ∈ removeUnusedLabels uses l → j ∈ l := by
  induction l with
  | nil => intro uses j h; simp [removeUnusedLabels] at h
  | cons cur l ih =>
    intro uses j h
    by_cases hc : cur.opcode = OpCode.LABEL ∧ cur.opr0.map uses = some 1
    · simp only [removeUnusedLabels, hc, and_self, if_true] at h
      exact List.mem_cons_of_mem _ (ih _ j h)
    · simp only [removeUnusedLabels, hc, if_false, List.mem_cons] at h
      rcases h with h | h
      · simp [h]
      · exact List.mem_cons_of_mem _ (ih _ j h)

/-- The second loop keeps the use count of an operand equal to its reference
count in the current list (what it kept of `pre`, in front of the part `s` not
yet walked), whatever the counts of the other operands are. -/
theorem usesAfterLabels_refCount_at (o : Opr) (pre : List Inst) :
    ∀ (uses : Opr → Nat) (done s : List Inst),
      uses o = refCount o (done ++ (pre ++ s)) →
      usesAfterLabels uses pre o =
        refCount o (done ++ (removeUnusedLabels uses pre ++ s)) := by
  induction pre with
  | nil => intro uses done s h; simpa [usesAfterLabels, removeUnusedLabels] using h
  | cons cur pre ih =>
    intro uses done s h
    by_cases hc : cur.opcode = OpCode.LABEL ∧ cur.opr0.map uses = some 1
    · simp only [removeUnusedLabels, usesAfterLabels, hc, and_self, if_true]
      exact ih (release uses cur) done s (release_refCount_at uses done (pre ++ s) cur o h)
    · simp only [removeUnusedLabels, usesAfterLabels, hc, if_false]
      have h2 := ih uses (done ++ [cur]) s (by simpa using h)
      simpa using h2

/-- The second loop keeps the use counts equal to the reference counts of the
current list: what it kept of `pre`, in front of the part `s` not yet walked. -/
theorem usesAfterLabels_refCount (pre : List Inst) :
    ∀ (uses : Opr → Nat) (done s : List Inst),
      (∀ o, uses o = refCount o (done ++ (pre ++ s))) →
      ∀ o, usesAfterLabels uses pre o =
        refCount o (done ++ (removeUnusedLabels uses pre ++ s)) :=
  fun uses done s h o => usesAfterLabels_refCount_at o pre uses done s (h o)

/-- C2: take any `LABEL` instruction `x` with label `o` that the second loop of
`RunOn` reaches (after `pre`, before `post`), in a list where the use count of
the label `o` equals the number of instructions that hold `o`; nothing is
assumed of the counts of the other operands, registers included. The use count
of `o` at that moment is the number of instructions of the current list that
hold `o`; `x` is kept when that count is not 1; and when it is 1, `x` is removed
and no instruction of the output of `RunOn` holds `o` as an operand. -/
theorem C2_label_removed_only_when_unreferenced (uses : Opr → Nat)
    (insts pre post : List Inst) (x : Inst) (o : Opr)
    (hc : uses o = refCount o insts)
    (hs : redundantBranchPass uses insts = pre ++ x :: post)
    (hx : x.opcode = OpCode.LABEL) (ho : x.opr0 = some o) :
    usesAfterLabels (removeRedundantBranches none [] uses insts).2 pre o =
        refCount o
          (removeUnusedLabels (removeRedundantBranches none [] uses insts).2 pre ++ x :: post) ∧
      (usesAfterLabels (removeRedundantBranches none [] uses insts).2 pre o ≠ 1 →
        RunOn uses insts =
          removeUnusedLabels (removeRedundantBranches none [] uses insts).2 pre ++
            x :: removeUnusedLabels
              (usesAfterLabels (removeRedundantBranches none [] uses insts).2 pre) post) ∧
      (usesAfterLabels (removeRedundantBranches none [] uses insts).2 pre o = 1 →
        RunOn uses insts =
          removeUnusedLabels (removeRedundantBranches none [] uses insts).2 pre ++
            removeUnusedLabels
              (release (usesAfterLabels (removeRedundantBranches none [] uses insts).2 pre) x)
              post ∧
        ∀ j ∈ RunOn uses insts, o ∉ j.oprs) := by
  have h1 := redundantBranchPass_uses_at uses insts o hc
  rw [hs] at h1
  have hrun : RunOn uses insts =
      removeUnusedLabels (removeRedundantBranches none [] uses insts).2 (pre ++ x :: post) := by
    show removeUnusedLabels _ (redundantBranchPass uses insts) = _
    rw [hs]
  generalize (removeRedundantBranches none [] uses insts).2 = u1 at h1 hrun ⊢
  have hinv := usesAfterLabels_refCount_at o pre u1 [] (x :: post) (by simpa using h1)
  simp only [List.nil_append] at hinv
  rw [removeUnusedLabels_append] at hrun
  refine ⟨hinv, ?_, ?_⟩
  · intro hne
    rw [hrun]
    simp [removeUnusedLabels, hx, ho, hne]
  · intro heq
    have hrun2 : RunOn uses insts = removeUnusedLabels u1 pre ++
        removeUnusedLabels (release (usesAfterLabels u1 pre) x) post := by
      rw [hrun]
      simp [removeUnusedLabels, hx, ho, heq]
    refine ⟨hrun2, ?_⟩
    intro j hj
    have hcount := hinv
    have hox : o ∈ x.oprs := by
      unfold Inst.opr0 at ho
      exact List.mem_of_mem_head? (by rw [ho]; rfl)
    rw [heq, refCount_append, refCount_cons, if_pos hox] at hcount
    have hA : refCount o (removeUnusedLabels u1 pre) = 0 := by omega
    have hP : refCount o post = 0 := by omega
    rw [hrun2, List.mem_append] at hj
    rcases hj with hj | hj
    · have := (List.countP_eq_zero.mp hA) j hj
      simpa using this
    · have hj2 := removeUnusedLabels_subset post _ j hj
      have := (List.countP_eq_zero.mp hP) j hj2
      simpa using this

theorem C2_label_removed_only_when_unreferenced_witness :
    (fun o => if o = Opr.reg 10 then 7 else refCount o
        [⟨OpCode.LABEL, [Opr.label (LabelName.anon 0)]⟩, ⟨OpCode.J, [Opr.label (LabelName.anon 1)]⟩,
          ⟨OpCode.LABEL, [Opr.label (LabelName.anon 1)]⟩,
          ⟨OpCode.MV, [Opr.reg 10, Opr.imm 0]⟩, ⟨OpCode.RET, []⟩])
        (Opr.label (LabelName.anon 1)) =
      refCount (Opr.label (LabelName.anon 1))
        [⟨OpCode.LABEL, [Opr.label (LabelName.anon 0)]⟩, ⟨OpCode.J, [Opr.label (LabelName.anon 1)]⟩,
          ⟨OpCode.LABEL, [Opr.label (LabelName.anon 1)]⟩,
          ⟨OpCode.MV, [Opr.reg 10, Opr.imm 0]⟩, ⟨OpCode.RET, []⟩] ∧
    (fun o => if o = Opr.reg 10 then 7 else refCount o
        [⟨OpCode.LABEL, [Opr.label (LabelName.anon 0)]⟩, ⟨OpCode.J, [Opr.label (LabelName.anon 1)]⟩,
          ⟨OpCode.LABEL, [Opr.label (LabelName.anon 1)]⟩,
          ⟨OpCode.MV, [Opr.reg 10, Opr.imm 0]⟩, ⟨OpCode.RET, []⟩])
        (Opr.reg 10) ≠
      refCount (Opr.reg 10)
        [⟨OpCode.LABEL, [Opr.label (LabelName.anon 0)]⟩, ⟨OpCode.J, [Opr.label (LabelName.anon 1)]⟩,
          ⟨OpCode.LABEL, [Opr.label (LabelName.anon 1)]⟩,
          ⟨OpCode.MV, [Opr.reg 10, Opr.imm 0]⟩, ⟨OpCode.RET, []⟩] ∧
    redundantBranchPass (fun o => if o = Opr.reg 10 then 7 else refCount o
        [⟨OpCode.LABEL, [Opr.label (LabelName.anon 0)]⟩, ⟨OpCode.J, [Opr.label (LabelName.anon 1)]⟩,
          ⟨OpCode.LABEL, [Opr.label (LabelName.anon 1)]⟩,
          ⟨OpCode.MV, [Opr.reg 10, Opr.imm 0]⟩, ⟨OpCode.RET, []⟩])
        [⟨OpCode.LABEL, [Opr.label (LabelName.anon 0)]⟩, ⟨OpCode.J, [Opr.label (LabelName.anon 1)]⟩,
          ⟨OpCode.LABEL, [Opr.label (LabelName.anon 1)]⟩,
          ⟨OpCode.MV, [Opr.reg 10, Opr.imm 0]⟩, ⟨OpCode.RET, []⟩] =
      [⟨OpCode.LABEL, [Opr.label (LabelName.anon 0)]⟩] ++
        ⟨OpCode.LABEL, [Opr.label (LabelName.anon 1)]⟩ ::
          [⟨OpCode.MV, [Opr.reg 10, Opr.imm 0]⟩, ⟨OpCode.RET, []⟩] ∧
    ∀ j ∈ RunOn (fun o => if o = Opr.reg 10 then 7 else refCount o
        [⟨OpCode.LABEL, [Opr.label (LabelName.anon 0)]⟩, ⟨OpCode.J, [Opr.label (LabelName.anon 1)]⟩,
          ⟨OpCode.LABEL, [Opr.label (LabelName.anon 1)]⟩,
          ⟨OpCode.MV, [Opr.reg 10, Opr.imm 0]⟩, ⟨OpCode.RET, []⟩])
        [⟨OpCode.LABEL, [Opr.label (LabelName.anon 0)]⟩, ⟨OpCode.J, [Opr.label (LabelName.anon 1)]⟩,
          ⟨OpCode.LABEL, [Opr.label (LabelName.anon 1)]⟩,
          ⟨OpCode.MV, [Opr.reg 10, Opr.imm 0]⟩, ⟨OpCode.RET, []⟩],
      Opr.label (LabelName.anon 1) ∉ j.oprs :=
  ⟨by decide, by decide, by decide,
    ((C2_label_removed_only_when_unreferenced _ _ [⟨OpCode.LABEL, [Opr.label (LabelName.anon 0)]⟩]
      [⟨OpCode.MV, [Opr.reg 10, Opr.imm 0]⟩, ⟨OpCode.RET, []⟩]
      ⟨OpCode.LABEL, [Opr.label (LabelName.anon 1)]⟩
      (Opr.label (LabelName.anon 1)) (by decide) (by decide) rfl rfl).2.2 (by decide)).2⟩

end BranchEliminationPass

/-! ### The generator monad and the sequence maps -/

theorem toInt32_of_bounds (v : Int) (h1 : -2147483648 ≤ v) (h2 : v < 2147483648) :
    toInt32 v = v := by
  unfold toInt32
  omega

theorem toInt32_of_lt (n : Nat) (h : n < 2147483648) : toInt32 (n : Int) = (n : Int) :=
  toInt32_of_bounds _ (by omega) (by omega)

@[simp]
theorem toInt32_zero : toInt32 0 = 0 := by decide

@[simp]
theorem toInt32_255 : toInt32 255 = 255 := by decide

/-- The conversion keeps the value modulo `2 ^ 32`. -/
theorem toInt32_emod (v : Int) : toInt32 v % 4294967296 = v % 4294967296 := by
  unfold toInt32
  omega

theorem toInt32_bounds (v : Int) : -2147483648 ≤ toInt32 v ∧ toInt32 v < 2147483648 := by
  unfold toInt32
  omega

@[simp]
theorem GetImm_zero : GetImm 0 = some (Opr.imm 0) := by
  simp [GetImm]

@[simp]
theorem Gen.bind_apply {α β : Type} (m : Gen α) (f : α → Gen β) (st : GenState) :
    (m >>= f) st = match m st with
      | none => none
      | some (a, st') => f a st' := rfl

@[simp]
theorem Gen.pure_apply {α : Type} (a : α) (st : GenState) :
    (Pure.pure a : Gen α) st = some (a, st) := rfl

@[simp]
theorem Gen.pure_apply' {α : Type} (a : α) (st : GenState) :
    (Gen.pure a : Gen α) st = some (a, st) := rfl

@[simp]
theorem Gen.fail_apply {α : Type} (st : GenState) : (Gen.fail : Gen α) st = none := rfl

@[simp]
theorem Gen.assert_apply (c : Bool) (st : GenState) :
    Gen.assert c st = if c then some ((), st) else none := rfl

@[simp]
theorem Gen.deref_some {α : Type} (a : α) (st : GenState) :
    Gen.deref (some a) st = some (a, st) := rfl

@[simp]
theorem Gen.deref_none {α : Type} (st : GenState) :
    Gen.deref (none : Option α) st = none := rfl

@[simp]
theorem Gen.get_apply (st : GenState) : Gen.get st = some (st, st) := rfl

theorem InstSeqMap.find?_push (m : InstSeqMap) (label l : LabelName) (i : Inst) :
    (m.push label i).find? l =
      if l = label then (m.find? l).map (fun info => ⟨info.link, info.insts ++ [i]⟩)
      else m.find? l := by
  induction m with
  | nil => simp [InstSeqMap.push, InstSeqMap.find?]
  | cons e m ih =>
    unfold InstSeqMap.push InstSeqMap.find? at ih ⊢
    rw [List.map_cons, List.find?_cons, List.find?_cons]
    have hk : (if (e.1 == label) = true then
        (e.1, (⟨e.2.link, e.2.insts ++ [i]⟩ : InstSeqInfo)) else e).1 = e.1 := by
      split <;> rfl
    rw [hk]
    by_cases h3 : e.1 = l
    · have hb : (e.1 == l) = true := by simp [h3]
      simp only [hb]
      by_cases h2 : l = label
      · have hb2 : (e.1 == label) = true := by simp [h3, h2]
        simp [hb2, h2]
      · have hb2 : (e.1 == label) = false := by simp [h3, h2]
        simp [hb2, h2]
    · have hb : (e.1 == l) = false := by simp [h3]
      simp only [hb]
      exact ih

theorem GenState.push_curInsts (st : GenState) (i : Inst) (h : st.hasCur = true) :
    (st.push i).curInsts = st.curInsts ++ [i] := by
  unfold GenState.hasCur at h
  unfold GenState.push GenState.curInsts
  cases hc : st.cur with
  | none => simp [hc] at h
  | some c =>
    obtain ⟨isMem, label⟩ := c
    simp only [hc] at h
    cases isMem
    · simp only [GenState.seqs, GenState.emit, if_false, Bool.false_eq_true] at h ⊢
      simp only [hc, InstSeqMap.find?_push, if_true]
      cases hf : InstSeqMap.find? st.funcs label <;> simp [hf, InstSeqMap.find?_push] at h ⊢
    · simp only [GenState.seqs, GenState.emit, if_true] at h ⊢
      simp only [hc, InstSeqMap.find?_push, if_true]
      cases hf : InstSeqMap.find? st.mems label <;> simp [hf, InstSeqMap.find?_push] at h ⊢

theorem GenState.push_hasCur (st : GenState) (i : Inst) :
    (st.push i).hasCur = st.hasCur := by
  unfold GenState.push GenState.hasCur
  cases hc : st.cur with
  | none => simp [hc]
  | some c =>
    obtain ⟨isMem, label⟩ := c
    cases isMem
    · simp only [GenState.seqs, GenState.emit, if_false, Bool.false_eq_true]
      simp only [hc, InstSeqMap.find?_push, if_true]
      cases hf : InstSeqMap.find? st.funcs label <;> simp [hf, InstSeqMap.find?_push]
    · simp only [GenState.seqs, GenState.emit, if_true]
      simp only [hc, InstSeqMap.find?_push, if_true]
      cases hf : InstSeqMap.find? st.mems label <;> simp [hf, InstSeqMap.find?_push]

theorem PushInst_apply (st : GenState) (opcode : OpCode) (oprs : List OprPtr) (os : List Opr)
    (h : st.hasCur = true) (ho : derefAll oprs = some os) :
    PushInst opcode oprs st = some ((), st.push ⟨opcode, os⟩) := by
  unfold GenState.hasCur at h
  unfold PushInst GenState.push
  cases hc : st.cur with
  | none => simp [hc] at h
  | some c =>
    obtain ⟨isMem, label⟩ := c
    simp only [hc] at h
    simp [ho, h]

theorem GenState.hasCur_iff (st : GenState) :
    st.hasCur = true ↔
      ∃ isMem label info, st.cur = some (isMem, label) ∧
        (st.seqs isMem).find? label = some info := by
  unfold GenState.hasCur
  cases hc : st.cur with
  | none => simp
  | some c =>
    obtain ⟨isMem, label⟩ := c
    simp only [Option.isSome_iff_exists, Option.some.injEq, Prod.mk.injEq]
    constructor
    · rintro ⟨info, h⟩; exact ⟨isMem, label, info, ⟨rfl, rfl⟩, h⟩
    · rintro ⟨m, l, info, ⟨rfl, rfl⟩, h⟩; exact ⟨info, h⟩

theorem GenState.push_metadata (st : GenState) (i : Inst) :
    (st.push i).metadata = st.metadata := by
  unfold GenState.push GenState.emit
  cases st.cur with
  | none => rfl
  | some c => obtain ⟨m, l⟩ := c; cases m <;> rfl

theorem GenState.push_vreg_fact_ (st : GenState) (i : Inst) :
    (st.push i).vreg_fact_ = st.vreg_fact_ := by
  unfold GenState.push GenState.emit
  cases st.cur with
  | none => rfl
  | some c => obtain ⟨m, l⟩ := c; cases m <;> rfl

theorem GenState.push_args_ (st : GenState) (i : Inst) :
    (st.push i).args_ = st.args_ := by
  unfold GenState.push GenState.emit
  cases st.cur with
  | none => rfl
  | some c => obtain ⟨m, l⟩ := c; cases m <;> rfl

theorem GenState.push_cur (st : GenState) (i : Inst) :
    (st.push i).cur = st.cur := by
  unfold GenState.push GenState.emit
  cases hc : st.cur with
  | none => simp [hc]
  | some c => obtain ⟨m, l⟩ := c; cases m <;> simp [hc]

theorem GenState.pushAll_hasCur (l : List Inst) :
    ∀ st : GenState, (st.pushAll l).hasCur = st.hasCur := by
  induction l with
  | nil => intro st; rfl
  | cons i l ih =>
    intro st
    show ((st.push i).pushAll l).hasCur = st.hasCur
    rw [ih, GenState.push_hasCur]

theorem GenState.pushAll_curInsts (l : List Inst) :
    ∀ st : GenState, st.hasCur = true → (st.pushAll l).curInsts = st.curInsts ++ l := by
  induction l with
  | nil => intro st _; simp [GenState.pushAll]
  | cons i l ih =>
    intro st h
    show ((st.push i).pushAll l).curInsts = _
    rw [ih _ (by rw [GenState.push_hasCur]; exact h), GenState.push_curInsts st i h]
    simp

theorem GenState.pushAll_metadata (l : List Inst) :
    ∀ st : GenState, (st.pushAll l).metadata = st.metadata := by
  induction l with
  | nil => intro st; rfl
  | cons i l ih =>
    intro st
    show ((st.push i).pushAll l).metadata = _
    rw [ih, GenState.push_metadata]

theorem GenState.pushAll_vreg_fact_ (l : List Inst) :
    ∀ st : GenState, (st.pushAll l).vreg_fact_ = st.vreg_fact_ := by
  induction l with
  | nil => intro st; rfl
  | cons i l ih =>
    intro st
    show ((st.push i).pushAll l).vreg_fact_ = _
    rw [ih, GenState.push_vreg_fact_]

theorem GenState.pushAll_append (st : GenState) (a b : List Inst) :
    st.pushAll (a ++ b) = (st.pushAll a).pushAll b := by
  simp [GenState.pushAll, List.foldl_append]

theorem GetOprWith_hit (id : Nat) (gen : Gen OprPtr) (st : GenState) (o : OprPtr)
    (h : st.metadata id = some o) : GetOprWith id gen st = some (o, st) := by
  simp [GetOprWith, h]

theorem InstSeqMap.find?_enter (m : InstSeqMap) (label l : LabelName) (link : LinkageTypes) :
    (m.enter label link).find? l =
      if l = label then some ((m.find? label).getD ⟨link, []⟩) else m.find? l := by
  unfold InstSeqMap.enter
  by_cases h : l = label
  · subst h
    cases hf : InstSeqMap.find? m l with
    | some info => simp [hf]
    | none =>
      simp only [hf, Option.isSome_none, Bool.false_eq_true, if_false, if_true, Option.getD_none]
      unfold InstSeqMap.find? at hf ⊢
      rw [List.find?_append]
      simp only [Option.map_eq_none'] at hf
      simp [hf]
  · cases hf : InstSeqMap.find? m label with
    | some info => simp [hf, h]
    | none =>
      simp only [hf, Option.isSome_none, Bool.false_eq_true, if_false, h]
      unfold InstSeqMap.find?
      rw [List.find?_append]
      have : ¬ label = l := fun e => h e.symm
      cases List.find? (fun e => e.1 == l) m <;> simp [this]

theorem EnterInstSeq_apply (isMem : Bool) (label : LabelName) (link : LinkageTypes)
    (st : GenState) :
    EnterInstSeq isMem label link st = some (st.cur, st.enter isMem label link) := by
  unfold EnterInstSeq GenState.enter
  cases isMem <;> rfl

theorem GenState.enter_hasCur (st : GenState) (isMem : Bool) (label : LabelName)
    (link : LinkageTypes) : (st.enter isMem label link).hasCur = true := by
  unfold GenState.enter GenState.hasCur
  cases isMem <;> simp [GenState.seqs, InstSeqMap.find?_enter]

theorem GenState.enter_curInsts_func (st : GenState) (label : LabelName) (link : LinkageTypes) :
    (st.enter false label link).curInsts = st.funcInsts label := by
  unfold GenState.enter GenState.curInsts GenState.funcInsts
  simp only [Bool.false_eq_true, if_false, GenState.seqs, InstSeqMap.find?_enter, if_true]
  cases InstSeqMap.find? st.funcs label <;> rfl

/-! ### Struct field access -/

theorem add_pred_div_eq_ceil (a b : Nat) (hb : 0 < b) :
    (a + b - 1) / b = ⌈(a : ℚ) / (b : ℚ)⌉₊ := by
  apply eq_of_forall_ge_iff
  intro c
  have h1 : (a + b - 1) / b ≤ c ↔ a ≤ b * c := by
    rw [← Nat.ceilDiv_eq_add_pred_div]
    exact ceilDiv_le_iff_le_mul hb
  have hbq : (0 : ℚ) < (b : ℚ) := by exact_mod_cast hb
  rw [h1, Nat.ceil_le, div_le_iff₀ hbq]
  constructor
  · intro h; exact_mod_cast (by rw [Nat.mul_comm] at h; exact h : a ≤ c * b)
  · intro h
    have h2 : a ≤ c * b := by exact_mod_cast h
    rw [Nat.mul_comm]; exact h2

theorem structOffset_eq (elems : List Ty) (size align : Nat) (halign : 0 < align) :
    ∀ i, i ≤ elems.length →
      structOffset (Ty.struct elems size align) align i =
        some (((elems.take i).map
          (fun t => align * ((t.GetSize + align - 1) / align))).sum) := by
  intro i
  induction i with
  | zero => intro _; simp [structOffset]
  | succ i ih =>
    intro hi
    have hlt : i < elems.length := hi
    rw [structOffset, ih (Nat.le_of_lt hlt)]
    have hget : (Ty.struct elems size align).GetElem i = some (elems.get ⟨i, hlt⟩) := by
      simp [Ty.GetElem, List.get?_eq_get hlt]
    rw [hget]
    have hne : align ≠ 0 := Nat.pos_iff_ne_zero.mp halign
    simp only [hne, if_false, Option.some.injEq]
    rw [List.take_succ, List.getElem?_eq_getElem hlt, List.map_append, List.sum_append]
    rfl

/-- C5 (amended): for a struct with alignment `align > 0` and a constant field
index `i` not above the number of fields, let `GetOpr` lower the base address to
`pv`, leaving the state `s1` in a function body. Then `GenerateOn(AccessSSA)`
emits exactly one instruction, the `LEA` of a fresh virtual register from `pv`,
whose immediate offset is the sum over the fields `j < i` of
`align * ceil(size_j / align)` converted to a signed 32-bit integer, as every
immediate is. Whenever that sum is below `2 ^ 31` the offset is the sum itself;
for `i = 0` the sum is empty, so the offset is 0. No scaling instruction is
emitted. -/
theorem C5_struct_field_offset (st s1 : GenState) (id iid : Nat) (type ity : Ty) (ptr : SSA)
    (pv : Opr) (elems : List Ty) (size align i : Nat)
    (hptr : GetOpr ptr st = some (some pv, s1))
    (hcur : s1.hasCur = true) (hg : s1.in_global_ = 0)
    (hty : ptr.type = Ty.pointer (Ty.struct elems size align))
    (halign : 0 < align) (hi : i ≤ elems.length) :
    (∃ st', GenerateOn (SSA.access id type AccessType.Element ptr (SSA.constInt iid ity i)) st =
        some (some (Opr.vreg s1.vreg_fact_), st') ∧
      st'.curInsts = s1.curInsts ++
        [⟨OpCode.LEA, [Opr.vreg s1.vreg_fact_, pv,
          Opr.imm (toInt32 (((elems.take i).map
            (fun t => align * ⌈(t.GetSize : ℚ) / (align : ℚ)⌉₊)).sum : Nat))]⟩]) ∧
    (((elems.take i).map (fun t => align * ⌈(t.GetSize : ℚ) / (align : ℚ)⌉₊)).sum < 2147483648 →
      ∃ st', GenerateOn (SSA.access id type AccessType.Element ptr (SSA.constInt iid ity i)) st =
          some (some (Opr.vreg s1.vreg_fact_), st') ∧
        st'.curInsts = s1.curInsts ++
          [⟨OpCode.LEA, [Opr.vreg s1.vreg_fact_, pv,
            Opr.imm (((elems.take i).map
              (fun t => align * ⌈(t.GetSize : ℚ) / (align : ℚ)⌉₊)).sum : Nat)]⟩]) ∧
    (i = 0 → toInt32 (((elems.take i).map
      (fun t => align * ⌈(t.GetSize : ℚ) / (align : ℚ)⌉₊)).sum : Nat) = 0) := by
  have hoff := structOffset_eq elems size align halign i hi
  have hsum : ((elems.take i).map (fun t => align * ((t.GetSize + align - 1) / align))).sum =
      ((elems.take i).map (fun t => align * ⌈(t.GetSize : ℚ) / (align : ℚ)⌉₊)).sum := by
    congr 1
    apply List.map_congr_left
    intro t _
    rw [add_pred_div_eq_ceil _ _ halign]
  rw [hsum] at hoff
  have hmain : ∃ st', GenerateOn (SSA.access id type AccessType.Element ptr
        (SSA.constInt iid ity i)) st = some (some (Opr.vreg s1.vreg_fact_), st') ∧
      st'.curInsts = s1.curInsts ++
        [⟨OpCode.LEA, [Opr.vreg s1.vreg_fact_, pv,
          Opr.imm (toInt32 (((elems.take i).map
            (fun t => align * ⌈(t.GetSize : ℚ) / (align : ℚ)⌉₊)).sum : Nat))]⟩] := by
    obtain ⟨isMem, label, info, hc, hf⟩ := (GenState.hasCur_iff s1).mp hcur
    have hid : (SSA.constInt iid ity i).id = iid := rfl
    unfold GetOpr at hptr
    rw [GenerateOn, GenerateOnAccess, hid]
    simp only [Gen.bind_apply, hptr]
    cases hm : s1.metadata iid with
    | some o =>
      cases isMem <;> simp only [GenState.seqs, if_true, if_false, Bool.false_eq_true] at hf <;>
      simp [GetOprWith, hty, Ty.GetDerefedType, Ty.IsStruct, SSA.constIntValue,
        Ty.GetAlignSize, hoff, GetVReg, hm, GetImm, PushInst, derefAll, GenState.seqs, hc, hf,
        GenState.curInsts, GenState.emit, InstSeqMap.find?_push]
    | none =>
      cases isMem <;> simp only [GenState.seqs, if_true, if_false, Bool.false_eq_true] at hf <;>
      simp [GetOprWith, hty, Ty.GetDerefedType, Ty.IsStruct, SSA.constIntValue,
        Ty.GetAlignSize, hoff, GetVReg, hm, GetImm, PushInst, derefAll, GenState.seqs, hc, hf,
        GenState.curInsts, GenState.emit, InstSeqMap.find?_push, GenerateOn, GenerateOnConstInt,
        hg, set_metadata]
  refine ⟨hmain, fun hlt => ?_, fun h0 => ?_⟩
  · rw [toInt32_of_lt _ hlt] at hmain
    exact hmain
  · subst h0
    simp

theorem C5_struct_field_offset_witness :
    ∃ st', GenerateOn (SSA.access 2 (Ty.pointer (Ty.int 1 true)) AccessType.Element
          (SSA.alloca 1 (Ty.pointer (Ty.struct [Ty.int 1 true, Ty.int 4 false, Ty.int 1 true] 12 4)))
          (SSA.constInt 3 (Ty.int 4 false) 2))
        (GenState.inside (LabelName.anon 0) (fun _ => none)) =
        some (some (Opr.vreg 0), st') ∧
      st'.curInsts = [] ++
        [⟨OpCode.LEA, [Opr.vreg 0, Opr.frame (LabelName.anon 0) 0,
          Opr.imm (toInt32 ((([Ty.int 1 true, Ty.int 4 false, Ty.int 1 true].take 2).map
            (fun t => 4 * ⌈(t.GetSize : ℚ) / ((4 : Nat) : ℚ)⌉₊)).sum : Nat))]⟩] :=
  (C5_struct_field_offset
    (GenState.inside (LabelName.anon 0) (fun _ => none))
    { GenState.inside (LabelName.anon 0) (fun _ => none) with
      alloc_slots_ := Function.update (fun _ => 0) (LabelName.anon 0) (0 + roundUp4 12),
      metadata := Function.update (fun _ => none) 1
        (some (some (Opr.frame (LabelName.anon 0) 0))) }
    2 3 (Ty.pointer (Ty.int 1 true)) (Ty.int 4 false)
    (SSA.alloca 1 (Ty.pointer (Ty.struct [Ty.int 1 true, Ty.int 4 false, Ty.int 1 true] 12 4)))
    (Opr.frame (LabelName.anon 0) 0) [Ty.int 1 true, Ty.int 4 false, Ty.int 1 true] 12 4 2
    rfl (by decide) rfl rfl (by decide) (by decide)).1

/-- C5 (as stated) fails. The struct has alignment 1 and two fields, an array of
`2 ^ 31` bytes and a 4-byte integer. The sum for field 1 is `2 ^ 31`, which is no
signed 32-bit integer: the `LEA` of the access to field 1 carries the immediate
`-2 ^ 31`. -/
theorem C5_offset_is_32_bit :
    (GenerateOn (SSA.access 2 (Ty.pointer (Ty.int 4 false)) AccessType.Element
        (SSA.argRef 1 (Ty.pointer (Ty.struct
          [Ty.array (Ty.int 1 false) 2147483648, Ty.int 4 false] 2147483652 1)) 0)
        (SSA.constInt 3 (Ty.int 4 false) 1))
        ((GenState.inside (LabelName.anon 0) (fun _ => none)).param 0)).map
        (fun r => (r.1, r.2.curInsts)) =
      some (some (Opr.vreg 1),
        [paramInst 0 (Opr.vreg 0),
          ⟨OpCode.LEA, [Opr.vreg 1, Opr.vreg 0, Opr.imm (-2147483648)]⟩]) ∧
    structOffset (Ty.struct [Ty.array (Ty.int 1 false) 2147483648, Ty.int 4 false] 2147483652 1)
      1 1 = some 2147483648 := by
  constructor <;> decide!

/-! ### Loads -/

/-- C10: for a Load of a non-aggregate type whose address is not a local Alloca,
let `GetOpr` lower the address to a register or a label `src` (the contract of
the rule), leaving the state `s1` with a current sequence. Then
`GenerateOn(LoadSSA)` returns a fresh virtual register `dest` and emits, when
`src` is a label, exactly one `LEA dest, src, 0` and then the memory access
through `dest`, and otherwise only the memory access through `src`; the opcode
of the memory access is `LBU` for an unsigned type of size 1, `LB` for a signed
type of size 1 and `LW` for every other size. -/
theorem C10_load_opcode (st s1 : GenState) (id : Nat) (type : Ty) (ptr : SSA) (src : Opr)
    (hagg : (type.IsArray || type.IsStruct) = false)
    (halloca : ptr.IsAlloca = false)
    (hptr : GetOpr ptr st = some (some src, s1))
    (hcur : s1.hasCur = true)
    (hsrc : (src.IsReg || src.IsLabel) = true) :
    ∃ st', GenerateOn (SSA.load id type ptr) st = some (some (Opr.vreg s1.vreg_fact_), st') ∧
      st'.curInsts = s1.curInsts ++
        (if src.IsLabel then [⟨OpCode.LEA, [Opr.vreg s1.vreg_fact_, src, Opr.imm 0]⟩] else []) ++
        [⟨if type.GetSize = 1 then (if type.IsUnsigned then OpCode.LBU else OpCode.LB)
            else OpCode.LW,
          [Opr.vreg s1.vreg_fact_, if src.IsLabel then Opr.vreg s1.vreg_fact_ else src]⟩] := by
  obtain ⟨isMem, label, info, hc, hf⟩ := (GenState.hasCur_iff s1).mp hcur
  have hreg : src.IsLabel = false → src.IsReg = true := by
    intro h; simpa [h] using hsrc
  unfold GetOpr at hptr
  rw [GenerateOn, GenerateOnLoad]
  simp only [Gen.bind_apply, hptr]
  cases hl : src.IsLabel <;>
  cases isMem <;> simp only [GenState.seqs, if_true, if_false, Bool.false_eq_true] at hf <;>
  simp [hagg, halloca, hreg, hl, GetVReg, GetImm, PushInst, derefAll,
    GenState.seqs, hc, hf, GenState.curInsts, GenState.emit, InstSeqMap.find?_push]

theorem C10_load_opcode_witness :
    ∃ st', GenerateOn (SSA.load 2 (Ty.int 1 true)
          (SSA.globalVar 1 (Ty.pointer (Ty.int 1 true)) MidLink.External "g" none))
        (GenState.inside (LabelName.anon 0) (fun _ => none)) =
        some (some (Opr.vreg 0), st') ∧
      st'.curInsts = [] ++
        (if (Opr.label (LabelName.named "g")).IsLabel then
          [⟨OpCode.LEA, [Opr.vreg 0, Opr.label (LabelName.named "g"), Opr.imm 0]⟩] else []) ++
        [⟨if (Ty.int 1 true).GetSize = 1 then
            (if (Ty.int 1 true).IsUnsigned then OpCode.LBU else OpCode.LB) else OpCode.LW,
          [Opr.vreg 0, if (Opr.label (LabelName.named "g")).IsLabel then Opr.vreg 0
            else Opr.label (LabelName.named "g")]⟩] :=
  C10_load_opcode
    (GenState.inside (LabelName.anon 0) (fun _ => none))
    { GenState.inside (LabelName.anon 0) (fun _ => none) with
      mems := [(LabelName.named "g", ⟨LinkageTypes.External, [⟨OpCode.ZERO, [Opr.int 1]⟩]⟩)],
      metadata := Function.update (fun _ => none) 1
        (some (some (Opr.label (LabelName.named "g")))) }
    2 (Ty.int 1 true) (SSA.globalVar 1 (Ty.pointer (Ty.int 1 true)) MidLink.External "g" none)
    (Opr.label (LabelName.named "g")) rfl rfl rfl (by decide) rfl

/-! ### Calls -/

theorem GenerateCallArgs_eq (args : List SSA) :
    ∀ (vals : List Opr) (j : Nat) (st : GenState), st.hasCur = true →
      List.Forall₂ (fun a v => st.metadata a.id = some (some v)) args vals →
      GenerateCallArgs args (j + 1) st =
        some ((), st.pushAll ((vals.enumFrom j).map (fun p => callArgInst p.1 p.2))) := by
  induction args with
  | nil =>
    intro vals j st _ h
    cases h
    rfl
  | cons a rest ih =>
    intro vals j st hcur h
    cases h with
    | cons ha hrest =>
      rename_i v vs
      have hrest2 : List.Forall₂ (fun a w => (st.push (callArgInst j v)).metadata a.id =
          some (some w)) rest vs := by
        simpa [GenState.push_metadata] using hrest
      have ih2 := ih vs (j + 1) (st.push (callArgInst j v))
        (by rw [GenState.push_hasCur]; exact hcur) hrest2
      rw [GenerateCallArgs, Gen.bind_apply]
      have hstep : GenerateCallArg (j + 1) (GetOprWith a.id (GenerateOn a)) st =
          some ((), st.push (callArgInst j v)) := by
        unfold GenerateCallArg
        simp only [Gen.bind_apply, GetOprWith_hit _ _ _ _ ha]
        by_cases hj : j < 8
        · have h1 : j + 1 ≤ 8 := hj
          simp only [h1, if_true]
          rw [PushInst_apply st _ _ [Opr.reg (RegName.A0 + j), v] hcur (by simp [GetReg, derefAll])]
          simp [callArgInst, hj]
        · have h1 : ¬ j + 1 ≤ 8 := by omega
          simp only [h1, if_false]
          rw [PushInst_apply st _ _ [v, Opr.slot true (((j - 8) * 4 : Nat) : Int)] hcur
            (by simp [GetSlot, derefAll])]
          simp [callArgInst, hj]
      rw [hstep]
      simp only [ih2]
      rfl

/-- A call whose arguments and callee are already lowered (to the operands
`vals` and `c`): `GetOpr` only reads them back, so the call appends exactly the
argument instructions by position, the `CALL`, and the `MV` from `A0` when the
type is non-void. -/
theorem GenerateOnCall_lowered (st : GenState) (id : Nat) (type : Ty) (callee : SSA)
    (args : List SSA) (vals : List Opr) (c : Opr)
    (hcur : st.hasCur = true)
    (hargs : List.Forall₂ (fun a v => st.metadata a.id = some (some v)) args vals)
    (hcallee : st.metadata callee.id = some (some c)) :
    ∃ st', GenerateOn (SSA.call id type callee args) st =
        some (if type.IsVoid then none else some (Opr.vreg st.vreg_fact_), st') ∧
      st'.curInsts = st.curInsts ++ vals.enum.map (fun p => callArgInst p.1 p.2) ++
        [⟨OpCode.CALL, [c]⟩] ++
        (if type.IsVoid then [] else [⟨OpCode.MV, [Opr.vreg st.vreg_fact_, Opr.reg RegName.A0]⟩])
      := by
  have h1 := GenerateCallArgs_eq args vals 0 st hcur hargs
  have hcur1 : (st.pushAll ((vals.enumFrom 0).map (fun p => callArgInst p.1 p.2))).hasCur = true := by
    rw [GenState.pushAll_hasCur]; exact hcur
  have hc1 : (st.pushAll ((vals.enumFrom 0).map (fun p => callArgInst p.1 p.2))).metadata
      callee.id = some (some c) := by
    rw [GenState.pushAll_metadata]; exact hcallee
  have h2 := PushInst_apply _ OpCode.CALL [some c] [c] hcur1 rfl
  rw [GenerateOn, GenerateOnCall]
  simp only [Gen.bind_apply, zero_add] at h1 ⊢
  rw [h1]
  simp only [GetOprWith_hit _ _ _ _ hc1, h2]
  cases hv : type.IsVoid
  · have hcur2 : ((st.pushAll ((vals.enumFrom 0).map (fun p => callArgInst p.1 p.2))).push
        ⟨OpCode.CALL, [c]⟩).hasCur = true := by
      rw [GenState.push_hasCur]; exact hcur1
    obtain ⟨isMem, label, info, hc, hf⟩ := (GenState.hasCur_iff _).mp hcur2
    have hins := GenState.push_curInsts _ ⟨OpCode.CALL, [c]⟩ hcur1
    rw [GenState.pushAll_curInsts _ _ hcur] at hins
    simp only [GenState.curInsts, hc, hf] at hins
    cases isMem <;> simp only [GenState.seqs, if_true, if_false, Bool.false_eq_true] at hf <;>
    simp [GetVReg, GetReg, PushInst, derefAll, hc, hf, GenState.seqs, GenState.curInsts,
      GenState.emit, InstSeqMap.find?_push, GenState.push_vreg_fact_,
      GenState.pushAll_vreg_fact_, hins, List.enum]
  · refine ⟨(st.pushAll ((vals.enumFrom 0).map (fun p => callArgInst p.1 p.2))).push
      ⟨OpCode.CALL, [c]⟩, by simp, ?_⟩
    rw [GenState.push_curInsts _ _ hcur1, GenState.pushAll_curInsts _ _ hcur]
    simp [List.enum]

theorem PushInst_some (op : OpCode) (oprs : List OprPtr) (s s2 : GenState)
    (h : PushInst op oprs s = some ((), s2)) :
    ∃ os, derefAll oprs = some os ∧ s.hasCur = true ∧ s2 = s.push ⟨op, os⟩ ∧
      s2.curInsts = s.curInsts ++ [⟨op, os⟩] := by
  cases ho : derefAll oprs with
  | none =>
    unfold PushInst at h
    cases hc : s.cur with
    | none => simp [hc] at h
    | some c => simp [hc, ho] at h
  | some os =>
    have hcur : s.hasCur = true := by
      unfold PushInst at h
      unfold GenState.hasCur
      cases hc : s.cur with
      | none => simp [hc] at h
      | some c =>
        obtain ⟨isMem, label⟩ := c
        simp only [hc, ho] at h ⊢
        split at h
        · assumption
        · simp at h
    rw [PushInst_apply s op oprs os hcur ho] at h
    simp only [Option.some.injEq, Prod.mk.injEq, true_and] at h
    subst h
    exact ⟨os, rfl, hcur, rfl, GenState.push_curInsts s _ hcur⟩

theorem GenerateCallArg_some (j : Nat) (getVal : Gen OprPtr) (s s2 : GenState)
    (h : GenerateCallArg (j + 1) getVal s = some ((), s2)) :
    ∃ v s', getVal s = some (some v, s') ∧ s'.hasCur = true ∧
      s2 = s'.push (callArgInst j v) ∧ s2.curInsts = s'.curInsts ++ [callArgInst j v] := by
  unfold GenerateCallArg at h
  simp only [Gen.bind_apply] at h
  cases hg : getVal s with
  | none => simp [hg] at h
  | some x =>
    obtain ⟨val, s'⟩ := x
    simp only [hg] at h
    by_cases hj : j < 8
    · have h1 : j + 1 ≤ 8 := hj
      simp only [h1, if_true] at h
      obtain ⟨os, ho, hcur, hs2, hins⟩ := PushInst_some _ _ _ _ h
      cases val with
      | none => simp [GetReg, derefAll] at ho
      | some v =>
        have hos : os = [Opr.reg (RegName.A0 + j), v] := by
          simp [GetReg, derefAll] at ho
          exact ho.symm
        subst hos
        refine ⟨v, s', rfl, hcur, ?_, ?_⟩
        · rw [hs2]; simp [callArgInst, hj]
        · rw [hins]; simp [callArgInst, hj]
    · have h1 : ¬ j + 1 ≤ 8 := by omega
      simp only [h1, if_false] at h
      obtain ⟨os, ho, hcur, hs2, hins⟩ := PushInst_some _ _ _ _ h
      cases val with
      | none => simp [derefAll] at ho
      | some v =>
        have hos : os = [v, Opr.slot true (((j - 8) * 4 : Nat) : Int)] := by
          simp [GetSlot, derefAll] at ho
          exact ho.symm
        subst hos
        refine ⟨v, s', rfl, hcur, ?_, ?_⟩
        · rw [hs2]; simp [callArgInst, hj]
        · rw [hins]; simp [callArgInst, hj]

theorem GenerateCallArgs_append (l1 l2 : List SSA) :
    ∀ (i : Nat) (st : GenState), GenerateCallArgs (l1 ++ l2) i st =
      match GenerateCallArgs l1 i st with
      | none => none
      | some (_, s) => GenerateCallArgs l2 (i + l1.length) s := by
  induction l1 with
  | nil => intro i st; simp [GenerateCallArgs]
  | cons a rest ih =>
    intro i st
    rw [List.cons_append, GenerateCallArgs, GenerateCallArgs]
    simp only [Gen.bind_apply]
    cases hg : GenerateCallArg i (GetOprWith a.id (GenerateOn a)) st with
    | none => rfl
    | some x =>
      obtain ⟨_, s1⟩ := x
      simp only
      rw [ih (i + 1) s1]
      have e : i + 1 + rest.length = i + (a :: rest).length := by
        simp only [List.length_cons]; omega
      rw [e]

theorem GenerateCallArgs_round (args : List SSA) (st sk : GenState)
    (hrun : GenerateCallArgs args 1 st = some ((), sk)) (j : Nat) (hj : j < args.length) :
    ∃ s v s', GenerateCallArgs (args.take j) 1 st = some ((), s) ∧
      GetOpr args[j] s = some (some v, s') ∧ s'.hasCur = true ∧
      GenerateCallArgs (args.take (j + 1)) 1 st = some ((), s'.push (callArgInst j v)) ∧
      (s'.push (callArgInst j v)).curInsts = s'.curInsts ++ [callArgInst j v] := by
  have hsplit : args = args.take j ++ (args[j] :: args.drop (j + 1)) := by
    rw [← List.drop_eq_getElem_cons hj, List.take_append_drop]
  have htake : args.take (j + 1) = args.take j ++ [args[j]] := by
    rw [List.take_succ, List.getElem?_eq_getElem hj]
    rfl
  have hlen : (args.take j).length = j := by
    rw [List.length_take]; omega
  rw [hsplit, GenerateCallArgs_append] at hrun
  cases hpre : GenerateCallArgs (args.take j) 1 st with
  | none => simp [hpre] at hrun
  | some x =>
    obtain ⟨_, s⟩ := x
    simp only [hpre, hlen] at hrun
    rw [GenerateCallArgs] at hrun
    simp only [Gen.bind_apply] at hrun
    cases hround : GenerateCallArg (1 + j) (GetOprWith args[j].id (GenerateOn args[j])) s with
    | none => simp [hround] at hrun
    | some y =>
      obtain ⟨_, s2⟩ := y
      have hround' := hround
      rw [Nat.add_comm 1 j] at hround'
      obtain ⟨v, s', hget, hcur, hs2, hins⟩ := GenerateCallArg_some j _ s s2 hround'
      refine ⟨s, v, s', rfl, hget, hcur, ?_, ?_⟩
      · rw [htake, GenerateCallArgs_append, hpre]
        simp only [hlen]
        rw [GenerateCallArgs, GenerateCallArgs]
        simp only [Gen.bind_apply, hround, Gen.pure_apply, hs2]
      · rw [← hs2]; exact hins

/-- Every run of `GenerateOn(CallSSA)` that returns, round by round: in the state
`s` that the argument loop has reached after its first `j` rounds, `GetOpr`
lowers argument `j` to an operand `v`, leaving `s1`, and the state after
`j + 1` rounds is `s1` with exactly one instruction appended, the `MV` or `SW`
of position `j`; after the loop the callee is lowered to `c`, and the call
appends the `CALL` on `c` and, when the type is non-void, the `MV` from `A0`. -/
theorem GenerateOnCall_rounds (st st' : GenState) (id : Nat) (type : Ty) (callee : SSA)
    (args : List SSA) (r : OprPtr)
    (hrun : GenerateOn (SSA.call id type callee args) st = some (r, st')) :
    (∀ j (hj : j < args.length), ∃ s v s',
        GenerateCallArgs (args.take j) 1 st = some ((), s) ∧
        GetOpr args[j] s = some (some v, s') ∧
        GenerateCallArgs (args.take (j + 1)) 1 st = some ((), s'.push (callArgInst j v)) ∧
        (s'.push (callArgInst j v)).curInsts = s'.curInsts ++ [callArgInst j v]) ∧
    ∃ sk c sc, GenerateCallArgs args 1 st = some ((), sk) ∧
      GetOpr callee sk = some (some c, sc) ∧
      r = (if type.IsVoid then none else some (Opr.vreg sc.vreg_fact_)) ∧
      st'.curInsts = sc.curInsts ++ [⟨OpCode.CALL, [c]⟩] ++
        (if type.IsVoid then []
          else [⟨OpCode.MV, [Opr.vreg sc.vreg_fact_, Opr.reg RegName.A0]⟩]) := by
  rw [GenerateOn, GenerateOnCall] at hrun
  simp only [Gen.bind_apply] at hrun
  cases hargs : GenerateCallArgs args 1 st with
  | none => simp [hargs] at hrun
  | some x =>
    obtain ⟨_, sk⟩ := x
    simp only [hargs] at hrun
    refine ⟨fun j hj => ?_, ?_⟩
    · obtain ⟨s, v, s', h1, h2, _, h3, h4⟩ := GenerateCallArgs_round args st sk hargs j hj
      exact ⟨s, v, s', h1, h2, h3, h4⟩
    · cases hcal : GetOprWith callee.id (GenerateOn callee) sk with
      | none => simp [hcal] at hrun
      | some y =>
        obtain ⟨cv, sc⟩ := y
        simp only [hcal] at hrun
        cases hpush : PushInst OpCode.CALL [cv] sc with
        | none => simp [hpush] at hrun
        | some z =>
          obtain ⟨_, s3⟩ := z
          simp only [hpush] at hrun
          obtain ⟨os, ho, hcur, hs3, hins3⟩ := PushInst_some _ _ _ _ hpush
          cases cv with
          | none => simp [derefAll] at ho
          | some c =>
            have hos : os = [c] := by
              simp [derefAll] at ho
              exact ho.symm
            subst hos
            refine ⟨sk, c, sc, rfl, hcal, ?_⟩
            cases hv : type.IsVoid
            · simp only [hv, Bool.not_false, if_true, Gen.bind_apply, GetVReg] at hrun
              cases hmv : PushInst OpCode.MV [some (Opr.vreg s3.vreg_fact_), GetReg RegName.A0]
                  { s3 with vreg_fact_ := s3.vreg_fact_ + 1 } with
              | none => simp [hmv] at hrun
              | some w =>
                obtain ⟨_, s4⟩ := w
                simp only [hmv, Gen.pure_apply, Option.some.injEq, Prod.mk.injEq] at hrun
                obtain ⟨hr, rfl⟩ := hrun
                obtain ⟨os2, ho2, _, _, hins4⟩ := PushInst_some _ _ _ _ hmv
                have hos2 : os2 = [Opr.vreg s3.vreg_fact_, Opr.reg RegName.A0] := by
                  simp [GetReg, derefAll] at ho2
                  exact ho2.symm
                subst hos2
                have hvr : s3.vreg_fact_ = sc.vreg_fact_ := by
                  rw [hs3, GenState.push_vreg_fact_]
                have hci : GenState.curInsts { s3 with vreg_fact_ := s3.vreg_fact_ + 1 } =
                    s3.curInsts := rfl
                refine ⟨?_, ?_⟩
                · rw [← hr, hvr]; simp
                · rw [hins4, hci, hins3, hvr]; simp
            · simp only [hv, Bool.not_true, Bool.false_eq_true, if_false, Gen.pure_apply,
                Option.some.injEq, Prod.mk.injEq] at hrun
              obtain ⟨hr, rfl⟩ := hrun
              refine ⟨?_, ?_⟩
              · rw [← hr]; simp
              · rw [hins3]; simp

/-- C9: take any call with `k` arguments. Whenever `GenerateOn(CallSSA)` returns
on it: for each 0-based position `j < k`, in increasing order, the argument loop
has `GetOpr` lower argument `j` to an operand `v` and then emits exactly one
instruction for it, a `MV` into the argument register `A(j)` when `j < 8` and a
`SW` into the stack slot at byte offset `(j - 8) * 4` otherwise; after the loop
the callee is lowered to an operand `c` and exactly one `CALL` on `c` is
emitted; when the call's type is non-void a `MV` from `A0` into a fresh virtual
register follows and that register is returned, and when it is void nothing
follows and no operand is returned. And when the arguments and the callee are
already lowered (to `vals` and `c`), the rule does return, and what it appends
to the current sequence is exactly that list: the argument instructions by
position, the `CALL`, and the `MV` for a non-void type. -/
theorem C9_call_sequence (st : GenState) (id : Nat) (type : Ty) (callee : SSA)
    (args : List SSA) :
    (∀ (r : OprPtr) (st' : GenState),
      GenerateOn (SSA.call id type callee args) st = some (r, st') →
      (∀ j (hj : j < args.length), ∃ s v s',
          GenerateCallArgs (args.take j) 1 st = some ((), s) ∧
          GetOpr args[j] s = some (some v, s') ∧
          GenerateCallArgs (args.take (j + 1)) 1 st = some ((), s'.push (callArgInst j v)) ∧
          (s'.push (callArgInst j v)).curInsts = s'.curInsts ++ [callArgInst j v]) ∧
      ∃ sk c sc, GenerateCallArgs args 1 st = some ((), sk) ∧
        GetOpr callee sk = some (some c, sc) ∧
        r = (if type.IsVoid then none else some (Opr.vreg sc.vreg_fact_)) ∧
        st'.curInsts = sc.curInsts ++ [⟨OpCode.CALL, [c]⟩] ++
          (if type.IsVoid then []
            else [⟨OpCode.MV, [Opr.vreg sc.vreg_fact_, Opr.reg RegName.A0]⟩])) ∧
    (∀ (vals : List Opr) (c : Opr), st.hasCur = true →
      List.Forall₂ (fun a v => st.metadata a.id = some (some v)) args vals →
      st.metadata callee.id = some (some c) →
      ∃ st', GenerateOn (SSA.call id type callee args) st =
          some (if type.IsVoid then none else some (Opr.vreg st.vreg_fact_), st') ∧
        st'.curInsts = st.curInsts ++ vals.enum.map (fun p => callArgInst p.1 p.2) ++
          [⟨OpCode.CALL, [c]⟩] ++
          (if type.IsVoid then []
            else [⟨OpCode.MV, [Opr.vreg st.vreg_fact_, Opr.reg RegName.A0]⟩])) :=
  ⟨fun r st' hrun => GenerateOnCall_rounds st st' id type callee args r hrun,
    fun vals c hcur hargs hcallee =>
      GenerateOnCall_lowered st id type callee args vals c hcur hargs hcallee⟩

theorem C9_call_sequence_witness :
    (∃ r st', GenerateOn (SSA.call 3 (Ty.int 4 false)
          (SSA.function 1 Ty.void MidLink.External "f" true 1 [] 0)
          [SSA.constInt 2 (Ty.int 4 false) 5])
        (GenState.inside (LabelName.anon 0) (fun _ => none)) = some (r, st') ∧
      ∃ sk c sc, GenerateCallArgs [SSA.constInt 2 (Ty.int 4 false) 5] 1
          (GenState.inside (LabelName.anon 0) (fun _ => none)) = some ((), sk) ∧
        GetOpr (SSA.function 1 Ty.void MidLink.External "f" true 1 [] 0) sk =
          some (some c, sc) ∧
        r = (if (Ty.int 4 false).IsVoid then none else some (Opr.vreg sc.vreg_fact_)) ∧
        st'.curInsts = sc.curInsts ++ [⟨OpCode.CALL, [c]⟩] ++
          (if (Ty.int 4 false).IsVoid then []
            else [⟨OpCode.MV, [Opr.vreg sc.vreg_fact_, Opr.reg RegName.A0]⟩])) ∧
    (∃ st', GenerateOn (SSA.call 3 (Ty.int 4 false)
          (SSA.function 1 Ty.void MidLink.External "f" true 1 [] 0)
          [SSA.alloca 2 (Ty.pointer (Ty.int 4 false))])
        (GenState.inside (LabelName.anon 0)
          (fun n => if n = 1 then some (some (Opr.label (LabelName.named "f")))
            else if n = 2 then some (some (Opr.vreg 7)) else none)) =
        some (if (Ty.int 4 false).IsVoid then none else some (Opr.vreg 0), st') ∧
      st'.curInsts = [] ++ [Opr.vreg 7].enum.map (fun p => callArgInst p.1 p.2) ++
        [⟨OpCode.CALL, [Opr.label (LabelName.named "f")]⟩] ++
        (if (Ty.int 4 false).IsVoid then []
          else [⟨OpCode.MV, [Opr.vreg 0, Opr.reg RegName.A0]⟩])) :=
  ⟨match h : GenerateOn (SSA.call 3 (Ty.int 4 false)
        (SSA.function 1 Ty.void MidLink.External "f" true 1 [] 0)
        [SSA.constInt 2 (Ty.int 4 false) 5])
      (GenState.inside (LabelName.anon 0) (fun _ => none)),
      (by decide! : (GenerateOn (SSA.call 3 (Ty.int 4 false)
        (SSA.function 1 Ty.void MidLink.External "f" true 1 [] 0)
        [SSA.constInt 2 (Ty.int 4 false) 5])
      (GenState.inside (LabelName.anon 0) (fun _ => none))).isSome = true) with
    | some (r, st'), _ =>
      ⟨r, st', rfl, ((C9_call_sequence (GenState.inside (LabelName.anon 0) (fun _ => none)) 3
        (Ty.int 4 false) (SSA.function 1 Ty.void MidLink.External "f" true 1 [] 0)
        [SSA.constInt 2 (Ty.int 4 false) 5]).1 r st' h).2⟩,
    (C9_call_sequence
      (GenState.inside (LabelName.anon 0)
        (fun n => if n = 1 then some (some (Opr.label (LabelName.named "f")))
          else if n = 2 then some (some (Opr.vreg 7)) else none))
      3 (Ty.int 4 false) (SSA.function 1 Ty.void MidLink.External "f" true 1 [] 0)
      [SSA.alloca 2 (Ty.pointer (Ty.int 4 false))]).2 [Opr.vreg 7]
      (Opr.label (LabelName.named "f"))
      (by decide) (List.Forall₂.cons rfl List.Forall₂.nil) rfl⟩

/-! ### Function parameters -/

theorem GenState.param_hasCur (st : GenState) (i : Nat) :
    (st.param i).hasCur = st.hasCur :=
  GenState.push_hasCur { st with vreg_fact_ := st.vreg_fact_ + 1 } _

theorem GenState.param_cur (st : GenState) (i : Nat) : (st.param i).cur = st.cur :=
  GenState.push_cur { st with vreg_fact_ := st.vreg_fact_ + 1 } _

theorem GenState.param_curInsts (st : GenState) (i : Nat) (h : st.hasCur = true) :
    (st.param i).curInsts = st.curInsts ++ [paramInst i (Opr.vreg st.vreg_fact_)] :=
  GenState.push_curInsts { st with vreg_fact_ := st.vreg_fact_ + 1 } _ h

theorem GenState.param_vreg_fact_ (st : GenState) (i : Nat) :
    (st.param i).vreg_fact_ = st.vreg_fact_ + 1 :=
  GenState.push_vreg_fact_ { st with vreg_fact_ := st.vreg_fact_ + 1 } _

theorem GenState.param_metadata (st : GenState) (i : Nat) :
    (st.param i).metadata = st.metadata :=
  GenState.push_metadata { st with vreg_fact_ := st.vreg_fact_ + 1 } _

theorem GenState.push_label_fact_ (st : GenState) (i : Inst) :
    (st.push i).label_fact_ = st.label_fact_ := by
  unfold GenState.push GenState.emit
  cases st.cur with
  | none => rfl
  | some c => obtain ⟨m, l⟩ := c; cases m <;> rfl

theorem GenState.param_label_fact_ (st : GenState) (i : Nat) :
    (st.param i).label_fact_ = st.label_fact_ :=
  GenState.push_label_fact_ { st with vreg_fact_ := st.vreg_fact_ + 1 } _

theorem GenerateArgs_succ (n i : Nat) (st : GenState) (hcur : st.hasCur = true) :
    GenerateArgs (n + 1) i st = GenerateArgs n (i + 1) (st.param i) := by
  have hpush : PushInst (if i < 8 then OpCode.MV else OpCode.LW)
      [some (Opr.vreg st.vreg_fact_),
        if i < 8 then GetReg (RegName.A0 + i) else GetSlot false (((i - 8) * 4 : Nat) : Int)]
      { st with vreg_fact_ := st.vreg_fact_ + 1 } =
      some ((), GenState.push { st with vreg_fact_ := st.vreg_fact_ + 1 }
        (paramInst i (Opr.vreg st.vreg_fact_))) := by
    by_cases hi : i < 8
    · simp only [hi, if_true]
      rw [PushInst_apply { st with vreg_fact_ := st.vreg_fact_ + 1 } OpCode.MV
        [some (Opr.vreg st.vreg_fact_), GetReg (RegName.A0 + i)]
        [Opr.vreg st.vreg_fact_, Opr.reg (RegName.A0 + i)] hcur rfl]
      simp only [paramInst, hi, if_true]
    · simp only [hi, if_false]
      rw [PushInst_apply { st with vreg_fact_ := st.vreg_fact_ + 1 } OpCode.LW
        [some (Opr.vreg st.vreg_fact_), GetSlot false (((i - 8) * 4 : Nat) : Int)]
        [Opr.vreg st.vreg_fact_, Opr.slot false (((i - 8) * 4 : Nat) : Int)] hcur rfl]
      simp only [paramInst, hi, if_false]
  rw [GenerateArgs]
  simp only [Gen.bind_apply, GetVReg, hpush, pushArg]
  have hargs : (GenState.push { st with vreg_fact_ := st.vreg_fact_ + 1 }
      (paramInst i (Opr.vreg st.vreg_fact_))).args_ = st.args_ :=
    GenState.push_args_ { st with vreg_fact_ := st.vreg_fact_ + 1 } _
  simp only [hargs]
  rfl

theorem GenerateArgs_eq (n : Nat) :
    ∀ (i : Nat) (st : GenState), st.hasCur = true →
      ∃ st', GenerateArgs n i st = some ((), st') ∧ st'.hasCur = true ∧
        st'.cur = st.cur ∧
        st'.curInsts = st.curInsts ++
          (List.range n).map (fun k => paramInst (i + k) (Opr.vreg (st.vreg_fact_ + k))) ∧
        st'.args_ = st.args_ ++ (List.range n).map (fun k => some (Opr.vreg (st.vreg_fact_ + k))) ∧
        st'.vreg_fact_ = st.vreg_fact_ + n ∧ st'.metadata = st.metadata ∧
        st'.label_fact_ = st.label_fact_ := by
  induction n with
  | zero => intro i st h; exact ⟨st, rfl, h, rfl, by simp, by simp, rfl, rfl, rfl⟩
  | succ n ih =>
    intro i st hcur
    obtain ⟨st', hrun, hc', hcc, hins, hargs, hv, hm, hlf⟩ :=
      ih (i + 1) (st.param i) (by rw [GenState.param_hasCur]; exact hcur)
    refine ⟨st', ?_, hc', ?_, ?_, ?_, ?_, ?_, by rw [hlf, GenState.param_label_fact_]⟩
    · rw [GenerateArgs_succ n i st hcur]; exact hrun
    · rw [hcc, GenState.param_cur]
    · rw [hins, GenState.param_curInsts st i hcur, GenState.param_vreg_fact_,
        List.range_succ_eq_map, List.map_cons, List.map_map, List.append_assoc]
      congr 1
      simp only [List.singleton_append, Nat.add_zero, List.cons.injEq, true_and]
      apply List.map_congr_left
      intro k _
      simp only [Function.comp, Nat.succ_eq_add_one, GenState.param_vreg_fact_]
      have e1 : i + 1 + k = i + (k + 1) := by omega
      have e2 : st.vreg_fact_ + 1 + k = st.vreg_fact_ + (k + 1) := by omega
      rw [e1, e2]
    · rw [hargs, GenState.param_vreg_fact_]
      show st.args_ ++ [some (Opr.vreg st.vreg_fact_)] ++ _ = _
      rw [List.range_succ_eq_map, List.map_cons, List.map_map, List.append_assoc]
      congr 1
      simp only [List.singleton_append, Nat.add_zero, List.cons.injEq, true_and]
      apply List.map_congr_left
      intro k _
      simp only [Function.comp, Nat.succ_eq_add_one]
      have e2 : st.vreg_fact_ + 1 + k = st.vreg_fact_ + (k + 1) := by omega
      rw [e2]
    · rw [hv, GenState.param_vreg_fact_]; omega
    · rw [hm, GenState.param_metadata]

/-- The prologue of a function definition: `GenerateOn(FunctionSSA)` of a
definition named `name` with `n` parameters starts by entering the function's
sequence, recording its label, clearing `args_` and running the parameter loop; this prologue always succeeds,
and from the state it leaves the rule goes on to label and lower the blocks,
whatever they are. The prologue appends to the function's sequence, for each
parameter at 0-based position `i` in increasing order, exactly one instruction
that defines the `i`-th next virtual register of the factory: a `MV` from the
argument register `A(i)` when `i < 8`, a `LW` from the stack slot at byte offset
`(i - 8) * 4` otherwise (offset 0 for the 9th parameter). In the state it
leaves, `GenerateOn(ArgRefSSA)` with index `i < n` returns exactly that `i`-th
virtual register and changes nothing. -/
theorem GenerateOnFunction_prologue (st : GenState) (id : Nat) (link : MidLink) (name : String)
    (n : Nat) :
    ∃ st', (do
        let _ ← EnterInstSeq false (GetNamedLabel name) (GetLinkType link)
        set_metadata id (some (Opr.label (GetNamedLabel name)))
        clearArgs
        GenerateArgs n 0) st = some ((), st') ∧
      (∀ (type : Ty) (blocks : List SSA) (entry : Nat),
        GenerateOn (SSA.function id type link name false n blocks entry) st =
          (do
            let r ← (do
              labelBlocks (blocks.map SSA.id)
              runBlocks (GenerateBlocks blocks) (DFSTraverse blocks entry)
              pure (some (Opr.label (GetNamedLabel name))) : Gen OprPtr)
            leaveInstSeq st.cur
            pure r) st') ∧
      st'.funcInsts (GetNamedLabel name) = st.funcInsts (GetNamedLabel name) ++
        (List.range n).map (fun i => paramInst i (Opr.vreg (st.vreg_fact_ + i))) ∧
      st'.vreg_fact_ = st.vreg_fact_ + n ∧
      ∀ i, i < n → ∀ (aid : Nat) (type : Ty),
        GenerateOn (SSA.argRef aid type i) st' = some (some (Opr.vreg (st.vreg_fact_ + i)), st') := by
  have hcur : GenState.hasCur
      { st.enter false (GetNamedLabel name) (GetLinkType link) with
        metadata := Function.update (st.enter false (GetNamedLabel name) (GetLinkType link)).metadata
          id (some (some (Opr.label (GetNamedLabel name)))),
        args_ := [] } = true :=
    GenState.enter_hasCur st false _ _
  obtain ⟨st', hrun, hc', hcc, hins, hargs, hv, _⟩ := GenerateArgs_eq n 0 _ hcur
  refine ⟨st', ?_, ?_, ?_, ?_, ?_⟩
  · simp only [Gen.bind_apply, EnterInstSeq_apply, set_metadata, clearArgs]
    exact hrun
  · intro type blocks entry
    rw [GenerateOn, GenerateOnFunction]
    simp only [Bool.false_eq_true, if_false, withInstSeq, Gen.bind_apply, EnterInstSeq_apply,
      set_metadata, clearArgs, hrun]
  · have h1 : st'.curInsts = st'.funcInsts (GetNamedLabel name) := by
      have : st'.cur = some (false, GetNamedLabel name) := by
        rw [hcc]; simp [GenState.enter]
      simp [GenState.curInsts, GenState.funcInsts, this, GenState.seqs]
    rw [← h1, hins]
    have h2 := GenState.enter_curInsts_func st (GetNamedLabel name) (GetLinkType link)
    have h3 : GenState.curInsts
        { st.enter false (GetNamedLabel name) (GetLinkType link) with
          metadata := Function.update
            (st.enter false (GetNamedLabel name) (GetLinkType link)).metadata
            id (some (some (Opr.label (GetNamedLabel name)))),
          args_ := [] } = st.funcInsts (GetNamedLabel name) := h2
    rw [h3]
    have h4 : (GenState.enter st false (GetNamedLabel name) (GetLinkType link)).vreg_fact_ =
        st.vreg_fact_ := by simp [GenState.enter]
    simp [h4]
  · rw [hv]; simp [GenState.enter]
  · intro i hi aid type
    rw [GenerateOn, GenerateOnArgRef]
    simp only [Gen.bind_apply, Gen.get_apply, hargs, List.nil_append]
    have h4 : (GenState.enter st false (GetNamedLabel name) (GetLinkType link)).vreg_fact_ =
        st.vreg_fact_ := by simp [GenState.enter]
    simp [List.get?_eq_getElem?, List.getElem?_map, List.getElem?_range hi, h4]

/-- C8 fails on the code. The definition `f(x) { g(7); return x; }` is lowered
while the definition `g(y) { return; }` has not been lowered yet. The parameter
loop of `f` emits `MV v0, a0`, so `v0` is the register of the parameter of `f`.
The `CALL` lowers its callee `g` in place: `GenerateOn(FunctionSSA)` of `g`
clears `args_` and refills it with `v1`, the register of the parameter of `g`
(defined by `MV v1, a0` in the sequence of `g`), and only the current sequence
is restored when it returns. The `ArgRef` with index 0 that `f` returns is
lowered afterwards: it gets `v1` and `f` ends with `MV a0, v1; RET`. -/
theorem C8_nested_definition_overwrites_args :
    (GenerateOn (SSA.function 1 Ty.void MidLink.External "f" false 1
        [SSA.block 2 Ty.void
          [SSA.call 3 Ty.void
            (SSA.function 6 Ty.void MidLink.External "g" false 1
              [SSA.block 7 Ty.void [SSA.ret 8 Ty.void none] []] 7)
            [SSA.constInt 9 (Ty.int 4 false) 7],
          SSA.ret 4 Ty.void (some (SSA.argRef 5 (Ty.int 4 false) 0))] []] 2)
        GenState.empty).map (fun r => (r.2.funcs, r.2.metadata 5, r.2.args_)) =
      some ([(LabelName.named "f", ⟨LinkageTypes.External,
            [⟨OpCode.MV, [Opr.vreg 0, Opr.reg RegName.A0]⟩,
              ⟨OpCode.LABEL, [Opr.label (LabelName.anon 0)]⟩,
              ⟨OpCode.MV, [Opr.reg RegName.A0, Opr.imm 7]⟩,
              ⟨OpCode.CALL, [Opr.label (LabelName.named "g")]⟩,
              ⟨OpCode.MV, [Opr.reg RegName.A0, Opr.vreg 1]⟩,
              ⟨OpCode.RET, []⟩]⟩),
          (LabelName.named "g", ⟨LinkageTypes.External,
            [⟨OpCode.MV, [Opr.vreg 1, Opr.reg RegName.A0]⟩,
              ⟨OpCode.LABEL, [Opr.label (LabelName.anon 1)]⟩,
              ⟨OpCode.RET, []⟩]⟩)],
        some (some (Opr.vreg 1)), [some (Opr.vreg 1)]) := by
  decide!

/-! ### Constant arrays -/

theorem GenInvCore.pure {Q : GenState → GenState → Prop} {α : Type}
    (h : GenInvCore Q) (a : α) : Gen.Keeps Q (Pure.pure a : Gen α) := by
  constructor
  intro st b st' e
  simp only [Gen.pure_apply, Option.some.injEq, Prod.mk.injEq] at e
  rw [← e.2]; exact h.refl st

theorem GenInvCore.bind {Q : GenState → GenState → Prop} {α β : Type}
    (h : GenInvCore Q) {m : Gen α} {f : α → Gen β}
    (hm : Gen.Keeps Q m) (hf : ∀ a, Gen.Keeps Q (f a)) : Gen.Keeps Q (m >>= f) := by
  constructor
  intro st b st' e
  simp only [Gen.bind_apply] at e
  cases hms : m st with
  | none => simp [hms] at e
  | some r =>
    obtain ⟨a, st1⟩ := r
    simp only [hms] at e
    exact h.trans _ _ _ (hm.run _ _ _ hms) ((hf a).run _ _ _ e)

theorem GenInvCore.fail {Q : GenState → GenState → Prop} {α : Type} :
    Gen.Keeps Q (Gen.fail : Gen α) := by
  constructor
  intro st b st' e
  simp at e

theorem GenInvCore.assert {Q : GenState → GenState → Prop}
    (h : GenInvCore Q) (c : Bool) : Gen.Keeps Q (Gen.assert c) := by
  constructor
  intro st b st' e
  simp only [Gen.assert_apply] at e
  split at e
  · simp only [Option.some.injEq, Prod.mk.injEq] at e
    rw [← e.2]; exact h.refl st
  · simp at e

theorem GenInvCore.deref {Q : GenState → GenState → Prop} {α : Type}
    (h : GenInvCore Q) (o : Option α) : Gen.Keeps Q (Gen.deref o) := by
  constructor
  intro st b st' e
  cases o with
  | none => simp at e
  | some a =>
    simp only [Gen.deref_some, Option.some.injEq, Prod.mk.injEq] at e
    rw [← e.2]; exact h.refl st

theorem GenInvCore.get {Q : GenState → GenState → Prop}
    (h : GenInvCore Q) : Gen.Keeps Q Gen.get := by
  constructor
  intro st b st' e
  simp only [Gen.get_apply, Option.some.injEq, Prod.mk.injEq] at e
  rw [← e.2]; exact h.refl st

theorem GenInvCore.cur_label {Q : GenState → GenState → Prop}
    (h : GenInvCore Q) : Gen.Keeps Q cur_label := by
  constructor
  intro st b st' e
  unfold MimiC.cur_label at e
  split at e
  · simp only [Option.some.injEq, Prod.mk.injEq] at e
    rw [← e.2]; exact h.refl st
  · simp at e

theorem GenInvCore.ite {Q : GenState → GenState → Prop} {α : Type} (c : Prop) [Decidable c]
    {a b : Gen α} (ha : Gen.Keeps Q a) (hb : Gen.Keeps Q b) :
    Gen.Keeps Q (if c then a else b) := by
  split
  · exact ha
  · exact hb

theorem GenInvCore.getOpr {Q : GenState → GenState → Prop}
    (h : GenInvCore Q) (id : Nat) {gen : Gen OprPtr} (hg : Gen.Keeps Q gen) :
    Gen.Keeps Q (GetOprWith id gen) := by
  constructor
  intro st b st' e
  unfold GetOprWith at e
  split at e
  · simp only [Option.some.injEq, Prod.mk.injEq] at e
    rw [← e.2]; exact h.refl st
  · exact (GenInvCore.bind h hg
      (fun o => GenInvCore.bind h (h.meta id o) (fun _ => GenInvCore.pure h o))).run _ _ _ e

theorem binaryOpCode_ne_LABEL (op : BinaryOp) : binaryOpCode op ≠ OpCode.LABEL := by
  cases op <;> decide

theorem binaryOpCode_ne_BEQZ (op : BinaryOp) : binaryOpCode op ≠ OpCode.BEQZ := by
  cases op <;> decide

theorem unaryOpCode_ne_LABEL (op : UnaryOp) : unaryOpCode op ≠ OpCode.LABEL := by
  cases op <;> decide

theorem unaryOpCode_ne_BEQZ (op : UnaryOp) : unaryOpCode op ≠ OpCode.BEQZ := by
  cases op <;> decide

theorem GenInvCore.zeros {Q : GenState → GenState → Prop} (h : GenInvCore Q)
    (type : Ty) :
    Gen.Keeps Q (GenerateZeros type) := by
  unfold GenerateZeros withMemData
  repeat' first
    | assumption
    | exact h.vreg | exact h.label | exact h.slot _ _ | exact h.meta _ _
    | exact h.clear | exact h.arg _
    | exact GenInvCore.pure h _ | exact GenInvCore.fail | exact GenInvCore.assert h _
    | exact GenInvCore.deref h _ | exact GenInvCore.get h | exact GenInvCore.cur_label h
    | (apply h.push <;> first
        | decide | exact binaryOpCode_ne_LABEL _ | exact binaryOpCode_ne_BEQZ _
        | exact unaryOpCode_ne_LABEL _ | exact unaryOpCode_ne_BEQZ _
        | (split <;> decide) | (split <;> split <;> decide))
    | apply h.seq | apply h.seqUnit | apply h.glob | apply h.arr
    | apply GenInvCore.bind h
    | apply GenInvCore.ite
    | intro _
    | split
    | dsimp only

theorem GenInvCore.load {Q : GenState → GenState → Prop} (h : GenInvCore Q)
    (type : Ty) (ptr : SSA) {g : Gen OprPtr} (hg : Gen.Keeps Q g) :
    Gen.Keeps Q (GenerateOnLoad type ptr g) := by
  unfold GenerateOnLoad GenerateMemCpy
  repeat' first
    | assumption
    | exact h.vreg | exact h.label | exact h.slot _ _ | exact h.meta _ _
    | exact h.clear | exact h.arg _
    | exact GenInvCore.pure h _ | exact GenInvCore.fail | exact GenInvCore.assert h _
    | exact GenInvCore.deref h _ | exact GenInvCore.get h | exact GenInvCore.cur_label h
    | (apply h.push <;> first
        | decide | exact binaryOpCode_ne_LABEL _ | exact binaryOpCode_ne_BEQZ _
        | exact unaryOpCode_ne_LABEL _ | exact unaryOpCode_ne_BEQZ _
        | (split <;> decide) | (split <;> split <;> decide))
    | apply h.seq | apply h.seqUnit | apply h.glob | apply h.arr
    | apply GenInvCore.bind h
    | apply GenInvCore.ite
    | intro _
    | split
    | dsimp only

theorem GenInvCore.store {Q : GenState → GenState → Prop} (h : GenInvCore Q)
    (value ptr : SSA) {gv gp : Gen OprPtr} (hv : Gen.Keeps Q gv)
    (hp : Gen.Keeps Q gp) :
    Gen.Keeps Q (GenerateOnStore value ptr gv gp) := by
  unfold GenerateOnStore GenerateMemCpy GenerateMemSet
  repeat' first
    | assumption
    | exact h.vreg | exact h.label | exact h.slot _ _ | exact h.meta _ _
    | exact h.clear | exact h.arg _
    | exact GenInvCore.pure h _ | exact GenInvCore.fail | exact GenInvCore.assert h _
    | exact GenInvCore.deref h _ | exact GenInvCore.get h | exact GenInvCore.cur_label h
    | (apply h.push <;> first
        | decide | exact binaryOpCode_ne_LABEL _ | exact binaryOpCode_ne_BEQZ _
        | exact unaryOpCode_ne_LABEL _ | exact unaryOpCode_ne_BEQZ _
        | (split <;> decide) | (split <;> split <;> decide))
    | apply h.seq | apply h.seqUnit | apply h.glob | apply h.arr
    | apply GenInvCore.bind h
    | apply GenInvCore.ite
    | intro _
    | split
    | dsimp only

theorem GenInvCore.access {Q : GenState → GenState → Prop} (h : GenInvCore Q)
    (acc_type : AccessType) (ptr index : SSA) {gp gi : Gen OprPtr}
    (hp : Gen.Keeps Q gp) (hi : Gen.Keeps Q gi) :
    Gen.Keeps Q (GenerateOnAccess acc_type ptr index gp gi) := by
  unfold GenerateOnAccess
  repeat' first
    | assumption
    | exact h.vreg | exact h.label | exact h.slot _ _ | exact h.meta _ _
    | exact h.clear | exact h.arg _
    | exact GenInvCore.pure h _ | exact GenInvCore.fail | exact GenInvCore.assert h _
    | exact GenInvCore.deref h _ | exact GenInvCore.get h | exact GenInvCore.cur_label h
    | (apply h.push <;> first
        | decide | exact binaryOpCode_ne_LABEL _ | exact binaryOpCode_ne_BEQZ _
        | exact unaryOpCode_ne_LABEL _ | exact unaryOpCode_ne_BEQZ _
        | (split <;> decide) | (split <;> split <;> decide))
    | apply h.seq | apply h.seqUnit | apply h.glob | apply h.arr
    | apply GenInvCore.bind h
    | apply GenInvCore.ite
    | intro _
    | split
    | dsimp only

theorem GenInvCore.binary {Q : GenState → GenState → Prop} (h : GenInvCore Q)
    (op : BinaryOp) {gl gr : Gen OprPtr} (hl : Gen.Keeps Q gl)
    (hr : Gen.Keeps Q gr) :
    Gen.Keeps Q (GenerateOnBinary op gl gr) := by
  unfold GenerateOnBinary
  repeat' first
    | assumption
    | exact h.vreg | exact h.label | exact h.slot _ _ | exact h.meta _ _
    | exact h.clear | exact h.arg _
    | exact GenInvCore.pure h _ | exact GenInvCore.fail | exact GenInvCore.assert h _
    | exact GenInvCore.deref h _ | exact GenInvCore.get h | exact GenInvCore.cur_label h
    | (apply h.push <;> first
        | decide | exact binaryOpCode_ne_LABEL _ | exact binaryOpCode_ne_BEQZ _
        | exact unaryOpCode_ne_LABEL _ | exact unaryOpCode_ne_BEQZ _
        | (split <;> decide) | (split <;> split <;> decide))
    | apply h.seq | apply h.seqUnit | apply h.glob | apply h.arr
    | apply GenInvCore.bind h
    | apply GenInvCore.ite
    | intro _
    | split
    | dsimp only

theorem GenInvCore.unary {Q : GenState → GenState → Prop} (h : GenInvCore Q)
    (op : UnaryOp) {g : Gen OprPtr} (hg : Gen.Keeps Q g) :
    Gen.Keeps Q (GenerateOnUnary op g) := by
  unfold GenerateOnUnary
  repeat' first
    | assumption
    | exact h.vreg | exact h.label | exact h.slot _ _ | exact h.meta _ _
    | exact h.clear | exact h.arg _
    | exact GenInvCore.pure h _ | exact GenInvCore.fail | exact GenInvCore.assert h _
    | exact GenInvCore.deref h _ | exact GenInvCore.get h | exact GenInvCore.cur_label h
    | (apply h.push <;> first
        | decide | exact binaryOpCode_ne_LABEL _ | exact binaryOpCode_ne_BEQZ _
        | exact unaryOpCode_ne_LABEL _ | exact unaryOpCode_ne_BEQZ _
        | (split <;> decide) | (split <;> split <;> decide))
    | apply h.seq | apply h.seqUnit | apply h.glob | apply h.arr
    | apply GenInvCore.bind h
    | apply GenInvCore.ite
    | intro _
    | split
    | dsimp only

theorem GenInvCore.cast {Q : GenState → GenState → Prop} (h : GenInvCore Q)
    (type : Ty) (opr : SSA) {g : Gen OprPtr} (hg : Gen.Keeps Q g) :
    Gen.Keeps Q (GenerateOnCast type opr g) := by
  unfold GenerateOnCast
  repeat' first
    | assumption
    | exact h.vreg | exact h.label | exact h.slot _ _ | exact h.meta _ _
    | exact h.clear | exact h.arg _
    | exact GenInvCore.pure h _ | exact GenInvCore.fail | exact GenInvCore.assert h _
    | exact GenInvCore.deref h _ | exact GenInvCore.get h | exact GenInvCore.cur_label h
    | (apply h.push <;> first
        | decide | exact binaryOpCode_ne_LABEL _ | exact binaryOpCode_ne_BEQZ _
        | exact unaryOpCode_ne_LABEL _ | exact unaryOpCode_ne_BEQZ _
        | (split <;> decide) | (split <;> split <;> decide))
    | apply h.seq | apply h.seqUnit | apply h.glob | apply h.arr
    | apply GenInvCore.bind h
    | apply GenInvCore.ite
    | intro _
    | split
    | dsimp only

theorem GenInvCore.callArg {Q : GenState → GenState → Prop} (h : GenInvCore Q)
    (i : Nat) {g : Gen OprPtr} (hg : Gen.Keeps Q g) :
    Gen.Keeps Q (GenerateCallArg i g) := by
  unfold GenerateCallArg
  repeat' first
    | assumption
    | exact h.vreg | exact h.label | exact h.slot _ _ | exact h.meta _ _
    | exact h.clear | exact h.arg _
    | exact GenInvCore.pure h _ | exact GenInvCore.fail | exact GenInvCore.assert h _
    | exact GenInvCore.deref h _ | exact GenInvCore.get h | exact GenInvCore.cur_label h
    | (apply h.push <;> first
        | decide | exact binaryOpCode_ne_LABEL _ | exact binaryOpCode_ne_BEQZ _
        | exact unaryOpCode_ne_LABEL _ | exact unaryOpCode_ne_BEQZ _
        | (split <;> decide) | (split <;> split <;> decide))
    | apply h.seq | apply h.seqUnit | apply h.glob | apply h.arr
    | apply GenInvCore.bind h
    | apply GenInvCore.ite
    | intro _
    | split
    | dsimp only

theorem GenInvCore.call {Q : GenState → GenState → Prop} (h : GenInvCore Q)
    (type : Ty) {ga : Gen Unit} {gc : Gen OprPtr} (ha : Gen.Keeps Q ga)
    (hc : Gen.Keeps Q gc) :
    Gen.Keeps Q (GenerateOnCall type ga gc) := by
  unfold GenerateOnCall
  repeat' first
    | assumption
    | exact h.vreg | exact h.label | exact h.slot _ _ | exact h.meta _ _
    | exact h.clear | exact h.arg _
    | exact GenInvCore.pure h _ | exact GenInvCore.fail | exact GenInvCore.assert h _
    | exact GenInvCore.deref h _ | exact GenInvCore.get h | exact GenInvCore.cur_label h
    | (apply h.push <;> first
        | decide | exact binaryOpCode_ne_LABEL _ | exact binaryOpCode_ne_BEQZ _
        | exact unaryOpCode_ne_LABEL _ | exact unaryOpCode_ne_BEQZ _
        | (split <;> decide) | (split <;> split <;> decide))
    | apply h.seq | apply h.seqUnit | apply h.glob | apply h.arr
    | apply GenInvCore.bind h
    | apply GenInvCore.ite
    | intro _
    | split
    | dsimp only

theorem GenInvCore.branch {Q : GenState → GenState → Prop} (h : GenInvCore Q)
    {gc gt gf : Gen OprPtr} (hc : Gen.Keeps Q gc) (ht : Gen.Keeps Q gt)
    (hf : Gen.Keeps Q gf) :
    Gen.Keeps Q (GenerateOnBranch gc gt gf) := by
  unfold GenerateOnBranch
  repeat' first
    | assumption
    | exact h.vreg | exact h.label | exact h.slot _ _ | exact h.meta _ _
    | exact h.clear | exact h.arg _
    | exact GenInvCore.pure h _ | exact GenInvCore.fail | exact GenInvCore.assert h _
    | exact GenInvCore.deref h _ | exact GenInvCore.get h | exact GenInvCore.cur_label h
    | (apply h.push <;> first
        | decide | exact binaryOpCode_ne_LABEL _ | exact binaryOpCode_ne_BEQZ _
        | exact unaryOpCode_ne_LABEL _ | exact unaryOpCode_ne_BEQZ _
        | (split <;> decide) | (split <;> split <;> decide))
    | apply h.seq | apply h.seqUnit | apply h.glob | apply h.arr
    | apply GenInvCore.bind h
    | apply GenInvCore.ite
    | intro _
    | split
    | dsimp only

theorem GenInvCore.jump {Q : GenState → GenState → Prop} (h : GenInvCore Q)
    {g : Gen OprPtr} (hg : Gen.Keeps Q g) :
    Gen.Keeps Q (GenerateOnJump g) := by
  unfold GenerateOnJump
  repeat' first
    | assumption
    | exact h.vreg | exact h.label | exact h.slot _ _ | exact h.meta _ _
    | exact h.clear | exact h.arg _
    | exact GenInvCore.pure h _ | exact GenInvCore.fail | exact GenInvCore.assert h _
    | exact GenInvCore.deref h _ | exact GenInvCore.get h | exact GenInvCore.cur_label h
    | (apply h.push <;> first
        | decide | exact binaryOpCode_ne_LABEL _ | exact binaryOpCode_ne_BEQZ _
        | exact unaryOpCode_ne_LABEL _ | exact unaryOpCode_ne_BEQZ _
        | (split <;> decide) | (split <;> split <;> decide))
    | apply h.seq | apply h.seqUnit | apply h.glob | apply h.arr
    | apply GenInvCore.bind h
    | apply GenInvCore.ite
    | intro _
    | split
    | dsimp only

theorem GenInvCore.retSome {Q : GenState → GenState → Prop} (h : GenInvCore Q)
    {g : Gen OprPtr} (hg : Gen.Keeps Q g) :
    Gen.Keeps Q (GenerateOnReturn (some g)) := by
  unfold GenerateOnReturn
  repeat' first
    | assumption
    | exact h.vreg | exact h.label | exact h.slot _ _ | exact h.meta _ _
    | exact h.clear | exact h.arg _
    | exact GenInvCore.pure h _ | exact GenInvCore.fail | exact GenInvCore.assert h _
    | exact GenInvCore.deref h _ | exact GenInvCore.get h | exact GenInvCore.cur_label h
    | (apply h.push <;> first
        | decide | exact binaryOpCode_ne_LABEL _ | exact binaryOpCode_ne_BEQZ _
        | exact unaryOpCode_ne_LABEL _ | exact unaryOpCode_ne_BEQZ _
        | (split <;> decide) | (split <;> split <;> decide))
    | apply h.seq | apply h.seqUnit | apply h.glob | apply h.arr
    | apply GenInvCore.bind h
    | apply GenInvCore.ite
    | intro _
    | split
    | dsimp only

theorem GenInvCore.retNone {Q : GenState → GenState → Prop} (h : GenInvCore Q) :
    Gen.Keeps Q (GenerateOnReturn none) := by
  unfold GenerateOnReturn
  repeat' first
    | assumption
    | exact h.vreg | exact h.label | exact h.slot _ _ | exact h.meta _ _
    | exact h.clear | exact h.arg _
    | exact GenInvCore.pure h _ | exact GenInvCore.fail | exact GenInvCore.assert h _
    | exact GenInvCore.deref h _ | exact GenInvCore.get h | exact GenInvCore.cur_label h
    | (apply h.push <;> first
        | decide | exact binaryOpCode_ne_LABEL _ | exact binaryOpCode_ne_BEQZ _
        | exact unaryOpCode_ne_LABEL _ | exact unaryOpCode_ne_BEQZ _
        | (split <;> decide) | (split <;> split <;> decide))
    | apply h.seq | apply h.seqUnit | apply h.glob | apply h.arr
    | apply GenInvCore.bind h
    | apply GenInvCore.ite
    | intro _
    | split
    | dsimp only

theorem GenInvCore.globalSome {Q : GenState → GenState → Prop} (h : GenInvCore Q)
    (type : Ty) (link : MidLink) (name : String) {g : Gen OprPtr}
    (hg : Gen.Keeps Q g) :
    Gen.Keeps Q (GenerateOnGlobalVar type link name (some g)) := by
  unfold GenerateOnGlobalVar
  repeat' first
    | assumption
    | exact h.vreg | exact h.label | exact h.slot _ _ | exact h.meta _ _
    | exact h.clear | exact h.arg _
    | exact GenInvCore.pure h _ | exact GenInvCore.fail | exact GenInvCore.assert h _
    | exact GenInvCore.deref h _ | exact GenInvCore.get h | exact GenInvCore.cur_label h
    | (apply h.push <;> first
        | decide | exact binaryOpCode_ne_LABEL _ | exact binaryOpCode_ne_BEQZ _
        | exact unaryOpCode_ne_LABEL _ | exact unaryOpCode_ne_BEQZ _
        | (split <;> decide) | (split <;> split <;> decide))
    | apply h.seq | apply h.seqUnit | apply h.glob | apply h.arr
    | apply GenInvCore.bind h
    | apply GenInvCore.ite
    | intro _
    | split
    | dsimp only

theorem GenInvCore.globalNone {Q : GenState → GenState → Prop} (h : GenInvCore Q)
    (type : Ty) (link : MidLink) (name : String) :
    Gen.Keeps Q (GenerateOnGlobalVar type link name none) := by
  unfold GenerateOnGlobalVar
  repeat' first
    | assumption
    | exact h.vreg | exact h.label | exact h.slot _ _ | exact h.meta _ _
    | exact h.clear | exact h.arg _
    | exact GenInvCore.pure h _ | exact GenInvCore.fail | exact GenInvCore.assert h _
    | exact GenInvCore.deref h _ | exact GenInvCore.get h | exact GenInvCore.cur_label h
    | (apply h.push <;> first
        | decide | exact binaryOpCode_ne_LABEL _ | exact binaryOpCode_ne_BEQZ _
        | exact unaryOpCode_ne_LABEL _ | exact unaryOpCode_ne_BEQZ _
        | (split <;> decide) | (split <;> split <;> decide))
    | apply h.seq | apply h.seqUnit | apply h.glob | apply h.arr
    | apply GenInvCore.bind h
    | apply GenInvCore.ite
    | intro _
    | split
    | dsimp only

theorem GenInvCore.alloca {Q : GenState → GenState → Prop} (h : GenInvCore Q)
    (type : Ty) :
    Gen.Keeps Q (GenerateOnAlloca type) := by
  unfold GenerateOnAlloca GenerateZeros withMemData
  repeat' first
    | assumption
    | exact h.vreg | exact h.label | exact h.slot _ _ | exact h.meta _ _
    | exact h.clear | exact h.arg _
    | exact GenInvCore.pure h _ | exact GenInvCore.fail | exact GenInvCore.assert h _
    | exact GenInvCore.deref h _ | exact GenInvCore.get h | exact GenInvCore.cur_label h
    | (apply h.push <;> first
        | decide | exact binaryOpCode_ne_LABEL _ | exact binaryOpCode_ne_BEQZ _
        | exact unaryOpCode_ne_LABEL _ | exact unaryOpCode_ne_BEQZ _
        | (split <;> decide) | (split <;> split <;> decide))
    | apply h.seq | apply h.seqUnit | apply h.glob | apply h.arr
    | apply GenInvCore.bind h
    | apply GenInvCore.ite
    | intro _
    | split
    | dsimp only

theorem GenInvCore.argRef {Q : GenState → GenState → Prop} (h : GenInvCore Q)
    (index : Nat) :
    Gen.Keeps Q (GenerateOnArgRef index) := by
  unfold GenerateOnArgRef
  repeat' first
    | assumption
    | exact h.vreg | exact h.label | exact h.slot _ _ | exact h.meta _ _
    | exact h.clear | exact h.arg _
    | exact GenInvCore.pure h _ | exact GenInvCore.fail | exact GenInvCore.assert h _
    | exact GenInvCore.deref h _ | exact GenInvCore.get h | exact GenInvCore.cur_label h
    | (apply h.push <;> first
        | decide | exact binaryOpCode_ne_LABEL _ | exact binaryOpCode_ne_BEQZ _
        | exact unaryOpCode_ne_LABEL _ | exact unaryOpCode_ne_BEQZ _
        | (split <;> decide) | (split <;> split <;> decide))
    | apply h.seq | apply h.seqUnit | apply h.glob | apply h.arr
    | apply GenInvCore.bind h
    | apply GenInvCore.ite
    | intro _
    | split
    | dsimp only

theorem GenInvCore.constInt {Q : GenState → GenState → Prop} (h : GenInvCore Q)
    (type : Ty) (value : Nat) :
    Gen.Keeps Q (GenerateOnConstInt type value) := by
  unfold GenerateOnConstInt
  repeat' first
    | assumption
    | exact h.vreg | exact h.label | exact h.slot _ _ | exact h.meta _ _
    | exact h.clear | exact h.arg _
    | exact GenInvCore.pure h _ | exact GenInvCore.fail | exact GenInvCore.assert h _
    | exact GenInvCore.deref h _ | exact GenInvCore.get h | exact GenInvCore.cur_label h
    | (apply h.push <;> first
        | decide | exact binaryOpCode_ne_LABEL _ | exact binaryOpCode_ne_BEQZ _
        | exact unaryOpCode_ne_LABEL _ | exact unaryOpCode_ne_BEQZ _
        | (split <;> decide) | (split <;> split <;> decide))
    | apply h.seq | apply h.seqUnit | apply h.glob | apply h.arr
    | apply GenInvCore.bind h
    | apply GenInvCore.ite
    | intro _
    | split
    | dsimp only

theorem GenInvCore.constStr {Q : GenState → GenState → Prop} (h : GenInvCore Q)
    (str : String) :
    Gen.Keeps Q (GenerateOnConstStr str) := by
  unfold GenerateOnConstStr withMemData
  repeat' first
    | assumption
    | exact h.vreg | exact h.label | exact h.slot _ _ | exact h.meta _ _
    | exact h.clear | exact h.arg _
    | exact GenInvCore.pure h _ | exact GenInvCore.fail | exact GenInvCore.assert h _
    | exact GenInvCore.deref h _ | exact GenInvCore.get h | exact GenInvCore.cur_label h
    | (apply h.push <;> first
        | decide | exact binaryOpCode_ne_LABEL _ | exact binaryOpCode_ne_BEQZ _
        | exact unaryOpCode_ne_LABEL _ | exact unaryOpCode_ne_BEQZ _
        | (split <;> decide) | (split <;> split <;> decide))
    | apply h.seq | apply h.seqUnit | apply h.glob | apply h.arr
    | apply GenInvCore.bind h
    | apply GenInvCore.ite
    | intro _
    | split
    | dsimp only

theorem GenInvCore.elem {Q : GenState → GenState → Prop} (h : GenInvCore Q)
    (i : SSA) (zeros : Nat) {g : Gen OprPtr} (hg : Gen.Keeps Q g) :
    Gen.Keeps Q (GenerateElem i g zeros) := by
  unfold GenerateElem
  repeat' first
    | assumption
    | exact h.vreg | exact h.label | exact h.slot _ _ | exact h.meta _ _
    | exact h.clear | exact h.arg _
    | exact GenInvCore.pure h _ | exact GenInvCore.fail | exact GenInvCore.assert h _
    | exact GenInvCore.deref h _ | exact GenInvCore.get h | exact GenInvCore.cur_label h
    | (apply h.push <;> first
        | decide | exact binaryOpCode_ne_LABEL _ | exact binaryOpCode_ne_BEQZ _
        | exact unaryOpCode_ne_LABEL _ | exact unaryOpCode_ne_BEQZ _
        | (split <;> decide) | (split <;> split <;> decide))
    | apply h.seq | apply h.seqUnit | apply h.glob | apply h.arr
    | apply GenInvCore.bind h
    | apply GenInvCore.ite
    | intro _
    | split
    | dsimp only

theorem GenInvCore.constArray {Q : GenState → GenState → Prop} (h : GenInvCore Q)
    {g : Gen Nat} (hg : Gen.Keeps Q g) :
    Gen.Keeps Q (GenerateOnConstArray g) := by
  unfold GenerateOnConstArray withMemData
  repeat' first
    | assumption
    | exact h.vreg | exact h.label | exact h.slot _ _ | exact h.meta _ _
    | exact h.clear | exact h.arg _
    | exact GenInvCore.pure h _ | exact GenInvCore.fail | exact GenInvCore.assert h _
    | exact GenInvCore.deref h _ | exact GenInvCore.get h | exact GenInvCore.cur_label h
    | (apply h.push <;> first
        | decide | exact binaryOpCode_ne_LABEL _ | exact binaryOpCode_ne_BEQZ _
        | exact unaryOpCode_ne_LABEL _ | exact unaryOpCode_ne_BEQZ _
        | (split <;> decide) | (split <;> split <;> decide))
    | apply h.seq | apply h.seqUnit | apply h.glob | apply h.arr
    | apply GenInvCore.bind h
    | apply GenInvCore.ite
    | intro _
    | split
    | dsimp only

theorem GenInvCore.args {Q : GenState → GenState → Prop} (h : GenInvCore Q)
    (n : Nat) : ∀ i, Gen.Keeps Q (GenerateArgs n i) := by
  induction n with
  | zero => intro i; exact GenInvCore.pure h _
  | succ n ih =>
    intro i
    have ih2 := ih (i + 1)
    unfold GenerateArgs
    repeat' first
      | assumption
      | exact h.vreg | exact h.label | exact h.slot _ _ | exact h.meta _ _
      | exact h.clear | exact h.arg _
      | exact GenInvCore.pure h _ | exact GenInvCore.fail | exact GenInvCore.assert h _
      | exact GenInvCore.deref h _ | exact GenInvCore.get h | exact GenInvCore.cur_label h
      | (apply h.push <;> first
          | decide | exact binaryOpCode_ne_LABEL _ | exact binaryOpCode_ne_BEQZ _
          | exact unaryOpCode_ne_LABEL _ | exact unaryOpCode_ne_BEQZ _
          | (split <;> decide) | (split <;> split <;> decide))
      | apply h.seq | apply h.seqUnit | apply h.glob | apply h.arr
      | apply GenInvCore.bind h
      | apply GenInvCore.ite
      | intro _
      | split
      | dsimp only

theorem GenInvCore.labelBlocks {Q : GenState → GenState → Prop} (h : GenInvCore Q)
    (ids : List Nat) : Gen.Keeps Q (labelBlocks ids) := by
  induction ids with
  | nil => exact GenInvCore.pure h _
  | cons id ids ih =>
    unfold MimiC.labelBlocks
    repeat' first
      | assumption
      | exact h.vreg | exact h.label | exact h.slot _ _ | exact h.meta _ _
      | exact h.clear | exact h.arg _
      | exact GenInvCore.pure h _ | exact GenInvCore.fail | exact GenInvCore.assert h _
      | exact GenInvCore.deref h _ | exact GenInvCore.get h | exact GenInvCore.cur_label h
      | (apply h.push <;> first
          | decide | exact binaryOpCode_ne_LABEL _ | exact binaryOpCode_ne_BEQZ _
          | exact unaryOpCode_ne_LABEL _ | exact unaryOpCode_ne_BEQZ _
          | (split <;> decide) | (split <;> split <;> decide))
      | apply h.seq | apply h.seqUnit | apply h.glob | apply h.arr
      | apply GenInvCore.bind h
      | apply GenInvCore.ite
      | intro _
      | split
      | dsimp only

theorem lookup_mem {α : Type} (b : Nat) (g : α) (gens : List (Nat × α))
    (hl : gens.lookup b = some g) : (b, g) ∈ gens := by
  induction gens with
  | nil => simp at hl
  | cons p gens ih =>
    obtain ⟨k, x⟩ := p
    rw [List.lookup_cons] at hl
    by_cases hk : b = k
    · subst hk
      simp only [beq_self_eq_true, Option.some.injEq] at hl
      rw [hl]; exact List.mem_cons_self _ _
    · have hb : (b == k) = false := by simp [hk]
      simp only [hb] at hl
      exact List.mem_cons_of_mem _ (ih hl)

theorem GenInvCore.runBlocks {Q : GenState → GenState → Prop} (h : GenInvCore Q)
    (gens : List (Nat × Gen OprPtr)) (hg : ∀ p ∈ gens, Gen.Keeps Q p.2) (order : List Nat) :
    Gen.Keeps Q (runBlocks gens order) := by
  induction order with
  | nil => exact GenInvCore.pure h _
  | cons b bs ih =>
    unfold MimiC.runBlocks
    cases hl : gens.lookup b with
    | none => exact GenInvCore.fail
    | some g =>
      have hk : Gen.Keeps Q g := hg (b, g) (lookup_mem b g gens hl)
      exact GenInvCore.bind h hk (fun _ => ih)

theorem GenInvCore.function {Q : GenState → GenState → Prop} (h : GenInvCore Q)
    (id : Nat) (link : MidLink) (name : String) (is_decl : Bool) (args : Nat)
    (blocks : List SSA) (entry : Nat) (gens : List (Nat × Gen OprPtr))
    (hg : is_decl = false → ∀ p ∈ gens, Gen.Keeps Q p.2) :
    Gen.Keeps Q (GenerateOnFunction id link name is_decl args blocks entry gens) := by
  unfold GenerateOnFunction
  cases is_decl with
  | true => exact GenInvCore.pure h _
  | false =>
    have h1 := GenInvCore.args h args 0
    have h2 := GenInvCore.labelBlocks h (blocks.map SSA.id)
    have h3 := GenInvCore.runBlocks h gens (hg rfl) (DFSTraverse blocks entry)
    simp only [Bool.false_eq_true, if_false]
    repeat' first
      | assumption
      | exact h.vreg | exact h.label | exact h.slot _ _ | exact h.meta _ _
      | exact h.clear | exact h.arg _
      | exact GenInvCore.pure h _ | exact GenInvCore.fail | exact GenInvCore.assert h _
      | exact GenInvCore.deref h _ | exact GenInvCore.get h | exact GenInvCore.cur_label h
      | (apply h.push <;> first
          | decide | exact binaryOpCode_ne_LABEL _ | exact binaryOpCode_ne_BEQZ _
          | exact unaryOpCode_ne_LABEL _ | exact unaryOpCode_ne_BEQZ _
          | (split <;> decide) | (split <;> split <;> decide))
      | apply h.seq | apply h.seqUnit | apply h.glob | apply h.arr
      | apply GenInvCore.bind h
      | apply GenInvCore.ite
      | intro _
      | split
      | dsimp only

theorem GenerateBlocks_mem (l : List SSA) :
    ∀ p ∈ GenerateBlocks l, p.2 = Gen.fail ∨ ∃ v ∈ l, p.2 = GenerateOn v := by
  induction l with
  | nil => intro p hp; simp [GenerateBlocks] at hp
  | cons v rest ih =>
    intro p hp
    have hcases : GenerateBlocks (v :: rest) = (v.id, Gen.fail) :: GenerateBlocks rest ∨
        GenerateBlocks (v :: rest) = (v.id, GenerateOn v) :: GenerateBlocks rest := by
      cases v <;> simp [GenerateBlocks, GenerateOn, SSA.id]
    rcases hcases with hc | hc <;> rw [hc, List.mem_cons] at hp <;> rcases hp with hp | hp
    · left; rw [hp]
    · rcases ih p hp with h1 | ⟨w, hw, h1⟩
      · left; exact h1
      · right; exact ⟨w, List.mem_cons_of_mem _ hw, h1⟩
    · right; exact ⟨v, List.mem_cons_self _ _, by rw [hp]⟩
    · rcases ih p hp with h1 | ⟨w, hw, h1⟩
      · left; exact h1
      · right; exact ⟨w, List.mem_cons_of_mem _ hw, h1⟩

mutual

/-- Every value keeps a relation that the rules keep: through `GetOpr`, and,
when function definitions are allowed, lowered directly as well. -/
theorem GenInv.keepsOpr {Q : GenState → GenState → Prop} {defs : Bool} (h : GenInv Q defs) :
    ∀ (v : SSA), (defs = true ∨ v.noDefs = true) →
      Gen.Keeps Q (GetOprWith v.id (GenerateOn v)) ∧ (defs = true → Gen.Keeps Q (GenerateOn v))
  | SSA.load id type ptr, hok => by
    have hp := (GenInv.keepsOpr h ptr (hok.imp_right (by simp [SSA.noDefs]))).1
    have hd : Gen.Keeps Q (GenerateOn (SSA.load id type ptr)) := by
      rw [GenerateOn]; exact GenInvCore.load h.toGenInvCore type ptr hp
    exact ⟨GenInvCore.getOpr h.toGenInvCore _ hd, fun _ => hd⟩
  | SSA.store id type value ptr, hok => by
    have hv := (GenInv.keepsOpr h value
      (hok.imp_right (by simp only [SSA.noDefs, Bool.and_eq_true]; exact fun x => x.1))).1
    have hp := (GenInv.keepsOpr h ptr
      (hok.imp_right (by simp only [SSA.noDefs, Bool.and_eq_true]; exact fun x => x.2))).1
    have hd : Gen.Keeps Q (GenerateOn (SSA.store id type value ptr)) := by
      rw [GenerateOn]; exact GenInvCore.store h.toGenInvCore value ptr hv hp
    exact ⟨GenInvCore.getOpr h.toGenInvCore _ hd, fun _ => hd⟩
  | SSA.access id type acc_type ptr index, hok => by
    have hp := (GenInv.keepsOpr h ptr
      (hok.imp_right (by simp only [SSA.noDefs, Bool.and_eq_true]; exact fun x => x.1))).1
    have hi := (GenInv.keepsOpr h index
      (hok.imp_right (by simp only [SSA.noDefs, Bool.and_eq_true]; exact fun x => x.2))).1
    have hd : Gen.Keeps Q (GenerateOn (SSA.access id type acc_type ptr index)) := by
      rw [GenerateOn]; exact GenInvCore.access h.toGenInvCore acc_type ptr index hp hi
    exact ⟨GenInvCore.getOpr h.toGenInvCore _ hd, fun _ => hd⟩
  | SSA.binary id type op lhs rhs, hok => by
    have hl := (GenInv.keepsOpr h lhs
      (hok.imp_right (by simp only [SSA.noDefs, Bool.and_eq_true]; exact fun x => x.1))).1
    have hr := (GenInv.keepsOpr h rhs
      (hok.imp_right (by simp only [SSA.noDefs, Bool.and_eq_true]; exact fun x => x.2))).1
    have hd : Gen.Keeps Q (GenerateOn (SSA.binary id type op lhs rhs)) := by
      rw [GenerateOn]; exact GenInvCore.binary h.toGenInvCore op hl hr
    exact ⟨GenInvCore.getOpr h.toGenInvCore _ hd, fun _ => hd⟩
  | SSA.unary id type op opr, hok => by
    have ho := (GenInv.keepsOpr h opr (hok.imp_right (by simp [SSA.noDefs]))).1
    have hd : Gen.Keeps Q (GenerateOn (SSA.unary id type op opr)) := by
      rw [GenerateOn]; exact GenInvCore.unary h.toGenInvCore op ho
    exact ⟨GenInvCore.getOpr h.toGenInvCore _ hd, fun _ => hd⟩
  | SSA.cast id type opr, hok => by
    have ho := (GenInv.keepsOpr h opr (hok.imp_right (by simp [SSA.noDefs]))).1
    have hd : Gen.Keeps Q (GenerateOn (SSA.cast id type opr)) := by
      rw [GenerateOn]; exact GenInvCore.cast h.toGenInvCore type opr ho
    exact ⟨GenInvCore.getOpr h.toGenInvCore _ hd, fun _ => hd⟩
  | SSA.call id type callee args, hok => by
    have hc := (GenInv.keepsOpr h callee
      (hok.imp_right (by simp only [SSA.noDefs, Bool.and_eq_true]; exact fun x => x.1))).1
    have ha := (GenInv.keepsList h args
      (hok.imp_right (by simp only [SSA.noDefs, Bool.and_eq_true]; exact fun x => x.2))).1 1
    have hd : Gen.Keeps Q (GenerateOn (SSA.call id type callee args)) := by
      rw [GenerateOn]; exact GenInvCore.call h.toGenInvCore type ha hc
    exact ⟨GenInvCore.getOpr h.toGenInvCore _ hd, fun _ => hd⟩
  | SSA.branch id type cond true_block false_block, hok => by
    have hc := (GenInv.keepsOpr h cond
      (hok.imp_right (by simp only [SSA.noDefs, Bool.and_eq_true]; exact fun x => x.1.1))).1
    have ht := (GenInv.keepsOpr h true_block
      (hok.imp_right (by simp only [SSA.noDefs, Bool.and_eq_true]; exact fun x => x.1.2))).1
    have hf := (GenInv.keepsOpr h false_block
      (hok.imp_right (by simp only [SSA.noDefs, Bool.and_eq_true]; exact fun x => x.2))).1
    have hd : Gen.Keeps Q (GenerateOn (SSA.branch id type cond true_block false_block)) := by
      rw [GenerateOn]; exact GenInvCore.branch h.toGenInvCore hc ht hf
    exact ⟨GenInvCore.getOpr h.toGenInvCore _ hd, fun _ => hd⟩
  | SSA.jump id type target, hok => by
    have ht := (GenInv.keepsOpr h target (hok.imp_right (by simp [SSA.noDefs]))).1
    have hd : Gen.Keeps Q (GenerateOn (SSA.jump id type target)) := by
      rw [GenerateOn]; exact GenInvCore.jump h.toGenInvCore ht
    exact ⟨GenInvCore.getOpr h.toGenInvCore _ hd, fun _ => hd⟩
  | SSA.ret id type (some v), hok => by
    have hv := (GenInv.keepsOpr h v (hok.imp_right (by simp [SSA.noDefs]))).1
    have hd : Gen.Keeps Q (GenerateOn (SSA.ret id type (some v))) := by
      rw [GenerateOn]; exact GenInvCore.retSome h.toGenInvCore hv
    exact ⟨GenInvCore.getOpr h.toGenInvCore _ hd, fun _ => hd⟩
  | SSA.ret id type none, _ => by
    have hd : Gen.Keeps Q (GenerateOn (SSA.ret id type none)) := by
      rw [GenerateOn]; exact GenInvCore.retNone h.toGenInvCore
    exact ⟨GenInvCore.getOpr h.toGenInvCore _ hd, fun _ => hd⟩
  | SSA.function id type link name is_decl args blocks entry, hok => by
    have hd : Gen.Keeps Q
        (GenerateOn (SSA.function id type link name is_decl args blocks entry)) := by
      rw [GenerateOn]
      apply GenInvCore.function h.toGenInvCore
      intro hdecl p hp
      have hdefs : defs = true := by
        rcases hok with hd | hn
        · exact hd
        · simp [SSA.noDefs, hdecl] at hn
      have hall := (GenInv.keepsList h blocks (Or.inl hdefs)).2.2.2 hdefs
      rcases GenerateBlocks_mem blocks p hp with h1 | ⟨w, hw, h1⟩
      · rw [h1]; exact GenInvCore.fail
      · rw [h1]; exact hall w hw
    exact ⟨GenInvCore.getOpr h.toGenInvCore _ hd, fun _ => hd⟩
  | SSA.globalVar id type link name (some v), hok => by
    have hv := (GenInv.keepsOpr h v (hok.imp_right (by simp [SSA.noDefs]))).1
    have hd : Gen.Keeps Q (GenerateOn (SSA.globalVar id type link name (some v))) := by
      rw [GenerateOn]; exact GenInvCore.globalSome h.toGenInvCore type link name hv
    exact ⟨GenInvCore.getOpr h.toGenInvCore _ hd, fun _ => hd⟩
  | SSA.globalVar id type link name none, _ => by
    have hd : Gen.Keeps Q (GenerateOn (SSA.globalVar id type link name none)) := by
      rw [GenerateOn]; exact GenInvCore.globalNone h.toGenInvCore type link name
    exact ⟨GenInvCore.getOpr h.toGenInvCore _ hd, fun _ => hd⟩
  | SSA.alloca id type, _ => by
    have hd : Gen.Keeps Q (GenerateOn (SSA.alloca id type)) := by
      rw [GenerateOn]; exact GenInvCore.alloca h.toGenInvCore type
    exact ⟨GenInvCore.getOpr h.toGenInvCore _ hd, fun _ => hd⟩
  | SSA.block id type insts succs, hok => by
    have hi := (GenInv.keepsList h insts (hok.imp_right (by simp [SSA.noDefs]))).2.1
    constructor
    · rw [GenerateOn]; exact h.block id _ hi
    · intro hdefs; rw [GenerateOn]; exact h.blockDirect hdefs id _ hi
  | SSA.argRef id type index, _ => by
    have hd : Gen.Keeps Q (GenerateOn (SSA.argRef id type index)) := by
      rw [GenerateOn]; exact GenInvCore.argRef h.toGenInvCore index
    exact ⟨GenInvCore.getOpr h.toGenInvCore _ hd, fun _ => hd⟩
  | SSA.constInt id type value, _ => by
    have hd : Gen.Keeps Q (GenerateOn (SSA.constInt id type value)) := by
      rw [GenerateOn]; exact GenInvCore.constInt h.toGenInvCore type value
    exact ⟨GenInvCore.getOpr h.toGenInvCore _ hd, fun _ => hd⟩
  | SSA.constStr id type str, _ => by
    have hd : Gen.Keeps Q (GenerateOn (SSA.constStr id type str)) := by
      rw [GenerateOn]; exact GenInvCore.constStr h.toGenInvCore str
    exact ⟨GenInvCore.getOpr h.toGenInvCore _ hd, fun _ => hd⟩
  | SSA.constStruct id type elems, _ => by
    have hd : Gen.Keeps Q (GenerateOn (SSA.constStruct id type elems)) := by
      rw [GenerateOn]; exact GenInvCore.fail
    exact ⟨GenInvCore.getOpr h.toGenInvCore _ hd, fun _ => hd⟩
  | SSA.constArray id type elems, hok => by
    have he := (GenInv.keepsList h elems (hok.imp_right (by simp [SSA.noDefs]))).2.2.1 0
    have hd : Gen.Keeps Q (GenerateOn (SSA.constArray id type elems)) := by
      rw [GenerateOn]; exact GenInvCore.constArray h.toGenInvCore he
    exact ⟨GenInvCore.getOpr h.toGenInvCore _ hd, fun _ => hd⟩
  | SSA.constZero id type, _ => by
    have hd : Gen.Keeps Q (GenerateOn (SSA.constZero id type)) := by
      rw [GenerateOn]; exact GenInvCore.zeros h.toGenInvCore type
    exact ⟨GenInvCore.getOpr h.toGenInvCore _ hd, fun _ => hd⟩
  | SSA.select id type cond true_val false_val, hok => by
    have hc := (GenInv.keepsOpr h cond
      (hok.imp_right (by simp only [SSA.noDefs, Bool.and_eq_true]; exact fun x => x.1.1))).1
    have ht := (GenInv.keepsOpr h true_val
      (hok.imp_right (by simp only [SSA.noDefs, Bool.and_eq_true]; exact fun x => x.1.2))).1
    have hf := (GenInv.keepsOpr h false_val
      (hok.imp_right (by simp only [SSA.noDefs, Bool.and_eq_true]; exact fun x => x.2))).1
    have hd : Gen.Keeps Q (GenerateOn (SSA.select id type cond true_val false_val)) := by
      rw [GenerateOn]; exact h.select _ _ _ hc ht hf
    exact ⟨GenInvCore.getOpr h.toGenInvCore _ hd, fun _ => hd⟩
  | SSA.undef id type, _ => by
    have hd : Gen.Keeps Q (GenerateOn (SSA.undef id type)) := by
      rw [GenerateOn]; exact GenInvCore.zeros h.toGenInvCore type
    exact ⟨GenInvCore.getOpr h.toGenInvCore _ hd, fun _ => hd⟩

/-- The loops over a list of values keep a relation that the rules keep. -/
theorem GenInv.keepsList {Q : GenState → GenState → Prop} {defs : Bool} (h : GenInv Q defs) :
    ∀ (l : List SSA), (defs = true ∨ SSA.noDefsList l = true) →
      (∀ i, Gen.Keeps Q (GenerateCallArgs l i)) ∧ Gen.Keeps Q (GenerateInsts l) ∧
      (∀ z, Gen.Keeps Q (GenerateElems l z)) ∧
      (defs = true → ∀ v ∈ l, Gen.Keeps Q (GenerateOn v))
  | [], _ => by
    refine ⟨fun i => ?_, ?_, fun z => ?_, fun _ v hv => ?_⟩
    · rw [GenerateCallArgs]; exact GenInvCore.pure h.toGenInvCore _
    · rw [GenerateInsts]; exact GenInvCore.pure h.toGenInvCore _
    · rw [GenerateElems]; exact GenInvCore.pure h.toGenInvCore _
    · simp at hv
  | v :: rest, hok => by
    have hv := GenInv.keepsOpr h v
      (hok.imp_right (by simp only [SSA.noDefsList, Bool.and_eq_true]; exact fun x => x.1))
    have hr := GenInv.keepsList h rest
      (hok.imp_right (by simp only [SSA.noDefsList, Bool.and_eq_true]; exact fun x => x.2))
    refine ⟨fun i => ?_, ?_, fun z => ?_, fun hdefs w hw => ?_⟩
    · rw [GenerateCallArgs]
      exact GenInvCore.bind h.toGenInvCore (GenInvCore.callArg h.toGenInvCore i hv.1) (fun _ => hr.1 (i + 1))
    · rw [GenerateInsts]
      exact GenInvCore.bind h.toGenInvCore hv.1 (fun _ => hr.2.1)
    · rw [GenerateElems]
      exact GenInvCore.bind h.toGenInvCore (GenInvCore.elem h.toGenInvCore v z hv.1) (fun z2 => hr.2.2.1 z2)
    · rw [List.mem_cons] at hw
      rcases hw with hw | hw
      · rw [hw]; exact hv.2 hdefs
      · exact hr.2.2.2 hdefs w hw

end

/-! ### The frame of lowering: current sequence, counters, append-only sequences -/

theorem GenState.Grows.grows_refl (st : GenState) : st.Grows st :=
  fun _ _ info hf => ⟨[], by simpa using hf⟩

theorem GenState.Grows.grows_trans {a b c : GenState} (h1 : a.Grows b) (h2 : b.Grows c) :
    a.Grows c := by
  intro isMem label info hf
  obtain ⟨s1, hb⟩ := h1 isMem label info hf
  obtain ⟨s2, hc⟩ := h2 isMem label _ hb
  exact ⟨s1 ++ s2, by simpa [List.append_assoc] using hc⟩

theorem GenState.Grows.of_eq {st st' : GenState} (hf : st'.funcs = st.funcs)
    (hm : st'.mems = st.mems) : st.Grows st' := by
  intro isMem label info h
  refine ⟨[], ?_⟩
  cases isMem <;> simp only [GenState.seqs, Bool.false_eq_true, if_false, if_true] at h ⊢
  · rw [hf]; simpa using h
  · rw [hm]; simpa using h

theorem GenState.emit_grows (st : GenState) (isMem : Bool) (label : LabelName) (i : Inst) :
    st.Grows (st.emit isMem label i) := by
  intro m l info hf
  by_cases hsame : m = isMem ∧ l = label
  · obtain ⟨rfl, rfl⟩ := hsame
    refine ⟨[i], ?_⟩
    cases m <;>
      simp only [GenState.seqs, GenState.emit, Bool.false_eq_true, if_false, if_true] at hf ⊢ <;>
      simp [InstSeqMap.find?_push, hf]
  · refine ⟨[], ?_⟩
    cases m <;> cases isMem <;>
      simp only [GenState.seqs, GenState.emit, Bool.false_eq_true, if_false, if_true] at hf ⊢ <;>
      simp only [InstSeqMap.find?_push, List.append_nil] <;>
      first
        | exact hf
        | (have hl : ¬ l = label := fun e => hsame ⟨rfl, e⟩
           simp [hl, hf])

theorem GenState.enter_grows (st : GenState) (isMem : Bool) (label : LabelName)
    (link : LinkageTypes) : st.Grows (st.enter isMem label link) := by
  intro m l info hf
  refine ⟨[], ?_⟩
  cases m <;> cases isMem <;>
    simp only [GenState.seqs, GenState.enter, Bool.false_eq_true, if_false, if_true] at hf ⊢ <;>
    simp only [InstSeqMap.find?_enter, List.append_nil] <;>
    first
      | exact hf
      | (by_cases hl : l = label
         · subst hl; simp [hf]
         · simp [hl, hf])

theorem GenState.Extends.extends_refl (st : GenState) : st.Extends st :=
  ⟨rfl, rfl, rfl, GenState.Grows.grows_refl st⟩

theorem GenState.Extends.extends_trans (a b c : GenState) (h1 : a.Extends b) (h2 : b.Extends c) :
    a.Extends c :=
  ⟨h2.1.trans h1.1, h2.2.1.trans h1.2.1, h2.2.2.1.trans h1.2.2.1, h1.2.2.2.grows_trans h2.2.2.2⟩

theorem PushInst_extends (op : OpCode) (oprs : List OprPtr) :
    Gen.Keeps GenState.Extends (PushInst op oprs) := by
  constructor
  intro st a st' e
  unfold PushInst at e
  cases hc : st.cur with
  | none => simp [hc] at e
  | some c =>
    obtain ⟨isMem, label⟩ := c
    cases ho : derefAll oprs with
    | none => simp [hc, ho] at e
    | some os =>
      simp only [hc, ho] at e
      split at e
      · simp only [Option.some.injEq, Prod.mk.injEq, true_and] at e
        subst e
        refine ⟨?_, ?_, ?_, GenState.emit_grows _ _ _ _⟩ <;>
          (unfold GenState.emit; cases isMem <;> rfl)
      · simp at e

theorem withInstSeq_extends {α : Type} (isMem : Bool) (l : LabelName) (link : LinkageTypes)
    (body : Gen α) (hb : Gen.Keeps GenState.Extends body) :
    Gen.Keeps GenState.Extends (withInstSeq isMem l link body) := by
  constructor
  intro st a st' e
  unfold withInstSeq at e
  simp only [Gen.bind_apply, EnterInstSeq_apply] at e
  cases hr : body (st.enter isMem l link) with
  | none => simp [hr] at e
  | some r =>
    obtain ⟨x, s2⟩ := r
    simp only [hr, leaveInstSeq, Gen.pure_apply, Option.some.injEq, Prod.mk.injEq] at e
    obtain ⟨_, rfl⟩ := e
    obtain ⟨_, h2, h3, h4⟩ := hb.run _ _ _ hr
    refine ⟨rfl, ?_, ?_, ?_⟩
    · show s2.in_global_ = _
      rw [h2]; unfold GenState.enter; cases isMem <;> rfl
    · show s2.arr_depth_ = _
      rw [h3]; unfold GenState.enter; cases isMem <;> rfl
    · exact (GenState.enter_grows st isMem l link).grows_trans
        (h4.grows_trans (GenState.Grows.of_eq rfl rfl))

theorem withInGlobal_extends (body : Gen OprPtr) (hb : Gen.Keeps GenState.Extends body) :
    Gen.Keeps GenState.Extends (withInGlobal body) := by
  constructor
  intro st a st' e
  unfold withInGlobal at e
  simp only [Gen.bind_apply, incInGlobal] at e
  cases hr : body { st with in_global_ := st.in_global_ + 1 } with
  | none => simp [hr] at e
  | some r =>
    obtain ⟨x, s2⟩ := r
    simp only [hr, decInGlobal, Gen.pure_apply, Option.some.injEq, Prod.mk.injEq] at e
    obtain ⟨_, rfl⟩ := e
    obtain ⟨h1, h2, h3, h4⟩ := hb.run _ _ _ hr
    refine ⟨h1, ?_, h3, ?_⟩
    · show s2.in_global_ - 1 = _
      rw [h2]; exact Nat.add_sub_cancel st.in_global_ 1
    · exact (GenState.Grows.of_eq rfl rfl).grows_trans (h4.grows_trans (GenState.Grows.of_eq rfl rfl))

theorem withArrDepth_extends (body : Gen OprPtr) (hb : Gen.Keeps GenState.Extends body) :
    Gen.Keeps GenState.Extends (withArrDepth body) := by
  constructor
  intro st a st' e
  unfold withArrDepth at e
  simp only [Gen.bind_apply, incArrDepth] at e
  cases hr : body { st with arr_depth_ := st.arr_depth_ + 1 } with
  | none => simp [hr] at e
  | some r =>
    obtain ⟨x, s2⟩ := r
    simp only [hr, decArrDepth, Gen.pure_apply, Option.some.injEq, Prod.mk.injEq] at e
    obtain ⟨_, rfl⟩ := e
    obtain ⟨h1, h2, h3, h4⟩ := hb.run _ _ _ hr
    refine ⟨h1, h2, ?_, ?_⟩
    · show s2.arr_depth_ - 1 = _
      rw [h3]; exact Nat.add_sub_cancel st.arr_depth_ 1
    · exact (GenState.Grows.of_eq rfl rfl).grows_trans (h4.grows_trans (GenState.Grows.of_eq rfl rfl))

theorem extends_core : GenInvCore GenState.Extends where
  refl := GenState.Extends.extends_refl
  trans := GenState.Extends.extends_trans
  vreg := ⟨fun st a st' e => by
    simp only [GetVReg, Option.some.injEq, Prod.mk.injEq] at e
    obtain ⟨_, rfl⟩ := e
    exact ⟨rfl, rfl, rfl, GenState.Grows.of_eq rfl rfl⟩⟩
  label := ⟨fun st a st' e => by
    simp only [GetLabel, Option.some.injEq, Prod.mk.injEq] at e
    obtain ⟨_, rfl⟩ := e
    exact ⟨rfl, rfl, rfl, GenState.Grows.of_eq rfl rfl⟩⟩
  slot := fun l n => ⟨fun st a st' e => by
    simp only [AllocNextSlot, Option.some.injEq, Prod.mk.injEq] at e
    obtain ⟨_, rfl⟩ := e
    exact ⟨rfl, rfl, rfl, GenState.Grows.of_eq rfl rfl⟩⟩
  meta := fun id o => ⟨fun st a st' e => by
    simp only [set_metadata, Option.some.injEq, Prod.mk.injEq] at e
    obtain ⟨_, rfl⟩ := e
    exact ⟨rfl, rfl, rfl, GenState.Grows.of_eq rfl rfl⟩⟩
  clear := ⟨fun st a st' e => by
    simp only [clearArgs, Option.some.injEq, Prod.mk.injEq] at e
    obtain ⟨_, rfl⟩ := e
    exact ⟨rfl, rfl, rfl, GenState.Grows.of_eq rfl rfl⟩⟩
  arg := fun x => ⟨fun st a st' e => by
    simp only [pushArg, Option.some.injEq, Prod.mk.injEq] at e
    obtain ⟨_, rfl⟩ := e
    exact ⟨rfl, rfl, rfl, GenState.Grows.of_eq rfl rfl⟩⟩
  push := fun op oprs _ _ => PushInst_extends op oprs
  seq := fun isMem l link body hb => withInstSeq_extends isMem l link body hb
  seqUnit := fun isMem l link body hb => withInstSeq_extends isMem l link body hb
  glob := withInGlobal_extends
  arr := withArrDepth_extends

theorem GenerateOnSelect_extends (c t f : Gen OprPtr) (hc : Gen.Keeps GenState.Extends c)
    (ht : Gen.Keeps GenState.Extends t) (hf : Gen.Keeps GenState.Extends f) :
    Gen.Keeps GenState.Extends (GenerateOnSelect c t f) := by
  unfold GenerateOnSelect
  repeat' first
    | assumption
    | exact extends_core.vreg | exact extends_core.label | exact extends_core.meta _ _
    | exact GenInvCore.pure extends_core _ | exact GenInvCore.fail
    | exact GenInvCore.deref extends_core _ | exact GenInvCore.get extends_core
    | exact PushInst_extends _ _
    | apply GenInvCore.bind extends_core
    | intro _
    | split
    | dsimp only

theorem GenerateOnBlock_extends (id : Nat) (g : Gen Unit) (hg : Gen.Keeps GenState.Extends g) :
    Gen.Keeps GenState.Extends (GenerateOnBlock id g) := by
  unfold GenerateOnBlock
  repeat' first
    | assumption
    | exact extends_core.vreg | exact extends_core.label | exact extends_core.meta _ _
    | exact GenInvCore.pure extends_core _ | exact GenInvCore.fail
    | exact GenInvCore.deref extends_core _ | exact GenInvCore.get extends_core
    | exact PushInst_extends _ _
    | apply GenInvCore.bind extends_core
    | intro _
    | split
    | dsimp only

/-- Lowering keeps the frame: whatever is lowered, the current sequence and both
nesting counters are afterwards what they were before, and every sequence has
only been appended to. -/
theorem extends_inv : GenInv GenState.Extends true where
  toGenInvCore := extends_core
  select := GenerateOnSelect_extends
  block := fun id g hg =>
    GenInvCore.getOpr extends_core id (GenerateOnBlock_extends id g hg)
  blockDirect := fun _ id g hg => GenerateOnBlock_extends id g hg

theorem GenerateOn_extends (v : SSA) : Gen.Keeps GenState.Extends (GenerateOn v) :=
  (GenInv.keepsOpr extends_inv v (Or.inl rfl)).2 rfl

theorem GenerateInsts_extends (l : List SSA) : Gen.Keeps GenState.Extends (GenerateInsts l) :=
  (GenInv.keepsList extends_inv l (Or.inl rfl)).2.1

/-! ### Function entry -/

theorem DFSTraverse_head (blocks : List SSA) (entry : Nat) :
    ∃ tail, DFSTraverse blocks entry = entry :: tail := by
  unfold DFSTraverse
  rw [Nat.add_comm]
  refine ⟨DFSTraverse.go (blockSuccs blocks)
    (blocks.map (fun b => (blockSuccs blocks b.id).length)).sum
    (blockSuccs blocks entry ++ []) [entry], ?_⟩
  simp [DFSTraverse.go]

theorem labelBlocks_eq (ids : List Nat) :
    ∀ st : GenState, ∃ st', labelBlocks ids st = some ((), st') ∧
      st'.funcs = st.funcs ∧ st'.mems = st.mems ∧ st'.cur = st.cur ∧
      st'.label_fact_ = st.label_fact_ + ids.length ∧
      ∀ id ∈ ids, ∃ j, j < ids.length ∧ ids.get? j = some id ∧
        st'.metadata id = some (some (Opr.label (LabelName.anon (st.label_fact_ + j)))) := by
  induction ids with
  | nil => intro st; exact ⟨st, rfl, rfl, rfl, rfl, rfl, by simp⟩
  | cons id ids ih =>
    intro st
    obtain ⟨st', hrun, hf, hm, hc, hl, hmeta⟩ := ih
      { st with label_fact_ := st.label_fact_ + 1,
                metadata := Function.update st.metadata id
                  (some (some (Opr.label (LabelName.anon st.label_fact_)))) }
    refine ⟨st', ?_, hf, hm, hc, ?_, ?_⟩
    · rw [labelBlocks]
      simp only [Gen.bind_apply, GetLabel, set_metadata]
      exact hrun
    · rw [hl]; simp only [List.length_cons]; omega
    · intro x hx
      by_cases hin : x ∈ ids
      · obtain ⟨j, hj, hget, hmx⟩ := hmeta x hin
        refine ⟨j + 1, by simp only [List.length_cons]; omega, by simpa using hget, ?_⟩
        rw [hmx]
        have : st.label_fact_ + 1 + j = st.label_fact_ + (j + 1) := by omega
        simp only [this]
      · have hxid : x = id := by
          rcases List.mem_cons.mp hx with h | h
          · exact h
          · exact absurd h hin
        subst hxid
        refine ⟨0, by simp, by simp, ?_⟩
        have hkeep : ∀ (l : List Nat) (s : GenState), x ∉ l →
            ∀ s', labelBlocks l s = some ((), s') → s'.metadata x = s.metadata x := by
          intro l
          induction l with
          | nil =>
            intro s _ s' h
            simp only [labelBlocks, Gen.pure_apply, Option.some.injEq, Prod.mk.injEq,
              true_and] at h
            rw [← h]
          | cons y l ihl =>
            intro s hn s' h
            rw [labelBlocks] at h
            simp only [Gen.bind_apply, GetLabel, set_metadata] at h
            have h2 := ihl _ (fun hm => hn (List.mem_cons_of_mem _ hm)) s' h
            rw [h2]
            have hne : x ≠ y := fun e => hn (by rw [e]; exact List.mem_cons_self _ _)
            simp [Function.update_noteq hne]
        rw [hkeep ids _ hin st' hrun]
        simp

theorem GenerateBlocks_entry (l : List SSA) :
    ∀ p ∈ GenerateBlocks l, p.1 ∈ l.map SSA.id ∧
      (p.2 = Gen.fail ∨ ∃ insts, p.2 = GenerateOnBlock p.1 (GenerateInsts insts)) := by
  induction l with
  | nil => intro p hp; simp [GenerateBlocks] at hp
  | cons v rest ih =>
    intro p hp
    have hcases : GenerateBlocks (v :: rest) = (v.id, Gen.fail) :: GenerateBlocks rest ∨
        ∃ insts, GenerateBlocks (v :: rest) =
          (v.id, GenerateOnBlock v.id (GenerateInsts insts)) :: GenerateBlocks rest := by
      cases v
      case block id type insts succs => exact Or.inr ⟨insts, by simp [GenerateBlocks, SSA.id]⟩
      all_goals simp [GenerateBlocks, SSA.id]
    rcases hcases with hc | ⟨insts, hc⟩ <;> rw [hc, List.mem_cons] at hp <;>
      rcases hp with hp | hp
    · rw [hp]; exact ⟨by simp, Or.inl rfl⟩
    · obtain ⟨h1, h2⟩ := ih p hp
      exact ⟨by simp only [List.map_cons]; exact List.mem_cons_of_mem _ h1, h2⟩
    · rw [hp]; exact ⟨by simp, Or.inr ⟨insts, rfl⟩⟩
    · obtain ⟨h1, h2⟩ := ih p hp
      exact ⟨by simp only [List.map_cons]; exact List.mem_cons_of_mem _ h1, h2⟩

theorem runBlocks_extends (blocks : List SSA) (order : List Nat) :
    Gen.Keeps GenState.Extends (runBlocks (GenerateBlocks blocks) order) := by
  apply GenInvCore.runBlocks extends_core
  intro p hp
  rcases GenerateBlocks_mem blocks p hp with h1 | ⟨w, _, h1⟩
  · rw [h1]; exact GenInvCore.fail
  · rw [h1]; exact GenerateOn_extends w

theorem GenState.Grows.funcInsts {st st' : GenState} (h : st.Grows st') (label : LabelName)
    (hp : (st.funcs.find? label).isSome = true) :
    ∃ suffix, st'.funcInsts label = st.funcInsts label ++ suffix := by
  obtain ⟨info, hf⟩ := Option.isSome_iff_exists.mp hp
  obtain ⟨suffix, hs⟩ := h false label info (by simpa [GenState.seqs] using hf)
  refine ⟨suffix, ?_⟩
  simp only [GenState.seqs, Bool.false_eq_true, if_false] at hs
  simp [GenState.funcInsts, hs, hf]

/-- C7 (amended): whenever `GenerateOn(FunctionSSA)` returns on a definition with
`n` parameters, the instructions it has appended to the function's sequence
are the `n` parameter instructions (`MV`/`LW` into fresh virtual registers),
then the `LABEL` instruction of the entry block, carrying the label that was
pre-assigned to the block of the function whose id is `entry`, then the rest.
With no parameters the first emitted instruction is the entry block's label. -/
theorem C7_entry_label_follows_parameters (st st' : GenState) (id : Nat) (type : Ty)
    (link : MidLink) (name : String) (args : Nat) (blocks : List SSA) (entry : Nat)
    (r : OprPtr)
    (hrun : GenerateOn (SSA.function id type link name false args blocks entry) st =
      some (r, st')) :
    ∃ j rest, j < blocks.length ∧ (blocks.map SSA.id).get? j = some entry ∧
      st'.funcInsts (GetNamedLabel name) = st.funcInsts (GetNamedLabel name) ++
        (List.range args).map (fun i => paramInst i (Opr.vreg (st.vreg_fact_ + i))) ++
        ⟨OpCode.LABEL, [Opr.label (LabelName.anon (st.label_fact_ + j))]⟩ :: rest := by
  rw [GenerateOn, GenerateOnFunction] at hrun
  simp only [Bool.false_eq_true, if_false, withInstSeq, Gen.bind_apply, EnterInstSeq_apply,
    set_metadata, clearArgs] at hrun
  -- the parameter loop
  have hcur1 : GenState.hasCur
      { st.enter false (GetNamedLabel name) (GetLinkType link) with
        metadata := Function.update (st.enter false (GetNamedLabel name) (GetLinkType link)).metadata
          id (some (some (Opr.label (GetNamedLabel name)))),
        args_ := [] } = true :=
    GenState.enter_hasCur st false _ _
  obtain ⟨s2, hargs, hcur2, hc2, hins2, _, _, _, hl2'⟩ := GenerateArgs_eq args 0 _ hcur1
  have hl2 : s2.label_fact_ = st.label_fact_ := by
    rw [hl2']; simp [GenState.enter]
  have hins2' : s2.curInsts = st.funcInsts (GetNamedLabel name) ++
      (List.range args).map (fun i => paramInst i (Opr.vreg (st.vreg_fact_ + i))) := by
    rw [hins2]
    have h2 := GenState.enter_curInsts_func st (GetNamedLabel name) (GetLinkType link)
    have h3 : GenState.curInsts
        { st.enter false (GetNamedLabel name) (GetLinkType link) with
          metadata := Function.update
            (st.enter false (GetNamedLabel name) (GetLinkType link)).metadata
            id (some (some (Opr.label (GetNamedLabel name)))),
          args_ := [] } = st.funcInsts (GetNamedLabel name) := h2
    rw [h3]
    simp [GenState.enter]
  have hc2' : s2.cur = some (false, GetNamedLabel name) := by
    rw [hc2]; simp [GenState.enter]
  simp only [hargs] at hrun
  -- the labels of the blocks
  obtain ⟨s3, hlb, hf3, hm3, hc3, _, hmeta3⟩ := labelBlocks_eq (blocks.map SSA.id) s2
  simp only [hlb] at hrun
  have hcur3 : s3.hasCur = true := by
    unfold GenState.hasCur at hcur2 ⊢
    rw [hc3]
    simp only [hc2', GenState.seqs, Bool.false_eq_true, if_false] at hcur2 ⊢
    rw [hf3]; exact hcur2
  have hins3 : s3.curInsts = s2.curInsts := by
    unfold GenState.curInsts
    rw [hc3]
    simp only [hc2', GenState.seqs, Bool.false_eq_true, if_false]
    rw [hf3]
  -- the traversal starts with the entry block
  obtain ⟨tail, hdfs⟩ := DFSTraverse_head blocks entry
  rw [hdfs, runBlocks] at hrun
  cases hlk : (GenerateBlocks blocks).lookup entry with
  | none => simp [hlk] at hrun
  | some gen =>
    simp only [hlk, Gen.bind_apply] at hrun
    obtain ⟨hmem, hgen⟩ := GenerateBlocks_entry blocks (entry, gen) (lookup_mem _ _ _ hlk)
    rcases hgen with hgen | ⟨insts, hgen⟩
    · simp only at hgen
      simp [hgen] at hrun
    · simp only at hgen hmem
      obtain ⟨j, hj, hget, hmj⟩ := hmeta3 entry hmem
      rw [hl2] at hmj
      rw [hgen, GenerateOnBlock] at hrun
      simp only [Gen.bind_apply, Gen.get_apply, hmj, Gen.deref_some] at hrun
      rw [PushInst_apply s3 OpCode.LABEL
        [some (Opr.label (LabelName.anon (st.label_fact_ + j)))]
        [Opr.label (LabelName.anon (st.label_fact_ + j))] hcur3 rfl] at hrun
      simp only at hrun
      have hpc := GenState.push_curInsts s3
        ⟨OpCode.LABEL, [Opr.label (LabelName.anon (st.label_fact_ + j))]⟩ hcur3
      have hph := GenState.push_hasCur s3
        ⟨OpCode.LABEL, [Opr.label (LabelName.anon (st.label_fact_ + j))]⟩
      have hpcur := GenState.push_cur s3
        ⟨OpCode.LABEL, [Opr.label (LabelName.anon (st.label_fact_ + j))]⟩
      generalize GenState.push s3
        ⟨OpCode.LABEL, [Opr.label (LabelName.anon (st.label_fact_ + j))]⟩ = s4 at hrun hpc hph hpcur
      cases hgi : GenerateInsts insts s4 with
      | none => simp [hgi] at hrun
      | some x =>
        obtain ⟨_, s5⟩ := x
        simp only [hgi, Gen.pure_apply] at hrun
        cases hrb : runBlocks (GenerateBlocks blocks) tail s5 with
        | none => simp [hrb] at hrun
        | some y =>
          obtain ⟨_, s6⟩ := y
          simp only [hrb, leaveInstSeq, Option.some.injEq, Prod.mk.injEq] at hrun
          obtain ⟨_, rfl⟩ := hrun
          have hg45 := (GenerateInsts_extends insts).run _ _ _ hgi
          have hg56 := (runBlocks_extends blocks tail).run _ _ _ hrb
          have hgrow := hg45.2.2.2.grows_trans hg56.2.2.2
          have hc4 : s4.cur = some (false, GetNamedLabel name) := by
            rw [hpcur, hc3, hc2']
          have hp4 : (s4.funcs.find? (GetNamedLabel name)).isSome = true := by
            have hcur4 : s4.hasCur = true := hph.trans hcur3
            unfold GenState.hasCur at hcur4
            simpa [hc4, GenState.seqs] using hcur4
          obtain ⟨suffix, hsuf⟩ := hgrow.funcInsts (GetNamedLabel name) hp4
          have h4 : s4.funcInsts (GetNamedLabel name) = s4.curInsts := by
            simp [GenState.funcInsts, GenState.curInsts, hc4, GenState.seqs]
          refine ⟨j, suffix, by simpa using hj, hget, ?_⟩
          show s6.funcInsts (GetNamedLabel name) = _
          rw [hsuf, h4, hpc, hins3, hins2']
          simp

theorem C7_entry_label_follows_parameters_witness :
    ∃ r st', GenerateOn (SSA.function 1 Ty.void MidLink.External "f" false 1
        [SSA.block 2 Ty.void [SSA.ret 3 Ty.void none] []] 2) GenState.empty = some (r, st') ∧
      ∃ j rest, j < [SSA.block 2 Ty.void [SSA.ret 3 Ty.void none] []].length ∧
        ([SSA.block 2 Ty.void [SSA.ret 3 Ty.void none] []].map SSA.id).get? j = some 2 ∧
        st'.funcInsts (GetNamedLabel "f") =
          GenState.empty.funcInsts (GetNamedLabel "f") ++
          (List.range 1).map
            (fun i => paramInst i (Opr.vreg (GenState.empty.vreg_fact_ + i))) ++
          ⟨OpCode.LABEL, [Opr.label (LabelName.anon (GenState.empty.label_fact_ + j))]⟩ ::
            rest :=
  match h : GenerateOn (SSA.function 1 Ty.void MidLink.External "f" false 1
      [SSA.block 2 Ty.void [SSA.ret 3 Ty.void none] []] 2) GenState.empty,
    (by decide! : (GenerateOn (SSA.function 1 Ty.void MidLink.External "f" false 1
      [SSA.block 2 Ty.void [SSA.ret 3 Ty.void none] []] 2) GenState.empty).isSome = true) with
  | some (r, st'), _ =>
    ⟨r, st', rfl, C7_entry_label_follows_parameters GenState.empty st' 1 Ty.void
      MidLink.External "f" 1 [SSA.block 2 Ty.void [SSA.ret 3 Ty.void none] []] 2 r h⟩

/-- C7 (as stated) fails. The definition `f` with one parameter and the single
block `ret` starts its sequence with the parameter move `MV v0, a0`; the
`LABEL` of the entry block is the second instruction. -/
theorem C7_first_instruction_is_parameter_move :
    (GenerateOn (SSA.function 1 Ty.void MidLink.External "f" false 1
        [SSA.block 2 Ty.void [SSA.ret 3 Ty.void none] []] 2)
        GenState.empty).map (fun r => r.2.funcInsts (GetNamedLabel "f")) =
      some [⟨OpCode.MV, [Opr.vreg 0, Opr.reg RegName.A0]⟩,
        ⟨OpCode.LABEL, [Opr.label (LabelName.anon 0)]⟩,
        ⟨OpCode.RET, []⟩] := by
  decide!

/-! ### Depth-first traversal -/

theorem sum_filter_visit (w : Nat → Nat) (visited : List Nat) (b : Nat) (hb : b ∉ visited)
    (nodes : List Nat) :
    ((nodes.filter (fun n => decide (n ∉ b :: visited))).map w).sum +
        (if b ∈ nodes then w b else 0) ≤
      ((nodes.filter (fun n => decide (n ∉ visited))).map w).sum := by
  induction nodes with
  | nil => simp
  | cons n rest ih =>
    by_cases hnb : n = b
    · subst hnb
      rw [List.filter_cons_of_neg (by simp), List.filter_cons_of_pos (by simpa using hb)]
      rw [if_pos (List.mem_cons_self _ _), List.map_cons, List.sum_cons]
      split at ih <;> omega
    · have hmem : (b ∈ n :: rest) ↔ b ∈ rest := by
        simp only [List.mem_cons]
        constructor
        · rintro (h | h)
          · exact absurd h.symm hnb
          · exact h
        · exact Or.inr
      simp only [hmem]
      by_cases hv : n ∈ visited
      · rw [List.filter_cons_of_neg (by simp [hv]), List.filter_cons_of_neg (by simp [hv])]
        exact ih
      · rw [List.filter_cons_of_pos (by simp [hv, hnb]), List.filter_cons_of_pos (by simp [hv])]
        rw [List.map_cons, List.sum_cons, List.map_cons, List.sum_cons]
        omega

theorem DFSTraverse.go_closed (succs : Nat → List Nat) (nodes : List Nat)
    (hout : ∀ b, b ∉ nodes → succs b = []) :
    ∀ (fuel : Nat) (stack visited : List Nat),
      stack.length +
          ((nodes.filter (fun n => decide (n ∉ visited))).map (fun n => (succs n).length)).sum ≤
        fuel →
      (∀ s ∈ stack, s ∈ visited ∨ s ∈ DFSTraverse.go succs fuel stack visited) ∧
      (∀ a ∈ DFSTraverse.go succs fuel stack visited, ∀ c ∈ succs a,
        c ∈ visited ∨ c ∈ DFSTraverse.go succs fuel stack visited) ∧
      (DFSTraverse.go succs fuel stack visited).Nodup ∧
      (∀ a ∈ DFSTraverse.go succs fuel stack visited, a ∉ visited) := by
  intro fuel
  induction fuel with
  | zero =>
    intro stack visited hpot
    have hs : stack = [] := List.length_eq_zero.mp (by omega)
    subst hs
    simp [DFSTraverse.go]
  | succ fuel ih =>
    intro stack visited hpot
    cases stack with
    | nil => simp [DFSTraverse.go]
    | cons b stack =>
      by_cases hb : b ∈ visited
      · have hgo : DFSTraverse.go succs (fuel + 1) (b :: stack) visited =
            DFSTraverse.go succs fuel stack visited := by
          simp [DFSTraverse.go, hb]
        rw [hgo]
        obtain ⟨h1, h2, h3, h4⟩ := ih stack visited (by simp only [List.length_cons] at hpot; omega)
        refine ⟨?_, h2, h3, h4⟩
        intro s hs
        rcases List.mem_cons.mp hs with rfl | hs
        · exact Or.inl hb
        · exact h1 s hs
      · have hgo : DFSTraverse.go succs (fuel + 1) (b :: stack) visited =
            b :: DFSTraverse.go succs fuel (succs b ++ stack) (b :: visited) := by
          simp [DFSTraverse.go, hb]
        rw [hgo]
        have hw := sum_filter_visit (fun n => (succs n).length) visited b hb nodes
        have hwb : (succs b).length ≤ (if b ∈ nodes then (succs b).length else 0) := by
          by_cases hbn : b ∈ nodes
          · simp [hbn]
          · simp [hbn, hout b hbn]
        obtain ⟨h1, h2, h3, h4⟩ := ih (succs b ++ stack) (b :: visited) (by
          simp only [List.length_cons, List.length_append] at hpot ⊢
          omega)
        refine ⟨?_, ?_, ?_, ?_⟩
        · intro s hs
          rcases List.mem_cons.mp hs with rfl | hs
          · exact Or.inr (List.mem_cons_self _ _)
          · rcases h1 s (List.mem_append_right _ hs) with h | h
            · rcases List.mem_cons.mp h with rfl | h
              · exact Or.inr (List.mem_cons_self _ _)
              · exact Or.inl h
            · exact Or.inr (List.mem_cons_of_mem _ h)
        · intro a ha c hc
          have hcl : c ∈ b :: visited ∨
              c ∈ DFSTraverse.go succs fuel (succs b ++ stack) (b :: visited) := by
            rcases List.mem_cons.mp ha with rfl | ha
            · exact h1 c (List.mem_append_left _ hc)
            · exact h2 a ha c hc
          rcases hcl with h | h
          · rcases List.mem_cons.mp h with rfl | h
            · exact Or.inr (List.mem_cons_self _ _)
            · exact Or.inl h
          · exact Or.inr (List.mem_cons_of_mem _ h)
        · refine List.nodup_cons.mpr ⟨?_, h3⟩
          intro hmem
          exact h4 b hmem (List.mem_cons_self _ _)
        · intro a ha
          rcases List.mem_cons.mp ha with rfl | ha
          · exact hb
          · exact fun hv => h4 a ha (List.mem_cons_of_mem _ hv)

theorem blockSuccs_out (blocks : List SSA) (b : Nat) (hb : b ∉ blocks.map SSA.id) :
    blockSuccs blocks b = [] := by
  unfold blockSuccs
  have hnone : blocks.find? (fun x => x.id == b) = none := by
    rw [List.find?_eq_none]
    intro x hx hxb
    exact hb (List.mem_map.mpr ⟨x, hx, by simpa using hxb⟩)
  rw [hnone]

theorem DFSTraverse_closed (blocks : List SSA) (entry : Nat) :
    entry ∈ DFSTraverse blocks entry ∧
    (∀ a ∈ DFSTraverse blocks entry, ∀ c ∈ blockSuccs blocks a, c ∈ DFSTraverse blocks entry) ∧
    (DFSTraverse blocks entry).Nodup := by
  have h := DFSTraverse.go_closed (blockSuccs blocks) (blocks.map SSA.id)
    (blockSuccs_out blocks)
    (1 + (blocks.map (fun b => (blockSuccs blocks b.id).length)).sum) [entry] [] (by
      simp [List.map_map, Function.comp_def])
  obtain ⟨h1, h2, h3, _⟩ := h
  refine ⟨?_, ?_, h3⟩
  · rcases h1 entry (List.mem_cons_self _ _) with h | h
    · simp at h
    · exact h
  · intro a ha c hc
    rcases h2 a ha c hc with h | h
    · simp at h
    · exact h

theorem DFSTraverse_reachable (blocks : List SSA) (entry b : Nat)
    (h : Reachable blocks entry b) : b ∈ DFSTraverse blocks entry := by
  obtain ⟨h1, h2, _⟩ := DFSTraverse_closed blocks entry
  induction h with
  | refl => exact h1
  | tail _ hstep ih => exact h2 _ ih _ hstep

/-! ### Counting labels -/

theorem excessOf_append (a b : List Inst) : excessOf (a ++ b) = excessOf a + excessOf b := by
  simp [excessOf]

theorem excessOf_eq_count (l : List Inst) :
    excessOf l = (countOp OpCode.LABEL l : Int) - (countOp OpCode.BEQZ l : Int) := by
  induction l with
  | nil => simp [excessOf, countOp]
  | cons i rest ih =>
    obtain ⟨op, oprs⟩ := i
    have h : excessOf (⟨op, oprs⟩ :: rest) = opExcess op + excessOf rest := by simp [excessOf]
    rw [h, ih]
    unfold countOp
    cases op <;> simp [opExcess, List.countP_cons] <;> omega

theorem opExcess_eq_zero (op : OpCode) (h1 : op ≠ OpCode.LABEL) (h2 : op ≠ OpCode.BEQZ) :
    opExcess op = 0 := by
  cases op <;> first | rfl | exact absurd rfl h1 | exact absurd rfl h2

theorem GenState.SameExcess.same_of_funcs {st st' : GenState} (hf : st'.funcs = st.funcs) :
    st.SameExcess st' := by
  intro label
  simp [GenState.excess, GenState.funcInsts, hf]

theorem GenState.enter_funcInsts (st : GenState) (isMem : Bool) (label l : LabelName)
    (link : LinkageTypes) : (st.enter isMem label link).funcInsts l = st.funcInsts l := by
  cases isMem
  · simp only [GenState.enter, GenState.funcInsts, Bool.false_eq_true, if_false,
      InstSeqMap.find?_enter]
    by_cases hl : l = label
    · subst hl
      cases hf : InstSeqMap.find? st.funcs l <;> simp [hf]
    · simp [hl]
  · simp [GenState.enter, GenState.funcInsts]

theorem GenState.emit_funcInsts (st : GenState) (isMem : Bool) (label l : LabelName) (i : Inst)
    (h : ((st.seqs isMem).find? label).isSome = true) :
    (st.emit isMem label i).funcInsts l =
      st.funcInsts l ++ if isMem = false ∧ label = l then [i] else [] := by
  cases isMem
  · simp only [GenState.seqs, Bool.false_eq_true, if_false] at h
    simp only [GenState.emit, GenState.funcInsts, Bool.false_eq_true, if_false,
      InstSeqMap.find?_push, true_and]
    by_cases hl : l = label
    · subst hl
      obtain ⟨info, hf⟩ := Option.isSome_iff_exists.mp h
      simp [hf]
    · have hl' : ¬ label = l := fun e => hl e.symm
      simp [hl, hl']
  · simp [GenState.emit, GenState.funcInsts]

theorem PushInst_shift (op : OpCode) (oprs : List OprPtr) :
    Gen.Keeps (GenState.Shift (opExcess op)) (PushInst op oprs) := by
  constructor
  intro st a st' e
  unfold PushInst at e
  cases hc : st.cur with
  | none => simp [hc] at e
  | some c =>
    obtain ⟨isMem, label⟩ := c
    cases ho : derefAll oprs with
    | none => simp [hc, ho] at e
    | some os =>
      simp only [hc, ho] at e
      split at e
      · rename_i hsome
        simp only [Option.some.injEq, Prod.mk.injEq, true_and] at e
        subst e
        refine ⟨?_, ?_⟩
        · rw [hc]; unfold GenState.emit; cases isMem <;> exact hc
        · intro l
          unfold GenState.excess
          rw [GenState.emit_funcInsts st isMem label l _ hsome, excessOf_append]
          by_cases hcond : isMem = false ∧ label = l
          · obtain ⟨rfl, rfl⟩ := hcond
            simp [excessOf, hc]
          · have hne : ¬ (st.cur = some (false, l)) := by
              intro h
              rw [hc] at h
              simp only [Option.some.injEq, Prod.mk.injEq] at h
              exact hcond h
            simp [hcond, hne, excessOf]
      · simp at e

theorem Shift_pure {α : Type} (a : α) : Gen.Keeps (GenState.Shift 0) (Pure.pure a : Gen α) := by
  constructor
  intro st b st' e
  simp only [Gen.pure_apply, Option.some.injEq, Prod.mk.injEq] at e
  rw [← e.2]
  exact ⟨rfl, fun l => by simp⟩

theorem Shift_bind {α β : Type} {d d1 d2 : Int} {m : Gen α} {f : α → Gen β}
    (hm : Gen.Keeps (GenState.Shift d1) m) (hf : ∀ a, Gen.Keeps (GenState.Shift d2) (f a))
    (hd : d = d1 + d2) : Gen.Keeps (GenState.Shift d) (m >>= f) := by
  constructor
  intro st b st' e
  simp only [Gen.bind_apply] at e
  cases hms : m st with
  | none => simp [hms] at e
  | some r =>
    obtain ⟨a, st1⟩ := r
    simp only [hms] at e
    obtain ⟨hc1, he1⟩ := hm.run _ _ _ hms
    obtain ⟨hc2, he2⟩ := (hf a).run _ _ _ e
    refine ⟨hc2.trans hc1, fun l => ?_⟩
    rw [he2 l, he1 l, hc1, hd]
    split <;> omega

theorem Shift_of_extends {α : Type} {m : Gen α} (he : Gen.Keeps GenState.Extends m)
    (hs : Gen.Keeps GenState.SameExcess m) : Gen.Keeps (GenState.Shift 0) m := by
  constructor
  intro st a st' e
  exact ⟨(he.run _ _ _ e).1, fun l => by rw [hs.run _ _ _ e l]; simp⟩

theorem SameExcess_of_shift {α : Type} {m : Gen α} (h : Gen.Keeps (GenState.Shift 0) m) :
    Gen.Keeps GenState.SameExcess m := by
  constructor
  intro st a st' e l
  rw [(h.run _ _ _ e).2 l]; simp

theorem withInstSeq_excess {α : Type} (isMem : Bool) (l : LabelName) (link : LinkageTypes)
    (body : Gen α) (hb : Gen.Keeps GenState.SameExcess body) :
    Gen.Keeps GenState.SameExcess (withInstSeq isMem l link body) := by
  constructor
  intro st a st' e
  unfold withInstSeq at e
  simp only [Gen.bind_apply, EnterInstSeq_apply] at e
  cases hr : body (st.enter isMem l link) with
  | none => simp [hr] at e
  | some r =>
    obtain ⟨x, s2⟩ := r
    simp only [hr, leaveInstSeq, Gen.pure_apply, Option.some.injEq, Prod.mk.injEq] at e
    obtain ⟨_, rfl⟩ := e
    intro label
    have h2 := hb.run _ _ _ hr label
    unfold GenState.excess at h2 ⊢
    rw [GenState.enter_funcInsts] at h2
    exact h2

theorem excess_core : GenInvCore GenState.SameExcess where
  refl := fun _ _ => rfl
  trans := fun _ _ _ h1 h2 l => (h2 l).trans (h1 l)
  vreg := ⟨fun st a st' e => by
    simp only [GetVReg, Option.some.injEq, Prod.mk.injEq] at e
    obtain ⟨_, rfl⟩ := e
    exact GenState.SameExcess.same_of_funcs rfl⟩
  label := ⟨fun st a st' e => by
    simp only [GetLabel, Option.some.injEq, Prod.mk.injEq] at e
    obtain ⟨_, rfl⟩ := e
    exact GenState.SameExcess.same_of_funcs rfl⟩
  slot := fun l n => ⟨fun st a st' e => by
    simp only [AllocNextSlot, Option.some.injEq, Prod.mk.injEq] at e
    obtain ⟨_, rfl⟩ := e
    exact GenState.SameExcess.same_of_funcs rfl⟩
  meta := fun id o => ⟨fun st a st' e => by
    simp only [set_metadata, Option.some.injEq, Prod.mk.injEq] at e
    obtain ⟨_, rfl⟩ := e
    exact GenState.SameExcess.same_of_funcs rfl⟩
  clear := ⟨fun st a st' e => by
    simp only [clearArgs, Option.some.injEq, Prod.mk.injEq] at e
    obtain ⟨_, rfl⟩ := e
    exact GenState.SameExcess.same_of_funcs rfl⟩
  arg := fun x => ⟨fun st a st' e => by
    simp only [pushArg, Option.some.injEq, Prod.mk.injEq] at e
    obtain ⟨_, rfl⟩ := e
    exact GenState.SameExcess.same_of_funcs rfl⟩
  push := fun op oprs h1 h2 => SameExcess_of_shift (by
    have h := PushInst_shift op oprs
    rw [opExcess_eq_zero op h1 h2] at h
    exact h)
  seq := fun isMem l link body hb => withInstSeq_excess isMem l link body hb
  seqUnit := fun isMem l link body hb => withInstSeq_excess isMem l link body hb
  glob := fun body hb => ⟨fun st a st' e => by
    unfold withInGlobal at e
    simp only [Gen.bind_apply, incInGlobal] at e
    cases hr : body { st with in_global_ := st.in_global_ + 1 } with
    | none => simp [hr] at e
    | some r =>
      obtain ⟨x, s2⟩ := r
      simp only [hr, decInGlobal, Gen.pure_apply, Option.some.injEq, Prod.mk.injEq] at e
      obtain ⟨_, rfl⟩ := e
      exact fun l => hb.run _ _ _ hr l⟩
  arr := fun body hb => ⟨fun st a st' e => by
    unfold withArrDepth at e
    simp only [Gen.bind_apply, incArrDepth] at e
    cases hr : body { st with arr_depth_ := st.arr_depth_ + 1 } with
    | none => simp [hr] at e
    | some r =>
      obtain ⟨x, s2⟩ := r
      simp only [hr, decArrDepth, Gen.pure_apply, Option.some.injEq, Prod.mk.injEq] at e
      obtain ⟨_, rfl⟩ := e
      exact fun l => hb.run _ _ _ hr l⟩

theorem GenerateOnSelect_excess (c t f : Gen OprPtr) (hc : Gen.Keeps GenState.SameExcess c)
    (ht : Gen.Keeps GenState.SameExcess t) (hf : Gen.Keeps GenState.SameExcess f) :
    Gen.Keeps GenState.SameExcess (GenerateOnSelect c t f) := by
  unfold GenerateOnSelect
  refine GenInvCore.bind excess_core excess_core.vreg (fun dest => ?_)
  refine GenInvCore.bind excess_core hc (fun cv => ?_)
  refine GenInvCore.bind excess_core ht (fun tv => ?_)
  refine GenInvCore.bind excess_core hf (fun fv => ?_)
  refine GenInvCore.bind excess_core excess_core.vreg (fun temp => ?_)
  refine GenInvCore.bind excess_core excess_core.label (fun label => ?_)
  refine SameExcess_of_shift ?_
  exact Shift_bind (PushInst_shift _ _) (fun _ =>
    Shift_bind (PushInst_shift _ _) (fun _ =>
      Shift_bind (PushInst_shift _ _) (fun _ =>
        Shift_bind (PushInst_shift _ _) (fun _ =>
          Shift_bind (PushInst_shift _ _) (fun _ => Shift_pure _) rfl) rfl) rfl) rfl) (by decide)

/-- Lowering a value in which no function is defined leaves, in every function
sequence, the number of `LABEL` instructions minus the number of `BEQZ`
instructions as it was: a select emits one of each, a block that is referred to
is not lowered again, and no other rule emits either. -/
theorem excess_inv : GenInv GenState.SameExcess false where
  toGenInvCore := excess_core
  select := GenerateOnSelect_excess
  block := fun id g _ => ⟨fun st a st' e => by
    unfold GetOprWith at e
    cases hm : st.metadata id with
    | none => simp [hm, GenerateOnBlock] at e
    | some o =>
      simp only [hm, Option.some.injEq, Prod.mk.injEq] at e
      rw [← e.2]
      exact fun _ => rfl⟩
  blockDirect := fun h => absurd h (by decide)

theorem runBlocks_keys (gens : List (Nat × Gen OprPtr)) (order : List Nat) :
    ∀ (st : GenState) (x : Unit × GenState), runBlocks gens order st = some x →
      ∀ b ∈ order, b ∈ gens.map Prod.fst := by
  induction order with
  | nil => intro st x _ b hb; simp at hb
  | cons c bs ih =>
    intro st x hrun b hb
    unfold MimiC.runBlocks at hrun
    cases hl : gens.lookup c with
    | none => simp [hl] at hrun
    | some g =>
      simp only [hl, Gen.bind_apply] at hrun
      rcases List.mem_cons.mp hb with rfl | hb
      · exact List.mem_map.mpr ⟨(b, g), lookup_mem b g gens hl, rfl⟩
      · cases hgs : g st with
        | none => simp [hgs] at hrun
        | some y =>
          obtain ⟨_, s1⟩ := y
          simp only [hgs] at hrun
          exact ih s1 x hrun b hb

theorem GenerateBlocks_keys (blocks : List SSA) :
    (GenerateBlocks blocks).map Prod.fst = blocks.map SSA.id := by
  induction blocks with
  | nil => simp [GenerateBlocks]
  | cons v rest ih =>
    cases v <;> simp [GenerateBlocks, SSA.id, ih]

theorem DFSTraverse_length (blocks : List SSA) (entry : Nat)
    (hids : (blocks.map SSA.id).Nodup)
    (hreach : ∀ b ∈ blocks, Reachable blocks entry b.id)
    (hsub : ∀ b ∈ DFSTraverse blocks entry, b ∈ blocks.map SSA.id) :
    (DFSTraverse blocks entry).length = blocks.length := by
  obtain ⟨_, _, hnd⟩ := DFSTraverse_closed blocks entry
  have h1 : (DFSTraverse blocks entry).length ≤ (blocks.map SSA.id).length :=
    (List.subperm_of_subset hnd hsub).length_le
  have h2 : (blocks.map SSA.id).length ≤ (DFSTraverse blocks entry).length := by
    apply (List.subperm_of_subset hids ?_).length_le
    intro x hx
    obtain ⟨b, hb, rfl⟩ := List.mem_map.mp hx
    exact DFSTraverse_reachable blocks entry b.id (hreach b hb)
  rw [List.length_map] at h1 h2
  omega

/-! ### Counting labels next to nested definitions -/

theorem GenState.ShiftAt.shiftAt_of_eq {l : LabelName} {done : Nat → Bool} {st st' : GenState}
    (hc : st'.cur = st.cur) (hf : st'.funcs = st.funcs)
    (hm : ∀ i, (st.metadata i).isSome = true → (st'.metadata i).isSome = true) :
    GenState.ShiftAt l done 0 st st' := by
  intro hp
  refine ⟨hc, fun i hi => hm i (hp i hi), ?_⟩
  simp [GenState.excess, GenState.funcInsts, hf]

theorem PushInst_metadata (op : OpCode) (oprs : List OprPtr) (st st' : GenState) (a : Unit)
    (e : PushInst op oprs st = some (a, st')) : st'.metadata = st.metadata := by
  unfold PushInst at e
  cases hc : st.cur with
  | none => simp [hc] at e
  | some c =>
    obtain ⟨isMem, label⟩ := c
    cases ho : derefAll oprs with
    | none => simp [hc, ho] at e
    | some os =>
      simp only [hc, ho] at e
      split at e
      · simp only [Option.some.injEq, Prod.mk.injEq, true_and] at e
        subst e
        unfold GenState.emit
        cases isMem <;> rfl
      · simp at e

theorem PushInst_shiftAt (l : LabelName) (done : Nat → Bool) (op : OpCode)
    (oprs : List OprPtr) :
    Gen.Keeps (GenState.ShiftAt l done (opExcess op)) (PushInst op oprs) := by
  constructor
  intro st a st' e hp
  obtain ⟨hc, he⟩ := (PushInst_shift op oprs).run _ _ _ e
  refine ⟨hc, fun i hi => ?_, he l⟩
  rw [PushInst_metadata op oprs st st' a e]
  exact hp i hi

theorem ShiftAt_pure {α : Type} (l : LabelName) (done : Nat → Bool) (a : α) :
    Gen.Keeps (GenState.ShiftAt l done 0) (Pure.pure a : Gen α) := by
  constructor
  intro st b st' e hp
  simp only [Gen.pure_apply, Option.some.injEq, Prod.mk.injEq] at e
  rw [← e.2]
  exact ⟨rfl, hp, by simp⟩

theorem ShiftAt_bind {α β : Type} {l : LabelName} {done : Nat → Bool} {d d1 d2 : Int}
    {m : Gen α} {f : α → Gen β}
    (hm : Gen.Keeps (GenState.ShiftAt l done d1) m)
    (hf : ∀ a, Gen.Keeps (GenState.ShiftAt l done d2) (f a))
    (hd : d = d1 + d2) : Gen.Keeps (GenState.ShiftAt l done d) (m >>= f) := by
  constructor
  intro st b st' e hp
  simp only [Gen.bind_apply] at e
  cases hms : m st with
  | none => simp [hms] at e
  | some r =>
    obtain ⟨a, st1⟩ := r
    simp only [hms] at e
    obtain ⟨hc1, hp1, he1⟩ := hm.run _ _ _ hms hp
    obtain ⟨hc2, hp2, he2⟩ := (hf a).run _ _ _ e hp1
    refine ⟨hc2.trans hc1, hp2, ?_⟩
    rw [he2, he1, hc1, hd]
    split <;> omega

theorem withInstSeq_shiftAt {α : Type} (l : LabelName) (done : Nat → Bool) (d : Int)
    (isMem : Bool) (l2 : LabelName) (link : LinkageTypes) (body : Gen α)
    (hne : isMem = true ∨ l2 ≠ l ∨ d = 0)
    (hb : Gen.Keeps (GenState.ShiftAt l done d) body) :
    Gen.Keeps (GenState.ShiftAt l done 0) (withInstSeq isMem l2 link body) := by
  constructor
  intro st a st' e hp
  unfold withInstSeq at e
  simp only [Gen.bind_apply, EnterInstSeq_apply] at e
  cases hr : body (st.enter isMem l2 link) with
  | none => simp [hr] at e
  | some r =>
    obtain ⟨x, s2⟩ := r
    simp only [hr, leaveInstSeq, Gen.pure_apply, Option.some.injEq, Prod.mk.injEq] at e
    obtain ⟨_, rfl⟩ := e
    have hpe : (st.enter isMem l2 link).Lowered done := by
      intro i hi
      have : (st.enter isMem l2 link).metadata = st.metadata := by
        unfold GenState.enter; cases isMem <;> rfl
      rw [this]; exact hp i hi
    obtain ⟨_, hp2, he2⟩ := hb.run _ _ _ hr hpe
    refine ⟨rfl, hp2, ?_⟩
    have hcur : (st.enter isMem l2 link).cur = some (isMem, l2) := by
      unfold GenState.enter; cases isMem <;> rfl
    have hzero : (if (st.enter isMem l2 link).cur = some (false, l) then d else 0) = 0 := by
      rw [hcur]
      rcases hne with h | h | h
      · subst h; simp
      · have : ¬ (some (isMem, l2) = some (false, l)) := by
          intro hh
          simp only [Option.some.injEq, Prod.mk.injEq] at hh
          exact h hh.2
        rw [if_neg this]
      · subst h; simp
    rw [hzero] at he2
    unfold GenState.excess at he2 ⊢
    rw [GenState.enter_funcInsts] at he2
    show excessOf (s2.funcInsts l) = _
    rw [he2]; simp

theorem apart_core (l : LabelName) (done : Nat → Bool) :
    GenInvCore (GenState.ShiftAt l done 0) where
  refl := fun _ hp => ⟨rfl, hp, by simp⟩
  trans := fun a b c h1 h2 hp => by
    obtain ⟨c1, p1, e1⟩ := h1 hp
    obtain ⟨c2, p2, e2⟩ := h2 p1
    exact ⟨c2.trans c1, p2, by rw [e2, e1]; simp⟩
  vreg := ⟨fun st a st' e => by
    simp only [GetVReg, Option.some.injEq, Prod.mk.injEq] at e
    obtain ⟨_, rfl⟩ := e
    exact GenState.ShiftAt.shiftAt_of_eq rfl rfl (fun _ h => h)⟩
  label := ⟨fun st a st' e => by
    simp only [GetLabel, Option.some.injEq, Prod.mk.injEq] at e
    obtain ⟨_, rfl⟩ := e
    exact GenState.ShiftAt.shiftAt_of_eq rfl rfl (fun _ h => h)⟩
  slot := fun l n => ⟨fun st a st' e => by
    simp only [AllocNextSlot, Option.some.injEq, Prod.mk.injEq] at e
    obtain ⟨_, rfl⟩ := e
    exact GenState.ShiftAt.shiftAt_of_eq rfl rfl (fun _ h => h)⟩
  meta := fun id o => ⟨fun st a st' e => by
    simp only [set_metadata, Option.some.injEq, Prod.mk.injEq] at e
    obtain ⟨_, rfl⟩ := e
    refine GenState.ShiftAt.shiftAt_of_eq rfl rfl (fun i h => ?_)
    by_cases hi : i = id
    · subst hi; simp
    · simpa [Function.update_noteq hi] using h⟩
  clear := ⟨fun st a st' e => by
    simp only [clearArgs, Option.some.injEq, Prod.mk.injEq] at e
    obtain ⟨_, rfl⟩ := e
    exact GenState.ShiftAt.shiftAt_of_eq rfl rfl (fun _ h => h)⟩
  arg := fun x => ⟨fun st a st' e => by
    simp only [pushArg, Option.some.injEq, Prod.mk.injEq] at e
    obtain ⟨_, rfl⟩ := e
    exact GenState.ShiftAt.shiftAt_of_eq rfl rfl (fun _ h => h)⟩
  push := fun op oprs h1 h2 => by
    have h := PushInst_shiftAt l done op oprs
    rw [opExcess_eq_zero op h1 h2] at h
    exact h
  seq := fun isMem l2 link body hb =>
    withInstSeq_shiftAt l done 0 isMem l2 link body (Or.inr (Or.inr rfl)) hb
  seqUnit := fun isMem l2 link body hb =>
    withInstSeq_shiftAt l done 0 isMem l2 link body (Or.inr (Or.inr rfl)) hb
  glob := fun body hb => ⟨fun st a st' e hp => by
    unfold withInGlobal at e
    simp only [Gen.bind_apply, incInGlobal] at e
    cases hr : body { st with in_global_ := st.in_global_ + 1 } with
    | none => simp [hr] at e
    | some r =>
      obtain ⟨x, s2⟩ := r
      simp only [hr, decInGlobal, Gen.pure_apply, Option.some.injEq, Prod.mk.injEq] at e
      obtain ⟨_, rfl⟩ := e
      exact hb.run _ _ _ hr hp⟩
  arr := fun body hb => ⟨fun st a st' e hp => by
    unfold withArrDepth at e
    simp only [Gen.bind_apply, incArrDepth] at e
    cases hr : body { st with arr_depth_ := st.arr_depth_ + 1 } with
    | none => simp [hr] at e
    | some r =>
      obtain ⟨x, s2⟩ := r
      simp only [hr, decArrDepth, Gen.pure_apply, Option.some.injEq, Prod.mk.injEq] at e
      obtain ⟨_, rfl⟩ := e
      exact hb.run _ _ _ hr hp⟩

theorem GenerateOnSelect_shiftAt (l : LabelName) (done : Nat → Bool) (c t f : Gen OprPtr)
    (hc : Gen.Keeps (GenState.ShiftAt l done 0) c)
    (ht : Gen.Keeps (GenState.ShiftAt l done 0) t)
    (hf : Gen.Keeps (GenState.ShiftAt l done 0) f) :
    Gen.Keeps (GenState.ShiftAt l done 0) (GenerateOnSelect c t f) := by
  unfold GenerateOnSelect
  refine GenInvCore.bind (apart_core l done) (apart_core l done).vreg (fun dest => ?_)
  refine GenInvCore.bind (apart_core l done) hc (fun cv => ?_)
  refine GenInvCore.bind (apart_core l done) ht (fun tv => ?_)
  refine GenInvCore.bind (apart_core l done) hf (fun fv => ?_)
  refine GenInvCore.bind (apart_core l done) (apart_core l done).vreg (fun temp => ?_)
  refine GenInvCore.bind (apart_core l done) (apart_core l done).label (fun label => ?_)
  exact ShiftAt_bind (PushInst_shiftAt l done _ _) (fun _ =>
    ShiftAt_bind (PushInst_shiftAt l done _ _) (fun _ =>
      ShiftAt_bind (PushInst_shiftAt l done _ _) (fun _ =>
        ShiftAt_bind (PushInst_shiftAt l done _ _) (fun _ =>
          ShiftAt_bind (PushInst_shiftAt l done _ _) (fun _ => ShiftAt_pure l done _)
            rfl) rfl) rfl) rfl) (by decide)

/-- A block that is referred to is not lowered: its label is looked up. -/
theorem GetOprWith_block_shiftAt (l : LabelName) (done : Nat → Bool) (id : Nat)
    (g : Gen Unit) :
    Gen.Keeps (GenState.ShiftAt l done 0) (GetOprWith id (GenerateOnBlock id g)) :=
  ⟨fun st a st' e => by
    unfold GetOprWith at e
    cases hm : st.metadata id with
    | none => simp [hm, GenerateOnBlock] at e
    | some o =>
      simp only [hm, Option.some.injEq, Prod.mk.injEq] at e
      rw [← e.2]
      exact (apart_core l done).refl st⟩

theorem GetOprWith_shiftAt_of_done (l : LabelName) (done : Nat → Bool) (id : Nat)
    (g : Gen OprPtr) (hd : done id = true) :
    Gen.Keeps (GenState.ShiftAt l done 0) (GetOprWith id g) := by
  constructor
  intro st a st' e hp
  unfold GetOprWith at e
  cases hm : st.metadata id with
  | none =>
    have := hp id hd
    rw [hm] at this
    simp at this
  | some o =>
    simp only [hm, Option.some.injEq, Prod.mk.injEq] at e
    rw [← e.2]
    exact (apart_core l done).refl st hp

theorem GenerateOnBlock_shiftAt (l : LabelName) (done : Nat → Bool) (id : Nat) (g : Gen Unit)
    (hg : Gen.Keeps (GenState.ShiftAt l done 0) g) :
    Gen.Keeps (GenState.ShiftAt l done 1) (GenerateOnBlock id g) := by
  unfold GenerateOnBlock
  exact ShiftAt_bind (GenInvCore.get (apart_core l done))
    (fun _ => ShiftAt_bind (GenInvCore.deref (apart_core l done) _)
      (fun _ => ShiftAt_bind (PushInst_shiftAt l done _ _)
        (fun _ => ShiftAt_bind hg (fun _ => ShiftAt_pure l done _) rfl) rfl) rfl) (by decide)

theorem runBlocks_shiftAt (l : LabelName) (done : Nat → Bool)
    (gens : List (Nat × Gen OprPtr))
    (hg : ∀ p ∈ gens, Gen.Keeps (GenState.ShiftAt l done 1) p.2) (order : List Nat) :
    Gen.Keeps (GenState.ShiftAt l done (order.length : Int)) (runBlocks gens order) := by
  induction order with
  | nil =>
    have h : Gen.Keeps (GenState.ShiftAt l done 0) (runBlocks gens []) := ShiftAt_pure l done _
    simpa using h
  | cons b bs ih =>
    unfold MimiC.runBlocks
    cases hl : gens.lookup b with
    | none => exact GenInvCore.fail
    | some g =>
      exact ShiftAt_bind (hg (b, g) (lookup_mem b g gens hl)) (fun _ => ih)
        (by simp only [List.length_cons]; push_cast; omega)

/-- The body of a function definition, between entering its sequence and
leaving it. -/
theorem functionBody_shiftAt (l : LabelName) (done : Nat → Bool) (id : Nat) (label : OprPtr)
    (args : Nat) (ids order : List Nat) (gens : List (Nat × Gen OprPtr))
    (hg : ∀ p ∈ gens, Gen.Keeps (GenState.ShiftAt l done 1) p.2) :
    Gen.Keeps (GenState.ShiftAt l done (order.length : Int))
      (do
        set_metadata id label
        clearArgs
        GenerateArgs args 0
        labelBlocks ids
        runBlocks gens order
        pure label : Gen OprPtr) :=
  ShiftAt_bind ((apart_core l done).meta _ _) (fun _ =>
    ShiftAt_bind (apart_core l done).clear (fun _ =>
      ShiftAt_bind (GenInvCore.args (apart_core l done) args 0) (fun _ =>
        ShiftAt_bind (GenInvCore.labelBlocks (apart_core l done) ids) (fun _ =>
          ShiftAt_bind (runBlocks_shiftAt l done gens hg order)
            (fun _ => ShiftAt_pure l done _) (Int.add_zero _).symm)
          (Int.zero_add _).symm) (Int.zero_add _).symm) (Int.zero_add _).symm)
    (Int.zero_add _).symm

theorem GenerateOnFunction_shiftAt (l : LabelName) (done : Nat → Bool) (id : Nat)
    (link : MidLink) (name : String) (is_decl : Bool) (args : Nat) (blocks : List SSA)
    (entry : Nat) (gens : List (Nat × Gen OprPtr))
    (hne : is_decl = false → GetNamedLabel name ≠ l ∧
      ∀ p ∈ gens, Gen.Keeps (GenState.ShiftAt l done 1) p.2) :
    Gen.Keeps (GenState.ShiftAt l done 0)
      (GenerateOnFunction id link name is_decl args blocks entry gens) := by
  unfold GenerateOnFunction
  cases is_decl with
  | true => exact GenInvCore.pure (apart_core l done) _
  | false =>
    simp only [Bool.false_eq_true, if_false]
    exact withInstSeq_shiftAt l done _ false _ _ _ (Or.inr (Or.inl (hne rfl).1))
      (functionBody_shiftAt l done id _ args _ (DFSTraverse blocks entry) gens (hne rfl).2)

mutual

/-- Lowering a value through `GetOpr`, next to definitions of other labels only,
leaves the `excess` of the function sequence of `l` as it was. -/
theorem apart_keepsOpr (l : LabelName) (done : Nat → Bool) :
    ∀ (v : SSA), v.defsApart l done = true →
      Gen.Keeps (GenState.ShiftAt l done 0) (GetOprWith v.id (GenerateOn v))
  | SSA.load id type ptr, hok => by
    simp only [SSA.defsApart, Bool.and_eq_true] at hok
    have hp := apart_keepsOpr l done ptr hok
    have hd : Gen.Keeps (GenState.ShiftAt l done 0) (GenerateOn (SSA.load id type ptr)) := by
      rw [GenerateOn]; exact GenInvCore.load (apart_core l done) type ptr hp
    exact GenInvCore.getOpr (apart_core l done) _ hd
  | SSA.store id type value ptr, hok => by
    simp only [SSA.defsApart, Bool.and_eq_true] at hok
    have hv := apart_keepsOpr l done value hok.1
    have hp := apart_keepsOpr l done ptr hok.2
    have hd : Gen.Keeps (GenState.ShiftAt l done 0) (GenerateOn (SSA.store id type value ptr)) := by
      rw [GenerateOn]; exact GenInvCore.store (apart_core l done) value ptr hv hp
    exact GenInvCore.getOpr (apart_core l done) _ hd
  | SSA.access id type acc_type ptr index, hok => by
    simp only [SSA.defsApart, Bool.and_eq_true] at hok
    have hp := apart_keepsOpr l done ptr hok.1
    have hi := apart_keepsOpr l done index hok.2
    have hd : Gen.Keeps (GenState.ShiftAt l done 0) (GenerateOn (SSA.access id type acc_type ptr index)) := by
      rw [GenerateOn]; exact GenInvCore.access (apart_core l done) acc_type ptr index hp hi
    exact GenInvCore.getOpr (apart_core l done) _ hd
  | SSA.binary id type op lhs rhs, hok => by
    simp only [SSA.defsApart, Bool.and_eq_true] at hok
    have hl := apart_keepsOpr l done lhs hok.1
    have hr := apart_keepsOpr l done rhs hok.2
    have hd : Gen.Keeps (GenState.ShiftAt l done 0) (GenerateOn (SSA.binary id type op lhs rhs)) := by
      rw [GenerateOn]; exact GenInvCore.binary (apart_core l done) op hl hr
    exact GenInvCore.getOpr (apart_core l done) _ hd
  | SSA.unary id type op opr, hok => by
    simp only [SSA.defsApart, Bool.and_eq_true] at hok
    have ho := apart_keepsOpr l done opr hok
    have hd : Gen.Keeps (GenState.ShiftAt l done 0) (GenerateOn (SSA.unary id type op opr)) := by
      rw [GenerateOn]; exact GenInvCore.unary (apart_core l done) op ho
    exact GenInvCore.getOpr (apart_core l done) _ hd
  | SSA.cast id type opr, hok => by
    simp only [SSA.defsApart, Bool.and_eq_true] at hok
    have ho := apart_keepsOpr l done opr hok
    have hd : Gen.Keeps (GenState.ShiftAt l done 0) (GenerateOn (SSA.cast id type opr)) := by
      rw [GenerateOn]; exact GenInvCore.cast (apart_core l done) type opr ho
    exact GenInvCore.getOpr (apart_core l done) _ hd
  | SSA.call id type callee args, hok => by
    simp only [SSA.defsApart, Bool.and_eq_true] at hok
    have hc := apart_keepsOpr l done callee hok.1
    have ha := (apart_keepsList l done args hok.2).1 1
    have hd : Gen.Keeps (GenState.ShiftAt l done 0) (GenerateOn (SSA.call id type callee args)) := by
      rw [GenerateOn]; exact GenInvCore.call (apart_core l done) type ha hc
    exact GenInvCore.getOpr (apart_core l done) _ hd
  | SSA.branch id type cond true_block false_block, hok => by
    simp only [SSA.defsApart, Bool.and_eq_true] at hok
    have hc := apart_keepsOpr l done cond hok.1.1
    have ht := apart_keepsOpr l done true_block hok.1.2
    have hf := apart_keepsOpr l done false_block hok.2
    have hd : Gen.Keeps (GenState.ShiftAt l done 0) (GenerateOn (SSA.branch id type cond true_block false_block)) := by
      rw [GenerateOn]; exact GenInvCore.branch (apart_core l done) hc ht hf
    exact GenInvCore.getOpr (apart_core l done) _ hd
  | SSA.jump id type target, hok => by
    simp only [SSA.defsApart, Bool.and_eq_true] at hok
    have ht := apart_keepsOpr l done target hok
    have hd : Gen.Keeps (GenState.ShiftAt l done 0) (GenerateOn (SSA.jump id type target)) := by
      rw [GenerateOn]; exact GenInvCore.jump (apart_core l done) ht
    exact GenInvCore.getOpr (apart_core l done) _ hd
  | SSA.ret id type (some v), hok => by
    simp only [SSA.defsApart, Bool.and_eq_true] at hok
    have hv := apart_keepsOpr l done v hok
    have hd : Gen.Keeps (GenState.ShiftAt l done 0) (GenerateOn (SSA.ret id type (some v))) := by
      rw [GenerateOn]; exact GenInvCore.retSome (apart_core l done) hv
    exact GenInvCore.getOpr (apart_core l done) _ hd
  | SSA.ret id type none, hok => by
    have hd : Gen.Keeps (GenState.ShiftAt l done 0) (GenerateOn (SSA.ret id type none)) := by
      rw [GenerateOn]; exact GenInvCore.retNone (apart_core l done)
    exact GenInvCore.getOpr (apart_core l done) _ hd
  | SSA.function id type link name is_decl args blocks entry, hok => by
    by_cases hdone : done id = true
    · exact GetOprWith_shiftAt_of_done l done id _ hdone
    · have hd : Gen.Keeps (GenState.ShiftAt l done 0)
          (GenerateOn (SSA.function id type link name is_decl args blocks entry)) := by
        rw [GenerateOn]
        apply GenerateOnFunction_shiftAt
        intro hdecl
        simp only [SSA.defsApart, hdecl, Bool.false_or, Bool.or_eq_true, hdone, false_or,
          Bool.and_eq_true, decide_eq_true_eq] at hok
        exact ⟨hok.1, apart_keepsBlocks l done blocks hok.2⟩
      exact GenInvCore.getOpr (apart_core l done) _ hd
  | SSA.globalVar id type link name (some v), hok => by
    simp only [SSA.defsApart, Bool.and_eq_true] at hok
    have hv := apart_keepsOpr l done v hok
    have hd : Gen.Keeps (GenState.ShiftAt l done 0) (GenerateOn (SSA.globalVar id type link name (some v))) := by
      rw [GenerateOn]; exact GenInvCore.globalSome (apart_core l done) type link name hv
    exact GenInvCore.getOpr (apart_core l done) _ hd
  | SSA.globalVar id type link name none, hok => by
    have hd : Gen.Keeps (GenState.ShiftAt l done 0) (GenerateOn (SSA.globalVar id type link name none)) := by
      rw [GenerateOn]; exact GenInvCore.globalNone (apart_core l done) type link name
    exact GenInvCore.getOpr (apart_core l done) _ hd
  | SSA.alloca id type, hok => by
    have hd : Gen.Keeps (GenState.ShiftAt l done 0) (GenerateOn (SSA.alloca id type)) := by
      rw [GenerateOn]; exact GenInvCore.alloca (apart_core l done) type
    exact GenInvCore.getOpr (apart_core l done) _ hd
  | SSA.block id type insts succs, _ => by
    rw [GenerateOn]; exact GetOprWith_block_shiftAt l done id _
  | SSA.argRef id type index, hok => by
    have hd : Gen.Keeps (GenState.ShiftAt l done 0) (GenerateOn (SSA.argRef id type index)) := by
      rw [GenerateOn]; exact GenInvCore.argRef (apart_core l done) index
    exact GenInvCore.getOpr (apart_core l done) _ hd
  | SSA.constInt id type value, hok => by
    have hd : Gen.Keeps (GenState.ShiftAt l done 0) (GenerateOn (SSA.constInt id type value)) := by
      rw [GenerateOn]; exact GenInvCore.constInt (apart_core l done) type value
    exact GenInvCore.getOpr (apart_core l done) _ hd
  | SSA.constStr id type str, hok => by
    have hd : Gen.Keeps (GenState.ShiftAt l done 0) (GenerateOn (SSA.constStr id type str)) := by
      rw [GenerateOn]; exact GenInvCore.constStr (apart_core l done) str
    exact GenInvCore.getOpr (apart_core l done) _ hd
  | SSA.constStruct id type elems, hok => by
    have hd : Gen.Keeps (GenState.ShiftAt l done 0) (GenerateOn (SSA.constStruct id type elems)) := by
      rw [GenerateOn]; exact GenInvCore.fail
    exact GenInvCore.getOpr (apart_core l done) _ hd
  | SSA.constArray id type elems, hok => by
    simp only [SSA.defsApart, Bool.and_eq_true] at hok
    have he := (apart_keepsList l done elems hok).2.2 0
    have hd : Gen.Keeps (GenState.ShiftAt l done 0) (GenerateOn (SSA.constArray id type elems)) := by
      rw [GenerateOn]; exact GenInvCore.constArray (apart_core l done) he
    exact GenInvCore.getOpr (apart_core l done) _ hd
  | SSA.constZero id type, hok => by
    have hd : Gen.Keeps (GenState.ShiftAt l done 0) (GenerateOn (SSA.constZero id type)) := by
      rw [GenerateOn]; exact GenInvCore.zeros (apart_core l done) type
    exact GenInvCore.getOpr (apart_core l done) _ hd
  | SSA.select id type cond true_val false_val, hok => by
    simp only [SSA.defsApart, Bool.and_eq_true] at hok
    have hc := apart_keepsOpr l done cond hok.1.1
    have ht := apart_keepsOpr l done true_val hok.1.2
    have hf := apart_keepsOpr l done false_val hok.2
    have hd : Gen.Keeps (GenState.ShiftAt l done 0) (GenerateOn (SSA.select id type cond true_val false_val)) := by
      rw [GenerateOn]; exact GenerateOnSelect_shiftAt l done _ _ _ hc ht hf
    exact GenInvCore.getOpr (apart_core l done) _ hd
  | SSA.undef id type, hok => by
    have hd : Gen.Keeps (GenState.ShiftAt l done 0) (GenerateOn (SSA.undef id type)) := by
      rw [GenerateOn]; exact GenInvCore.zeros (apart_core l done) type
    exact GenInvCore.getOpr (apart_core l done) _ hd

/-- The loops over a list of values do the same. -/
theorem apart_keepsList (l : LabelName) (done : Nat → Bool) :
    ∀ (vs : List SSA), SSA.defsApartList l done vs = true →
      (∀ i, Gen.Keeps (GenState.ShiftAt l done 0) (GenerateCallArgs vs i)) ∧
      Gen.Keeps (GenState.ShiftAt l done 0) (GenerateInsts vs) ∧
      (∀ z, Gen.Keeps (GenState.ShiftAt l done 0) (GenerateElems vs z))
  | [], _ => by
    refine ⟨fun i => ?_, ?_, fun z => ?_⟩
    · rw [GenerateCallArgs]; exact GenInvCore.pure (apart_core l done) _
    · rw [GenerateInsts]; exact GenInvCore.pure (apart_core l done) _
    · rw [GenerateElems]; exact GenInvCore.pure (apart_core l done) _
  | v :: rest, hok => by
    simp only [SSA.defsApartList, Bool.and_eq_true] at hok
    have hv := apart_keepsOpr l done v hok.1
    have hr := apart_keepsList l done rest hok.2
    refine ⟨fun i => ?_, ?_, fun z => ?_⟩
    · rw [GenerateCallArgs]
      exact GenInvCore.bind (apart_core l done) (GenInvCore.callArg (apart_core l done) i hv)
        (fun _ => hr.1 (i + 1))
    · rw [GenerateInsts]
      exact GenInvCore.bind (apart_core l done) hv (fun _ => hr.2.1)
    · rw [GenerateElems]
      exact GenInvCore.bind (apart_core l done) (GenInvCore.elem (apart_core l done) v z hv)
        (fun z2 => hr.2.2 z2)

/-- Each block of a function, lowered directly, adds its own `LABEL` to the
current sequence and nothing else to the `excess` of the sequence of `l`. -/
theorem apart_keepsBlocks (l : LabelName) (done : Nat → Bool) :
    ∀ (bs : List SSA), SSA.defsApartBlocks l done bs = true →
      ∀ p ∈ GenerateBlocks bs, Gen.Keeps (GenState.ShiftAt l done 1) p.2
  | [], _ => by
    intro p hp
    simp [GenerateBlocks] at hp
  | v :: rest, hok => by
    intro p hp
    cases v with
    | block id type insts succs =>
      simp only [SSA.defsApartBlocks, Bool.and_eq_true] at hok
      simp only [GenerateBlocks, List.mem_cons] at hp
      rcases hp with hp | hp
      · rw [hp]
        exact GenerateOnBlock_shiftAt l done id _ (apart_keepsList l done insts hok.1).2.1
      · exact apart_keepsBlocks l done rest hok.2 p hp
    | _ =>
      simp only [SSA.defsApartBlocks] at hok
      simp only [GenerateBlocks, List.mem_cons] at hp
      rcases hp with hp | hp
      · rw [hp]; exact GenInvCore.fail
      · exact apart_keepsBlocks l done rest hok p hp

end

/-- C6 (amended): take a function definition whose blocks have pairwise
distinct ids and are all reachable from the entry block along successor edges,
and in whose blocks every function definition that lowering reaches, at any
depth, is the function itself, or has been lowered before, or has a name other
than the function's. Whenever `GenerateOn(FunctionSSA)` returns on it, the
number of `LABEL` instructions in the sequence it has emitted equals the number
of blocks of the function plus the number of `BEQZ` instructions in that
sequence, whatever instructions the blocks contain: each block contributes its
own `LABEL`, each lowered select one `BEQZ` and one `LABEL`, and a definition
that a call lowers in place emits into its own sequence. -/
theorem C6_label_count_blocks_plus_beqz (st st' : GenState) (id : Nat) (type : Ty) (link : MidLink)
    (name : String) (args : Nat) (blocks : List SSA) (entry : Nat) (r : OprPtr)
    (hids : (blocks.map SSA.id).Nodup)
    (hreach : ∀ b ∈ blocks, Reachable blocks entry b.id)
    (hdefs : SSA.defsApartBlocks (GetNamedLabel name)
      (fun i => i == id || (st.metadata i).isSome) blocks = true)
    (hrun : GenerateOn (SSA.function id type link name false args blocks entry) st =
      some (r, st')) :
    ∃ emitted, st'.funcInsts (GetNamedLabel name) =
        st.funcInsts (GetNamedLabel name) ++ emitted ∧
      countOp OpCode.LABEL emitted = blocks.length + countOp OpCode.BEQZ emitted := by
  rw [GenerateOn, GenerateOnFunction] at hrun
  simp only [Bool.false_eq_true, if_false, withInstSeq, Gen.bind_apply, EnterInstSeq_apply,
    set_metadata, clearArgs] at hrun
  have hcur1 : GenState.hasCur
      { st.enter false (GetNamedLabel name) (GetLinkType link) with
        metadata := Function.update (st.enter false (GetNamedLabel name) (GetLinkType link)).metadata
          id (some (some (Opr.label (GetNamedLabel name)))),
        args_ := [] } = true :=
    GenState.enter_hasCur st false _ _
  have hfi1 : GenState.funcInsts
      { st.enter false (GetNamedLabel name) (GetLinkType link) with
        metadata := Function.update (st.enter false (GetNamedLabel name) (GetLinkType link)).metadata
          id (some (some (Opr.label (GetNamedLabel name)))),
        args_ := [] } (GetNamedLabel name) = st.funcInsts (GetNamedLabel name) :=
    GenState.enter_funcInsts st false _ _ _
  have hc1 : GenState.cur
      { st.enter false (GetNamedLabel name) (GetLinkType link) with
        metadata := Function.update (st.enter false (GetNamedLabel name) (GetLinkType link)).metadata
          id (some (some (Opr.label (GetNamedLabel name)))),
        args_ := [] } = some (false, GetNamedLabel name) := by
    simp [GenState.enter]
  have hlow1 : GenState.Lowered (fun i => i == id || (st.metadata i).isSome)
      { st.enter false (GetNamedLabel name) (GetLinkType link) with
        metadata := Function.update (st.enter false (GetNamedLabel name) (GetLinkType link)).metadata
          id (some (some (Opr.label (GetNamedLabel name)))),
        args_ := [] } := by
    intro i hi
    have hme : (st.enter false (GetNamedLabel name) (GetLinkType link)).metadata =
        st.metadata := by simp [GenState.enter]
    by_cases hid : i = id
    · subst hid; simp
    · simpa [Function.update_noteq hid, hme, hid] using hi
  generalize ({ st.enter false (GetNamedLabel name) (GetLinkType link) with
        metadata := Function.update (st.enter false (GetNamedLabel name) (GetLinkType link)).metadata
          id (some (some (Opr.label (GetNamedLabel name)))),
        args_ := [] } : GenState) = s1 at hrun hcur1 hfi1 hc1 hlow1
  cases hargs : GenerateArgs args 0 s1 with
  | none => simp [hargs] at hrun
  | some x2 =>
    obtain ⟨_, s2⟩ := x2
    simp only [hargs] at hrun
    cases hlb : labelBlocks (blocks.map SSA.id) s2 with
    | none => simp [hlb] at hrun
    | some x3 =>
      obtain ⟨_, s3⟩ := x3
      simp only [hlb] at hrun
      cases hrb : runBlocks (GenerateBlocks blocks) (DFSTraverse blocks entry) s3 with
      | none => simp [hrb] at hrun
      | some x6 =>
        obtain ⟨_, s6⟩ := x6
        simp only [hrb, leaveInstSeq, Gen.pure_apply, Option.some.injEq, Prod.mk.injEq] at hrun
        obtain ⟨_, rfl⟩ := hrun
        -- the three steps, as changes of the label excess
        obtain ⟨c12, p2, e1⟩ := (GenInvCore.args (apart_core (GetNamedLabel name)
          (fun i => i == id || (st.metadata i).isSome)) args 0).run _ _ _ hargs hlow1
        obtain ⟨c23, p3, e2⟩ := (GenInvCore.labelBlocks (apart_core (GetNamedLabel name)
          (fun i => i == id || (st.metadata i).isSome)) (blocks.map SSA.id)).run _ _ _ hlb p2
        obtain ⟨_, _, e3⟩ := (runBlocks_shiftAt _ _ (GenerateBlocks blocks)
          (apart_keepsBlocks _ _ blocks hdefs) (DFSTraverse blocks entry)).run _ _ _ hrb p3
        have hlen := DFSTraverse_length blocks entry hids hreach (by
          have hk := runBlocks_keys (GenerateBlocks blocks) (DFSTraverse blocks entry) s3 _ hrb
          rw [GenerateBlocks_keys] at hk
          exact hk)
        have hexc : s6.excess (GetNamedLabel name) =
            s1.excess (GetNamedLabel name) + blocks.length := by
          rw [c23, c12, hc1, if_pos rfl] at e3
          rw [c12, hc1, if_pos rfl] at e2
          rw [hc1, if_pos rfl] at e1
          rw [e3, e2, e1, hlen]
          omega
        -- the sequence has only grown
        have hg12 := ((GenInvCore.args extends_core args 0).run _ _ _ hargs).2.2.2
        have hg23 := ((GenInvCore.labelBlocks extends_core (blocks.map SSA.id)).run
          _ _ _ hlb).2.2.2
        have hg36 := ((runBlocks_extends blocks (DFSTraverse blocks entry)).run _ _ _ hrb).2.2.2
        have hgrow := (hg12.grows_trans hg23).grows_trans hg36
        have hp1 : (s1.funcs.find? (GetNamedLabel name)).isSome = true := by
          unfold GenState.hasCur at hcur1
          simpa [hc1, GenState.seqs] using hcur1
        obtain ⟨emitted, hem⟩ := hgrow.funcInsts (GetNamedLabel name) hp1
        refine ⟨emitted, ?_, ?_⟩
        · show s6.funcInsts (GetNamedLabel name) = _
          rw [hem, hfi1]
        · unfold GenState.excess at hexc
          rw [hem, excessOf_append, excessOf_eq_count emitted] at hexc
          omega

theorem C6_label_count_blocks_plus_beqz_witness :
    ∃ r st', GenerateOn (SSA.function 1 Ty.void MidLink.External "f" false 1
        [SSA.block 2 Ty.void
          [SSA.call 14 Ty.void (SSA.function 1 Ty.void MidLink.External "f" false 1 [] 2)
              [SSA.argRef 15 (Ty.int 4 false) 0],
            SSA.jump 4 Ty.void (SSA.block 3 Ty.void [] [])] [3],
          SSA.block 3 Ty.void
            [SSA.select 5 (Ty.int 4 false) (SSA.argRef 6 (Ty.int 4 false) 0)
              (SSA.constInt 7 (Ty.int 4 false) 2) (SSA.constInt 8 (Ty.int 4 false) 3),
            SSA.call 10 Ty.void
              (SSA.function 11 Ty.void MidLink.External "g" false 0
                [SSA.block 12 Ty.void [SSA.ret 13 Ty.void none] []] 12) [],
            SSA.ret 9 Ty.void none] []] 2) GenState.empty = some (r, st') ∧
      ∃ emitted, st'.funcInsts (GetNamedLabel "f") =
          GenState.empty.funcInsts (GetNamedLabel "f") ++ emitted ∧
        countOp OpCode.LABEL emitted =
          ([SSA.block 2 Ty.void
          [SSA.call 14 Ty.void (SSA.function 1 Ty.void MidLink.External "f" false 1 [] 2)
              [SSA.argRef 15 (Ty.int 4 false) 0],
            SSA.jump 4 Ty.void (SSA.block 3 Ty.void [] [])] [3],
          SSA.block 3 Ty.void
            [SSA.select 5 (Ty.int 4 false) (SSA.argRef 6 (Ty.int 4 false) 0)
              (SSA.constInt 7 (Ty.int 4 false) 2) (SSA.constInt 8 (Ty.int 4 false) 3),
            SSA.call 10 Ty.void
              (SSA.function 11 Ty.void MidLink.External "g" false 0
                [SSA.block 12 Ty.void [SSA.ret 13 Ty.void none] []] 12) [],
            SSA.ret 9 Ty.void none] []]).length + countOp OpCode.BEQZ emitted :=
  match h : GenerateOn (SSA.function 1 Ty.void MidLink.External "f" false 1
        [SSA.block 2 Ty.void
          [SSA.call 14 Ty.void (SSA.function 1 Ty.void MidLink.External "f" false 1 [] 2)
              [SSA.argRef 15 (Ty.int 4 false) 0],
            SSA.jump 4 Ty.void (SSA.block 3 Ty.void [] [])] [3],
          SSA.block 3 Ty.void
            [SSA.select 5 (Ty.int 4 false) (SSA.argRef 6 (Ty.int 4 false) 0)
              (SSA.constInt 7 (Ty.int 4 false) 2) (SSA.constInt 8 (Ty.int 4 false) 3),
            SSA.call 10 Ty.void
              (SSA.function 11 Ty.void MidLink.External "g" false 0
                [SSA.block 12 Ty.void [SSA.ret 13 Ty.void none] []] 12) [],
            SSA.ret 9 Ty.void none] []] 2) GenState.empty,
    (by decide! : (GenerateOn (SSA.function 1 Ty.void MidLink.External "f" false 1
        [SSA.block 2 Ty.void
          [SSA.call 14 Ty.void (SSA.function 1 Ty.void MidLink.External "f" false 1 [] 2)
              [SSA.argRef 15 (Ty.int 4 false) 0],
            SSA.jump 4 Ty.void (SSA.block 3 Ty.void [] [])] [3],
          SSA.block 3 Ty.void
            [SSA.select 5 (Ty.int 4 false) (SSA.argRef 6 (Ty.int 4 false) 0)
              (SSA.constInt 7 (Ty.int 4 false) 2) (SSA.constInt 8 (Ty.int 4 false) 3),
            SSA.call 10 Ty.void
              (SSA.function 11 Ty.void MidLink.External "g" false 0
                [SSA.block 12 Ty.void [SSA.ret 13 Ty.void none] []] 12) [],
            SSA.ret 9 Ty.void none] []] 2) GenState.empty).isSome = true) with
  | some (r, st'), _ =>
    ⟨r, st', rfl, C6_label_count_blocks_plus_beqz GenState.empty st' 1 Ty.void
      MidLink.External "f" 1
      ([SSA.block 2 Ty.void
          [SSA.call 14 Ty.void (SSA.function 1 Ty.void MidLink.External "f" false 1 [] 2)
              [SSA.argRef 15 (Ty.int 4 false) 0],
            SSA.jump 4 Ty.void (SSA.block 3 Ty.void [] [])] [3],
          SSA.block 3 Ty.void
            [SSA.select 5 (Ty.int 4 false) (SSA.argRef 6 (Ty.int 4 false) 0)
              (SSA.constInt 7 (Ty.int 4 false) 2) (SSA.constInt 8 (Ty.int 4 false) 3),
            SSA.call 10 Ty.void
              (SSA.function 11 Ty.void MidLink.External "g" false 0
                [SSA.block 12 Ty.void [SSA.ret 13 Ty.void none] []] 12) [],
            SSA.ret 9 Ty.void none] []]) 2 r (by decide!)
      (by
        intro b hb
        simp only [List.mem_cons, List.mem_singleton, List.not_mem_nil, or_false] at hb
        rcases hb with rfl | rfl
        · exact Relation.ReflTransGen.refl
        · exact Relation.ReflTransGen.single (by decide!))
      (by decide!) h⟩

/-- C6 (as stated) fails. The definition `f` has one block, its entry block
(so every block is reachable from the entry), whose instructions are a select
and a `ret`. The emitted sequence holds two `LABEL` instructions: the one of
the block and the one that the select jumps to. And when the one block of `f`
calls another definition of the name `f` that has not been lowered, the call
lowers it in place into the same sequence, which then holds the `LABEL` of the
block of `f`, the `LABEL` of the block of the callee and no `BEQZ`. -/
theorem C6_select_emits_a_label :
    (∀ b ∈ [SSA.block 2 Ty.void
        [SSA.select 3 (Ty.int 4 false) (SSA.constInt 4 (Ty.int 4 false) 1)
          (SSA.constInt 5 (Ty.int 4 false) 2) (SSA.constInt 6 (Ty.int 4 false) 3),
        SSA.ret 7 Ty.void none] []],
      Reachable [SSA.block 2 Ty.void
        [SSA.select 3 (Ty.int 4 false) (SSA.constInt 4 (Ty.int 4 false) 1)
          (SSA.constInt 5 (Ty.int 4 false) 2) (SSA.constInt 6 (Ty.int 4 false) 3),
        SSA.ret 7 Ty.void none] []] 2 b.id) ∧
    (GenerateOn (SSA.function 1 Ty.void MidLink.External "f" false 0
        [SSA.block 2 Ty.void
          [SSA.select 3 (Ty.int 4 false) (SSA.constInt 4 (Ty.int 4 false) 1)
            (SSA.constInt 5 (Ty.int 4 false) 2) (SSA.constInt 6 (Ty.int 4 false) 3),
          SSA.ret 7 Ty.void none] []] 2)
        GenState.empty).map (fun r => (r.2.funcInsts (GetNamedLabel "f"),
          countOp OpCode.LABEL (r.2.funcInsts (GetNamedLabel "f")))) =
      some ([⟨OpCode.LABEL, [Opr.label (LabelName.anon 0)]⟩,
        ⟨OpCode.MV, [Opr.vreg 1, Opr.imm 3]⟩,
        ⟨OpCode.BEQZ, [Opr.imm 1, Opr.label (LabelName.anon 1)]⟩,
        ⟨OpCode.MV, [Opr.vreg 1, Opr.imm 2]⟩,
        ⟨OpCode.LABEL, [Opr.label (LabelName.anon 1)]⟩,
        ⟨OpCode.MV, [Opr.vreg 0, Opr.vreg 1]⟩,
        ⟨OpCode.RET, []⟩], 2) ∧
    (GenerateOn (SSA.function 1 Ty.void MidLink.External "f" false 0
        [SSA.block 2 Ty.void
          [SSA.call 3 Ty.void
            (SSA.function 4 Ty.void MidLink.External "f" false 0
              [SSA.block 5 Ty.void [SSA.ret 6 Ty.void none] []] 5) [],
          SSA.ret 7 Ty.void none] []] 2)
        GenState.empty).map (fun r => (r.2.funcInsts (GetNamedLabel "f"),
          countOp OpCode.LABEL (r.2.funcInsts (GetNamedLabel "f")),
          countOp OpCode.BEQZ (r.2.funcInsts (GetNamedLabel "f")))) =
      some ([⟨OpCode.LABEL, [Opr.label (LabelName.anon 0)]⟩,
        ⟨OpCode.LABEL, [Opr.label (LabelName.anon 1)]⟩,
        ⟨OpCode.RET, []⟩,
        ⟨OpCode.CALL, [Opr.label (LabelName.named "f")]⟩,
        ⟨OpCode.RET, []⟩], 2, 0) := by
  refine ⟨?_, ?_, ?_⟩
  · intro b hb
    simp only [List.mem_singleton] at hb
    subst hb
    exact Relation.ReflTransGen.refl
  · decide!
  · decide!

/-- C11 (amended): for a Store whose stored value is a constant-zero node of
array or struct type, of size `s`, let `GetOpr` lower the destination address to
a label, slot or virtual register `p` (the contract of the rule), leaving the
state `s1` with a current sequence. Then `GenerateOn(StoreSSA)` returns no
operand and appends exactly four instructions: `LEA A0, p, 0`, `MV A1, 0`,
`MV A2, n` and one `CALL` to `memset`, where `n` is `s` converted to a signed
32-bit integer, as every immediate is; `n` is `s` itself whenever `s` is below
`2 ^ 31`. No `SB`, `SW` or call to `memcpy` is emitted. -/
theorem C11_zero_aggregate_store (st s1 : GenState) (id vid : Nat) (type vty : Ty) (ptr : SSA)
    (p : Opr)
    (hagg : (vty.IsArray || vty.IsStruct) = true)
    (hptr : GetOpr ptr st = some (some p, s1))
    (hcur : s1.hasCur = true)
    (hp : (p.IsLabel || p.IsSlot || p.IsVirtual) = true) :
    (∃ st', GenerateOn (SSA.store id type (SSA.constZero vid vty) ptr) st = some (none, st') ∧
      st'.curInsts = s1.curInsts ++
        [⟨OpCode.LEA, [Opr.reg RegName.A0, p, Opr.imm 0]⟩,
          ⟨OpCode.MV, [Opr.reg (RegName.A0 + 1), Opr.imm 0]⟩,
          ⟨OpCode.MV, [Opr.reg (RegName.A0 + 2), Opr.imm (toInt32 vty.GetSize)]⟩,
          ⟨OpCode.CALL, [Opr.label (GetNamedLabel "memset")]⟩]) ∧
    (vty.GetSize < 2147483648 →
      ∃ st', GenerateOn (SSA.store id type (SSA.constZero vid vty) ptr) st = some (none, st') ∧
        st'.curInsts = s1.curInsts ++
          [⟨OpCode.LEA, [Opr.reg RegName.A0, p, Opr.imm 0]⟩,
            ⟨OpCode.MV, [Opr.reg (RegName.A0 + 1), Opr.imm 0]⟩,
            ⟨OpCode.MV, [Opr.reg (RegName.A0 + 2), Opr.imm vty.GetSize]⟩,
            ⟨OpCode.CALL, [Opr.label (GetNamedLabel "memset")]⟩]) := by
  have hmain : ∃ st', GenerateOn (SSA.store id type (SSA.constZero vid vty) ptr) st =
        some (none, st') ∧
      st'.curInsts = s1.curInsts ++
        [⟨OpCode.LEA, [Opr.reg RegName.A0, p, Opr.imm 0]⟩,
          ⟨OpCode.MV, [Opr.reg (RegName.A0 + 1), Opr.imm 0]⟩,
          ⟨OpCode.MV, [Opr.reg (RegName.A0 + 2), Opr.imm (toInt32 vty.GetSize)]⟩,
          ⟨OpCode.CALL, [Opr.label (GetNamedLabel "memset")]⟩] := by
    unfold GetOpr at hptr
    have hty : (SSA.constZero vid vty).type = vty := rfl
    have hz : (SSA.constZero vid vty).IsConstZero = true := rfl
    rw [GenerateOn, GenerateOnStore]
    simp only [Gen.bind_apply, hptr, hty, hagg, hz, if_true, Gen.deref_some, hp,
      Gen.assert_apply, GenerateMemSet]
    have h1 := PushInst_apply s1 OpCode.LEA [GetReg RegName.A0, some p, GetImm 0]
      [Opr.reg RegName.A0, p, Opr.imm 0] hcur (by simp [derefAll, GetReg])
    have hcur2 :=
      (GenState.push_hasCur s1 ⟨OpCode.LEA, [Opr.reg RegName.A0, p, Opr.imm 0]⟩).trans hcur
    have h2 := PushInst_apply _ OpCode.MV [GetReg (RegName.A0 + 1), GetImm ((0 : Nat) : Int)]
      [Opr.reg (RegName.A0 + 1), Opr.imm 0] hcur2 (by simp [derefAll, GetReg])
    have hcur3 :=
      (GenState.push_hasCur _ ⟨OpCode.MV, [Opr.reg (RegName.A0 + 1), Opr.imm 0]⟩).trans hcur2
    have h3 := PushInst_apply _ OpCode.MV [GetReg (RegName.A0 + 2), GetImm (vty.GetSize : Int)]
      [Opr.reg (RegName.A0 + 2), Opr.imm (toInt32 vty.GetSize)] hcur3 rfl
    have hcur4 := (GenState.push_hasCur _
      ⟨OpCode.MV, [Opr.reg (RegName.A0 + 2), Opr.imm (toInt32 vty.GetSize)]⟩).trans hcur3
    have h4 := PushInst_apply _ OpCode.CALL [some (Opr.label (GetNamedLabel "memset"))]
      [Opr.label (GetNamedLabel "memset")] hcur4 rfl
    simp only [h1, h2, h3, h4, Gen.pure_apply]
    refine ⟨_, rfl, ?_⟩
    rw [GenState.push_curInsts _ _ hcur4, GenState.push_curInsts _ _ hcur3,
      GenState.push_curInsts _ _ hcur2, GenState.push_curInsts _ _ hcur]
    simp
  refine ⟨hmain, fun hlt => ?_⟩
  rw [toInt32_of_lt _ hlt] at hmain
  exact hmain

theorem C11_zero_aggregate_store_witness :
    ∃ st', GenerateOn (SSA.store 3 Ty.void
          (SSA.constZero 2 (Ty.array (Ty.int 4 false) 3))
          (SSA.alloca 1 (Ty.pointer (Ty.array (Ty.int 4 false) 3))))
        (GenState.inside (LabelName.anon 0) (fun _ => none)) = some (none, st') ∧
      st'.curInsts = [] ++
        [⟨OpCode.LEA, [Opr.reg RegName.A0, Opr.frame (LabelName.anon 0) 0, Opr.imm 0]⟩,
          ⟨OpCode.MV, [Opr.reg (RegName.A0 + 1), Opr.imm 0]⟩,
          ⟨OpCode.MV, [Opr.reg (RegName.A0 + 2),
            Opr.imm (Ty.array (Ty.int 4 false) 3).GetSize]⟩,
          ⟨OpCode.CALL, [Opr.label (GetNamedLabel "memset")]⟩] :=
  (C11_zero_aggregate_store
    (GenState.inside (LabelName.anon 0) (fun _ => none))
    { GenState.inside (LabelName.anon 0) (fun _ => none) with
      alloc_slots_ := Function.update (fun _ => 0) (LabelName.anon 0) (0 + roundUp4 12),
      metadata := Function.update (fun _ => none) 1
        (some (some (Opr.frame (LabelName.anon 0) 0))) }
    3 2 Ty.void (Ty.array (Ty.int 4 false) 3)
    (SSA.alloca 1 (Ty.pointer (Ty.array (Ty.int 4 false) 3)))
    (Opr.frame (LabelName.anon 0) 0) rfl rfl (by decide) rfl).2 (by decide)

/-- C11 (as stated) fails. The stored value is the constant zero of an array of
`2 ^ 32` bytes: the length that `GenerateMemSet` hands to `GetImm` is `2 ^ 32`,
and the immediate moved into `A2` is 0. -/
theorem C11_length_is_32_bit :
    (GenerateOn (SSA.store 3 Ty.void
        (SSA.constZero 2 (Ty.array (Ty.int 1 false) 4294967296))
        (SSA.argRef 1 (Ty.pointer (Ty.array (Ty.int 1 false) 4294967296)) 0))
        ((GenState.inside (LabelName.anon 0) (fun _ => none)).param 0)).map
        (fun r => (r.1, r.2.curInsts)) =
      some (none,
        [paramInst 0 (Opr.vreg 0),
          ⟨OpCode.LEA, [Opr.reg RegName.A0, Opr.vreg 0, Opr.imm 0]⟩,
          ⟨OpCode.MV, [Opr.reg (RegName.A0 + 1), Opr.imm 0]⟩,
          ⟨OpCode.MV, [Opr.reg (RegName.A0 + 2), Opr.imm 0]⟩,
          ⟨OpCode.CALL, [Opr.label (GetNamedLabel "memset")]⟩]) ∧
    (Ty.array (Ty.int 1 false) 4294967296).GetSize = 4294967296 := by
  constructor <;> decide!

/-- C12: for a Cast, after the destination register has been taken from the
factory let `GetOpr` lower the operand to `o`, a register, immediate, label or
slot (the kinds of operand that lowering returns), leaving the state `s1` with
a current sequence. Then `GenerateOn(CastSSA)` fails exactly when the sizes
differ and the pair is neither 1 to 4 nor 4 to 1, or the sizes are equal, `o`
is a label or slot and the cast is not pointer to pointer. In every other case
it returns the fresh virtual register and appends exactly one instruction
defining it: `MV` from `o` for 1 to 4, `AND` of `o` with the immediate 255 for
4 to 1, and for equal sizes `LEA` of `o` with offset 0 when `o` is a label or
slot and `MV` from `o` otherwise. -/
theorem C12_cast_one_instruction_or_failure (st s1 : GenState) (id : Nat) (type : Ty)
    (opr : SSA) (o : Opr)
    (hopr : GetOpr opr { st with vreg_fact_ := st.vreg_fact_ + 1 } = some (some o, s1))
    (hcur : s1.hasCur = true)
    (hkind : (o.IsReg || o.IsImm || o.IsLabel || o.IsSlot) = true) :
    if (opr.type.GetSize ≠ type.GetSize ∧ ¬ (opr.type.GetSize = 1 ∧ type.GetSize = 4) ∧
          ¬ (opr.type.GetSize = 4 ∧ type.GetSize = 1)) ∨
        (opr.type.GetSize = type.GetSize ∧ (o.IsLabel || o.IsSlot) = true ∧
          ¬ (opr.type.IsPointer = true ∧ type.IsPointer = true))
    then GenerateOn (SSA.cast id type opr) st = none
    else ∃ st', GenerateOn (SSA.cast id type opr) st =
          some (some (Opr.vreg st.vreg_fact_), st') ∧
        st'.curInsts = s1.curInsts ++
          [if opr.type.GetSize = 1 ∧ type.GetSize = 4 then
              ⟨OpCode.MV, [Opr.vreg st.vreg_fact_, o]⟩
            else if opr.type.GetSize = 4 ∧ type.GetSize = 1 then
              ⟨OpCode.AND, [Opr.vreg st.vreg_fact_, o, Opr.imm 255]⟩
            else if (o.IsLabel || o.IsSlot) = true then
              ⟨OpCode.LEA, [Opr.vreg st.vreg_fact_, o, Opr.imm 0]⟩
            else ⟨OpCode.MV, [Opr.vreg st.vreg_fact_, o]⟩] := by
  unfold GetOpr at hopr
  have hpush : ∀ (op : OpCode) (oprs : List OprPtr) (os : List Opr), derefAll oprs = some os →
      ∃ st', (PushInst op oprs >>= fun _ => (Pure.pure (some (Opr.vreg st.vreg_fact_)) :
          Gen OprPtr)) s1 = some (some (Opr.vreg st.vreg_fact_), st') ∧
        st'.curInsts = s1.curInsts ++ [⟨op, os⟩] := by
    intro op oprs os ho
    refine ⟨s1.push ⟨op, os⟩, ?_, GenState.push_curInsts s1 _ hcur⟩
    simp only [Gen.bind_apply, PushInst_apply s1 op oprs os hcur ho, Gen.pure_apply]
  rw [GenerateOn, GenerateOnCast]
  simp only [Gen.bind_apply, GetVReg, hopr]
  by_cases hlt : opr.type.GetSize < type.GetSize
  · by_cases h14 : opr.type.GetSize = 1 ∧ type.GetSize = 4
    · rw [if_neg (by
        rintro (⟨_, h, _⟩ | ⟨h, _⟩)
        · exact h h14
        · omega), if_pos h14]
      simp only [hlt, if_true, h14.1, h14.2, Gen.assert_apply, beq_self_eq_true, Bool.and_self]
      exact hpush OpCode.MV _ _ rfl
    · rw [if_pos (Or.inl ⟨by omega, h14, by omega⟩)]
      have hb : (opr.type.GetSize == 1 && type.GetSize == 4) = false := by
        simpa [Bool.and_eq_false_iff] using (by tauto : ¬ (opr.type.GetSize = 1 ∧ type.GetSize = 4))
      simp [hlt, Gen.assert_apply, hb]
  · by_cases hgt : opr.type.GetSize > type.GetSize
    · by_cases h41 : opr.type.GetSize = 4 ∧ type.GetSize = 1
      · have h14 : ¬ (opr.type.GetSize = 1 ∧ type.GetSize = 4) := by omega
        rw [if_neg (by
          rintro (⟨_, _, h⟩ | ⟨h, _⟩)
          · exact h h41
          · omega), if_neg h14, if_pos h41]
        simp only [hlt, hgt, if_false, if_true, h41.1, h41.2, Gen.assert_apply,
          beq_self_eq_true, Bool.and_self]
        exact hpush OpCode.AND _ _ rfl
      · rw [if_pos (Or.inl ⟨by omega, by omega, h41⟩)]
        have hb : (opr.type.GetSize == 4 && type.GetSize == 1) = false := by
          simpa [Bool.and_eq_false_iff] using
            (by tauto : ¬ (opr.type.GetSize = 4 ∧ type.GetSize = 1))
        simp [hlt, hgt, Gen.assert_apply, hb]
    · have heq : opr.type.GetSize = type.GetSize := by omega
      have h14 : ¬ (opr.type.GetSize = 1 ∧ type.GetSize = 4) := by omega
      have h41 : ¬ (opr.type.GetSize = 4 ∧ type.GetSize = 1) := by omega
      by_cases hls : (o.IsLabel || o.IsSlot) = true
      · by_cases hpp : opr.type.IsPointer = true ∧ type.IsPointer = true
        · rw [if_neg (by
            rintro (⟨h, _⟩ | ⟨_, _, h⟩)
            · exact h heq
            · exact h hpp), if_neg h14, if_neg h41, if_pos hls]
          simp only [hlt, hgt, if_false, Gen.bind_apply, Gen.deref_some]
          rw [if_pos hls]
          simp only [Gen.bind_apply, hpp.1, hpp.2, Gen.assert_apply, Bool.and_self, if_true]
          exact hpush OpCode.LEA [some (Opr.vreg st.vreg_fact_), some o, GetImm 0]
            [Opr.vreg st.vreg_fact_, o, Opr.imm 0] rfl
        · rw [if_pos (Or.inr ⟨heq, hls, hpp⟩)]
          have hb : (opr.type.IsPointer && type.IsPointer) = false := by
            simpa [Bool.and_eq_false_iff] using (by tauto :
              ¬ (opr.type.IsPointer = true ∧ type.IsPointer = true))
          simp only [hlt, hgt, if_false, Gen.bind_apply, Gen.deref_some]
          rw [if_pos hls]
          simp [Gen.assert_apply, hb]
      · rw [if_neg (by
          rintro (⟨h, _⟩ | ⟨_, h, _⟩)
          · exact h heq
          · exact hls h), if_neg h14, if_neg h41, if_neg hls]
        have hri : (o.IsReg || o.IsImm) = true := by
          simp only [Bool.or_eq_true] at hkind hls ⊢
          tauto
        simp only [hlt, hgt, if_false, Gen.bind_apply, Gen.deref_some]
        rw [if_neg hls]
        simp only [Gen.bind_apply, hri, Gen.assert_apply, if_true]
        exact hpush OpCode.MV [some (Opr.vreg st.vreg_fact_), some o]
          [Opr.vreg st.vreg_fact_, o] rfl

theorem C12_cast_one_instruction_or_failure_witness :
    (∃ st', GenerateOn (SSA.cast 2 (Ty.int 4 false) (SSA.constInt 1 (Ty.int 1 false) 7))
          (GenState.inside (LabelName.anon 0) (fun _ => none)) =
          some (some (Opr.vreg 0), st') ∧
        st'.curInsts = [] ++ [⟨OpCode.MV, [Opr.vreg 0, Opr.imm 7]⟩]) ∧
    GenerateOn (SSA.cast 2 (Ty.int 2 false) (SSA.constInt 1 (Ty.int 1 false) 7))
      (GenState.inside (LabelName.anon 0) (fun _ => none)) = none := by
  have h1 := C12_cast_one_instruction_or_failure
    (GenState.inside (LabelName.anon 0) (fun _ => none))
    { GenState.inside (LabelName.anon 0) (fun _ => none) with
      vreg_fact_ := 1,
      metadata := Function.update (fun _ => none) 1 (some (some (Opr.imm 7))) }
    2 (Ty.int 4 false) (SSA.constInt 1 (Ty.int 1 false) 7) (Opr.imm 7) rfl (by decide) rfl
  have h2 := C12_cast_one_instruction_or_failure
    (GenState.inside (LabelName.anon 0) (fun _ => none))
    { GenState.inside (LabelName.anon 0) (fun _ => none) with
      vreg_fact_ := 1,
      metadata := Function.update (fun _ => none) 1 (some (some (Opr.imm 7))) }
    2 (Ty.int 2 false) (SSA.constInt 1 (Ty.int 1 false) 7) (Opr.imm 7) rfl (by decide) rfl
  rw [if_neg (by decide)] at h1
  rw [if_pos (by decide)] at h2
  exact ⟨h1, h2⟩

theorem renderAll_cons (dumpLabel : LabelName → String) (dumpInst : Inst → String)
    (i : DumpItem) (rest : List DumpItem) :
    renderAll dumpLabel dumpInst (i :: rest) =
      i.render dumpLabel dumpInst ++ renderAll dumpLabel dumpInst rest := rfl

theorem renderAll_append (dumpLabel : LabelName → String) (dumpInst : Inst → String)
    (a b : List DumpItem) :
    renderAll dumpLabel dumpInst (a ++ b) =
      renderAll dumpLabel dumpInst a ++ renderAll dumpLabel dumpInst b := by
  induction a with
  | nil => rw [List.nil_append]; exact (String.empty_append _).symm
  | cons i rest ih =>
    rw [List.cons_append, renderAll_cons, renderAll_cons, ih, String.append_assoc]

theorem DumpSeqs_cons (label : LabelName) (info : InstSeqInfo) (rest : InstSeqMap) :
    DumpSeqs ((label, info) :: rest) =
      (if info.link ≠ LinkageTypes.Internal then [DumpItem.globl label] else []) ++
        [DumpItem.labelDef label] ++ info.insts.map DumpItem.inst ++ [DumpItem.endl] ++
        DumpSeqs rest := rfl

theorem DumpSeqs_append (a b : InstSeqMap) : DumpSeqs (a ++ b) = DumpSeqs a ++ DumpSeqs b := by
  induction a with
  | nil => rfl
  | cons e rest ih =>
    obtain ⟨label, info⟩ := e
    rw [List.cons_append, DumpSeqs_cons, DumpSeqs_cons, ih]
    simp only [List.append_assoc]

theorem DumpSeqs_globl_mem (seqs : InstSeqMap) (l : LabelName) :
    DumpItem.globl l ∈ DumpSeqs seqs ↔
      ∃ info, (l, info) ∈ seqs ∧ info.link ≠ LinkageTypes.Internal := by
  induction seqs with
  | nil => simp [DumpSeqs]
  | cons e rest ih =>
    obtain ⟨label, info⟩ := e
    simp only [DumpSeqs_cons, List.mem_append, List.mem_cons, List.mem_map,
      List.mem_singleton, ih, Prod.mk.injEq, List.not_mem_nil, or_false, reduceCtorEq, false_or,
      and_false, exists_false]
    constructor
    · rintro (h | ⟨i2, h1, h2⟩)
      · by_cases hl : info.link ≠ LinkageTypes.Internal
        · rw [if_pos hl] at h
          simp only [List.mem_singleton, DumpItem.globl.injEq] at h
          exact ⟨info, Or.inl ⟨h, rfl⟩, hl⟩
        · rw [if_neg hl] at h
          simp at h
      · exact ⟨i2, Or.inr h1, h2⟩
    · rintro ⟨i2, (⟨rfl, rfl⟩ | h1), h2⟩
      · left
        rw [if_pos h2]
        simp
      · exact Or.inr ⟨i2, h1, h2⟩

theorem DumpSeqs_sect_not_mem (seqs : InstSeqMap) (name : String) :
    DumpItem.sect name ∉ DumpSeqs seqs := by
  induction seqs with
  | nil => simp [DumpSeqs]
  | cons e rest ih =>
    obtain ⟨label, info⟩ := e
    simp only [DumpSeqs_cons, List.mem_append, List.mem_cons, List.mem_map,
      List.mem_singleton, ih, List.not_mem_nil, or_false, reduceCtorEq, false_or, and_false,
      exists_false]
    split <;> simp

theorem InstSeqMap.find?_of_mem (seqs : InstSeqMap) (l : LabelName) (info info2 : InstSeqInfo)
    (hnd : (seqs.map Prod.fst).Nodup) (hf : seqs.find? l = some info) (hm : (l, info2) ∈ seqs) :
    info2 = info := by
  induction seqs with
  | nil => simp at hm
  | cons e rest ih =>
    obtain ⟨k, i0⟩ := e
    simp only [List.map_cons, List.nodup_cons, List.mem_map, not_exists, not_and] at hnd
    unfold InstSeqMap.find? at hf ih
    rw [List.find?_cons] at hf
    by_cases hk : k = l
    · subst hk
      simp only [beq_self_eq_true, Option.map_some', Option.some.injEq] at hf
      rcases List.mem_cons.mp hm with h | h
      · simp only [Prod.mk.injEq, true_and] at h
        rw [h, hf]
      · exact absurd rfl (hnd.1 (k, info2) h)
    · have hb : (k == l) = false := by simp [hk]
      simp only [hb] at hf
      rcases List.mem_cons.mp hm with h | h
      · simp only [Prod.mk.injEq] at h
        exact absurd h.1.symm hk
      · exact ih hnd.2 hf h

/-! ### The maps stay maps -/

theorem InstSeqMap.push_keys (m : InstSeqMap) (label : LabelName) (i : Inst) :
    (m.push label i).map Prod.fst = m.map Prod.fst := by
  unfold InstSeqMap.push
  rw [List.map_map]
  apply List.map_congr_left
  intro e _
  simp only [Function.comp]
  split <;> rfl

theorem InstSeqMap.find?_none_not_mem (m : InstSeqMap) (label : LabelName)
    (h : m.find? label = none) : label ∉ m.map Prod.fst := by
  unfold InstSeqMap.find? at h
  simp only [Option.map_eq_none', List.find?_eq_none, beq_iff_eq] at h
  intro hm
  obtain ⟨e, he, rfl⟩ := List.mem_map.mp hm
  exact h e he rfl

theorem InstSeqMap.enter_keys_nodup (m : InstSeqMap) (label : LabelName) (link : LinkageTypes)
    (h : (m.map Prod.fst).Nodup) : ((m.enter label link).map Prod.fst).Nodup := by
  unfold InstSeqMap.enter
  cases hf : InstSeqMap.find? m label with
  | some info => simpa [hf] using h
  | none =>
    simp only [hf, Option.isSome_none, Bool.false_eq_true, if_false, List.map_append,
      List.map_cons, List.map_nil]
    refine List.Nodup.append h (List.nodup_singleton _) ?_
    intro x hx hx2
    rw [List.mem_singleton] at hx2
    subst hx2
    exact InstSeqMap.find?_none_not_mem m x hf hx

theorem GenState.KeysKept.keys_of_eq {st st' : GenState} (hf : st'.funcs = st.funcs)
    (hm : st'.mems = st.mems) : st.KeysKept st' := by
  unfold GenState.KeysKept
  rw [hf, hm]
  exact ⟨id, id⟩

theorem GenState.enter_keysKept (st : GenState) (isMem : Bool) (label : LabelName)
    (link : LinkageTypes) : st.KeysKept (st.enter isMem label link) := by
  unfold GenState.KeysKept GenState.enter
  cases isMem
  · exact ⟨InstSeqMap.enter_keys_nodup _ _ _, id⟩
  · exact ⟨id, InstSeqMap.enter_keys_nodup _ _ _⟩

theorem PushInst_keysKept (op : OpCode) (oprs : List OprPtr) :
    Gen.Keeps GenState.KeysKept (PushInst op oprs) := by
  constructor
  intro st a st' e
  obtain ⟨os, _, hcur, rfl, _⟩ := PushInst_some op oprs st st' e
  unfold GenState.push
  cases hc : st.cur with
  | none => exact ⟨id, id⟩
  | some c =>
    obtain ⟨isMem, label⟩ := c
    unfold GenState.KeysKept GenState.emit
    cases isMem
    · simp only [Bool.false_eq_true, if_false, InstSeqMap.push_keys]
      exact ⟨id, id⟩
    · simp only [if_true, InstSeqMap.push_keys]
      exact ⟨id, id⟩

theorem GenState.KeysKept.keys_trans (a b c : GenState) (h1 : a.KeysKept b)
    (h2 : b.KeysKept c) : a.KeysKept c :=
  ⟨fun h => h2.1 (h1.1 h), fun h => h2.2 (h1.2 h)⟩

theorem withInstSeq_keysKept {α : Type} (isMem : Bool) (l : LabelName) (link : LinkageTypes)
    (body : Gen α) (hb : Gen.Keeps GenState.KeysKept body) :
    Gen.Keeps GenState.KeysKept (withInstSeq isMem l link body) := by
  constructor
  intro st a st' e
  unfold withInstSeq at e
  simp only [Gen.bind_apply, EnterInstSeq_apply] at e
  cases hr : body (st.enter isMem l link) with
  | none => simp [hr] at e
  | some r =>
    obtain ⟨x, s2⟩ := r
    simp only [hr, leaveInstSeq, Gen.pure_apply, Option.some.injEq, Prod.mk.injEq] at e
    obtain ⟨_, rfl⟩ := e
    exact GenState.KeysKept.keys_trans _ _ _ (GenState.enter_keysKept st isMem l link)
      (GenState.KeysKept.keys_trans _ _ _ (hb.run _ _ _ hr) (GenState.KeysKept.keys_of_eq rfl rfl))

theorem keys_core : GenInvCore GenState.KeysKept where
  refl := fun _ => ⟨id, id⟩
  trans := GenState.KeysKept.keys_trans
  vreg := ⟨fun st a st' e => by
    simp only [GetVReg, Option.some.injEq, Prod.mk.injEq] at e
    obtain ⟨_, rfl⟩ := e
    exact GenState.KeysKept.keys_of_eq rfl rfl⟩
  label := ⟨fun st a st' e => by
    simp only [GetLabel, Option.some.injEq, Prod.mk.injEq] at e
    obtain ⟨_, rfl⟩ := e
    exact GenState.KeysKept.keys_of_eq rfl rfl⟩
  slot := fun l n => ⟨fun st a st' e => by
    simp only [AllocNextSlot, Option.some.injEq, Prod.mk.injEq] at e
    obtain ⟨_, rfl⟩ := e
    exact GenState.KeysKept.keys_of_eq rfl rfl⟩
  meta := fun id o => ⟨fun st a st' e => by
    simp only [set_metadata, Option.some.injEq, Prod.mk.injEq] at e
    obtain ⟨_, rfl⟩ := e
    exact GenState.KeysKept.keys_of_eq rfl rfl⟩
  clear := ⟨fun st a st' e => by
    simp only [clearArgs, Option.some.injEq, Prod.mk.injEq] at e
    obtain ⟨_, rfl⟩ := e
    exact GenState.KeysKept.keys_of_eq rfl rfl⟩
  arg := fun x => ⟨fun st a st' e => by
    simp only [pushArg, Option.some.injEq, Prod.mk.injEq] at e
    obtain ⟨_, rfl⟩ := e
    exact GenState.KeysKept.keys_of_eq rfl rfl⟩
  push := fun op oprs _ _ => PushInst_keysKept op oprs
  seq := fun isMem l link body hb => withInstSeq_keysKept isMem l link body hb
  seqUnit := fun isMem l link body hb => withInstSeq_keysKept isMem l link body hb
  glob := fun body hb => ⟨fun st a st' e => by
    unfold withInGlobal at e
    simp only [Gen.bind_apply, incInGlobal] at e
    cases hr : body { st with in_global_ := st.in_global_ + 1 } with
    | none => simp [hr] at e
    | some r =>
      obtain ⟨x, s2⟩ := r
      simp only [hr, decInGlobal, Gen.pure_apply, Option.some.injEq, Prod.mk.injEq] at e
      obtain ⟨_, rfl⟩ := e
      exact ⟨fun h => (hb.run _ _ _ hr).1 h, fun h => (hb.run _ _ _ hr).2 h⟩⟩
  arr := fun body hb => ⟨fun st a st' e => by
    unfold withArrDepth at e
    simp only [Gen.bind_apply, incArrDepth] at e
    cases hr : body { st with arr_depth_ := st.arr_depth_ + 1 } with
    | none => simp [hr] at e
    | some r =>
      obtain ⟨x, s2⟩ := r
      simp only [hr, decArrDepth, Gen.pure_apply, Option.some.injEq, Prod.mk.injEq] at e
      obtain ⟨_, rfl⟩ := e
      exact ⟨fun h => (hb.run _ _ _ hr).1 h, fun h => (hb.run _ _ _ hr).2 h⟩⟩

theorem GenerateOnSelect_keysKept (c t f : Gen OprPtr) (hc : Gen.Keeps GenState.KeysKept c)
    (ht : Gen.Keeps GenState.KeysKept t) (hf : Gen.Keeps GenState.KeysKept f) :
    Gen.Keeps GenState.KeysKept (GenerateOnSelect c t f) := by
  unfold GenerateOnSelect
  repeat' first
    | assumption
    | exact keys_core.vreg | exact keys_core.label | exact keys_core.meta _ _
    | exact GenInvCore.pure keys_core _ | exact GenInvCore.fail
    | exact GenInvCore.deref keys_core _ | exact GenInvCore.get keys_core
    | exact PushInst_keysKept _ _
    | apply GenInvCore.bind keys_core
    | intro _
    | split
    | dsimp only

theorem GenerateOnBlock_keysKept (id : Nat) (g : Gen Unit)
    (hg : Gen.Keeps GenState.KeysKept g) :
    Gen.Keeps GenState.KeysKept (GenerateOnBlock id g) := by
  unfold GenerateOnBlock
  repeat' first
    | assumption
    | exact keys_core.vreg | exact keys_core.label | exact keys_core.meta _ _
    | exact GenInvCore.pure keys_core _ | exact GenInvCore.fail
    | exact GenInvCore.deref keys_core _ | exact GenInvCore.get keys_core
    | exact PushInst_keysKept _ _
    | apply GenInvCore.bind keys_core
    | intro _
    | split
    | dsimp only

/-- Lowering keeps the maps maps: whatever is lowered, a map that had one
sequence per label has one sequence per label afterwards. -/
theorem keys_inv : GenInv GenState.KeysKept true where
  toGenInvCore := keys_core
  select := GenerateOnSelect_keysKept
  block := fun id g hg =>
    GenInvCore.getOpr keys_core id (GenerateOnBlock_keysKept id g hg)
  blockDirect := fun _ id g hg => GenerateOnBlock_keysKept id g hg

theorem GenerateOn_keysKept (v : SSA) : Gen.Keeps GenState.KeysKept (GenerateOn v) :=
  (GenInv.keepsOpr keys_inv v (Or.inl rfl)).2 rfl

theorem InstSeqMap.enter_of_isSome (m : InstSeqMap) (l : LabelName) (link : LinkageTypes)
    (h : (m.find? l).isSome = true) : m.enter l link = m := by
  unfold InstSeqMap.enter
  rw [if_pos h]

theorem GenState.enter_idem (st : GenState) (isMem : Bool) (l : LabelName)
    (link link2 : LinkageTypes) :
    (st.enter isMem l link).enter isMem l link2 = st.enter isMem l link := by
  have hpres : ∀ m : InstSeqMap, ((m.enter l link).find? l).isSome = true := by
    intro m
    rw [InstSeqMap.find?_enter, if_pos rfl]
    rfl
  cases isMem
  · simp only [GenState.enter, Bool.false_eq_true, if_false]
    rw [InstSeqMap.enter_of_isSome _ l link2 (hpres st.funcs)]
  · simp only [GenState.enter, if_true]
    rw [InstSeqMap.enter_of_isSome _ l link2 (hpres st.mems)]

/-- A scope `withInstSeq` that creates its sequence leaves it with the linkage
it was entered with. -/
theorem withInstSeq_creates {α : Type} (isMem : Bool) (l : LabelName) (link : LinkageTypes)
    (body : Gen α) (hk : Gen.Keeps GenState.Extends (withInstSeq isMem l link body))
    (st st' : GenState) (r : α) (hrun : withInstSeq isMem l link body st = some (r, st'))
    (habs : (st.seqs isMem).find? l = none) :
    ∃ insts, (st'.seqs isMem).find? l = some ⟨link, insts⟩ := by
  unfold withInstSeq at hrun
  simp only [Gen.bind_apply, EnterInstSeq_apply] at hrun
  cases hr : body (st.enter isMem l link) with
  | none => simp [hr] at hrun
  | some x =>
    obtain ⟨y, s2⟩ := x
    simp only [hr, leaveInstSeq, Gen.pure_apply, Option.some.injEq, Prod.mk.injEq] at hrun
    obtain ⟨_, rfl⟩ := hrun
    have hrun1 : withInstSeq isMem l link body (st.enter isMem l link) =
        some (y, { s2 with cur := (st.enter isMem l link).cur }) := by
      unfold withInstSeq
      simp only [Gen.bind_apply, EnterInstSeq_apply, GenState.enter_idem, hr, leaveInstSeq,
        Gen.pure_apply]
    have hg := (hk.run _ _ _ hrun1).2.2.2
    have hfind : ((st.enter isMem l link).seqs isMem).find? l = some ⟨link, []⟩ := by
      cases isMem <;>
        simp only [GenState.seqs, GenState.enter, Bool.false_eq_true, if_false, if_true] at habs ⊢ <;>
        simp [InstSeqMap.find?_enter, habs]
    obtain ⟨suffix, hs⟩ := hg isMem l _ hfind
    refine ⟨[] ++ suffix, ?_⟩
    cases isMem <;> simpa [GenState.seqs] using hs

theorem DumpSeqs_no_globl (seqs : InstSeqMap) (l : LabelName) (i : InstSeqInfo)
    (hnd : (seqs.map Prod.fst).Nodup) (hf : seqs.find? l = some i)
    (hint : i.link = LinkageTypes.Internal) : DumpItem.globl l ∉ DumpSeqs seqs := by
  intro hmem
  obtain ⟨i2, hm, hne⟩ := (DumpSeqs_globl_mem seqs l).mp hmem
  rw [InstSeqMap.find?_of_mem seqs l i i2 hnd hf hm] at hne
  exact hne hint

theorem GetLinkType_internal (link : MidLink)
    (h : link = MidLink.Internal ∨ link = MidLink.Inline) :
    GetLinkType link = LinkageTypes.Internal := by
  rcases h with rfl | rfl <;> rfl

theorem function_no_globl (st st' : GenState) (r : OprPtr) (id : Nat) (type : Ty)
    (link : MidLink) (name : String) (args : Nat) (blocks : List SSA) (entry : Nat)
    (hlink : link = MidLink.Internal ∨ link = MidLink.Inline)
    (hnd : (st.funcs.map Prod.fst).Nodup)
    (habs : st.funcs.find? (GetNamedLabel name) = none)
    (hrun : GenerateOn (SSA.function id type link name false args blocks entry) st =
      some (r, st')) :
    DumpItem.globl (GetNamedLabel name) ∉ DumpSeqs st'.funcs := by
  have hk := GenerateOn_extends (SSA.function id type link name false args blocks entry)
  have hnd' := ((GenerateOn_keysKept _).run _ _ _ hrun).1 hnd
  rw [GenerateOn, GenerateOnFunction] at hk hrun
  simp only [Bool.false_eq_true, if_false] at hk hrun
  obtain ⟨insts, hfind⟩ := withInstSeq_creates false _ _ _ hk st st' r hrun
    (by simpa [GenState.seqs] using habs)
  simp only [GenState.seqs, Bool.false_eq_true, if_false] at hfind
  exact DumpSeqs_no_globl _ _ _ hnd' hfind (GetLinkType_internal link hlink)

theorem globalVar_no_globl (st st' : GenState) (r : OprPtr) (id : Nat) (type : Ty)
    (link : MidLink) (name : String) (init : Option SSA)
    (hlink : link = MidLink.Internal ∨ link = MidLink.Inline)
    (hnd : (st.mems.map Prod.fst).Nodup)
    (habs : st.mems.find? (GetNamedLabel name) = none)
    (hrun : GenerateOn (SSA.globalVar id type link name init) st = some (r, st')) :
    DumpItem.globl (GetNamedLabel name) ∉ DumpSeqs st'.mems := by
  have hk := GenerateOn_extends (SSA.globalVar id type link name init)
  have hnd' := ((GenerateOn_keysKept _).run _ _ _ hrun).2 hnd
  cases init with
  | none =>
    rw [GenerateOn, GenerateOnGlobalVar] at hk hrun
    obtain ⟨insts, hfind⟩ := withInstSeq_creates true _ _ _ hk st st' r hrun
      (by simpa [GenState.seqs] using habs)
    simp only [GenState.seqs, if_true] at hfind
    exact DumpSeqs_no_globl _ _ _ hnd' hfind (GetLinkType_internal link hlink)
  | some v =>
    rw [GenerateOn, GenerateOnGlobalVar] at hk hrun
    obtain ⟨insts, hfind⟩ := withInstSeq_creates true _ _ _ hk st st' r hrun
      (by simpa [GenState.seqs] using habs)
    simp only [GenState.seqs, if_true] at hfind
    exact DumpSeqs_no_globl _ _ _ hnd' hfind (GetLinkType_internal link hlink)

/-- C14: in what `DumpSeqs` writes, the part of a sequence `(label, info)` of the
map is, when its linkage is not `Internal` (so for every externally linked
sequence), the `.globl` line of its label, then its `label:` line, its
instructions and an empty line; and when its linkage is `Internal`, just the
`label:` line, the instructions and the empty line. A `.globl` line of a label is
written exactly when the map has a sequence of that label whose linkage is not
`Internal`, so in a map, which has one sequence per label, a sequence with
`Internal` linkage gets none. `GetLinkType` turns the IR linkages `Internal` and
`Inline` into `Internal`; so when a function definition or a global of such a
linkage is lowered and creates its sequence, the dump of the map it was lowered
into has no `.globl` line of its label. -/
theorem C14_globl_iff_not_internal (dumpLabel : LabelName → String) (dumpInst : Inst → String)
    (pre post : InstSeqMap) (label : LabelName) (info : InstSeqInfo) :
    (info.link ≠ LinkageTypes.Internal →
      DumpSeqs (pre ++ (label, info) :: post) =
        DumpSeqs pre ++ [DumpItem.globl label, DumpItem.labelDef label] ++
          info.insts.map DumpItem.inst ++ [DumpItem.endl] ++ DumpSeqs post ∧
      renderAll dumpLabel dumpInst (DumpSeqs (pre ++ (label, info) :: post)) =
        renderAll dumpLabel dumpInst (DumpSeqs pre) ++
          ("\t.globl\t" ++ dumpLabel label ++ "\n" ++ (dumpLabel label ++ ":\n" ++
            (renderAll dumpLabel dumpInst (info.insts.map DumpItem.inst) ++
              ("\n" ++ renderAll dumpLabel dumpInst (DumpSeqs post)))))) ∧
    (info.link = LinkageTypes.Internal →
      DumpSeqs (pre ++ (label, info) :: post) =
        DumpSeqs pre ++ [DumpItem.labelDef label] ++
          info.insts.map DumpItem.inst ++ [DumpItem.endl] ++ DumpSeqs post ∧
      renderAll dumpLabel dumpInst (DumpSeqs (pre ++ (label, info) :: post)) =
        renderAll dumpLabel dumpInst (DumpSeqs pre) ++
          (dumpLabel label ++ ":\n" ++
            (renderAll dumpLabel dumpInst (info.insts.map DumpItem.inst) ++
              ("\n" ++ renderAll dumpLabel dumpInst (DumpSeqs post))))) ∧
    (∀ (seqs : InstSeqMap) (l : LabelName), DumpItem.globl l ∈ DumpSeqs seqs ↔
      ∃ i, (l, i) ∈ seqs ∧ i.link ≠ LinkageTypes.Internal) ∧
    (∀ (seqs : InstSeqMap) (l : LabelName) (i : InstSeqInfo), (seqs.map Prod.fst).Nodup →
      seqs.find? l = some i → i.link = LinkageTypes.Internal →
      DumpItem.globl l ∉ DumpSeqs seqs) ∧
    GetLinkType MidLink.Internal = LinkageTypes.Internal ∧
    GetLinkType MidLink.Inline = LinkageTypes.Internal ∧
    (∀ (st st' : GenState) (r : OprPtr) (id : Nat) (type : Ty) (link : MidLink) (name : String)
        (args : Nat) (blocks : List SSA) (entry : Nat),
      link = MidLink.Internal ∨ link = MidLink.Inline →
      (st.funcs.map Prod.fst).Nodup → st.funcs.find? (GetNamedLabel name) = none →
      GenerateOn (SSA.function id type link name false args blocks entry) st = some (r, st') →
      DumpItem.globl (GetNamedLabel name) ∉ DumpSeqs st'.funcs) ∧
    (∀ (st st' : GenState) (r : OprPtr) (id : Nat) (type : Ty) (link : MidLink) (name : String)
        (init : Option SSA),
      link = MidLink.Internal ∨ link = MidLink.Inline →
      (st.mems.map Prod.fst).Nodup → st.mems.find? (GetNamedLabel name) = none →
      GenerateOn (SSA.globalVar id type link name init) st = some (r, st') →
      DumpItem.globl (GetNamedLabel name) ∉ DumpSeqs st'.mems) := by
  refine ⟨fun hl => ⟨?_, ?_⟩, fun hl => ⟨?_, ?_⟩, DumpSeqs_globl_mem, DumpSeqs_no_globl,
    rfl, rfl, ?_, ?_⟩
  · rw [DumpSeqs_append, DumpSeqs_cons, if_pos hl]
    simp only [List.append_assoc, List.cons_append, List.nil_append, List.singleton_append]
  · rw [DumpSeqs_append, DumpSeqs_cons, if_pos hl]
    simp only [renderAll_append, renderAll_cons, DumpItem.render, String.append_assoc]
    rfl
  · rw [DumpSeqs_append, DumpSeqs_cons, if_neg (by simp [hl])]
    simp only [List.append_assoc, List.cons_append, List.nil_append, List.singleton_append]
  · rw [DumpSeqs_append, DumpSeqs_cons, if_neg (by simp [hl])]
    simp only [renderAll_append, renderAll_cons, DumpItem.render, String.append_assoc,
      List.nil_append]
    rfl
  · intro st st' r id type link name args blocks entry hlink hnd habs hrun
    exact function_no_globl st st' r id type link name args blocks entry hlink hnd habs hrun
  · intro st st' r id type link name init hlink hnd habs hrun
    exact globalVar_no_globl st st' r id type link name init hlink hnd habs hrun

theorem C14_globl_iff_not_internal_witness :
    DumpSeqs [(LabelName.named "f", ⟨LinkageTypes.External, [⟨OpCode.RET, []⟩]⟩),
        (LabelName.named "g", ⟨LinkageTypes.Internal, []⟩)] =
      [DumpItem.globl (LabelName.named "f"), DumpItem.labelDef (LabelName.named "f"),
        DumpItem.inst ⟨OpCode.RET, []⟩, DumpItem.endl,
        DumpItem.labelDef (LabelName.named "g"), DumpItem.endl] ∧
    ∃ r st', GenerateOn (SSA.function 1 Ty.void MidLink.Inline "h" false 0
        [SSA.block 2 Ty.void [SSA.ret 3 Ty.void none] []] 2) GenState.empty = some (r, st') ∧
      DumpItem.globl (GetNamedLabel "h") ∉ DumpSeqs st'.funcs :=
  ⟨((C14_globl_iff_not_internal (fun _ => "") (fun _ => "") []
      [(LabelName.named "g", ⟨LinkageTypes.Internal, []⟩)] (LabelName.named "f")
      ⟨LinkageTypes.External, [⟨OpCode.RET, []⟩]⟩).1 (by decide)).1,
    match h : GenerateOn (SSA.function 1 Ty.void MidLink.Inline "h" false 0
        [SSA.block 2 Ty.void [SSA.ret 3 Ty.void none] []] 2) GenState.empty,
      (by decide! : (GenerateOn (SSA.function 1 Ty.void MidLink.Inline "h" false 0
        [SSA.block 2 Ty.void [SSA.ret 3 Ty.void none] []] 2) GenState.empty).isSome = true) with
    | some (r, st'), _ =>
      ⟨r, st', rfl, (C14_globl_iff_not_internal (fun _ => "") (fun _ => "") [] []
        (LabelName.named "h") ⟨LinkageTypes.Internal, []⟩).2.2.2.2.2.2.1
        GenState.empty st' r 1 Ty.void MidLink.Inline "h" 0
        [SSA.block 2 Ty.void [SSA.ret 3 Ty.void none] []] 2 (Or.inr rfl)
        List.nodup_nil rfl h⟩⟩

/-- C15: for every generator state, what `Dump` writes is the `.text` header, then
the dump of all function sequences, then a tail: nothing when there is no
memory-data sequence, and otherwise the `.data` header followed by the dump of
all memory-data sequences. So the `.data` header is written if and only if at
least one memory-data sequence exists. The same holds of the text. -/
theorem C15_dump_sections (st : GenState) (dumpLabel : LabelName → String)
    (dumpInst : Inst → String) :
    (∃ tail, Dump st = DumpItem.sect ".text" :: DumpSeqs st.funcs ++ tail ∧
      (st.mems = [] → tail = []) ∧
      (st.mems ≠ [] → tail = DumpItem.sect ".data" :: DumpSeqs st.mems)) ∧
    (DumpItem.sect ".data" ∈ Dump st ↔ st.mems ≠ []) ∧
    renderAll dumpLabel dumpInst (Dump st) =
      "\t.text\n" ++ (renderAll dumpLabel dumpInst (DumpSeqs st.funcs) ++
        (if st.mems = [] then ""
          else "\t.data\n" ++ renderAll dumpLabel dumpInst (DumpSeqs st.mems))) := by
  have hempty : st.mems.isEmpty = true ↔ st.mems = [] := List.isEmpty_iff
  by_cases hm : st.mems = []
  · have hd : Dump st = DumpItem.sect ".text" :: DumpSeqs st.funcs := by
      unfold Dump
      simp [hm]
    refine ⟨⟨[], by simpa using hd, fun _ => rfl, fun h => absurd hm h⟩, ?_, ?_⟩
    · rw [hd]
      simp only [List.mem_cons, DumpItem.sect.injEq, ne_eq, hm, not_true_eq_false, iff_false,
        not_or]
      exact ⟨by decide, DumpSeqs_sect_not_mem _ _⟩
    · rw [hd, if_pos hm, renderAll_cons, String.append_empty]
      rfl
  · have hne : st.mems.isEmpty = false := by
      cases h : st.mems.isEmpty
      · rfl
      · exact absurd (hempty.mp h) hm
    have hd : Dump st = DumpItem.sect ".text" :: DumpSeqs st.funcs ++
        DumpItem.sect ".data" :: DumpSeqs st.mems := by
      unfold Dump
      simp [hne]
    refine ⟨⟨_, hd, fun h => absurd h hm, fun _ => rfl⟩, ?_, ?_⟩
    · rw [hd]
      simp [hm]
    · rw [hd, if_neg hm, List.cons_append, renderAll_cons, renderAll_append, renderAll_cons]
      rfl

theorem GetOpr_extends (v : SSA) : Gen.Keeps GenState.Extends (GetOpr v) :=
  (GenInv.keepsOpr extends_inv v (Or.inl rfl)).1

theorem GenerateElems_extends (l : List SSA) (z : Nat) :
    Gen.Keeps GenState.Extends (GenerateElems l z) :=
  (GenInv.keepsList extends_inv l (Or.inl rfl)).2.2.1 z

theorem globalVar_init_in_global (st st' : GenState) (r : OprPtr) (id : Nat) (type : Ty)
    (link : MidLink) (name : String) (v : SSA)
    (hrun : GenerateOn (SSA.globalVar id type link name (some v)) st = some (r, st')) :
    ∃ x s2, GetOpr v { st.enter true (GetNamedLabel name) (GetLinkType link) with
        in_global_ := st.in_global_ + 1 } = some (x, s2) ∧
      s2.in_global_ = st.in_global_ + 1 := by
  rw [GenerateOn, GenerateOnGlobalVar] at hrun
  simp only [withInstSeq, Gen.bind_apply, EnterInstSeq_apply, withInGlobal, incInGlobal] at hrun
  have hig : (st.enter true (GetNamedLabel name) (GetLinkType link)).in_global_ =
      st.in_global_ := by simp [GenState.enter]
  rw [hig] at hrun
  cases hg : GetOprWith v.id (GenerateOn v)
      { st.enter true (GetNamedLabel name) (GetLinkType link) with
        in_global_ := st.in_global_ + 1 } with
  | none => simp [hg] at hrun
  | some y =>
    obtain ⟨x, s2⟩ := y
    refine ⟨x, s2, hg, ?_⟩
    have hx : GetOpr v { st.enter true (GetNamedLabel name) (GetLinkType link) with
        in_global_ := st.in_global_ + 1 } = some (x, s2) := hg
    exact ((GetOpr_extends v).run _ _ _ hx).2.1

theorem GenerateElems_append (pre : List SSA) :
    ∀ (rest : List SSA) (z : Nat) (s : GenState) (z2 : Nat) (s2 : GenState),
      GenerateElems (pre ++ rest) z s = some (z2, s2) →
      ∃ z1 sa, GenerateElems pre z s = some (z1, sa) ∧
        GenerateElems rest z1 sa = some (z2, s2) := by
  induction pre with
  | nil => intro rest z s z2 s2 h; exact ⟨z, s, by simp [GenerateElems], h⟩
  | cons e pre ih =>
    intro rest z s z2 s2 h
    rw [List.cons_append, GenerateElems] at h
    simp only [Gen.bind_apply] at h
    cases hg : GenerateElem e (GetOprWith e.id (GenerateOn e)) z s with
    | none => simp [hg] at h
    | some y =>
      obtain ⟨z0, s0⟩ := y
      simp only [hg] at h
      obtain ⟨z1, sa, h1, h2⟩ := ih rest z0 s0 z2 s2 h
      refine ⟨z1, sa, ?_, h2⟩
      rw [GenerateElems]
      simp only [Gen.bind_apply, hg]
      exact h1

theorem GenerateElems_head (e : SSA) (post : List SSA) (z : Nat) (s : GenState) (z2 : Nat)
    (s2 : GenState) (h : GenerateElems (e :: post) z s = some (z2, s2)) :
    ∃ x sb, GetOpr e s = some (x, sb) := by
  rw [GenerateElems] at h
  simp only [Gen.bind_apply, GenerateElem] at h
  cases hg : GetOprWith e.id (GenerateOn e) s with
  | none => simp [hg] at h
  | some y => exact ⟨y.1, y.2, hg⟩

theorem GetOpr_of_unlowered (e : SSA) (s sb : GenState) (x : OprPtr)
    (hm : s.metadata e.id = none) (h : GetOpr e s = some (x, sb)) :
    ∃ sc, GenerateOn e s = some (x, sc) ∧
      sb = { sc with metadata := Function.update sc.metadata e.id (some x) } := by
  unfold GetOpr GetOprWith at h
  simp only [hm, Gen.bind_apply, set_metadata, Gen.pure_apply] at h
  cases hg : GenerateOn e s with
  | none => simp [hg] at h
  | some y =>
    obtain ⟨x0, sc⟩ := y
    simp only [hg, Option.some.injEq, Prod.mk.injEq] at h
    obtain ⟨rfl, rfl⟩ := h
    exact ⟨sc, rfl, rfl⟩

theorem constArray_loop (st st' : GenState) (r : OprPtr) (id : Nat) (type : Ty)
    (elems : List SSA)
    (hrun : GenerateOn (SSA.constArray id type elems) st = some (r, st')) :
    ∃ z s2, GenerateElems elems 0
        (if st.in_global_ = 0 ∧ st.arr_depth_ = 0 then
          GenState.enter { st with arr_depth_ := st.arr_depth_ + 1,
                                   label_fact_ := st.label_fact_ + 1 }
            true (LabelName.anon st.label_fact_) LinkageTypes.Internal
        else { st with arr_depth_ := st.arr_depth_ + 1 }) = some (z, s2) := by
  rw [GenerateOn, GenerateOnConstArray] at hrun
  simp only [withArrDepth, Gen.bind_apply, incArrDepth, Gen.get_apply] at hrun
  by_cases hnew : st.in_global_ = 0 ∧ st.arr_depth_ = 0
  · have hnew2 : (decide (st.in_global_ = 0) && decide (st.arr_depth_ + 1 ≤ 1)) = true := by
      simp [hnew.1, hnew.2]
    rw [if_pos hnew]
    simp only [if_pos hnew2, Gen.bind_apply, GetLabel, Gen.pure_apply, withMemData,
      withInstSeq, EnterInstSeq_apply] at hrun
    cases hg : GenerateElems elems 0 (GenState.enter
      { st with arr_depth_ := st.arr_depth_ + 1, label_fact_ := st.label_fact_ + 1 }
      true (LabelName.anon st.label_fact_) LinkageTypes.Internal) with
    | none => simp [hg] at hrun
    | some y => exact ⟨y.1, y.2, rfl⟩
  · have hnew2 : ¬ (decide (st.in_global_ = 0) && decide (st.arr_depth_ + 1 ≤ 1)) = true := by
      simp only [Bool.and_eq_true, decide_eq_true_eq]
      intro h
      exact hnew ⟨h.1, by omega⟩
    rw [if_neg hnew]
    simp only [if_neg hnew2, Gen.bind_apply, Gen.pure_apply, withMemData] at hrun
    cases hg : GenerateElems elems 0 { st with arr_depth_ := st.arr_depth_ + 1 } with
    | none => simp [hg] at hrun
    | some y => exact ⟨y.1, y.2, rfl⟩

/-- C16: for every IR node and every generator state, whenever lowering of the
node returns (through `GenerateOn` or through `GetOpr`), `in_global_` and
`arr_depth_` have the values they had on entry. In between, the initializer of
a global is lowered with `in_global_` raised by one and leaves the raised
value. When the lowering of a constant array returns, its element loop has run
from the state `s1` that the rule reaches after raising `arr_depth_` by one (and
entering a new data block when it is outside a global and not nested), and has
returned with the raised value; every element `e` of the array was lowered in
that loop from a state `sa`, the state the loop reaches after the elements
before `e`, in which `arr_depth_` is the raised value, and its lowering (a call
of `GenerateOn` when `e` had not been lowered before) left the raised value.
`Reset` sets both counters to 0 whatever they were. -/
theorem C16_counters_restored (v : SSA) (st : GenState) :
    (∀ r st', GenerateOn v st = some (r, st') →
      st'.in_global_ = st.in_global_ ∧ st'.arr_depth_ = st.arr_depth_) ∧
    (∀ r st', GetOpr v st = some (r, st') →
      st'.in_global_ = st.in_global_ ∧ st'.arr_depth_ = st.arr_depth_) ∧
    (∀ r st' id type link name init, v = SSA.globalVar id type link name (some init) →
      GenerateOn v st = some (r, st') →
      ∃ x s2, GetOpr init { st.enter true (GetNamedLabel name) (GetLinkType link) with
          in_global_ := st.in_global_ + 1 } = some (x, s2) ∧
        s2.in_global_ = st.in_global_ + 1) ∧
    (∀ r st' id type elems, v = SSA.constArray id type elems →
      GenerateOn v st = some (r, st') →
      ∀ s1, s1 = (if st.in_global_ = 0 ∧ st.arr_depth_ = 0 then
          GenState.enter { st with arr_depth_ := st.arr_depth_ + 1,
                                   label_fact_ := st.label_fact_ + 1 }
            true (LabelName.anon st.label_fact_) LinkageTypes.Internal
        else { st with arr_depth_ := st.arr_depth_ + 1 }) →
      (∃ z s2, GenerateElems elems 0 s1 = some (z, s2) ∧
        s2.arr_depth_ = st.arr_depth_ + 1 ∧ s2.in_global_ = st.in_global_) ∧
      ∀ pre e post, elems = pre ++ e :: post →
        ∃ z sa x sb, GenerateElems pre 0 s1 = some (z, sa) ∧
          sa.arr_depth_ = st.arr_depth_ + 1 ∧ sa.in_global_ = st.in_global_ ∧
          GetOpr e sa = some (x, sb) ∧
          sb.arr_depth_ = st.arr_depth_ + 1 ∧ sb.in_global_ = st.in_global_ ∧
          (sa.metadata e.id = none →
            ∃ sc, GenerateOn e sa = some (x, sc) ∧
              sc.arr_depth_ = st.arr_depth_ + 1 ∧ sc.in_global_ = st.in_global_)) ∧
    (Reset st).in_global_ = 0 ∧ (Reset st).arr_depth_ = 0 := by
  refine ⟨fun r st' h => ?_, fun r st' h => ?_, ?_, ?_, rfl, rfl⟩
  · have he := (GenerateOn_extends v).run _ _ _ h
    exact ⟨he.2.1, he.2.2.1⟩
  · have he := (GetOpr_extends v).run _ _ _ h
    exact ⟨he.2.1, he.2.2.1⟩
  · rintro r st' id type link name init rfl h
    exact globalVar_init_in_global st st' r id type link name init h
  · rintro r st' id type elems rfl h s1 hs1
    obtain ⟨z, s2, hloop⟩ := constArray_loop st st' r id type elems h
    rw [← hs1] at hloop
    have hd1 : s1.arr_depth_ = st.arr_depth_ + 1 := by
      rw [hs1]; split <;> simp [GenState.enter]
    have hg1 : s1.in_global_ = st.in_global_ := by
      rw [hs1]; split <;> simp [GenState.enter]
    have he2 := (GenerateElems_extends elems 0).run _ _ _ hloop
    refine ⟨⟨z, s2, hloop, by rw [he2.2.2.1, hd1], by rw [he2.2.1, hg1]⟩, ?_⟩
    intro pre e post hsplit
    rw [hsplit] at hloop
    obtain ⟨z1, sa, hpre, hrest⟩ := GenerateElems_append pre (e :: post) 0 s1 z s2 hloop
    obtain ⟨x, sb, hopr⟩ := GenerateElems_head e post z1 sa z s2 hrest
    have hea := (GenerateElems_extends pre 0).run _ _ _ hpre
    have heb := (GetOpr_extends e).run _ _ _ hopr
    have hda : sa.arr_depth_ = st.arr_depth_ + 1 := by rw [hea.2.2.1, hd1]
    have hga : sa.in_global_ = st.in_global_ := by rw [hea.2.1, hg1]
    refine ⟨z1, sa, x, sb, hpre, hda, hga, hopr, by rw [heb.2.2.1, hda], by rw [heb.2.1, hga],
      ?_⟩
    intro hm
    obtain ⟨sc, hgen, _⟩ := GetOpr_of_unlowered e sa sb x hm hopr
    have hec := (GenerateOn_extends e).run _ _ _ hgen
    exact ⟨sc, hgen, by rw [hec.2.2.1, hda], by rw [hec.2.1, hga]⟩

theorem C16_counters_restored_witness :
    (∃ r st', GenerateOn (SSA.globalVar 1 (Ty.pointer (Ty.array (Ty.int 4 false) 2))
        MidLink.External "g" (some (SSA.constArray 2 (Ty.array (Ty.int 4 false) 2)
          [SSA.constInt 3 (Ty.int 4 false) 1, SSA.constInt 4 (Ty.int 4 false) 2])))
        GenState.empty = some (r, st') ∧
      st'.in_global_ = GenState.empty.in_global_ ∧
      st'.arr_depth_ = GenState.empty.arr_depth_) ∧
    ∃ z sa x sb, GenerateElems [SSA.constInt 3 (Ty.int 4 false) 1] 0
        (GenState.enter { GenState.empty with arr_depth_ := 1, label_fact_ := 1 }
          true (LabelName.anon 0) LinkageTypes.Internal) = some (z, sa) ∧
      sa.arr_depth_ = 1 ∧
      GetOpr (SSA.constInt 4 (Ty.int 4 false) 2) sa = some (x, sb) ∧ sb.arr_depth_ = 1 :=
  ⟨match h : GenerateOn (SSA.globalVar 1 (Ty.pointer (Ty.array (Ty.int 4 false) 2))
      MidLink.External "g" (some (SSA.constArray 2 (Ty.array (Ty.int 4 false) 2)
        [SSA.constInt 3 (Ty.int 4 false) 1, SSA.constInt 4 (Ty.int 4 false) 2])))
      GenState.empty,
    (by decide! : (GenerateOn (SSA.globalVar 1 (Ty.pointer (Ty.array (Ty.int 4 false) 2))
      MidLink.External "g" (some (SSA.constArray 2 (Ty.array (Ty.int 4 false) 2)
        [SSA.constInt 3 (Ty.int 4 false) 1, SSA.constInt 4 (Ty.int 4 false) 2])))
      GenState.empty).isSome = true) with
  | some (r, st'), _ =>
    ⟨r, st', rfl, (C16_counters_restored (SSA.globalVar 1
      (Ty.pointer (Ty.array (Ty.int 4 false) 2)) MidLink.External "g"
      (some (SSA.constArray 2 (Ty.array (Ty.int 4 false) 2)
        [SSA.constInt 3 (Ty.int 4 false) 1, SSA.constInt 4 (Ty.int 4 false) 2])))
      GenState.empty).1 r st' h⟩,
  match h : GenerateOn (SSA.constArray 2 (Ty.array (Ty.int 4 false) 2)
      [SSA.constInt 3 (Ty.int 4 false) 1, SSA.constInt 4 (Ty.int 4 false) 2]) GenState.empty,
    (by decide! : (GenerateOn (SSA.constArray 2 (Ty.array (Ty.int 4 false) 2)
      [SSA.constInt 3 (Ty.int 4 false) 1, SSA.constInt 4 (Ty.int 4 false) 2])
      GenState.empty).isSome = true) with
  | some (r, st'), _ =>
    match ((C16_counters_restored (SSA.constArray 2 (Ty.array (Ty.int 4 false) 2)
      [SSA.constInt 3 (Ty.int 4 false) 1, SSA.constInt 4 (Ty.int 4 false) 2])
      GenState.empty).2.2.2.1 r st' 2 (Ty.array (Ty.int 4 false) 2)
      [SSA.constInt 3 (Ty.int 4 false) 1, SSA.constInt 4 (Ty.int 4 false) 2] rfl h
      (GenState.enter { GenState.empty with arr_depth_ := 1, label_fact_ := 1 }
          true (LabelName.anon 0) LinkageTypes.Internal) rfl).2
      [SSA.constInt 3 (Ty.int 4 false) 1] (SSA.constInt 4 (Ty.int 4 false) 2) [] rfl with
    | ⟨z, sa, x, sb, h1, h2, _, h4, h5, _, _⟩ => ⟨z, sa, x, sb, h1, h2, h4, h5⟩⟩

/-- C17 fails on the code. In the initializer of the global
`g = {zeroinitializer, {1, 2}}` (two rows of two 4-byte integers) the zero row
comes first, and the emitted block is `LONG 1; LONG 2; ZERO 8`: the 8 zero bytes
of the first row lie after the second row. In the initializer of the global
`h = {zeroinitializer, 5}` the block is `LONG 5; ZERO 4`. Outside a global, the
array `{null, "abc"}` of two pointers gets the block `LONG .L1; ZERO 4` (the
string is the data object `.L1`): the run of zeros is still pending when a nested array, an integer
of a global initializer or a label is emitted, and only a non-zero immediate
flushes it first. -/
theorem C17_zero_run_emitted_after_later_element :
    (GenerateOn (SSA.globalVar 1 (Ty.pointer (Ty.array (Ty.array (Ty.int 4 false) 2) 2))
        MidLink.External "g"
        (some (SSA.constArray 2 (Ty.array (Ty.array (Ty.int 4 false) 2) 2)
          [SSA.constZero 3 (Ty.array (Ty.int 4 false) 2),
            SSA.constArray 4 (Ty.array (Ty.int 4 false) 2)
              [SSA.constInt 5 (Ty.int 4 false) 1, SSA.constInt 6 (Ty.int 4 false) 2]])))
        GenState.empty).map (fun r => r.2.mems) =
      some [(LabelName.named "g", ⟨LinkageTypes.External,
        [⟨OpCode.LONG, [Opr.int 1]⟩, ⟨OpCode.LONG, [Opr.int 2]⟩, ⟨OpCode.ZERO, [Opr.int 8]⟩]⟩)] ∧
    (GenerateOn (SSA.globalVar 1 (Ty.pointer (Ty.array (Ty.int 4 false) 2))
        MidLink.External "h"
        (some (SSA.constArray 2 (Ty.array (Ty.int 4 false) 2)
          [SSA.constZero 3 (Ty.int 4 false), SSA.constInt 4 (Ty.int 4 false) 5])))
        GenState.empty).map (fun r => r.2.mems) =
      some [(LabelName.named "h", ⟨LinkageTypes.External,
        [⟨OpCode.LONG, [Opr.int 5]⟩, ⟨OpCode.ZERO, [Opr.int 4]⟩]⟩)] ∧
    (GenerateOn (SSA.constArray 1 (Ty.array (Ty.pointer (Ty.int 1 false)) 2)
        [SSA.constZero 2 (Ty.pointer (Ty.int 1 false)),
          SSA.constStr 3 (Ty.pointer (Ty.int 1 false)) "abc"])
        GenState.empty).map (fun r => (r.1, r.2.mems)) =
      some (some (Opr.label (LabelName.anon 0)),
        [(LabelName.anon 0, ⟨LinkageTypes.Internal,
            [⟨OpCode.LONG, [Opr.label (LabelName.anon 1)]⟩, ⟨OpCode.ZERO, [Opr.int 4]⟩]⟩),
          (LabelName.anon 1, ⟨LinkageTypes.Internal, [⟨OpCode.ASCIZ, [Opr.str "abc"]⟩]⟩)]) := by
  refine ⟨?_, ?_, ?_⟩ <;> decide!

/-- C20: for a Binary with any of the operators, let `GetOpr` lower the left
operand to `l` and then the right operand to `r`, leaving the state `s2` with a
current sequence. Then `GenerateOn(BinarySSA)` returns the next virtual register
of the factory, which is taken from it, and appends to the current sequence
exactly one instruction: the opcode of the operator with the operands
destination, `l`, `r`. The operator-to-opcode mapping is one-to-one: there are
23 operators and their opcodes are 23 distinct ones, so signed and unsigned
division, remainder, right shift and ordering comparisons never share one. -/
theorem C20_binary_one_instruction (st s1 s2 : GenState) (id : Nat) (type : Ty)
    (op : BinaryOp) (lhs rhs : SSA) (l r : Opr)
    (hl : GetOpr lhs st = some (some l, s1)) (hr : GetOpr rhs s1 = some (some r, s2))
    (hcur : s2.hasCur = true) :
    (GenerateOn (SSA.binary id type op lhs rhs) st =
        some (some (Opr.vreg s2.vreg_fact_),
          ({ s2 with vreg_fact_ := s2.vreg_fact_ + 1 } : GenState).push
            ⟨binaryOpCode op, [Opr.vreg s2.vreg_fact_, l, r]⟩) ∧
      (({ s2 with vreg_fact_ := s2.vreg_fact_ + 1 } : GenState).push
          ⟨binaryOpCode op, [Opr.vreg s2.vreg_fact_, l, r]⟩).curInsts =
        s2.curInsts ++ [⟨binaryOpCode op, [Opr.vreg s2.vreg_fact_, l, r]⟩]) ∧
    Function.Injective binaryOpCode ∧
    Fintype.card BinaryOp = 23 ∧
    (Finset.univ.image binaryOpCode).card = 23 ∧
    binaryOpCode BinaryOp.UDiv ≠ binaryOpCode BinaryOp.SDiv ∧
    binaryOpCode BinaryOp.URem ≠ binaryOpCode BinaryOp.SRem ∧
    binaryOpCode BinaryOp.LShr ≠ binaryOpCode BinaryOp.AShr ∧
    binaryOpCode BinaryOp.ULess ≠ binaryOpCode BinaryOp.SLess ∧
    binaryOpCode BinaryOp.ULessEq ≠ binaryOpCode BinaryOp.SLessEq ∧
    binaryOpCode BinaryOp.UGreat ≠ binaryOpCode BinaryOp.SGreat ∧
    binaryOpCode BinaryOp.UGreatEq ≠ binaryOpCode BinaryOp.SGreatEq := by
  have hcur' : ({ s2 with vreg_fact_ := s2.vreg_fact_ + 1 } : GenState).hasCur = true := hcur
  refine ⟨⟨?_, ?_⟩, ?_, by decide, by decide, by decide, by decide, by decide, by decide,
    by decide, by decide, by decide⟩
  · unfold GetOpr at hl hr
    rw [GenerateOn, GenerateOnBinary]
    simp only [Gen.bind_apply, hl, hr, GetVReg]
    rw [PushInst_apply _ (binaryOpCode op) [some (Opr.vreg s2.vreg_fact_), some l, some r]
      [Opr.vreg s2.vreg_fact_, l, r] hcur' rfl]
    rfl
  · rw [GenState.push_curInsts _ _ hcur']
    rfl
  · intro a b h
    cases a <;> cases b <;> first | rfl | exact absurd h (by decide)

theorem C20_binary_one_instruction_witness :
    GenerateOn (SSA.binary 3 (Ty.int 4 false) BinaryOp.SDiv
        (SSA.constInt 1 (Ty.int 4 false) 7) (SSA.constInt 2 (Ty.int 4 false) 2))
        (GenState.inside (LabelName.anon 0) (fun _ => none)) =
      some (some (Opr.vreg 0),
        ({ GenState.inside (LabelName.anon 0) (fun _ => none) with
          vreg_fact_ := 1,
          metadata := Function.update (Function.update (fun _ => none) 1
            (some (some (Opr.imm 7)))) 2 (some (some (Opr.imm 2))) } : GenState).push
          ⟨OpCode.DIV, [Opr.vreg 0, Opr.imm 7, Opr.imm 2]⟩) :=
  (C20_binary_one_instruction (GenState.inside (LabelName.anon 0) (fun _ => none))
    { GenState.inside (LabelName.anon 0) (fun _ => none) with
      metadata := Function.update (fun _ => none) 1 (some (some (Opr.imm 7))) }
    { GenState.inside (LabelName.anon 0) (fun _ => none) with
      metadata := Function.update (Function.update (fun _ => none) 1
        (some (some (Opr.imm 7)))) 2 (some (some (Opr.imm 2))) }
    3 (Ty.int 4 false) BinaryOp.SDiv
    (SSA.constInt 1 (Ty.int 4 false) 7) (SSA.constInt 2 (Ty.int 4 false) 2)
    (Opr.imm 7) (Opr.imm 2) rfl rfl (by decide)).1.1

theorem and_pred_eq_zero_of_two_pow (k : Nat) : 2 ^ k &&& (2 ^ k - 1) = 0 := by
  rw [Nat.and_pow_two_sub_one_eq_mod, Nat.mod_self]

theorem two_pow_of_and_pred_eq_zero : ∀ (s : Nat), 0 < s → s &&& (s - 1) = 0 → ∃ k, 2 ^ k = s := by
  intro s
  induction s using Nat.strong_induction_on with
  | _ s ih =>
    intro hs h
    have hdiv : s / 2 &&& (s - 1) / 2 = 0 := by
      rw [← Nat.and_div_two, h]
    rcases Nat.mod_two_eq_zero_or_one s with h0 | h1
    · have hm : 0 < s / 2 := by omega
      have hpred : (s - 1) / 2 = s / 2 - 1 := by omega
      rw [hpred] at hdiv
      obtain ⟨k, hk⟩ := ih (s / 2) (by omega) hm hdiv
      exact ⟨k + 1, by rw [pow_succ, hk]; omega⟩
    · have hpred : (s - 1) / 2 = s / 2 := by omega
      rw [hpred, Nat.and_self] at hdiv
      exact ⟨0, by simp; omega⟩

theorem toInt32_eq_of_emod (x y : Int) (h : x % 4294967296 = y % 4294967296)
    (h1 : -2147483648 ≤ y) (h2 : y < 2147483648) : toInt32 x = y := by
  unfold toInt32
  omega

/-- The run of `GenerateOn(AccessSSA)` on a base that is not a struct, with the
immediates as `GetImm` makes them. -/
theorem access_offset_run (st s1 s2 : GenState) (id : Nat) (type : Ty)
    (acc_type : AccessType) (ptr index : SSA) (p : Opr) (iv : OprPtr) (base : Ty) (s : Nat)
    (hptr : GetOpr ptr st = some (some p, s1)) (hidx : GetOpr index s1 = some (iv, s2))
    (hcur : s2.hasCur = true)
    (hbase : ptr.type.GetDerefedType = some base) (hns : base.IsStruct = false)
    (hstride : (acc_type = AccessType.Pointer ∧ s = base.GetSize) ∨
      (acc_type = AccessType.Element ∧ ∃ e n, base = Ty.array e n ∧ s = e.GetSize))
    (hs : 0 < s) :
    (∀ c, index.IsConst = true → index.constIntValue = some c →
      ∃ st', GenerateOn (SSA.access id type acc_type ptr index) st =
          some (some (Opr.vreg s2.vreg_fact_), st') ∧
        st'.curInsts = s2.curInsts ++
          [⟨OpCode.LEA, [Opr.vreg s2.vreg_fact_, p, Opr.imm (toInt32 ((c * s : Nat) : Int))]⟩]) ∧
    (∀ i, index.IsConst = false → iv = some i → i.IsReg = true →
      ∃ st', GenerateOn (SSA.access id type acc_type ptr index) st =
          some (some (Opr.vreg s2.vreg_fact_), st') ∧
        (∀ k, 2 ^ k = s → st'.curInsts = s2.curInsts ++
          [⟨OpCode.SLL, [Opr.vreg (s2.vreg_fact_ + 1), i, Opr.imm (toInt32 (k : Nat))]⟩,
            ⟨OpCode.LEA, [Opr.vreg s2.vreg_fact_, p, Opr.vreg (s2.vreg_fact_ + 1)]⟩]) ∧
        ((¬ ∃ k, 2 ^ k = s) → st'.curInsts = s2.curInsts ++
          [⟨OpCode.MUL, [Opr.vreg (s2.vreg_fact_ + 1), i, Opr.imm (toInt32 (s : Nat))]⟩,
            ⟨OpCode.LEA, [Opr.vreg s2.vreg_fact_, p, Opr.vreg (s2.vreg_fact_ + 1)]⟩])) := by
  unfold GetOpr at hptr hidx
  have hpush1 : ∀ (op : OpCode) (a b c : Opr),
      PushInst op [some a, some b, some c] { s2 with vreg_fact_ := s2.vreg_fact_ + 1 } =
        some ((), ({ s2 with vreg_fact_ := s2.vreg_fact_ + 1 } : GenState).push ⟨op, [a, b, c]⟩) :=
    fun op a b c => PushInst_apply _ op _ _ hcur rfl
  have hpush2 : ∀ (op : OpCode) (a b c : Opr),
      PushInst op [some a, some b, some c] { s2 with vreg_fact_ := s2.vreg_fact_ + 1 + 1 } =
        some ((), ({ s2 with vreg_fact_ := s2.vreg_fact_ + 1 + 1 } : GenState).push
          ⟨op, [a, b, c]⟩) :=
    fun op a b c => PushInst_apply _ op _ _ hcur rfl
  have hpush3 : ∀ (x : Inst) (op : OpCode) (a b c : Opr),
      PushInst op [some a, some b, some c]
          (({ s2 with vreg_fact_ := s2.vreg_fact_ + 1 + 1 } : GenState).push x) =
        some ((), (({ s2 with vreg_fact_ := s2.vreg_fact_ + 1 + 1 } : GenState).push x).push
          ⟨op, [a, b, c]⟩) :=
    fun x op a b c => PushInst_apply _ op _ _
      ((GenState.push_hasCur _ x).trans hcur) rfl
  have hins1 : ∀ x : Inst,
      (({ s2 with vreg_fact_ := s2.vreg_fact_ + 1 } : GenState).push x).curInsts =
        s2.curInsts ++ [x] := fun x => GenState.push_curInsts _ x hcur
  have hins2 : ∀ x y : Inst,
      ((({ s2 with vreg_fact_ := s2.vreg_fact_ + 1 + 1 } : GenState).push x).push y).curInsts =
        s2.curInsts ++ [x, y] := by
    intro x y
    have h1 := GenState.push_curInsts
      (({ s2 with vreg_fact_ := s2.vreg_fact_ + 1 + 1 } : GenState).push x) y
      ((GenState.push_hasCur _ x).trans hcur)
    have h2 := GenState.push_curInsts
      ({ s2 with vreg_fact_ := s2.vreg_fact_ + 1 + 1 } : GenState) x hcur
    rw [h1, h2, List.append_assoc]
    rfl
  have hs0 : (s != 0) = true := by simpa using (by omega : s ≠ 0)
  rw [GenerateOn, GenerateOnAccess]
  rcases hstride with ⟨ha, hs'⟩ | ⟨ha, e, n, hb, hs'⟩
  · subst ha
    refine ⟨fun c hc hv => ?_, fun i hc hi hr => ?_⟩
    · refine ⟨_, ?_, hins1 _⟩
      simp only [Gen.bind_apply, hptr, hidx, GetVReg, hbase, Gen.deref_some, hns,
        Bool.false_eq_true, if_false, Gen.pure_apply, hc, hv, if_true, GetImm, hpush1,
        ← hs',
            show (AccessType.Pointer == AccessType.Element) = false from rfl]
    · subst hi
      by_cases hp : s &&& (s - 1) = 0
      · obtain ⟨k0, hk0⟩ := two_pow_of_and_pred_eq_zero s hs hp
        refine ⟨(({ s2 with vreg_fact_ := s2.vreg_fact_ + 1 + 1 } : GenState).push
            ⟨OpCode.SLL, [Opr.vreg (s2.vreg_fact_ + 1), i, Opr.imm (toInt32 (Nat.log2 s : Nat))]⟩).push
            ⟨OpCode.LEA, [Opr.vreg s2.vreg_fact_, p, Opr.vreg (s2.vreg_fact_ + 1)]⟩,
          ?_, fun k hk => ?_, fun hn => (hn ⟨k0, hk0⟩).elim⟩
        · simp only [Gen.bind_apply, hptr, hidx, GetVReg, hbase, Gen.deref_some, hns,
            Bool.false_eq_true, if_false, Gen.pure_apply, hc, if_true, GetImm, hpush2, hpush3,
            Gen.assert_apply, hr, hs0, Bool.and_self, hp,
            ← hs',
            show (AccessType.Pointer == AccessType.Element) = false from rfl]
        · rw [hins2, ← hk, Nat.log2_two_pow]
      · refine ⟨(({ s2 with vreg_fact_ := s2.vreg_fact_ + 1 + 1 } : GenState).push
            ⟨OpCode.MUL, [Opr.vreg (s2.vreg_fact_ + 1), i, Opr.imm (toInt32 (s : Nat))]⟩).push
            ⟨OpCode.LEA, [Opr.vreg s2.vreg_fact_, p, Opr.vreg (s2.vreg_fact_ + 1)]⟩,
          ?_, fun k hk => (hp (hk ▸ and_pred_eq_zero_of_two_pow k)).elim, fun _ => ?_⟩
        · simp only [Gen.bind_apply, hptr, hidx, GetVReg, hbase, Gen.deref_some, hns,
            Bool.false_eq_true, if_false, Gen.pure_apply, hc, if_true, GetImm, hpush2, hpush3,
            Gen.assert_apply, hr, hs0, Bool.and_self, hp,
            ← hs',
            show (AccessType.Pointer == AccessType.Element) = false from rfl]
        · rw [hins2]
  · subst ha; subst hb
    have hia : (Ty.array e n).IsArray = true := rfl
    have hde : (Ty.array e n).GetDerefedType = some e := rfl
    refine ⟨fun c hc hv => ?_, fun i hc hi hr => ?_⟩
    · refine ⟨_, ?_, hins1 _⟩
      simp only [Gen.bind_apply, hptr, hidx, GetVReg, hbase, Gen.deref_some, hns,
        Bool.false_eq_true, if_false, Gen.pure_apply, hc, hv, if_true, GetImm, hpush1,
        beq_self_eq_true, hia, Gen.assert_apply, hde, ← hs']
    · subst hi
      by_cases hp : s &&& (s - 1) = 0
      · obtain ⟨k0, hk0⟩ := two_pow_of_and_pred_eq_zero s hs hp
        refine ⟨(({ s2 with vreg_fact_ := s2.vreg_fact_ + 1 + 1 } : GenState).push
            ⟨OpCode.SLL, [Opr.vreg (s2.vreg_fact_ + 1), i, Opr.imm (toInt32 (Nat.log2 s : Nat))]⟩).push
            ⟨OpCode.LEA, [Opr.vreg s2.vreg_fact_, p, Opr.vreg (s2.vreg_fact_ + 1)]⟩,
          ?_, fun k hk => ?_, fun hn => (hn ⟨k0, hk0⟩).elim⟩
        · simp only [Gen.bind_apply, hptr, hidx, GetVReg, hbase, Gen.deref_some, hns,
            Bool.false_eq_true, if_false, Gen.pure_apply, hc, if_true, GetImm, hpush2, hpush3,
            Gen.assert_apply, hr, hs0, Bool.and_self, hp,
            beq_self_eq_true, hia, hde, ← hs']
        · rw [hins2, ← hk, Nat.log2_two_pow]
      · refine ⟨(({ s2 with vreg_fact_ := s2.vreg_fact_ + 1 + 1 } : GenState).push
            ⟨OpCode.MUL, [Opr.vreg (s2.vreg_fact_ + 1), i, Opr.imm (toInt32 (s : Nat))]⟩).push
            ⟨OpCode.LEA, [Opr.vreg s2.vreg_fact_, p, Opr.vreg (s2.vreg_fact_ + 1)]⟩,
          ?_, fun k hk => (hp (hk ▸ and_pred_eq_zero_of_two_pow k)).elim, fun _ => ?_⟩
        · simp only [Gen.bind_apply, hptr, hidx, GetVReg, hbase, Gen.deref_some, hns,
            Bool.false_eq_true, if_false, Gen.pure_apply, hc, if_true, GetImm, hpush2, hpush3,
            Gen.assert_apply, hr, hs0, Bool.and_self, hp,
            beq_self_eq_true, hia, hde, ← hs']
        · rw [hins2]

/-- C19 (amended): for an access whose base is not a struct, with stride `s > 0`
(the size of the pointee for a pointer access, the size of the element type of
the array for an element access), let `GetOpr` lower the base address to `p` and
then the index to `iv`, leaving the state `s2` with a current sequence. Every
immediate is a signed 32-bit integer. For a constant index `c`,
`GenerateOn(AccessSSA)` appends exactly one instruction, the `LEA` of a fresh
virtual register from `p` whose immediate offset is `c * s` converted to 32
bits, and no scaling instruction; the offset is `c * s` itself whenever
`c * s` is below `2 ^ 31`, and it is `n * s` whenever `c` is the 32-bit pattern
of an integer `n` and `n * s` is a signed 32-bit integer. For a dynamic index
lowered to the register `i` it appends exactly one scaling instruction into a
second fresh register and then the `LEA` from `p` and that register: `SLL` of
`i` by the immediate `k` when `s = 2 ^ k`, and `MUL` of `i` by the immediate `s`
when `s` is not a power of two, `k` and `s` converted to 32 bits (themselves
when below `2 ^ 31`). -/
theorem C19_access_offset (st s1 s2 : GenState) (id : Nat) (type : Ty)
    (acc_type : AccessType) (ptr index : SSA) (p : Opr) (iv : OprPtr) (base : Ty) (s : Nat)
    (hptr : GetOpr ptr st = some (some p, s1)) (hidx : GetOpr index s1 = some (iv, s2))
    (hcur : s2.hasCur = true)
    (hbase : ptr.type.GetDerefedType = some base) (hns : base.IsStruct = false)
    (hstride : (acc_type = AccessType.Pointer ∧ s = base.GetSize) ∨
      (acc_type = AccessType.Element ∧ ∃ e n, base = Ty.array e n ∧ s = e.GetSize))
    (hs : 0 < s) :
    (∀ c, index.IsConst = true → index.constIntValue = some c →
      (∃ st', GenerateOn (SSA.access id type acc_type ptr index) st =
          some (some (Opr.vreg s2.vreg_fact_), st') ∧
        st'.curInsts = s2.curInsts ++
          [⟨OpCode.LEA, [Opr.vreg s2.vreg_fact_, p,
            Opr.imm (toInt32 ((c * s : Nat) : Int))]⟩]) ∧
      (c * s < 2147483648 → toInt32 ((c * s : Nat) : Int) = ((c * s : Nat) : Int)) ∧
      (∀ n : Int, (c : Int) % 4294967296 = n % 4294967296 →
        -2147483648 ≤ n * s → n * s < 2147483648 →
        toInt32 ((c * s : Nat) : Int) = n * s)) ∧
    (∀ i, index.IsConst = false → iv = some i → i.IsReg = true →
      ∃ st', GenerateOn (SSA.access id type acc_type ptr index) st =
          some (some (Opr.vreg s2.vreg_fact_), st') ∧
        (∀ k, 2 ^ k = s →
          st'.curInsts = s2.curInsts ++
            [⟨OpCode.SLL, [Opr.vreg (s2.vreg_fact_ + 1), i, Opr.imm (toInt32 (k : Nat))]⟩,
              ⟨OpCode.LEA, [Opr.vreg s2.vreg_fact_, p, Opr.vreg (s2.vreg_fact_ + 1)]⟩] ∧
          (k < 2147483648 → toInt32 (k : Nat) = (k : Nat))) ∧
        ((¬ ∃ k, 2 ^ k = s) →
          st'.curInsts = s2.curInsts ++
            [⟨OpCode.MUL, [Opr.vreg (s2.vreg_fact_ + 1), i, Opr.imm (toInt32 (s : Nat))]⟩,
              ⟨OpCode.LEA, [Opr.vreg s2.vreg_fact_, p, Opr.vreg (s2.vreg_fact_ + 1)]⟩] ∧
          (s < 2147483648 → toInt32 (s : Nat) = (s : Nat)))) := by
  obtain ⟨hconst, hdyn⟩ := access_offset_run st s1 s2 id type acc_type ptr index p iv base s
    hptr hidx hcur hbase hns hstride hs
  refine ⟨fun c hc hv => ⟨hconst c hc hv, fun hlt => toInt32_of_lt _ hlt, fun n hn h1 h2 => ?_⟩,
    fun i hc hi hr => ?_⟩
  · apply toInt32_eq_of_emod _ _ _ h1 h2
    push_cast
    rw [Int.mul_emod, hn, ← Int.mul_emod]
  · obtain ⟨st', hrun, hpow, hmul⟩ := hdyn i hc hi hr
    exact ⟨st', hrun, fun k hk => ⟨hpow k hk, fun hlt => toInt32_of_lt _ hlt⟩,
      fun hn => ⟨hmul hn, fun hlt => toInt32_of_lt _ hlt⟩⟩

theorem C19_access_offset_witness :
    (∃ st', GenerateOn (SSA.access 3 (Ty.pointer (Ty.int 4 false)) AccessType.Element
          (SSA.alloca 1 (Ty.pointer (Ty.array (Ty.int 4 false) 8)))
          (SSA.constInt 2 (Ty.int 4 false) 3))
          (GenState.inside (LabelName.anon 0) (fun _ => none)) =
          some (some (Opr.vreg 0), st') ∧
        st'.curInsts = [] ++
          [⟨OpCode.LEA, [Opr.vreg 0, Opr.frame (LabelName.anon 0) 0, Opr.imm (toInt32 ((3 * 4 : Nat) : Int))]⟩]) ∧
    (∃ st', GenerateOn (SSA.access 3 (Ty.pointer (Ty.int 4 false)) AccessType.Element
          (SSA.alloca 1 (Ty.pointer (Ty.array (Ty.int 4 false) 8)))
          (SSA.argRef 2 (Ty.int 4 false) 0))
          ((GenState.inside (LabelName.anon 0) (fun _ => none)).param 0) =
          some (some (Opr.vreg 1), st') ∧
        st'.curInsts = [paramInst 0 (Opr.vreg 0)] ++
          [⟨OpCode.SLL, [Opr.vreg (1 + 1), Opr.vreg 0, Opr.imm (toInt32 (2 : Nat))]⟩,
            ⟨OpCode.LEA, [Opr.vreg 1, Opr.frame (LabelName.anon 0) 0, Opr.vreg (1 + 1)]⟩]) := by
  have h1 := ((C19_access_offset
    (GenState.inside (LabelName.anon 0) (fun _ => none))
    { GenState.inside (LabelName.anon 0) (fun _ => none) with
      alloc_slots_ := Function.update (fun _ => 0) (LabelName.anon 0) (0 + roundUp4 32),
      metadata := Function.update (fun _ => none) 1
        (some (some (Opr.frame (LabelName.anon 0) 0))) }
    { GenState.inside (LabelName.anon 0) (fun _ => none) with
      alloc_slots_ := Function.update (fun _ => 0) (LabelName.anon 0) (0 + roundUp4 32),
      metadata := Function.update (Function.update (fun _ => none) 1
        (some (some (Opr.frame (LabelName.anon 0) 0)))) 2 (some (some (Opr.imm 3))) }
    3 (Ty.pointer (Ty.int 4 false)) AccessType.Element
    (SSA.alloca 1 (Ty.pointer (Ty.array (Ty.int 4 false) 8)))
    (SSA.constInt 2 (Ty.int 4 false) 3) (Opr.frame (LabelName.anon 0) 0) (some (Opr.imm 3))
    (Ty.array (Ty.int 4 false) 8) 4 rfl rfl rfl rfl rfl
    (Or.inr ⟨rfl, Ty.int 4 false, 8, rfl, rfl⟩) (by decide)).1 3 rfl rfl).1
  obtain ⟨st', h2, h3, _⟩ := (C19_access_offset
    ((GenState.inside (LabelName.anon 0) (fun _ => none)).param 0)
    { (GenState.inside (LabelName.anon 0) (fun _ => none)).param 0 with
      alloc_slots_ := Function.update (fun _ => 0) (LabelName.anon 0) (0 + roundUp4 32),
      metadata := Function.update (fun _ => none) 1
        (some (some (Opr.frame (LabelName.anon 0) 0))) }
    { (GenState.inside (LabelName.anon 0) (fun _ => none)).param 0 with
      alloc_slots_ := Function.update (fun _ => 0) (LabelName.anon 0) (0 + roundUp4 32),
      metadata := Function.update (Function.update (fun _ => none) 1
        (some (some (Opr.frame (LabelName.anon 0) 0)))) 2 (some (some (Opr.vreg 0))) }
    3 (Ty.pointer (Ty.int 4 false)) AccessType.Element
    (SSA.alloca 1 (Ty.pointer (Ty.array (Ty.int 4 false) 8)))
    (SSA.argRef 2 (Ty.int 4 false) 0) (Opr.frame (LabelName.anon 0) 0) (some (Opr.vreg 0))
    (Ty.array (Ty.int 4 false) 8) 4 rfl rfl rfl rfl rfl
    (Or.inr ⟨rfl, Ty.int 4 false, 8, rfl, rfl⟩) (by decide)).2 (Opr.vreg 0) rfl rfl rfl
  exact ⟨h1, st', h2, (h3 2 rfl).1⟩

/-- C19 (as stated) fails. An access through a pointer to 4-byte integers with
the constant index `2 ^ 30` has `c * s = 2 ^ 32`, and the `LEA` carries the
immediate 0; with the constant index `2 ^ 32 - 1`, the 32-bit pattern of `-1`,
`c * s` is `17179869180` and the `LEA` carries the immediate `-4`. -/
theorem C19_offset_is_32_bit :
    (GenerateOn (SSA.access 2 (Ty.pointer (Ty.int 4 false)) AccessType.Pointer
        (SSA.argRef 1 (Ty.pointer (Ty.int 4 false)) 0)
        (SSA.constInt 3 (Ty.int 4 false) 1073741824))
        ((GenState.inside (LabelName.anon 0) (fun _ => none)).param 0)).map
        (fun r => (r.1, r.2.curInsts)) =
      some (some (Opr.vreg 1),
        [paramInst 0 (Opr.vreg 0), ⟨OpCode.LEA, [Opr.vreg 1, Opr.vreg 0, Opr.imm 0]⟩]) ∧
    (GenerateOn (SSA.access 2 (Ty.pointer (Ty.int 4 false)) AccessType.Pointer
        (SSA.argRef 1 (Ty.pointer (Ty.int 4 false)) 0)
        (SSA.constInt 3 (Ty.int 4 false) 4294967295))
        ((GenState.inside (LabelName.anon 0) (fun _ => none)).param 0)).map
        (fun r => (r.1, r.2.curInsts)) =
      some (some (Opr.vreg 1),
        [paramInst 0 (Opr.vreg 0), ⟨OpCode.LEA, [Opr.vreg 1, Opr.vreg 0, Opr.imm (-4)]⟩]) ∧
    1073741824 * (Ty.int 4 false).GetSize = 4294967296 ∧
    4294967295 * (Ty.int 4 false).GetSize = 17179869180 := by
  refine ⟨?_, ?_, ?_, ?_⟩ <;> decide!

namespace BranchEliminationPass

theorem hasRedundantJump_cons_eq (a : Inst) (t : List Inst) :
    hasRedundantJump (a :: t) = (isRedundantJump a t.head? || hasRedundantJump t) := by
  cases t with
  | nil => simp [hasRedundantJump, isRedundantJump]
  | cons b r => simp [hasRedundantJump]

theorem head?_filter_not_eq_dropWhile (p : Inst → Bool) (l : List Inst) :
    (l.filter (fun x => !p x)).head? = (l.dropWhile p).head? := by
  induction l with
  | nil => rfl
  | cons a r ih =>
    by_cases h : p a = true
    · simp [List.filter_cons, List.dropWhile_cons, h, ih]
    · simp [List.filter_cons, List.dropWhile_cons, h]

/-- Deleting the unused labels leaves a redundant jump exactly where a jump was
separated from its target by unused labels only. -/
theorem hasRedundantJump_filter (l s : List Inst) :
    hasRedundantJump (s.filter (fun x => !isUnusedLabel l x)) = jumpsOverUnusedLabels l s := by
  induction s with
  | nil => rfl
  | cons a r ih =>
    by_cases h : isUnusedLabel l a = true
    · have ha : ∀ n, isRedundantJump a n = false := by
        intro n
        simp only [isUnusedLabel, decide_eq_true_eq] at h
        cases n with
        | none => rfl
        | some j => simp [isRedundantJump, h.1]
      simp only [List.filter_cons, h, Bool.not_true, Bool.false_eq_true, if_false,
        jumpsOverUnusedLabels, ha, Bool.false_or, ih]
    · simp only [List.filter_cons, h, Bool.not_false, if_true, Bool.not_eq_true,
        jumpsOverUnusedLabels, hasRedundantJump_cons_eq, head?_filter_not_eq_dropWhile, ih]

theorem withoutRedundantJumps_eq_self (l : List Inst) (h : hasRedundantJump l = false) :
    withoutRedundantJumps l = l := by
  induction l with
  | nil => rfl
  | cons a r ih =>
    rw [hasRedundantJump_cons_eq, Bool.or_eq_false_iff] at h
    rw [withoutRedundantJumps_cons, h.1, ih h.2]
    simp

theorem removeUnusedLabels_length_le (l : List Inst) :
    ∀ uses : Opr → Nat, (removeUnusedLabels uses l).length ≤ l.length := by
  induction l with
  | nil => intro uses; simp [removeUnusedLabels]
  | cons cur l ih =>
    intro uses
    by_cases hc : cur.opcode = OpCode.LABEL ∧ cur.opr0.map uses = some 1
    · simp only [removeUnusedLabels, hc, and_self, if_true, List.length_cons]
      have := ih (release uses cur)
      omega
    · simp only [removeUnusedLabels, hc, if_false, List.length_cons]
      have := ih uses
      omega

theorem refCount_pos_of_mem (o : Opr) (l : List Inst) (x : Inst) (hx : x ∈ l)
    (ho : o ∈ x.oprs) : 0 < refCount o l := by
  unfold refCount
  exact List.countP_pos_iff.mpr ⟨x, hx, by simpa using ho⟩

/-- When every `LABEL` holds exactly one operand and the use counts are the
reference counts of the list, the second loop deletes exactly the unused
labels of the list. -/
theorem removeUnusedLabels_eq_filter (s : List Inst) :
    ∀ (pre : List Inst) (uses : Opr → Nat),
      (∀ x ∈ s, x.opcode = OpCode.LABEL → ∀ o ∈ x.oprs, uses o = refCount o (pre ++ s)) →
      (∀ x ∈ s, x.opcode = OpCode.LABEL → x.oprs.length = 1) →
      removeUnusedLabels uses s = s.filter (fun x => !isUnusedLabel (pre ++ s) x) := by
  induction s with
  | nil => intro pre uses _ _; rfl
  | cons cur rest ih =>
    intro pre uses hu hl
    have hassoc : pre ++ cur :: rest = (pre ++ [cur]) ++ rest := by simp
    have hl' : ∀ x ∈ rest, x.opcode = OpCode.LABEL → x.oprs.length = 1 :=
      fun x hx => hl x (List.mem_cons_of_mem _ hx)
    have hkeep : removeUnusedLabels uses rest =
        rest.filter (fun x => !isUnusedLabel (pre ++ cur :: rest) x) := by
      rw [hassoc]
      refine ih (pre ++ [cur]) uses ?_ hl'
      intro x hx hxl o ho
      rw [← hassoc]
      exact hu x (List.mem_cons_of_mem _ hx) hxl o ho
    by_cases hlab : cur.opcode = OpCode.LABEL
    · obtain ⟨o, hoprs⟩ : ∃ o, cur.oprs = [o] := by
        have := hl cur (List.mem_cons_self _ _) hlab
        match hq : cur.oprs, this with
        | [o], _ => exact ⟨o, rfl⟩
      have hopr0 : cur.opr0 = some o := by simp [Inst.opr0, hoprs]
      have huo : uses o = refCount o (pre ++ cur :: rest) :=
        hu cur (List.mem_cons_self _ _) hlab o (by simp [hoprs])
      by_cases h1 : refCount o (pre ++ cur :: rest) = 1
      · have hdead : isUnusedLabel (pre ++ cur :: rest) cur = true := by
          simp [isUnusedLabel, hlab, hopr0, h1]
        have hcond : cur.opcode = OpCode.LABEL ∧ cur.opr0.map uses = some 1 := by
          simp [hlab, hopr0, huo, h1]
        simp only [removeUnusedLabels, hcond, and_self, if_true, List.filter_cons, hdead,
          Bool.not_true, Bool.false_eq_true, if_false]
        rw [hassoc]
        refine ih (pre ++ [cur]) (release uses cur) ?_ hl'
        intro x hx hxl o2 ho2
        rw [← hassoc]
        have hne : o2 ∉ cur.oprs := by
          intro hmem
          rw [hoprs, List.mem_singleton] at hmem
          subst hmem
          have hpos := refCount_pos_of_mem o2 rest x hx ho2
          rw [refCount_append, refCount_cons, if_pos (by simp [hoprs])] at h1
          omega
        unfold release
        rw [if_neg hne]
        exact hu x (List.mem_cons_of_mem _ hx) hxl o2 ho2
      · have hdead : isUnusedLabel (pre ++ cur :: rest) cur = false := by
          simp [isUnusedLabel, hlab, hopr0, h1]
        have hcond : ¬ (cur.opcode = OpCode.LABEL ∧ cur.opr0.map uses = some 1) := by
          simp [hlab, hopr0, huo, h1]
        simp only [removeUnusedLabels, hcond, if_false, List.filter_cons, hdead,
          Bool.not_false, if_true, hkeep]
    · have hdead : isUnusedLabel (pre ++ cur :: rest) cur = false := by
        simp [isUnusedLabel, hlab]
      have hcond : ¬ (cur.opcode = OpCode.LABEL ∧ cur.opr0.map uses = some 1) := by
        simp [hlab]
      simp only [removeUnusedLabels, hcond, if_false, List.filter_cons, hdead,
        Bool.not_false, if_true, hkeep]

theorem withoutRedundantJumps_subset (l : List Inst) :
    ∀ x ∈ withoutRedundantJumps l, x ∈ l := by
  induction l with
  | nil => intro x hx; simp [withoutRedundantJumps_nil] at hx
  | cons a r ih =>
    intro x hx
    rw [withoutRedundantJumps_cons] at hx
    split at hx
    · exact List.mem_cons_of_mem _ (ih x hx)
    · rcases List.mem_cons.mp hx with h | h
      · rw [h]; exact List.mem_cons_self _ _
      · exact List.mem_cons_of_mem _ (ih x h)

theorem refCount_filter (o : Opr) (q : Inst → Bool) (l : List Inst)
    (h : ∀ y ∈ l, q y = false → o ∉ y.oprs) : refCount o (l.filter q) = refCount o l := by
  induction l with
  | nil => rfl
  | cons a r ih =>
    have ihr := ih (fun y hy => h y (List.mem_cons_of_mem _ hy))
    by_cases hq : q a = true
    · rw [List.filter_cons, if_pos hq, refCount_cons, refCount_cons, ihr]
    · rw [List.filter_cons, if_neg hq, refCount_cons, ihr,
        if_neg (h a (List.mem_cons_self _ _) (by simpa using hq))]
      rfl

/-- After the unused labels of a list are deleted, no label of the rest is unused. -/
theorem isUnusedLabel_filter (l : List Inst)
    (hl : ∀ x ∈ l, x.opcode = OpCode.LABEL → x.oprs.length = 1) :
    ∀ x ∈ l.filter (fun x => !isUnusedLabel l x),
      isUnusedLabel (l.filter (fun x => !isUnusedLabel l x)) x = false := by
  intro x hx
  obtain ⟨hxl, hxd⟩ := List.mem_filter.mp hx
  simp only [Bool.not_eq_true', ] at hxd
  by_contra hcon
  simp only [Bool.not_eq_false] at hcon
  simp only [isUnusedLabel, decide_eq_true_eq] at hcon
  obtain ⟨hlab, hcnt⟩ := hcon
  cases ho : x.opr0 with
  | none => simp [ho] at hcnt
  | some o =>
    simp only [ho, Option.map_some', Option.some.injEq] at hcnt
    have hx1 : refCount o l ≠ 1 := by
      intro h1
      simp [isUnusedLabel, hlab, ho, h1] at hxd
    have hox : o ∈ x.oprs := by
      unfold Inst.opr0 at ho
      exact List.mem_of_mem_head? (by rw [ho]; rfl)
    have heq : refCount o (l.filter (fun x => !isUnusedLabel l x)) = refCount o l := by
      apply refCount_filter
      intro y hy hyd hoy
      simp only [Bool.not_eq_false'] at hyd
      simp only [isUnusedLabel, decide_eq_true_eq] at hyd
      have hlen := hl y hy hyd.1
      match hq : y.oprs, hlen with
      | [o2], _ =>
        rw [hq, List.mem_singleton] at hoy
        subst hoy
        have h0 : y.opr0 = some o := by simp [Inst.opr0, hq]
        rw [h0] at hyd
        simp only [Option.map_some', Option.some.injEq] at hyd
        exact hx1 hyd.2
    have hcnt2 : refCount o (l.filter (fun x => !isUnusedLabel l x)) = 1 := hcnt
    rw [heq] at hcnt2
    exact hx1 hcnt2

/-- C18 (as stated) fails. With use counts equal to the reference counts: on
`J L; J L; L:` the pass leaves `J L; L:`, and run again on that output it
leaves nothing; on `J L; M:; L:`, where nothing jumps to `M`, loop 1 removes
nothing, loop 2 removes `M:` and the output is `J L; L:`; on
`J L; J M; M:; L:` loop 1 removes `J M`, which leaves `M:` unused, loop 2
removes it and the output is `J L; L:` again. -/
theorem C18_output_keeps_redundant_jump :
    (RunOn (fun o => refCount o
        [⟨OpCode.J, [Opr.label (LabelName.anon 0)]⟩, ⟨OpCode.J, [Opr.label (LabelName.anon 0)]⟩,
          ⟨OpCode.LABEL, [Opr.label (LabelName.anon 0)]⟩])
        [⟨OpCode.J, [Opr.label (LabelName.anon 0)]⟩, ⟨OpCode.J, [Opr.label (LabelName.anon 0)]⟩,
          ⟨OpCode.LABEL, [Opr.label (LabelName.anon 0)]⟩] =
      [⟨OpCode.J, [Opr.label (LabelName.anon 0)]⟩,
        ⟨OpCode.LABEL, [Opr.label (LabelName.anon 0)]⟩]) ∧
    (RunOn (fun o => refCount o
        [⟨OpCode.J, [Opr.label (LabelName.anon 0)]⟩,
          ⟨OpCode.LABEL, [Opr.label (LabelName.anon 0)]⟩])
        [⟨OpCode.J, [Opr.label (LabelName.anon 0)]⟩,
          ⟨OpCode.LABEL, [Opr.label (LabelName.anon 0)]⟩] = []) ∧
    (RunOn (fun o => refCount o
        [⟨OpCode.J, [Opr.label (LabelName.anon 0)]⟩, ⟨OpCode.LABEL, [Opr.label (LabelName.anon 1)]⟩,
          ⟨OpCode.LABEL, [Opr.label (LabelName.anon 0)]⟩])
        [⟨OpCode.J, [Opr.label (LabelName.anon 0)]⟩, ⟨OpCode.LABEL, [Opr.label (LabelName.anon 1)]⟩,
          ⟨OpCode.LABEL, [Opr.label (LabelName.anon 0)]⟩] =
      [⟨OpCode.J, [Opr.label (LabelName.anon 0)]⟩,
        ⟨OpCode.LABEL, [Opr.label (LabelName.anon 0)]⟩]) ∧
    (RunOn (fun o => refCount o
        [⟨OpCode.J, [Opr.label (LabelName.anon 0)]⟩, ⟨OpCode.J, [Opr.label (LabelName.anon 1)]⟩,
          ⟨OpCode.LABEL, [Opr.label (LabelName.anon 1)]⟩,
          ⟨OpCode.LABEL, [Opr.label (LabelName.anon 0)]⟩])
        [⟨OpCode.J, [Opr.label (LabelName.anon 0)]⟩, ⟨OpCode.J, [Opr.label (LabelName.anon 1)]⟩,
          ⟨OpCode.LABEL, [Opr.label (LabelName.anon 1)]⟩,
          ⟨OpCode.LABEL, [Opr.label (LabelName.anon 0)]⟩] =
      [⟨OpCode.J, [Opr.label (LabelName.anon 0)]⟩,
        ⟨OpCode.LABEL, [Opr.label (LabelName.anon 0)]⟩]) ∧
    hasRedundantJump [⟨OpCode.J, [Opr.label (LabelName.anon 0)]⟩,
      ⟨OpCode.LABEL, [Opr.label (LabelName.anon 0)]⟩] = true := by
  decide

/-- C18 (amended): for every instruction list whose `LABEL` instructions hold
exactly one operand, a label whose use count is its reference count (nothing is
assumed of the counts of the other operands), the
output of `RunOn` contains a `J` immediately followed by the `LABEL` of its
target exactly when, in the list that jump removal leaves, some `J` is
separated from the `LABEL` of its target by nothing or by unused labels only
(labels that no other instruction holds, which dead-label removal deletes).
Running the pass again on the output, with use counts of its labels that are
their reference counts in the output, changes nothing exactly when the output
contains no such `J`. -/
theorem C18_fixed_point_iff_no_jump_to_next_label (uses : Opr → Nat) (insts : List Inst)
    (hc : ∀ x ∈ insts, x.opcode = OpCode.LABEL → ∀ o ∈ x.oprs, uses o = refCount o insts)
    (hl : ∀ x ∈ insts, x.opcode = OpCode.LABEL → x.oprs.length = 1) :
    hasRedundantJump (RunOn uses insts) =
        jumpsOverUnusedLabels (redundantBranchPass uses insts)
          (redundantBranchPass uses insts) ∧
      ∀ uses2 : Opr → Nat,
        (∀ x ∈ RunOn uses insts, x.opcode = OpCode.LABEL →
          ∀ o ∈ x.oprs, uses2 o = refCount o (RunOn uses insts)) →
        (RunOn uses2 (RunOn uses insts) = RunOn uses insts ↔
          hasRedundantJump (RunOn uses insts) = false) := by
  have hl1 : ∀ x ∈ redundantBranchPass uses insts, x.opcode = OpCode.LABEL →
      x.oprs.length = 1 := by
    intro x hx
    rw [redundantBranchPass_eq] at hx
    exact hl x (withoutRedundantJumps_subset insts x hx)
  have hu1 : ∀ x ∈ redundantBranchPass uses insts, x.opcode = OpCode.LABEL →
      ∀ o ∈ x.oprs, (removeRedundantBranches none [] uses insts).2 o =
        refCount o (redundantBranchPass uses insts) := by
    intro x hx hxl o ho
    rw [redundantBranchPass_eq] at hx
    exact redundantBranchPass_uses_at uses insts o
      (hc x (withoutRedundantJumps_subset insts x hx) hxl o ho)
  have hout : RunOn uses insts = (redundantBranchPass uses insts).filter
      (fun x => !isUnusedLabel (redundantBranchPass uses insts) x) := by
    show removeUnusedLabels _ (redundantBranchPass uses insts) = _
    exact removeUnusedLabels_eq_filter (redundantBranchPass uses insts) [] _
      (fun x hx hxl o ho => by simpa using hu1 x hx hxl o ho) hl1
  refine ⟨by rw [hout, hasRedundantJump_filter], ?_⟩
  intro uses2 hc2
  have hlo : ∀ x ∈ RunOn uses insts, x.opcode = OpCode.LABEL → x.oprs.length = 1 := by
    intro x hx
    rw [hout] at hx
    exact hl1 x (List.mem_filter.mp hx).1
  have hrun2 : RunOn uses2 (RunOn uses insts) =
      removeUnusedLabels (removeRedundantBranches none [] uses2 (RunOn uses insts)).2
        (withoutRedundantJumps (RunOn uses insts)) := by
    show removeUnusedLabels _ (redundantBranchPass uses2 (RunOn uses insts)) = _
    rw [redundantBranchPass_eq]
  constructor
  · intro heq
    by_contra hne
    have htrue : hasRedundantJump (RunOn uses insts) = true := by simpa using hne
    have hlt := withoutRedundantJumps_length_lt _ htrue
    have hle := removeUnusedLabels_length_le (withoutRedundantJumps (RunOn uses insts))
      (removeRedundantBranches none [] uses2 (RunOn uses insts)).2
    rw [← hrun2, heq] at hle
    omega
  · intro hno
    have hu2 : ∀ x ∈ RunOn uses insts, x.opcode = OpCode.LABEL → ∀ o ∈ x.oprs,
        (removeRedundantBranches none [] uses2 (RunOn uses insts)).2 o =
          refCount o ([] ++ RunOn uses insts) := by
      intro x hx hxl o ho
      have h := redundantBranchPass_uses_at uses2 (RunOn uses insts) o (hc2 x hx hxl o ho)
      rw [redundantBranchPass_eq, withoutRedundantJumps_eq_self _ hno] at h
      simpa using h
    rw [hrun2, withoutRedundantJumps_eq_self _ hno,
      removeUnusedLabels_eq_filter (RunOn uses insts) [] _ hu2 hlo]
    rw [List.nil_append, List.filter_eq_self]
    intro x hx
    have := isUnusedLabel_filter (redundantBranchPass uses insts) hl1 x (by rw [← hout]; exact hx)
    rw [← hout] at this
    simp [this]

theorem C18_fixed_point_iff_no_jump_to_next_label_witness :
    RunOn (fun o => refCount o
        (RunOn (fun o => refCount o
          [⟨OpCode.MV, [Opr.vreg 0, Opr.reg 10]⟩, ⟨OpCode.J, [Opr.label (LabelName.anon 1)]⟩,
            ⟨OpCode.LABEL, [Opr.label (LabelName.anon 1)]⟩, ⟨OpCode.RET, []⟩])
          [⟨OpCode.MV, [Opr.vreg 0, Opr.reg 10]⟩, ⟨OpCode.J, [Opr.label (LabelName.anon 1)]⟩,
            ⟨OpCode.LABEL, [Opr.label (LabelName.anon 1)]⟩, ⟨OpCode.RET, []⟩]))
        (RunOn (fun o => refCount o
          [⟨OpCode.MV, [Opr.vreg 0, Opr.reg 10]⟩, ⟨OpCode.J, [Opr.label (LabelName.anon 1)]⟩,
            ⟨OpCode.LABEL, [Opr.label (LabelName.anon 1)]⟩, ⟨OpCode.RET, []⟩])
          [⟨OpCode.MV, [Opr.vreg 0, Opr.reg 10]⟩, ⟨OpCode.J, [Opr.label (LabelName.anon 1)]⟩,
            ⟨OpCode.LABEL, [Opr.label (LabelName.anon 1)]⟩, ⟨OpCode.RET, []⟩]) =
      RunOn (fun o => refCount o
        [⟨OpCode.MV, [Opr.vreg 0, Opr.reg 10]⟩, ⟨OpCode.J, [Opr.label (LabelName.anon 1)]⟩,
          ⟨OpCode.LABEL, [Opr.label (LabelName.anon 1)]⟩, ⟨OpCode.RET, []⟩])
        [⟨OpCode.MV, [Opr.vreg 0, Opr.reg 10]⟩, ⟨OpCode.J, [Opr.label (LabelName.anon 1)]⟩,
          ⟨OpCode.LABEL, [Opr.label (LabelName.anon 1)]⟩, ⟨OpCode.RET, []⟩] :=
  ((C18_fixed_point_iff_no_jump_to_next_label _
    [⟨OpCode.MV, [Opr.vreg 0, Opr.reg 10]⟩, ⟨OpCode.J, [Opr.label (LabelName.anon 1)]⟩,
      ⟨OpCode.LABEL, [Opr.label (LabelName.anon 1)]⟩, ⟨OpCode.RET, []⟩]
    (fun _ _ _ _ _ => rfl) (by decide)).2 _ (fun _ _ _ _ _ => rfl)).mpr (by decide)

end BranchEliminationPass

namespace BranchEliminationPass

theorem isRedundantJump_opcode (i : Inst) (n : Option Inst) (h : isRedundantJump i n = true) :
    i.opcode = OpCode.J := by
  cases n with
  | none => simp [isRedundantJump] at h
  | some j =>
    simp only [isRedundantJump, decide_eq_true_eq] at h
    exact h.1

theorem withoutRedundantJumps_sublist (l : List Inst) :
    List.Sublist (withoutRedundantJumps l) l := by
  induction l with
  | nil => exact List.Sublist.slnil
  | cons a r ih =>
    rw [withoutRedundantJumps_cons]
    split
    · exact List.Sublist.cons a ih
    · exact List.Sublist.cons₂ a ih

theorem withoutRedundantJumps_filter (p : Inst → Bool) (hp : ∀ i, i.opcode = OpCode.J → p i = false)
    (l : List Inst) : (withoutRedundantJumps l).filter p = l.filter p := by
  induction l with
  | nil => rfl
  | cons a r ih =>
    rw [withoutRedundantJumps_cons]
    by_cases h : isRedundantJump a r.head? = true
    · rw [if_pos h, ih, List.filter_cons, hp a (isRedundantJump_opcode a _ h)]
      simp
    · rw [if_neg h, List.filter_cons, List.filter_cons, ih]

theorem removeUnusedLabels_sublist (l : List Inst) :
    ∀ uses : Opr → Nat, List.Sublist (removeUnusedLabels uses l) l := by
  induction l with
  | nil => intro uses; exact List.Sublist.slnil
  | cons cur l ih =>
    intro uses
    by_cases hc : cur.opcode = OpCode.LABEL ∧ cur.opr0.map uses = some 1
    · simp only [removeUnusedLabels, hc, and_self, if_true]
      exact List.Sublist.cons cur (ih _)
    · simp only [removeUnusedLabels, hc, if_false]
      exact List.Sublist.cons₂ cur (ih _)

theorem removeUnusedLabels_filter (p : Inst → Bool)
    (hp : ∀ i, i.opcode = OpCode.LABEL → p i = false) (l : List Inst) :
    ∀ uses : Opr → Nat, (removeUnusedLabels uses l).filter p = l.filter p := by
  induction l with
  | nil => intro uses; rfl
  | cons cur l ih =>
    intro uses
    by_cases hc : cur.opcode = OpCode.LABEL ∧ cur.opr0.map uses = some 1
    · simp only [removeUnusedLabels, hc, and_self, if_true]
      rw [ih, List.filter_cons, hp cur hc.1]
      simp
    · simp only [removeUnusedLabels, hc, if_false]
      rw [List.filter_cons, List.filter_cons, ih]

/-- C21: for every instruction list and whatever the use counts, the output of
`RunOn` is a subsequence of its input: the instructions that survive are
instructions of the input in their input order, nothing is inserted, reordered
or modified. Every deleted instruction has opcode `J` or `LABEL`: the
instructions of any other opcode are the same sequence in the output as in the
input, and an instruction of the input that is not in the output has opcode `J`
or `LABEL`. -/
theorem C21_run_only_deletes (uses : Opr → Nat) (insts : List Inst) :
    List.Sublist (RunOn uses insts) insts ∧
    (RunOn uses insts).filter
        (fun i => decide (i.opcode ≠ OpCode.J ∧ i.opcode ≠ OpCode.LABEL)) =
      insts.filter (fun i => decide (i.opcode ≠ OpCode.J ∧ i.opcode ≠ OpCode.LABEL)) ∧
    ∀ i ∈ insts, i ∉ RunOn uses insts → i.opcode = OpCode.J ∨ i.opcode = OpCode.LABEL := by
  have hrun : RunOn uses insts =
      removeUnusedLabels (removeRedundantBranches none [] uses insts).2
        (withoutRedundantJumps insts) := by
    show removeUnusedLabels _ (redundantBranchPass uses insts) = _
    rw [redundantBranchPass_eq]
  have hfilter : (RunOn uses insts).filter
        (fun i => decide (i.opcode ≠ OpCode.J ∧ i.opcode ≠ OpCode.LABEL)) =
      insts.filter (fun i => decide (i.opcode ≠ OpCode.J ∧ i.opcode ≠ OpCode.LABEL)) := by
    rw [hrun, removeUnusedLabels_filter _ (by intro i h; simp [h]),
      withoutRedundantJumps_filter _ (by intro i h; simp [h])]
  refine ⟨?_, hfilter, ?_⟩
  · rw [hrun]
    exact (removeUnusedLabels_sublist _ _).trans (withoutRedundantJumps_sublist insts)
  · intro i hi hni
    by_contra hcon
    have hp : decide (i.opcode ≠ OpCode.J ∧ i.opcode ≠ OpCode.LABEL) = true := by
      simpa [not_or] using hcon
    have hmem : i ∈ insts.filter
        (fun i => decide (i.opcode ≠ OpCode.J ∧ i.opcode ≠ OpCode.LABEL)) :=
      List.mem_filter.mpr ⟨hi, hp⟩
    rw [← hfilter] at hmem
    exact hni (List.mem_filter.mp hmem).1

end BranchEliminationPass

theorem dataSize_append (a b : List Inst) : dataSize (a ++ b) = dataSize a + dataSize b := by
  simp [dataSize, List.map_append, List.sum_append]

theorem dataSize_single (i : Inst) : dataSize [i] = directiveSize i := by
  simp [dataSize]

theorem GenState.push_in_global_ (st : GenState) (i : Inst) :
    (st.push i).in_global_ = st.in_global_ := by
  unfold GenState.push GenState.emit
  cases st.cur with
  | none => rfl
  | some c => obtain ⟨m, l⟩ := c; cases m <;> rfl

theorem GenState.push_arr_depth_ (st : GenState) (i : Inst) :
    (st.push i).arr_depth_ = st.arr_depth_ := by
  unfold GenState.push GenState.emit
  cases st.cur with
  | none => rfl
  | some c => obtain ⟨m, l⟩ := c; cases m <;> rfl

theorem GenState.DataStep.step_refl (st : GenState) : st.DataStep st 0 :=
  ⟨rfl, rfl, rfl, rfl, rfl⟩

theorem GenState.DataStep.step_trans {a b c : GenState} {n m : Nat}
    (h1 : a.DataStep b n) (h2 : b.DataStep c m) : a.DataStep c (n + m) := by
  obtain ⟨a1, a2, a3, a4, a5⟩ := h1
  obtain ⟨b1, b2, b3, b4, b5⟩ := h2
  exact ⟨b1.trans a1, b2.trans a2, b3.trans a3, b4.trans a4, by rw [b5, a5, Nat.add_assoc]⟩

theorem GenState.DataStep.step_push (st : GenState) (i : Inst) (h : st.hasCur = true) :
    st.DataStep (st.push i) (directiveSize i) :=
  ⟨GenState.push_cur st i, GenState.push_in_global_ st i, GenState.push_arr_depth_ st i,
    GenState.push_hasCur st i, by
      rw [GenState.push_curInsts st i h, dataSize_append, dataSize_single]⟩

theorem GenState.DataStep.step_meta (st : GenState) (m : Nat → Option OprPtr) :
    st.DataStep { st with metadata := m } 0 :=
  ⟨rfl, rfl, rfl, rfl, rfl⟩

/-- The element loop's treatment of an element that is lowered to the immediate
`x`: `size` more bytes are in the block or in the pending run of zeros. -/
theorem GenerateElem_imm (e : SSA) (getVal : Gen OprPtr) (z : Nat) (st s1 : GenState) (x : Int)
    (hval : getVal st = some (some (Opr.imm x), s1)) (hcur : s1.hasCur = true)
    (hsize : e.type.GetSize = 1 ∨ e.type.GetSize = 4) :
    ∃ z2 st2 n, GenerateElem e getVal z st = some (z2, st2) ∧ s1.DataStep st2 n ∧
      n + z2 = z + e.type.GetSize ∧ st2.metadata = s1.metadata := by
  unfold GenerateElem
  simp only [Gen.bind_apply, hval, Opr.IsImm, if_true, Opr.val]
  by_cases hx : x = 0
  · refine ⟨z + e.type.GetSize, s1, 0, ?_, GenState.DataStep.step_refl s1, by omega, rfl⟩
    simp [hx]
  · by_cases hz : z = 0
    · have hp := PushInst_apply s1 (if e.type.GetSize = 1 then OpCode.BYTE else OpCode.LONG)
        [RISCV32Int x] [Opr.int x] hcur rfl
      refine ⟨0, s1.push ⟨if e.type.GetSize = 1 then OpCode.BYTE else OpCode.LONG, [Opr.int x]⟩,
        _, ?_, GenState.DataStep.step_push s1 _ hcur, ?_, GenState.push_metadata s1 _⟩
      · simp [hx, hz, hp]
      · rcases hsize with h | h <;> simp [h, hz, directiveSize]
    · have hp1 := PushInst_apply s1 OpCode.ZERO [RISCV32Int (z : Nat)] [Opr.int (z : Nat)] hcur rfl
      have hcur2 : (s1.push ⟨OpCode.ZERO, [Opr.int (z : Nat)]⟩).hasCur = true :=
        (GenState.push_hasCur s1 _).trans hcur
      have hp2 := PushInst_apply (s1.push ⟨OpCode.ZERO, [Opr.int (z : Nat)]⟩)
        (if e.type.GetSize = 1 then OpCode.BYTE else OpCode.LONG)
        [RISCV32Int x] [Opr.int x] hcur2 rfl
      refine ⟨0, (s1.push ⟨OpCode.ZERO, [Opr.int (z : Nat)]⟩).push
          ⟨if e.type.GetSize = 1 then OpCode.BYTE else OpCode.LONG, [Opr.int x]⟩,
        _, ?_, (GenState.DataStep.step_push s1 _ hcur).step_trans
          (GenState.DataStep.step_push _ _ hcur2), ?_, ?_⟩
      · simp [hx, hz, hp1, hp2]
      · rcases hsize with h | h <;> simp [h, directiveSize]
      · rw [GenState.push_metadata, GenState.push_metadata]

/-- A leaf of a constant array, lowered by `GetOpr` inside the array and outside
a global initializer, gives its immediate and is recorded with it. -/
theorem leaf_opr (e : SSA) (st : GenState)
    (hleaf : (∃ id type value, e = SSA.constInt id type value) ∨
      (∃ id type, e = SSA.constZero id type))
    (hu : st.unlowered e) (hg : st.in_global_ = 0) (hd : st.arr_depth_ ≠ 0) :
    ∃ s1, GetOprWith e.id (GenerateOn e) st = some (GetImm e.leafImm, s1) ∧
      st.DataStep s1 0 ∧ s1.metadata e.id = some (GetImm e.leafImm) ∧
      ∀ i, i ≠ e.id → s1.metadata i = st.metadata i := by
  rcases hu with hm | ⟨_, hm⟩
  · refine ⟨{ st with metadata := Function.update st.metadata e.id (some (GetImm e.leafImm)) },
      ?_, GenState.DataStep.step_meta st _, by simp, fun i hi => by simp [Function.update_noteq hi]⟩
    rcases hleaf with ⟨id, type, value, rfl⟩ | ⟨id, type, rfl⟩
    · simp only [SSA.id] at hm
      simp [GetOprWith, hm, GenerateOn, GenerateOnConstInt, hg, set_metadata, SSA.leafImm, SSA.id]
    · simp only [SSA.id] at hm
      simp [GetOprWith, hm, GenerateOn, GenerateZeros, hd, set_metadata, SSA.leafImm, SSA.id]
  · exact ⟨st, GetOprWith_hit _ _ _ _ hm, GenState.DataStep.step_refl st, hm, fun _ _ => rfl⟩

/-- A leaf as an element of the loop: its size is added to the block or to the
pending run, and the nodes still to come stay unlowered. -/
theorem leaf_elem (e : SSA) (N : List SSA) (z : Nat) (st : GenState)
    (hleaf : (∃ id type value, e = SSA.constInt id type value) ∨
      (∃ id type, e = SSA.constZero id type))
    (hsize : e.type.GetSize = 1 ∨ e.type.GetSize = 4)
    (hsh : SSA.sharesLeavesOnly (e :: N)) (hu : ∀ n ∈ e :: N, st.unlowered n)
    (hg : st.in_global_ = 0) (hd : st.arr_depth_ ≠ 0) (hcur : st.hasCur = true) :
    ∃ z2 st2 n, GenerateElem e (GetOprWith e.id (GenerateOn e)) z st = some (z2, st2) ∧
      st.DataStep st2 n ∧ n + z2 = z + e.type.GetSize ∧ ∀ m ∈ N, st2.unlowered m := by
  obtain ⟨s1, hopr, hstep, hme, hmo⟩ := leaf_opr e st hleaf (hu e (List.mem_cons_self _ _)) hg hd
  have hcur1 : s1.hasCur = true := hstep.2.2.2.1.trans hcur
  obtain ⟨z2, st2, n, hrun, hstep2, hsum, hmeta⟩ :=
    GenerateElem_imm e _ z st s1 (toInt32 e.leafImm) hopr hcur1 hsize
  refine ⟨z2, st2, n, hrun, by simpa using hstep.step_trans hstep2, hsum, ?_⟩
  intro m hm
  have hR := (List.pairwise_cons.mp hsh).1 m hm
  unfold GenState.unlowered
  rw [hmeta]
  by_cases hid : m.id = e.id
  · obtain ⟨_, hmleaf, hval⟩ := hR hid.symm
    right
    refine ⟨hmleaf, ?_⟩
    rw [hid, hme, hval]
  · rw [hmo _ hid]
    exact hu m (List.mem_cons_of_mem _ hm)

theorem directiveSize_zero (z : Nat) :
    directiveSize ⟨OpCode.ZERO, [Opr.int (z : Nat)]⟩ = z := by
  simp [directiveSize]

/-- A nested array as an element of the loop of an enclosing array: when its
own loop, started with an empty run, leaves a run
of `z1` zero bytes after `n` bytes of directives, the nested array adds
`n + z1` bytes to the current block, returns no operand and leaves the pending
run of the enclosing array as it was. -/
theorem array_elem (id : Nat) (type : Ty) (elems : List SSA) (z z1 n : Nat) (st st2 : GenState)
    (hmeta : st.metadata id = none) (hd : st.arr_depth_ ≠ 0) (hcur : st.hasCur = true)
    (hrun : GenerateElems elems 0 { st with arr_depth_ := st.arr_depth_ + 1 } = some (z1, st2))
    (hstep : GenState.DataStep { st with arr_depth_ := st.arr_depth_ + 1 } st2 n) :
    ∃ st3, GenerateElem (SSA.constArray id type elems)
        (GetOprWith id (GenerateOn (SSA.constArray id type elems))) z st = some (z, st3) ∧
      st.DataStep st3 (n + z1) ∧ ∀ i, i ≠ id → st3.metadata i = st2.metadata i := by
  obtain ⟨h1, h2, h3, h4, h5⟩ := hstep
  have hcur2 : st2.hasCur = true := h4.trans hcur
  have hcond : (decide (st.in_global_ = 0) && decide (st.arr_depth_ + 1 ≤ 1)) = false := by
    have : ¬ st.arr_depth_ + 1 ≤ 1 := by omega
    simp [this]
  have hcond2 : ¬ (st.in_global_ = 0 ∧ st.arr_depth_ = 0) := fun h => hd h.2
  unfold GenerateElem
  by_cases hz : z1 = 0
  · subst hz
    refine ⟨{ st2 with arr_depth_ := st2.arr_depth_ - 1, metadata := Function.update st2.metadata id (some none) }, ?_, ?_, ?_⟩
    · simp [GetOprWith, hmeta, GenerateOn, GenerateOnConstArray, withArrDepth, incArrDepth,
        hcond, hcond2, withMemData, hrun, decArrDepth, set_metadata]
    · refine ⟨h1, h2, ?_, h4, ?_⟩
      · show st2.arr_depth_ - 1 = st.arr_depth_
        rw [h3]; show st.arr_depth_ + 1 - 1 = st.arr_depth_; omega
      · exact h5
    · intro i hi
      show Function.update st2.metadata id (some none) i = st2.metadata i
      rw [Function.update_noteq hi]
  · have hp := PushInst_apply st2 OpCode.ZERO [RISCV32Int (z1 : Nat)] [Opr.int (z1 : Nat)]
      hcur2 rfl
    have hs := GenState.DataStep.step_push st2 ⟨OpCode.ZERO, [Opr.int (z1 : Nat)]⟩ hcur2
    rw [directiveSize_zero] at hs
    have hpm := GenState.push_metadata st2 ⟨OpCode.ZERO, [Opr.int (z1 : Nat)]⟩
    generalize st2.push ⟨OpCode.ZERO, [Opr.int (z1 : Nat)]⟩ = sp at hp hs hpm
    obtain ⟨p1, p2, p3, p4, p5⟩ := hs
    refine ⟨{ sp with arr_depth_ := sp.arr_depth_ - 1, metadata := Function.update sp.metadata id (some none) }, ?_, ?_, ?_⟩
    · simp [GetOprWith, hmeta, GenerateOn, GenerateOnConstArray, withArrDepth, incArrDepth,
        hcond, hcond2, withMemData, hrun, decArrDepth, set_metadata, hz, hp]
    · refine ⟨p1.trans h1, p2.trans h2, ?_, p4.trans h4, ?_⟩
      · show sp.arr_depth_ - 1 = st.arr_depth_
        rw [p3, h3]; show st.arr_depth_ + 1 - 1 = st.arr_depth_; omega
      · show dataSize sp.curInsts = _
        rw [p5, h5]; exact Nat.add_assoc _ _ _
    · intro i hi
      show Function.update sp.metadata id (some none) i = st2.metadata i
      rw [Function.update_noteq hi, hpm]

theorem subNodesList_cons_append (e : SSA) (rest N : List SSA) :
    SSA.subNodesList (e :: rest) ++ N = e :: (e.subNodes ++ (SSA.subNodesList rest ++ N)) := by
  simp [SSA.subNodesList]

mutual

/-- One element of the loop of a constant array, outside a global initializer
and inside an array: the size of the element is added to the block or to the
pending run of zeros, and the nodes that come after it stay unlowered. -/
theorem elem_size : ∀ (e : SSA) (N : List SSA) (z : Nat) (st : GenState), e.sizedConst →
    SSA.sharesLeavesOnly (e :: (e.subNodes ++ N)) →
    (∀ n ∈ e :: (e.subNodes ++ N), st.unlowered n) →
    st.in_global_ = 0 → st.arr_depth_ ≠ 0 → st.hasCur = true →
    ∃ z2 st2 n, GenerateElem e (GetOprWith e.id (GenerateOn e)) z st = some (z2, st2) ∧
      st.DataStep st2 n ∧ n + z2 = z + e.type.GetSize ∧ ∀ m ∈ N, st2.unlowered m
  | SSA.constInt id type value, N, z, st, hs, hsh, hu, hg, hd, hcur =>
    leaf_elem (SSA.constInt id type value) N z st (Or.inl ⟨id, type, value, rfl⟩)
      (by simpa [SSA.sizedConst] using hs) (by simpa [SSA.subNodes] using hsh)
      (by simpa [SSA.subNodes] using hu) hg hd hcur
  | SSA.constZero id type, N, z, st, hs, hsh, hu, hg, hd, hcur =>
    leaf_elem (SSA.constZero id type) N z st (Or.inr ⟨id, type, rfl⟩)
      (by simpa [SSA.sizedConst] using hs) (by simpa [SSA.subNodes] using hsh)
      (by simpa [SSA.subNodes] using hu) hg hd hcur
  | SSA.constArray id type elems, N, z, st, hs, hsh, hu, hg, hd, hcur => by
    match type, hs with
    | Ty.array base len, hs =>
      simp only [SSA.sizedConst] at hs
      obtain ⟨hlen, hlist⟩ := hs
      simp only [SSA.subNodes] at hsh hu
      have hmeta : st.metadata id = none := by
        rcases hu _ (List.mem_cons_self _ _) with h | ⟨h, _⟩
        · exact h
        · simp [SSA.IsConstArray] at h
      have hne : ∀ m ∈ SSA.subNodesList elems ++ N, m.id ≠ id := by
        intro m hm hid
        have hR := (List.pairwise_cons.mp hsh).1 m hm hid.symm
        simp [SSA.IsConstArray] at hR
      obtain ⟨z1, st2, n, hrun, hstep, hsum, hu2⟩ := elems_size elems base N 0
        { st with arr_depth_ := st.arr_depth_ + 1 } hlist (List.pairwise_cons.mp hsh).2
        (fun m hm => hu m (List.mem_cons_of_mem _ hm)) hg (Nat.succ_ne_zero _) hcur
      obtain ⟨st3, hrun3, hstep3, hm3⟩ := array_elem id (Ty.array base len) elems z z1 n st st2
        hmeta hd hcur hrun hstep
      refine ⟨z, st3, n + z1, hrun3, hstep3, ?_, ?_⟩
      · simp only [SSA.type, Ty.GetSize]
        rw [hlen]; omega
      · intro m hm
        have hmid := hne m (List.mem_append_right _ hm)
        have := hu2 m hm
        unfold GenState.unlowered at this ⊢
        rw [hm3 _ hmid]
        exact this
    | Ty.void, hs => simp [SSA.sizedConst] at hs
    | Ty.int _ _, hs => simp [SSA.sizedConst] at hs
    | Ty.pointer _, hs => simp [SSA.sizedConst] at hs
    | Ty.struct _ _ _, hs => simp [SSA.sizedConst] at hs
  | SSA.load _ _ _, _, _, _, hs, _, _, _, _, _ => by simp [SSA.sizedConst] at hs
  | SSA.store _ _ _ _, _, _, _, hs, _, _, _, _, _ => by simp [SSA.sizedConst] at hs
  | SSA.access _ _ _ _ _, _, _, _, hs, _, _, _, _, _ => by simp [SSA.sizedConst] at hs
  | SSA.binary _ _ _ _ _, _, _, _, hs, _, _, _, _, _ => by simp [SSA.sizedConst] at hs
  | SSA.unary _ _ _ _, _, _, _, hs, _, _, _, _, _ => by simp [SSA.sizedConst] at hs
  | SSA.cast _ _ _, _, _, _, hs, _, _, _, _, _ => by simp [SSA.sizedConst] at hs
  | SSA.call _ _ _ _, _, _, _, hs, _, _, _, _, _ => by simp [SSA.sizedConst] at hs
  | SSA.branch _ _ _ _ _, _, _, _, hs, _, _, _, _, _ => by simp [SSA.sizedConst] at hs
  | SSA.jump _ _ _, _, _, _, hs, _, _, _, _, _ => by simp [SSA.sizedConst] at hs
  | SSA.ret _ _ _, _, _, _, hs, _, _, _, _, _ => by simp [SSA.sizedConst] at hs
  | SSA.function _ _ _ _ _ _ _ _, _, _, _, hs, _, _, _, _, _ => by simp [SSA.sizedConst] at hs
  | SSA.globalVar _ _ _ _ _, _, _, _, hs, _, _, _, _, _ => by simp [SSA.sizedConst] at hs
  | SSA.alloca _ _, _, _, _, hs, _, _, _, _, _ => by simp [SSA.sizedConst] at hs
  | SSA.block _ _ _ _, _, _, _, hs, _, _, _, _, _ => by simp [SSA.sizedConst] at hs
  | SSA.argRef _ _ _, _, _, _, hs, _, _, _, _, _ => by simp [SSA.sizedConst] at hs
  | SSA.constStr _ _ _, _, _, _, hs, _, _, _, _, _ => by simp [SSA.sizedConst] at hs
  | SSA.constStruct _ _ _, _, _, _, hs, _, _, _, _, _ => by simp [SSA.sizedConst] at hs
  | SSA.select _ _ _ _ _, _, _, _, hs, _, _, _, _, _ => by simp [SSA.sizedConst] at hs
  | SSA.undef _ _, _, _, _, hs, _, _, _, _, _ => by simp [SSA.sizedConst] at hs

/-- The element loop of a constant array of elements of type `base`, outside a
global initializer and inside an array: started with a run of `z` zero bytes,
it ends with `n` more bytes of directives and a run of `z2` zero bytes, where
`n + z2` is `z` plus the size of the elements. -/
theorem elems_size : ∀ (elems : List SSA) (base : Ty) (N : List SSA) (z : Nat) (st : GenState),
    SSA.sizedConstList base elems →
    SSA.sharesLeavesOnly (SSA.subNodesList elems ++ N) →
    (∀ n ∈ SSA.subNodesList elems ++ N, st.unlowered n) →
    st.in_global_ = 0 → st.arr_depth_ ≠ 0 → st.hasCur = true →
    ∃ z2 st2 n, GenerateElems elems z st = some (z2, st2) ∧
      st.DataStep st2 n ∧ n + z2 = z + base.GetSize * elems.length ∧ ∀ m ∈ N, st2.unlowered m
  | [], base, N, z, st, _, _, hu, _, _, _ =>
    ⟨z, st, 0, by simp [GenerateElems], GenState.DataStep.step_refl st, by simp,
      fun m hm => hu m (by simpa [SSA.subNodesList] using hm)⟩
  | e :: rest, base, N, z, st, hs, hsh, hu, hg, hd, hcur => by
    simp only [SSA.sizedConstList] at hs
    obtain ⟨hty, hse, hsr⟩ := hs
    rw [subNodesList_cons_append] at hsh hu
    obtain ⟨z1, st1, n1, hrun1, hstep1, hsum1, hu1⟩ :=
      elem_size e (SSA.subNodesList rest ++ N) z st hse hsh hu hg hd hcur
    have hsh1 : SSA.sharesLeavesOnly (SSA.subNodesList rest ++ N) :=
      ((List.pairwise_cons.mp hsh).2).sublist (List.sublist_append_right _ _)
    obtain ⟨c1, c2, c3, c4, c5⟩ := hstep1
    obtain ⟨z2, st2, n2, hrun2, hstep2, hsum2, hu2⟩ :=
      elems_size rest base N z1 st1 hsr hsh1 hu1 (c2.trans hg) (by rw [c3]; exact hd)
        (c4.trans hcur)
    refine ⟨z2, st2, n1 + n2, ?_, GenState.DataStep.step_trans ⟨c1, c2, c3, c4, c5⟩ hstep2, ?_, hu2⟩
    · rw [GenerateElems]
      simp only [Gen.bind_apply, hrun1, hrun2]
    · rw [hty] at hsum1
      simp only [List.length_cons, Nat.mul_succ]
      omega

end

end MimiC
